import Mathlib


/-! Testing and tuning market trading systems: MCPT_TRN, BND_RET, ENTROPY.

A shallow embedding of the moving-average-crossover grid search, the
walk-forward harness, the Monte-Carlo permutation test and the return
bounding of `MCPT_TRN.CPP`, `BND_RET.CPP` and of `qsortd` in `ENTROPY.CPP`,
followed by the verification of their specification.

Conventions of the embedding.
* C `int` variables are `Int` (no overflow occurs at the sizes considered).
* C `double` values are exact rationals `ℚ` (exact arithmetic), except in the
  routines whose name ends in `_fl`, which round every operation to `double`.
* A `double *` is a function `Int → ℚ` from an element offset to the stored
  value; `x + k` (pointer arithmetic) is `shift x k`.
* A counted `for` loop whose counter is changed by the loop header only is a
  fold over the list of the values the counter takes.
* Loops whose trip count depends on the data take a `fuel` bound and return
  `none` when it runs out.
-/

/-! ## Loop counters and pointers -/

/-- Values taken by the counter of `for (i=a ; i<b ; i++)`: `a, a+1, ..., b-1`. -/
def upTo (a b : Int) : List Int :=
  (List.range (b - a).toNat).map (fun (k : Nat) => a + (k : Int))

/-- Values taken by the counter of `for (j=hi ; j>lo ; j--)`: `hi, hi-1, ..., lo+1`. -/
def downTo (hi lo : Int) : List Int :=
  (List.range (hi - lo).toNat).map (fun (k : Nat) => hi - (k : Int))

/-- Pointer arithmetic `x + k` on a `double *`. -/
def shift (x : Int → ℚ) (k : Int) : Int → ℚ := fun j => x (k + j)

/-- The sentinel `-1.e60` that starts `best_perf`. -/
def sentinel : ℚ := -(10 ^ 60)

/-- Sum the cells `x[j]` for `j = hi, hi-1, ..., lo+1` onto `acc`, in this order:
`for ( ; j>lo ; j--) acc += x[j]` entered with `j = hi`. -/
def sum_down (x : Int → ℚ) (acc : ℚ) (hi lo : Int) : ℚ :=
  (downTo hi lo).foldl (fun s j => s + x j) acc

/-- The sums of the first evaluated bar `i`, shared by both `opt_params` and by
`test_system`:
```
short_sum = 0.0 ;
for (j=i ; j>i-ishort ; j--) short_sum += x[j] ;
long_sum = short_sum ;
while (j>i-ilong) long_sum += x[j--] ;
```
After the `for` loop `j` is `min i (i-ishort)`. -/
def window_sums (x : Int → ℚ) (i ishort ilong : Int) : ℚ × ℚ :=
  let short_sum := sum_down x 0 i (i - ishort)
  let long_sum := sum_down x short_sum (min i (i - ishort)) (i - ilong)
  (short_sum, long_sum)

/-! ## The moving-average crossover rule, from scratch -/

/-- Mean of the `n` log prices ending at bar `i`, summed from scratch. -/
def window_mean (x : Int → ℚ) (n i : Int) : ℚ :=
  (∑ k in Finset.Icc (i - n + 1) i, x k) / (n : ℚ)

/-- Position at bar `i`: `+1` (long), `-1` (short) or `0` (flat). -/
def position (x : Int → ℚ) (S L i : Int) : ℚ :=
  if window_mean x S i > window_mean x L i then 1
  else if window_mean x S i < window_mean x L i then -1
  else 0

/-- Signed return of the pair `(S, L)` summed over the bars `a .. b`:
the change `x[i+1]-x[i]` counted `+`, `-` or not at all as the position at
bar `i` is long, short or flat. -/
def signed_return (x : Int → ℚ) (S L a b : Int) : ℚ :=
  ∑ i in Finset.Icc a b, position x S L i * (x (i + 1) - x i)

namespace MCPT_TRN

/-- The locals of one trial of `opt_params` that live across bars. -/
structure Trial where
  short_sum : ℚ
  long_sum : ℚ
  total_return : ℚ
  nl : Int
  ns : Int

/-- The variables the four pointers `short_term`, `long_term`, `nshort`,
`nlong` of `opt_params` point to. -/
structure Outs where
  short_term : Int
  long_term : Int
  nshort : Int
  nlong : Int

/-- Body of the loop over bars `i` of `opt_params` (MCPT_TRN.CPP lines 106-140). -/
def trial_step (max_lookback ishort ilong : Int) (x : Int → ℚ) (s : Trial) (i : Int) :
    Trial :=
  let sums : ℚ × ℚ :=
    if i = max_lookback - 1 then window_sums x i ishort ilong
    else (s.short_sum + (x i - x (i - ishort)), s.long_sum + (x i - x (i - ilong)))
  let short_mean := sums.1 / (ishort : ℚ)
  let long_mean := sums.2 / (ilong : ℚ)
  if short_mean > long_mean then
    { short_sum := sums.1, long_sum := sums.2,
      total_return := s.total_return + (x (i + 1) - x i), nl := s.nl + 1, ns := s.ns }
  else if short_mean < long_mean then
    { short_sum := sums.1, long_sum := sums.2,
      total_return := s.total_return + (x i - x (i + 1)), nl := s.nl, ns := s.ns + 1 }
  else
    { short_sum := sums.1, long_sum := sums.2,
      total_return := s.total_return + 0, nl := s.nl, ns := s.ns }

/-- One trial of `opt_params`: `total_return = 0.0 ; nl = ns = 0 ;` and the
loop `for (i=max_lookback-1 ; i<ncases-1 ; i++)`. The sums are set by the first
pass (`i == max_lookback-1`), so the value they start with is never used. -/
def trial (ncases max_lookback ishort ilong : Int) (x : Int → ℚ) : Trial :=
  (upTo (max_lookback - 1) (ncases - 1)).foldl (trial_step max_lookback ishort ilong x)
    { short_sum := 0, long_sum := 0, total_return := 0, nl := 0, ns := 0 }

/-- The record kept across trials: `best_perf` and what the pointers hold. -/
structure Search where
  best_perf : ℚ
  out : Outs

/-- `if (total_return > best_perf) { best_perf = total_return ; ... }`. -/
def keep_best (s : Search) (ishort ilong : Int) (t : Trial) : Search :=
  if t.total_return > s.best_perf then
    { best_perf := t.total_return,
      out := { short_term := ishort, long_term := ilong, nshort := t.ns, nlong := t.nl } }
  else s

/-- The two grid loops of `opt_params`, started from a record `s`. -/
def search (ncases max_lookback : Int) (x : Int → ℚ) (s : Search) : Search :=
  (upTo 2 (max_lookback + 1)).foldl
    (fun s ilong =>
      (upTo 1 ilong).foldl
        (fun s ishort => keep_best s ishort ilong (trial ncases max_lookback ishort ilong x))
        s)
    s

/-- `opt_params` of MCPT_TRN.CPP. `out` is what the four pointers hold on
entry; the result is the returned `best_perf` and what they hold on exit. -/
def opt_params (ncases max_lookback : Int) (x : Int → ℚ) (out : Outs) : ℚ × Outs :=
  let r := search ncases max_lookback x { best_perf := sentinel, out := out }
  (r.best_perf, r.out)

/-! ### The specification of the grid search, from scratch -/

/-- Cumulative signed return of the pair `(S, L)` over the bars
`max_lookback-1 .. ncases-2`. -/
def cum_return (ncases max_lookback : Int) (x : Int → ℚ) (S L : Int) : ℚ :=
  signed_return x S L (max_lookback - 1) (ncases - 2)

/-! ### Proof devices for the grid search -/

/-- State of a trial after the bars `max_lookback-1 .. b-1`. -/
def trial_upto (max_lookback ishort ilong : Int) (x : Int → ℚ) (b : Int) : Trial :=
  (upTo (max_lookback - 1) b).foldl (trial_step max_lookback ishort ilong x)
    { short_sum := 0, long_sum := 0, total_return := 0, nl := 0, ns := 0 }

/-- Number of bars in `a .. b` at which `p` holds. -/
def count_bars (p : Int → Prop) [DecidablePred p] (a b : Int) : Int :=
  ((Finset.Icc a b).filter p).card

/-- What the grid loops have established once the pairs in `P` have been
tried, starting from the record `s0`. -/
def SearchInv (ncases max_lookback : Int) (x : Int → ℚ) (s0 s : Search)
    (P : Int → Int → Prop) : Prop :=
  s0.best_perf ≤ s.best_perf ∧
  (∀ S L, P S L → (trial ncases max_lookback S L x).total_return ≤ s.best_perf) ∧
  (s = s0 ∨ ∃ S L, P S L ∧ s0.best_perf < (trial ncases max_lookback S L x).total_return ∧
    s.best_perf = (trial ncases max_lookback S L x).total_return ∧
    s.out = { short_term := S, long_term := L,
              nshort := (trial ncases max_lookback S L x).ns,
              nlong := (trial ncases max_lookback S L x).nl })

end MCPT_TRN

namespace BND_RET

/-- The locals of one trial of `opt_params` that live across bars. -/
structure Trial where
  short_sum : ℚ
  long_sum : ℚ
  total_return : ℚ

/-- Body of the loop over bars `i` of `opt_params` (BND_RET.CPP lines 53-83). -/
def trial_step (ishort ilong : Int) (x : Int → ℚ) (s : Trial) (i : Int) : Trial :=
  let sums : ℚ × ℚ :=
    if i = ilong - 1 then window_sums x i ishort ilong
    else (s.short_sum + (x i - x (i - ishort)), s.long_sum + (x i - x (i - ilong)))
  let short_mean := sums.1 / (ishort : ℚ)
  let long_mean := sums.2 / (ilong : ℚ)
  let ret : ℚ :=
    if short_mean > long_mean then x (i + 1) - x i
    else if short_mean < long_mean then x i - x (i + 1)
    else 0
  { short_sum := sums.1, long_sum := sums.2, total_return := s.total_return + ret }

/-- State of a trial after the bars `ilong-1 .. b-1`; it starts with
`total_return = 0.0`, and the sums are set by the first pass (`i == ilong-1`). -/
def trial_upto (ishort ilong : Int) (x : Int → ℚ) (b : Int) : Trial :=
  (upTo (ilong - 1) b).foldl (trial_step ishort ilong x)
    { short_sum := 0, long_sum := 0, total_return := 0 }

/-- Score of one trial of `opt_params`: the loop
`for (i=ilong-1 ; i<ncases-1 ; i++)` followed by
`total_return /= ncases - ilong ;`. -/
def trial_score (ncases ishort ilong : Int) (x : Int → ℚ) : ℚ :=
  (trial_upto ishort ilong x (ncases - 1)).total_return / ((ncases - ilong : Int) : ℚ)

/-- The record kept across trials: `best_perf` and the locals `ibestshort`,
`ibestlong`, which hold nothing until a trial sets them. -/
structure Search where
  best_perf : ℚ
  ibest : Option (Int × Int)

/-- `if (total_return > best_perf) { best_perf = total_return ; ... }`. -/
def keep_best (s : Search) (ishort ilong : Int) (total_return : ℚ) : Search :=
  if total_return > s.best_perf then
    { best_perf := total_return, ibest := some (ishort, ilong) }
  else s

/-- The two grid loops of `opt_params`; the long lookback stops below
`max_lookback` (`ilong<max_lookback`). -/
def search (ncases max_lookback : Int) (x : Int → ℚ) (s : Search) : Search :=
  (upTo 2 max_lookback).foldl
    (fun s ilong =>
      (upTo 1 ilong).foldl
        (fun s ishort => keep_best s ishort ilong (trial_score ncases ishort ilong x))
        s)
    s

/-- `opt_params` of BND_RET.CPP: the returned `best_perf`, and the pair
`(ibestshort, ibestlong)` copied to `*short_term`, `*long_term`; the pair is
`none` when no trial has set the two locals. -/
def opt_params (ncases max_lookback : Int) (x : Int → ℚ) : ℚ × Option (Int × Int) :=
  let r := search ncases max_lookback x { best_perf := sentinel, ibest := none }
  (r.best_perf, r.ibest)

/-- Body of the loop over bars `i` of `test_system` (BND_RET.CPP lines 128-141):
both sums are taken from scratch, `sum` is the running total. -/
def test_step (x : Int → ℚ) (short_term long_term : Int) (sum : ℚ) (i : Int) : ℚ :=
  let sums := window_sums x i short_term long_term
  let short_mean := sums.1 / (short_term : ℚ)
  let long_mean := sums.2 / (long_term : ℚ)
  if short_mean > long_mean then sum + (x (i + 1) - x i)
  else if short_mean < long_mean then sum - (x (i + 1) - x i)
  else sum

/-- `test_system` of BND_RET.CPP. The loop `for (i=long_term-1 ; n>0 ; i++)`
ends with `--n`, `n` starting at `ncases`: its passes are
`i = long_term-1, ..., long_term-2+ncases`. Then `sum /= ncases`. -/
def test_system (ncases : Int) (x : Int → ℚ) (short_term long_term : Int) : ℚ :=
  (upTo (long_term - 1) (long_term - 1 + ncases)).foldl (test_step x short_term long_term) 0
    / (ncases : ℚ)

/-! ### Proof devices for the grid search -/

/-- What the grid loops have established once the pairs in `P` have been
tried, starting from the record `s0`. -/
def SearchInv (ncases : Int) (x : Int → ℚ) (s0 s : Search) (P : Int → Int → Prop) : Prop :=
  s0.best_perf ≤ s.best_perf ∧
  (∀ S L, P S L → trial_score ncases S L x ≤ s.best_perf) ∧
  (s = s0 ∨ ∃ S L, P S L ∧ s0.best_perf < trial_score ncases S L x ∧
    s.best_perf = trial_score ncases S L x ∧ s.ibest = some (S, L))

end BND_RET

/-- The cast `(int) q` of a `double` to `int`: truncation toward zero. -/
def trunc (q : ℚ) : Int := if 0 ≤ q then ⌊q⌋ else ⌈q⌉

namespace MCPT_TRN

/-- `prepare_permute`: `for (icase=1 ; icase<nc ; icase++)
changes[icase-1] = data[icase] - data[icase-1] ;`. The result is the `changes`
array after the call. -/
def prepare_permute (nc : Int) (data changes : Int → ℚ) : Int → ℚ :=
  (upTo 1 nc).foldl
    (fun ch icase => Function.update ch (icase - 1) (data icase - data (icase - 1)))
    changes

/-- The arrays `data` and `changes` that `do_permute` works on, and the state
of the random generator that `unifrand()` draws from. -/
structure Permuting (σ : Type) where
  data : Int → ℚ
  changes : Int → ℚ
  rng : σ

/-- One pass of the shuffle loop of `do_permute`, entered with `i` items
remaining:
```
j = (int) (unifrand() * i) ;
if (j >= i) j = i - 1 ;
--i ;
dtemp = changes[i] ; changes[i] = changes[j] ; changes[j] = dtemp ;
```
`unifrand` is the generator: from a state, the value drawn and the next state. -/
def shuffle_step {σ : Type} (unifrand : σ → ℚ × σ) (s : (Int → ℚ) × σ) (i : Int) :
    (Int → ℚ) × σ :=
  let u := unifrand s.2
  let j0 := trunc (u.1 * (i : ℚ))
  let j := if j0 ≥ i then i - 1 else j0
  let i1 := i - 1
  let dtemp := s.1 i1
  let ch1 := Function.update s.1 i1 (s.1 j)
  let ch2 := Function.update ch1 j dtemp
  (ch2, u.2)

/-- The shuffle loop of `do_permute`: `i = nc-1 ; while (i > 1) { ... --i ... }`,
whose passes are entered with `i = nc-1, nc-2, ..., 2`. -/
def shuffle {σ : Type} (unifrand : σ → ℚ × σ) (nc : Int) (changes : Int → ℚ) (g : σ) :
    (Int → ℚ) × σ :=
  (downTo (nc - 1) 1).foldl (shuffle_step unifrand) (changes, g)

/-- The rebuilding loop of `do_permute`: `for (icase=1 ; icase<nc ; icase++)
data[icase] = data[icase-1] + changes[icase-1] ;`. -/
def rebuild (nc : Int) (data changes : Int → ℚ) : Int → ℚ :=
  (upTo 1 nc).foldl
    (fun d icase => Function.update d icase (d (icase - 1) + changes (icase - 1)))
    data

/-- `do_permute` of MCPT_TRN.CPP: shuffle the changes, then rebuild the prices. -/
def do_permute {σ : Type} (unifrand : σ → ℚ × σ) (nc : Int) (s : Permuting σ) :
    Permuting σ :=
  let sh := shuffle unifrand nc s.changes s.rng
  { data := rebuild nc s.data sh.1, changes := sh.1, rng := sh.2 }

/-- The list of the one-bar differences `data[k+1]-data[k]`, `k = 0 .. nc-2`. -/
def differences (nc : Int) (data : Int → ℚ) : List ℚ :=
  (upTo 0 (nc - 1)).map (fun k => data (k + 1) - data k)

/-- A generator that replays a fixed list of draws, none of them negative (and
draws `0` once the list is used up): its state is the list of the draws still
to come. -/
def replay (draws : List NNRat) : ℚ × List NNRat := (((draws.headD 0 : NNRat) : ℚ), draws.tail)

end MCPT_TRN

namespace MCPT_TRN

/-- What holds of the arrays after `prepare_permute` and any number of
`do_permute` calls, `data0` being the prices before the first call: the first
price is kept, every price is the first one plus the changes before it, and
the changes are the original one-bar differences, rearranged by some
permutation `π` of the cells `0 .. nc-2`. -/
def PermuteInv {σ : Type} (nc : Int) (data0 : Int → ℚ) (s : Permuting σ) : Prop :=
  s.data 0 = data0 0 ∧
  (∀ k, 1 ≤ k → k ≤ nc - 1 → s.data k = data0 0 + ∑ j in Finset.Icc 0 (k - 1), s.changes j) ∧
  ∃ π : Equiv.Perm Int, (∀ k, ¬ (0 ≤ k ∧ k ≤ nc - 2) → π k = k) ∧
    ∀ k, 0 ≤ k → k ≤ nc - 2 → s.changes k = data0 (π k + 1) - data0 (π k)

end MCPT_TRN

namespace MCPT_TRN

/-- One line printed by the MCPT loop of `main`, for one replication:
`irep`, `Ret`, `Lookback`, `NS, NL`, `TrndComp` and `TrnBias`. -/
structure Line where
  irep : Int
  opt_return : ℚ
  short_lookback : Int
  long_lookback : Int
  nshort : Int
  nlong : Int
  trend_component : ℚ
  training_bias : ℚ

/-- The variables of `main` that the MCPT loop reads and writes, the state of
the generator, and the lines printed so far. -/
structure Mcpt (σ : Type) where
  prices : Int → ℚ
  changes : Int → ℚ
  rng : σ
  out : Outs
  original : ℚ
  original_trend_component : ℚ
  original_nshort : Int
  original_nlong : Int
  count : Int
  mean_training_bias : ℚ
  printed : List Line

/-- Body of the MCPT loop of `main` (MCPT_TRN.CPP lines 367-389), replication
`irep`. `do_permute` works at `prices+max_lookback-1`, so the prices it rebuilds
are written back `max_lookback-1` cells further in `prices`. -/
def mcpt_step {σ : Type} (unifrand : σ → ℚ × σ) (nprices max_lookback : Int)
    (trend_per_return : ℚ) (s : Mcpt σ) (irep : Int) : Mcpt σ :=
  let p : Permuting σ :=
    if irep ≠ 0 then
      let q := do_permute unifrand (nprices - max_lookback + 1)
        { data := shift s.prices (max_lookback - 1), changes := s.changes, rng := s.rng }
      { data := shift q.data (-(max_lookback - 1)), changes := q.changes, rng := q.rng }
    else { data := s.prices, changes := s.changes, rng := s.rng }
  let r := opt_params nprices max_lookback p.data s.out
  let opt_return := r.1
  let out := r.2
  let trend_component := ((out.nlong - out.nshort : Int) : ℚ) * trend_per_return
  let line : Line :=
    { irep := irep, opt_return := opt_return, short_lookback := out.short_term,
      long_lookback := out.long_term, nshort := out.nshort, nlong := out.nlong,
      trend_component := trend_component, training_bias := opt_return - trend_component }
  if irep = 0 then
    { prices := p.data, changes := p.changes, rng := p.rng, out := out,
      original := opt_return, original_trend_component := trend_component,
      original_nshort := out.nshort, original_nlong := out.nlong,
      count := 1, mean_training_bias := 0, printed := s.printed ++ [line] }
  else
    { prices := p.data, changes := p.changes, rng := p.rng, out := out,
      original := s.original, original_trend_component := s.original_trend_component,
      original_nshort := s.original_nshort, original_nlong := s.original_nlong,
      count := if opt_return ≥ s.original then s.count + 1 else s.count,
      mean_training_bias := s.mean_training_bias + (opt_return - trend_component),
      printed := s.printed ++ [line] }

/-- State of `main` after the replications `0 .. b-1` of the MCPT loop
`for (irep=0 ; irep<nreps ; irep++)`, started in the state `s`. -/
def mcpt_upto {σ : Type} (unifrand : σ → ℚ × σ) (nprices max_lookback : Int)
    (trend_per_return : ℚ) (s : Mcpt σ) (b : Int) : Mcpt σ :=
  (upTo 0 b).foldl (mcpt_step unifrand nprices max_lookback trend_per_return) s

/-- What `main` prints after the MCPT loop. -/
structure Report where
  p_value : ℚ
  total_trend : ℚ
  original_nshort : Int
  original_nlong : Int
  original : ℚ
  trend_component : ℚ
  training_bias : ℚ
  skill : ℚ
  unbiased_return : ℚ
  printed : List Line

/-- The trend per bar, `trend_per_return` of `main`. -/
def trend_per_return (nprices max_lookback : Int) (prices : Int → ℚ) : ℚ :=
  (prices (nprices - 1) - prices (max_lookback - 1)) / ((nprices - max_lookback : Int) : ℚ)

/-- The MCPT part of `main` (MCPT_TRN.CPP lines 357-406), once the prices are
read and the size check has passed. `s0` holds what the variables of `main`
hold at that point: the log prices read, and whatever is in the `changes` buffer
and in the locals that have not been set (`printed` is empty). -/
def mcpt {σ : Type} (unifrand : σ → ℚ × σ) (nprices max_lookback nreps : Int) (s0 : Mcpt σ) :
    Report :=
  let tpr := trend_per_return nprices max_lookback s0.prices
  let changes := prepare_permute (nprices - max_lookback + 1)
    (shift s0.prices (max_lookback - 1)) s0.changes
  let s1 : Mcpt σ := { s0 with changes := changes, printed := [] }
  let s := mcpt_upto unifrand nprices max_lookback tpr s1 nreps
  let mean_training_bias := s.mean_training_bias / ((nreps - 1 : Int) : ℚ)
  let unbiased_return := s.original - mean_training_bias
  let skill := unbiased_return - s.original_trend_component
  { p_value := (s.count : ℚ) / (nreps : ℚ),
    total_trend := s.prices (nprices - 1) - s.prices (max_lookback - 1),
    original_nshort := s.original_nshort, original_nlong := s.original_nlong,
    original := s.original, trend_component := s.original_trend_component,
    training_bias := mean_training_bias, skill := skill,
    unbiased_return := unbiased_return, printed := s.printed }

/-! ### The replications, one by one -/

/-- The arrays `do_permute` works on after `r` calls: the prices from
`prices+max_lookback-1` on, and the changes that `prepare_permute` computed from
them, shuffled `r` times. -/
def replication {σ : Type} (unifrand : σ → ℚ × σ) (nprices max_lookback : Int) (s0 : Mcpt σ)
    (r : Nat) : Permuting σ :=
  (do_permute unifrand (nprices - max_lookback + 1))^[r]
    { data := shift s0.prices (max_lookback - 1),
      changes := prepare_permute (nprices - max_lookback + 1)
        (shift s0.prices (max_lookback - 1)) s0.changes,
      rng := s0.rng }

/-- The price series of replication `r`: the original one for `r = 0`, the one
rebuilt by the `r`-th `do_permute` afterwards. -/
def rep_prices {σ : Type} (unifrand : σ → ℚ × σ) (nprices max_lookback : Int) (s0 : Mcpt σ)
    (r : Nat) : Int → ℚ :=
  shift (replication unifrand nprices max_lookback s0 r).data (-(max_lookback - 1))

/-- The grid-search score of replication `r`. -/
def score {σ : Type} (unifrand : σ → ℚ × σ) (nprices max_lookback : Int) (s0 : Mcpt σ)
    (r : Nat) : ℚ :=
  (opt_params nprices max_lookback (rep_prices unifrand nprices max_lookback s0 r) s0.out).1

/-- What the MCPT loop has established after the replications `0 .. b` (`s0`
being the state before the loop and `tpr` the trend per bar): one line is
printed per replication, line `r` shows the score of replication `r`, the
arrays are those of replication `b`, and the counters are those of the lines
printed after the first one. -/
def McptInv {σ : Type} (unifrand : σ → ℚ × σ) (nprices max_lookback : Int) (s0 : Mcpt σ)
    (tpr : ℚ) (b : Nat) (s : Mcpt σ) : Prop :=
  s.prices = rep_prices unifrand nprices max_lookback s0 b ∧
  s.changes = (replication unifrand nprices max_lookback s0 b).changes ∧
  s.rng = (replication unifrand nprices max_lookback s0 b).rng ∧
  ∃ (l0 : Line) (rest : List Line), s.printed = l0 :: rest ∧
    rest.length = b ∧
    (l0 :: rest).map Line.opt_return
      = (List.range (b + 1)).map (score unifrand nprices max_lookback s0) ∧
    s.original = l0.opt_return ∧
    s.original_trend_component = ((l0.nlong - l0.nshort : Int) : ℚ) * tpr ∧
    s.original_nshort = l0.nshort ∧ s.original_nlong = l0.nlong ∧
    s.count = 1 + ((rest.countP (fun l => l.opt_return ≥ l0.opt_return) : Nat) : Int) ∧
    s.mean_training_bias
      = (rest.map (fun l => l.opt_return - ((l.nlong - l.nshort : Int) : ℚ) * tpr)).sum

end MCPT_TRN

namespace BND_RET

/-- One fold of the walk-forward loop of `main`: where the training set starts,
the in-sample score and the pair that `opt_params` returned, the lookbacks then
held by `short_lookback` and `long_lookback`, the number `n` of test cases and
the out-of-sample score. -/
structure Fold where
  train_start : Int
  IS : ℚ
  pair : Option (Int × Int)
  short_lookback : Int
  long_lookback : Int
  n : Int
  OOS : ℚ

/-- The variables of `main` that the walk-forward loop reads and writes, and
the folds done so far. -/
structure Walk where
  train_start : Int
  n_returns : Int
  total : ℚ
  returns : Int → ℚ
  folds : List Fold

/-- The fold done by one pass of the walk-forward loop of `main` entered at
`train_start` (BND_RET.CPP lines 323-333): the training by `opt_params`, the
number `n` of test cases, cut so as not to go past the end of the history, and
the test by `test_system`. `junk` is what `ibestshort` and `ibestlong` hold when
`opt_params` has not set them. -/
def fold_at (nprices max_lookback n_train n_test : Int) (prices : Int → ℚ)
    (junk : Int × Int) (train_start : Int) : Fold :=
  let r := opt_params n_train max_lookback (shift prices train_start)
  let IS := r.1 * 25200
  let short_lookback := (r.2.getD junk).1
  let long_lookback := (r.2.getD junk).2
  let n := if n_test > nprices - train_start - n_train then nprices - train_start - n_train
    else n_test
  let OOS := test_system n (shift prices (train_start + n_train - long_lookback))
    short_lookback long_lookback * 25200
  { train_start := train_start, IS := IS, pair := r.2, short_lookback := short_lookback,
    long_lookback := long_lookback, n := n, OOS := OOS }

/-- One pass of the walk-forward loop of `main` (BND_RET.CPP lines 323-339), up
to the test that ends the loop: `returns[n_returns++] = OOS ; total += OOS ;
train_start += n ;`. -/
def walk_step (nprices max_lookback n_train n_test : Int) (prices : Int → ℚ)
    (junk : Int × Int) (s : Walk) : Walk :=
  let f := fold_at nprices max_lookback n_train n_test prices junk s.train_start
  { train_start := s.train_start + f.n,
    n_returns := s.n_returns + 1,
    total := s.total + f.OOS,
    returns := Function.update s.returns s.n_returns f.OOS,
    folds := s.folds ++ [f] }

/-- The walk-forward loop `for (;;) { ... if (train_start + n_train >= nprices)
break ; }` of `main`, with at most `fuel` passes; `none` when they do not
suffice. -/
def walk (nprices max_lookback n_train n_test : Int) (prices : Int → ℚ) (junk : Int × Int) :
    Nat → Walk → Option Walk
  | 0, _ => none
  | fuel + 1, s =>
    let s1 := walk_step nprices max_lookback n_train n_test prices junk s
    if s1.train_start + n_train ≥ nprices then some s1
    else walk nprices max_lookback n_train n_test prices junk fuel s1

/-- The walk-forward of `main`: `train_start = 0 ; n_returns = 0 ; total = 0.0 ;`
and the loop. `returns` is the buffer as allocated. -/
def walkforward (nprices max_lookback n_train n_test : Int) (prices returns : Int → ℚ)
    (junk : Int × Int) (fuel : Nat) : Option Walk :=
  walk nprices max_lookback n_train n_test prices junk fuel
    { train_start := 0, n_returns := 0, total := 0, returns := returns, folds := [] }

/-- What holds of a fold of the walk-forward: it lies inside the history, it
tests at least one case and at most `n_test`, its pair is the one `opt_params`
returned on the training set, and its scores are those of `opt_params` and of
`test_system`. -/
def FoldOk (nprices max_lookback n_train n_test : Int) (prices : Int → ℚ) (junk : Int × Int)
    (f : Fold) : Prop :=
  0 ≤ f.train_start ∧ 1 ≤ f.n ∧ f.n ≤ n_test ∧ f.train_start + n_train + f.n ≤ nprices ∧
  f.IS = (opt_params n_train max_lookback (shift prices f.train_start)).1 * 25200 ∧
  f.pair = (opt_params n_train max_lookback (shift prices f.train_start)).2 ∧
  f.short_lookback = (f.pair.getD junk).1 ∧
  f.long_lookback = (f.pair.getD junk).2 ∧
  f.OOS = test_system f.n (shift prices (f.train_start + n_train - f.long_lookback))
    f.short_lookback f.long_lookback * 25200

/-- What the walk-forward loop has established after `s.n_returns` folds: fold
`k` starts at `k * n_test` and tests `min n_test (nprices - n_train - k * n_test)`
cases, its out-of-sample score is in `returns[k]`, and every fold is as
`FoldOk` says. -/
def WalkInv (nprices max_lookback n_train n_test : Int) (prices : Int → ℚ)
    (junk : Int × Int) (s : Walk) : Prop :=
  0 ≤ s.n_returns ∧
  s.folds.map (fun f => (f.train_start, f.n))
    = (List.range s.n_returns.toNat).map
        (fun (k : Nat) =>
          ((k : Int) * n_test, min n_test (nprices - n_train - (k : Int) * n_test))) ∧
  s.folds.map Fold.OOS
    = (List.range s.n_returns.toNat).map (fun (k : Nat) => s.returns (k : Int)) ∧
  ∀ f ∈ s.folds, FoldOk nprices max_lookback n_train n_test prices junk f

end BND_RET

/-! ## Reads checked against the bounds of the array

The same code once more, over an array of which only some cells exist:
reading a cell that does not exist fails (`none`), so that a result `some _`
shows that every cell read exists. -/

/-- The array `x` of which only the cells `lo .. hi` exist. -/
def cells (x : Int → ℚ) (lo hi : Int) : Int → Option ℚ :=
  fun j => if lo ≤ j ∧ j ≤ hi then some (x j) else none

/-- Pointer arithmetic `m + k` on such an array. -/
def shift_cells (m : Int → Option ℚ) (k : Int) : Int → Option ℚ := fun j => m (k + j)

/-- `sum_down` with checked reads. -/
def sum_down_chk (m : Int → Option ℚ) (acc : ℚ) (hi lo : Int) : Option ℚ :=
  (downTo hi lo).foldlM (fun s j => (m j).bind (fun v => some (s + v))) acc

/-- `window_sums` with checked reads. -/
def window_sums_chk (m : Int → Option ℚ) (i ishort ilong : Int) : Option (ℚ × ℚ) :=
  (sum_down_chk m 0 i (i - ishort)).bind (fun short_sum =>
    (sum_down_chk m short_sum (min i (i - ishort)) (i - ilong)).bind (fun long_sum =>
      some (short_sum, long_sum)))

namespace BND_RET

/-- `trial_step` of `opt_params` with checked reads: the first pass reads the
two windows, a later pass reads `x[i]`, `x[i-ishort]` and `x[i-ilong]`; a long
or short position reads `x[i+1]` and `x[i]`. -/
def trial_step_chk (ishort ilong : Int) (m : Int → Option ℚ) (s : Trial) (i : Int) :
    Option Trial :=
  (if i = ilong - 1 then window_sums_chk m i ishort ilong
    else (m i).bind (fun xi => (m (i - ishort)).bind (fun xs => (m (i - ilong)).bind (fun xl =>
      some (s.short_sum + (xi - xs), s.long_sum + (xi - xl)))))).bind (fun sums =>
  let short_mean := sums.1 / (ishort : ℚ)
  let long_mean := sums.2 / (ilong : ℚ)
  (if short_mean > long_mean then
      (m (i + 1)).bind (fun a => (m i).bind (fun b => some (a - b)))
    else if short_mean < long_mean then
      (m i).bind (fun a => (m (i + 1)).bind (fun b => some (a - b)))
    else some 0).bind (fun ret =>
  some { short_sum := sums.1, long_sum := sums.2, total_return := s.total_return + ret }))

/-- `trial_score` with checked reads. -/
def trial_score_chk (ncases ishort ilong : Int) (m : Int → Option ℚ) : Option ℚ :=
  ((upTo (ilong - 1) (ncases - 1)).foldlM (trial_step_chk ishort ilong m)
    { short_sum := 0, long_sum := 0, total_return := 0 }).bind
    (fun t => some (t.total_return / ((ncases - ilong : Int) : ℚ)))

/-- The grid loops of `opt_params` with checked reads. -/
def search_chk (ncases max_lookback : Int) (m : Int → Option ℚ) (s : Search) :
    Option Search :=
  (upTo 2 max_lookback).foldlM
    (fun s ilong =>
      (upTo 1 ilong).foldlM
        (fun s ishort => (trial_score_chk ncases ishort ilong m).bind
          (fun total_return => some (keep_best s ishort ilong total_return)))
        s)
    s

/-- `opt_params` of BND_RET.CPP with checked reads of `x`. -/
def opt_params_chk (ncases max_lookback : Int) (m : Int → Option ℚ) :
    Option (ℚ × Option (Int × Int)) :=
  (search_chk ncases max_lookback m { best_perf := sentinel, ibest := none }).bind
    (fun r => some (r.best_perf, r.ibest))

/-- `test_step` of `test_system` with checked reads. -/
def test_step_chk (m : Int → Option ℚ) (short_term long_term : Int) (sum : ℚ) (i : Int) :
    Option ℚ :=
  (window_sums_chk m i short_term long_term).bind (fun sums =>
  let short_mean := sums.1 / (short_term : ℚ)
  let long_mean := sums.2 / (long_term : ℚ)
  if short_mean > long_mean then
    (m (i + 1)).bind (fun a => (m i).bind (fun b => some (sum + (a - b))))
  else if short_mean < long_mean then
    (m (i + 1)).bind (fun a => (m i).bind (fun b => some (sum - (a - b))))
  else some sum)

/-- `test_system` of BND_RET.CPP with checked reads of `x`. -/
def test_system_chk (ncases : Int) (m : Int → Option ℚ) (short_term long_term : Int) :
    Option ℚ :=
  ((upTo (long_term - 1) (long_term - 1 + ncases)).foldlM
    (test_step_chk m short_term long_term) 0).bind (fun sum => some (sum / (ncases : ℚ)))

end BND_RET

namespace ENTROPY

/-- `while ( split > data[lower] ) ++lower ;` with at most `fuel` tests: the
index at which the scan stops. -/
def scan_up (data : Int → ℚ) (split : ℚ) : Nat → Int → Option Int
  | 0, _ => none
  | fuel + 1, lower =>
    if split > data lower then scan_up data split fuel (lower + 1) else some lower

/-- `while ( split < data[upper] ) --upper ;` with at most `fuel` tests. -/
def scan_down (data : Int → ℚ) (split : ℚ) : Nat → Int → Option Int
  | 0, _ => none
  | fuel + 1, upper =>
    if split < data upper then scan_down data split fuel (upper - 1) else some upper

/-- The array and the two indices of the partitioning loop of `qsortd`. -/
structure Part where
  data : Int → ℚ
  lower : Int
  upper : Int

/-- What follows the two scans in the body of the partitioning loop:
```
if (lower == upper) { ++lower ; --upper ; }
else if (lower < upper) {
   ftemp = data[lower] ; data[lower++] = data[upper] ; data[upper--] = ftemp ; }
```
-/
def exchange (data : Int → ℚ) (lower upper : Int) : Part :=
  if lower = upper then { data := data, lower := lower + 1, upper := upper - 1 }
  else if lower < upper then
    { data := Function.update (Function.update data lower (data upper)) upper (data lower),
      lower := lower + 1, upper := upper - 1 }
  else { data := data, lower := lower, upper := upper }

/-- The partitioning loop `do { ... } while ( lower <= upper ) ;` of `qsortd`,
with at most `fuel` passes, each scan with at most `fuel` tests. -/
def partition_loop (split : ℚ) : Nat → Part → Option Part
  | 0, _ => none
  | fuel + 1, p =>
    match scan_up p.data split fuel p.lower with
    | none => none
    | some lower =>
      match scan_down p.data split fuel p.upper with
      | none => none
      | some upper =>
        let p1 := exchange p.data lower upper
        if p1.lower ≤ p1.upper then partition_loop split fuel p1 else some p1

/-- `qsortd` of ENTROPY.CPP (the routine BND_RET calls to sort its returns), with
recursion depth at most `fuel`: the array after the call, or `none` when `fuel`
does not suffice. `(first+last)/2` is the C division, which truncates. -/
def qsortd : Nat → Int → Int → (Int → ℚ) → Option (Int → ℚ)
  | 0, _, _, _ => none
  | fuel + 1, first, last, data =>
    let split := data (Int.tdiv (first + last) 2)
    match partition_loop split fuel { data := data, lower := first, upper := last } with
    | none => none
    | some p =>
      match (if first < p.upper then qsortd fuel first p.upper p.data else some p.data) with
      | none => none
      | some d1 => if p.lower < last then qsortd fuel p.lower last d1 else some d1

/-- The cells `a .. b` of `d1` are those of `d` in another order, and the other
cells are the same: `d1` reads `d` through a permutation `π` of the indices that
moves only `a .. b`. -/
def SegPerm (a b : Int) (d d1 : Int → ℚ) : Prop :=
  ∃ π : Equiv.Perm Int, (∀ k, ¬ (a ≤ k ∧ k ≤ b) → π k = k) ∧ d1 = d ∘ π

/-- The cells `a .. b` of `d` are in non-decreasing order. -/
def SortedSeg (a b : Int) (d : Int → ℚ) : Prop :=
  ∀ i j, a ≤ i → i ≤ j → j ≤ b → d i ≤ d j

/-- The list of the cells `a .. b` of `d`. -/
def segment (a b : Int) (d : Int → ℚ) : List ℚ := (upTo a (b + 1)).map d

/-- What holds at the top of every pass of the partitioning loop of
`qsortd (first, last, d0)` with pivot value `v`: the array is a rearrangement of
the segment, the cells before `lower` are at most `v`, those after `upper` at
least `v`, and either this is the first pass, with the pivot somewhere in the
segment, or both indices have moved. -/
def PartInv (first last : Int) (d0 : Int → ℚ) (v : ℚ) (p : Part) : Prop :=
  SegPerm first last d0 p.data ∧
  (∀ k, first ≤ k → k < p.lower → p.data k ≤ v) ∧
  (∀ k, p.upper < k → k ≤ last → v ≤ p.data k) ∧
  first ≤ p.lower ∧ p.upper ≤ last ∧
  ((p.lower = first ∧ p.upper = last ∧ ∃ k, first ≤ k ∧ k ≤ last ∧ p.data k = v) ∨
    (first < p.lower ∧ p.upper < last))

/-- What holds when the partitioning loop ends: the indices have crossed, both
have moved, the cells up to `upper` are at most `v`, the cells from `lower` on
at least `v` (so those in between are `v`). -/
def PartPost (first last : Int) (d0 : Int → ℚ) (v : ℚ) (p : Part) : Prop :=
  SegPerm first last d0 p.data ∧
  (∀ k, first ≤ k → k < p.lower → p.data k ≤ v) ∧
  (∀ k, p.upper < k → k ≤ last → v ≤ p.data k) ∧
  p.upper < p.lower ∧ first < p.lower ∧ p.upper < last ∧
  p.lower ≤ last + 1 ∧ first - 1 ≤ p.upper

end ENTROPY

namespace BND_RET

/-- The two bounds on future returns that `main` computes, with their ranks. -/
structure Bounds where
  lower_bound_m : Int
  lower_bound : ℚ
  upper_bound_m : Int
  upper_bound : ℚ
  deriving DecidableEq

/-- The rank of a bound: `m = (int) (fail_rate * (n_returns + 1)) ;
if (m < 1) m = 1 ;`. -/
def bound_m (fail_rate : ℚ) (n_returns : Int) : Int :=
  let m := trunc (fail_rate * ((n_returns + 1 : Int) : ℚ))
  if m < 1 then 1 else m

/-- The bounds taken from the sorted returns (BND_RET.CPP lines 353-363):
`lower_bound = returns[lower_bound_m-1]`, `upper_bound = returns[n_returns-upper_bound_m]`. -/
def return_bounds (n_returns : Int) (returns : Int → ℚ) (lower_fail_rate upper_fail_rate : ℚ) :
    Bounds :=
  let lower_bound_m := bound_m lower_fail_rate n_returns
  let upper_bound_m := bound_m upper_fail_rate n_returns
  { lower_bound_m := lower_bound_m, lower_bound := returns (lower_bound_m - 1),
    upper_bound_m := upper_bound_m, upper_bound := returns (n_returns - upper_bound_m) }

/-- The return bounding of `main` (BND_RET.CPP lines 351-363):
`qsortd ( 0 , n_returns-1 , returns )`, then the two bounds; `none` when `fuel`
does not suffice for the sort. -/
def bounding (fuel : Nat) (n_returns : Int) (returns : Int → ℚ)
    (lower_fail_rate upper_fail_rate : ℚ) : Option Bounds :=
  (ENTROPY.qsortd fuel 0 (n_returns - 1) returns).map
    (fun sorted => return_bounds n_returns sorted lower_fail_rate upper_fail_rate)

end BND_RET

/-! ## Proof devices for the order of the grid loops -/

/-- The pairs `(S, L)` that the grid loops `for (ilong=2 ; ...)`,
`for (ishort=1 ; ishort<ilong ; ...)` have tried when they reach `(S0, L0)`. -/
def TriedBefore (S0 L0 S L : Int) : Prop :=
  1 ≤ S ∧ S < L ∧ (L < L0 ∨ (L = L0 ∧ S < S0))

/-- What a search that keeps a pair only when its score is strictly greater has
established once the pairs in `P` have been tried, in the order of the grid
loops, from the record `(best0, arg0)`: either nothing has beaten `best0`, or the
record is the first of the pairs tried that has the greatest score. -/
def FirstMaxInv (sc : Int → Int → ℚ) (best0 : ℚ) (arg0 : Int × Int)
    (P : Int → Int → Prop) (best : ℚ) (arg : Int × Int) : Prop :=
  (best = best0 ∧ arg = arg0 ∧ ∀ S L, P S L → sc S L ≤ best0) ∨
  (∃ S L, P S L ∧ arg = (S, L) ∧ best = sc S L ∧ best0 < sc S L ∧
    (∀ S1 L1, P S1 L1 → sc S1 L1 ≤ sc S L) ∧
    (∀ S1 L1, P S1 L1 → sc S1 L1 = sc S L → (L < L1 ∨ (L = L1 ∧ S ≤ S1))))

/-! ## The random generator of MCPT_TRN.CPP -/

namespace MCPT_TRN

/-- The statics of the generator: `unsigned int Q[256], carry`, the two `int`s
`MWC256_initialized`, `MWC256_seed`, and the `static unsigned char i` of
`RAND32M`. Unsigned values are naturals kept below `2^32` (`2^8` for `i`). -/
structure Rng where
  Q : Nat → Nat
  carry : Nat
  MWC256_initialized : Int
  MWC256_seed : Int
  i : Nat

/-- The statics as the program starts: `carry=362436`, `MWC256_initialized = 0`,
`MWC256_seed = 123456789`, `i=255`, and `Q` zero as every static array. -/
def Rng.start : Rng :=
  { Q := fun _ => 0, carry := 362436, MWC256_initialized := 0,
    MWC256_seed := 123456789, i := 255 }

/-- `RAND32M_seed`: `MWC256_seed = iseed ; MWC256_initialized = 0 ;`. -/
def RAND32M_seed (g : Rng) (iseed : Int) : Rng :=
  { g with MWC256_seed := iseed, MWC256_initialized := 0 }

/-- The loop that fills the table, `j` starting as the seed converted to
`unsigned int`:
`for (k=0 ; k<256 ; k++) { j = 69069 * j + 12345 ; Q[k] = j ; }`, the
arithmetic being modulo `2^32`. -/
def fill_table (Q : Nat → Nat) (seed : Int) : Nat → Nat :=
  ((List.range 256).foldl
    (fun (st : Nat × (Nat → Nat)) (k : Nat) =>
      let j := (69069 * st.1 + 12345) % 2 ^ 32
      (j, fun n => if n = k then j else st.2 n))
    ((seed % 2 ^ 32).toNat, Q)).2

/-- `RAND32M`: the value returned and the statics it leaves. `t` is an unsigned
64-bit word, `++i` wraps at 256. -/
def RAND32M (g : Rng) : Nat × Rng :=
  let g1 : Rng :=
    if g.MWC256_initialized = 0 then
      { g with MWC256_initialized := 1, Q := fill_table g.Q g.MWC256_seed }
    else g
  let i := (g1.i + 1) % 256
  let t := (809430660 * g1.Q i + g1.carry) % 2 ^ 64
  let carry := (t / 2 ^ 32) % 2 ^ 32
  let q := t % 2 ^ 32
  (q, { g1 with i := i, carry := carry, Q := fun n => if n = i then q else g1.Q n })

/-- `unifrand`: `mult * RAND32M()` with `mult = 1.0 / 0xFFFFFFFF`. -/
def unifrand (g : Rng) : ℚ × Rng :=
  let mult : ℚ := 1 / 4294967295
  let r := RAND32M g
  (mult * (r.1 : ℚ), r.2)

end MCPT_TRN

/-! ## The checks of the two `main` routines -/

namespace MCPT_TRN

/-- The way `main` of MCPT_TRN gives up once the market file is read:
`ERROR... Number of prices must be at least 10 greater than max_lookback`,
followed by `exit ( 1 )`. -/
inductive Stop where
  | too_few_prices
  deriving DecidableEq

/-- `main` of MCPT_TRN.CPP from the point where the market file has been read
into `nprices` log prices (the command line has its three parameters, the file
opens and parses, memory is granted): the check
`if (nprices - max_lookback < 10) { ... exit ( 1 ) ; }` and then the MCPT part.
`s0` holds the prices read and what the other variables hold at that point. -/
def main {σ : Type} (unifrand : σ → ℚ × σ) (max_lookback nreps nprices : Int) (s0 : Mcpt σ) :
    Except Stop Report :=
  if nprices - max_lookback < 10 then Except.error Stop.too_few_prices
  else Except.ok (mcpt unifrand nprices max_lookback nreps s0)

end MCPT_TRN

namespace BND_RET

/-- The two ways `main` of BND_RET gives up on its parameters:
`ERROR... n_train must be at least 10 greater than max_lookback` (before the
market file is read) and `ERROR... n_train + n_test must not exceed n_prices`
(after it), each followed by `exit ( 1 )`. -/
inductive Stop where
  | n_train_too_small
  | history_too_short
  deriving DecidableEq

/-- `main` of BND_RET.CPP up to the two bounds, the market file being read into
`nprices` log prices (the command line has its seven parameters, the file opens
and parses, memory is granted): the two checks, the walk-forward, and the return
bounding. `fuel` bounds the passes of the walk-forward loop and the depth of the
sort; `junk` is what the unset locals of `opt_params` hold. -/
def main (max_lookback n_train n_test : Int) (lower_fail_rate upper_fail_rate : ℚ)
    (nprices : Int) (prices returns : Int → ℚ) (junk : Int × Int) (fuel : Nat) :
    Except Stop (Option (Walk × Bounds)) :=
  if n_train - max_lookback < 10 then Except.error Stop.n_train_too_small
  else if n_train + n_test > nprices then Except.error Stop.history_too_short
  else Except.ok
    ((walkforward nprices max_lookback n_train n_test prices returns junk fuel).bind
      (fun w => (bounding fuel w.n_returns w.returns lower_fail_rate upper_fail_rate).map
        (fun b => (w, b))))

end BND_RET

/-! ## Array accesses checked against the bounds: the bounds, the shuffle -/

namespace BND_RET

/-- `return_bounds` with checked reads of the sorted returns: the reads
`returns[lower_bound_m-1]` and `returns[n_returns-upper_bound_m]`. -/
def return_bounds_chk (n_returns : Int) (m : Int → Option ℚ)
    (lower_fail_rate upper_fail_rate : ℚ) : Option Bounds :=
  let lower_bound_m := bound_m lower_fail_rate n_returns
  let upper_bound_m := bound_m upper_fail_rate n_returns
  (m (lower_bound_m - 1)).bind (fun lower_bound =>
    (m (n_returns - upper_bound_m)).bind (fun upper_bound =>
      some { lower_bound_m := lower_bound_m, lower_bound := lower_bound,
             upper_bound_m := upper_bound_m, upper_bound := upper_bound }))

end BND_RET

namespace MCPT_TRN

/-- The index drawn by one pass of the shuffle loop of `do_permute`, entered
with `i` items remaining, `u` being the value of `unifrand()`:
`j = (int) (u * i) ; if (j >= i) j = i - 1 ;`. -/
def draw_index (u : ℚ) (i : Int) : Int :=
  let j := trunc (u * (i : ℚ))
  if j ≥ i then i - 1 else j

/-- The exchange of one pass of the shuffle loop:
`dtemp = changes[i] ; changes[i] = changes[j] ; changes[j] = dtemp ;`. -/
def swap_cells (changes : Int → ℚ) (i j : Int) : Int → ℚ :=
  let dtemp := changes i
  Function.update (Function.update changes i (changes j)) j dtemp

/-- One pass of the shuffle loop of `do_permute` on a `changes` array whose cells
are `0 .. nc-2`: the pass fails (`none`) when one of the two cells it exchanges,
`changes[i]` after `--i` and `changes[j]`, is not a cell of the array. -/
def shuffle_step_chk {σ : Type} (unifrand : σ → ℚ × σ) (nc : Int) (s : (Int → ℚ) × σ)
    (i : Int) : Option ((Int → ℚ) × σ) :=
  let u := unifrand s.2
  let j := draw_index u.1 i
  let i1 := i - 1
  if (0 ≤ i1 ∧ i1 ≤ nc - 2) ∧ (0 ≤ j ∧ j ≤ nc - 2) then some (swap_cells s.1 i1 j, u.2)
  else none

/-- The shuffle loop of `do_permute` with checked accesses to `changes`. -/
def shuffle_chk {σ : Type} (unifrand : σ → ℚ × σ) (nc : Int) (changes : Int → ℚ) (g : σ) :
    Option ((Int → ℚ) × σ) :=
  (downTo (nc - 1) 1).foldlM (shuffle_step_chk unifrand nc) (changes, g)

/-- The rebuilding loop of `do_permute` with checked accesses: `data[icase]` and
`data[icase-1]` must be cells `0 .. nc-1` of `data`, `changes[icase-1]` a cell
`0 .. nc-2` of `changes`. -/
def rebuild_chk (nc : Int) (data changes : Int → ℚ) : Option (Int → ℚ) :=
  (upTo 1 nc).foldlM
    (fun d icase =>
      if (0 ≤ icase - 1 ∧ icase ≤ nc - 1) ∧ (0 ≤ icase - 1 ∧ icase - 1 ≤ nc - 2) then
        some (Function.update d icase (d (icase - 1) + changes (icase - 1)))
      else none)
    data

/-- `do_permute` with checked accesses to both arrays. -/
def do_permute_chk {σ : Type} (unifrand : σ → ℚ × σ) (nc : Int) (s : Permuting σ) :
    Option (Permuting σ) :=
  (shuffle_chk unifrand nc s.changes s.rng).bind (fun sh =>
    (rebuild_chk nc s.data sh.1).bind (fun data =>
      some { data := data, changes := sh.1, rng := sh.2 }))

end MCPT_TRN

/-! ## The grid searches with checked reads and checked divisors -/

/-- Division by an `int` divisor, which fails (`none`) when the divisor is
below 1. -/
def div_chk (a : ℚ) (b : Int) : Option ℚ := if 1 ≤ b then some (a / (b : ℚ)) else none

namespace MCPT_TRN

/-- `trial_step` of `opt_params` of MCPT_TRN with checked reads of `x` and checked
divisors: the first pass reads the two windows, a later pass reads `x[i]`,
`x[i-ishort]` and `x[i-ilong]`; the means divide by `ishort` and `ilong`; a long
or short position reads `x[i+1]` and `x[i]`. -/
def trial_step_chk (max_lookback ishort ilong : Int) (m : Int → Option ℚ) (s : Trial)
    (i : Int) : Option Trial :=
  (if i = max_lookback - 1 then window_sums_chk m i ishort ilong
    else (m i).bind (fun xi => (m (i - ishort)).bind (fun xs => (m (i - ilong)).bind (fun xl =>
      some (s.short_sum + (xi - xs), s.long_sum + (xi - xl)))))).bind (fun sums =>
  (div_chk sums.1 ishort).bind (fun short_mean =>
  (div_chk sums.2 ilong).bind (fun long_mean =>
  if short_mean > long_mean then
    (m (i + 1)).bind (fun a => (m i).bind (fun b =>
      some { short_sum := sums.1, long_sum := sums.2,
             total_return := s.total_return + (a - b), nl := s.nl + 1, ns := s.ns }))
  else if short_mean < long_mean then
    (m i).bind (fun a => (m (i + 1)).bind (fun b =>
      some { short_sum := sums.1, long_sum := sums.2,
             total_return := s.total_return + (a - b), nl := s.nl, ns := s.ns + 1 }))
  else
    some { short_sum := sums.1, long_sum := sums.2,
           total_return := s.total_return + 0, nl := s.nl, ns := s.ns })))

/-- `trial` with checked reads and divisors. -/
def trial_chk (ncases max_lookback ishort ilong : Int) (m : Int → Option ℚ) : Option Trial :=
  (upTo (max_lookback - 1) (ncases - 1)).foldlM (trial_step_chk max_lookback ishort ilong m)
    { short_sum := 0, long_sum := 0, total_return := 0, nl := 0, ns := 0 }

/-- The grid loops of `opt_params` of MCPT_TRN with checked reads and divisors. -/
def search_chk (ncases max_lookback : Int) (m : Int → Option ℚ) (s : Search) :
    Option Search :=
  (upTo 2 (max_lookback + 1)).foldlM
    (fun s ilong =>
      (upTo 1 ilong).foldlM
        (fun s ishort => (trial_chk ncases max_lookback ishort ilong m).bind
          (fun t => some (keep_best s ishort ilong t)))
        s)
    s

/-- `opt_params` of MCPT_TRN.CPP with checked reads of `x` and checked divisors. -/
def opt_params_chk (ncases max_lookback : Int) (m : Int → Option ℚ) (out : Outs) :
    Option (ℚ × Outs) :=
  (search_chk ncases max_lookback m { best_perf := sentinel, out := out }).bind
    (fun r => some (r.best_perf, r.out))

end MCPT_TRN

namespace BND_RET

/-- `trial_score` of BND_RET with checked reads and with the divisor of
`total_return /= ncases - ilong` checked. -/
def trial_score_chk_div (ncases ishort ilong : Int) (m : Int → Option ℚ) : Option ℚ :=
  ((upTo (ilong - 1) (ncases - 1)).foldlM (trial_step_chk ishort ilong m)
    { short_sum := 0, long_sum := 0, total_return := 0 }).bind
    (fun t => div_chk t.total_return (ncases - ilong))

/-- The grid loops of `opt_params` of BND_RET with checked reads and checked
normalising divisor. -/
def search_chk_div (ncases max_lookback : Int) (m : Int → Option ℚ) (s : Search) :
    Option Search :=
  (upTo 2 max_lookback).foldlM
    (fun s ilong =>
      (upTo 1 ilong).foldlM
        (fun s ishort => (trial_score_chk_div ncases ishort ilong m).bind
          (fun total_return => some (keep_best s ishort ilong total_return)))
        s)
    s

/-- `opt_params` of BND_RET.CPP with checked reads of `x` and checked
normalising divisor. -/
def opt_params_chk_div (ncases max_lookback : Int) (m : Int → Option ℚ) :
    Option (ℚ × Option (Int × Int)) :=
  (search_chk_div ncases max_lookback m { best_perf := sentinel, ibest := none }).bind
    (fun r => some (r.best_perf, r.ibest))

end BND_RET

/-! ## The tail probability of an order statistic -/

namespace BND_RET

/-- Modelled from the spec: `orderstat_tail` is declared in BND_RET.CPP
(`double orderstat_tail ( int n , double q , int m ) ;`) and called by `main`,
but its body is not in the source files. The specification gives it as the
binomial survival probability
`B(n, q, m) = Σ_{k=m}^{n} C(n,k) q^k (1−q)^{n−k}`, the probability that at least
`m` of `n` independent draws fall at or below the `q`-quantile. The counts `n`,
`m` and `k` are summed over as naturals. -/
def orderstat_tail (n : Int) (q : ℚ) (m : Int) : ℚ :=
  ∑ k in Finset.Icc m.toNat n.toNat,
    (Nat.choose n.toNat k : ℚ) * q ^ k * (1 - q) ^ (n.toNat - k)

end BND_RET

/-! ## `qsortd` with its accesses and its recursion checked -/

namespace ENTROPY

/-- `scan_up` within the segment `first .. last`: the read `data[lower]` fails
(`none`) when `lower` is outside the segment. -/
def scan_up_chk (first last : Int) (data : Int → ℚ) (split : ℚ) : Nat → Int → Option Int
  | 0, _ => none
  | fuel + 1, lower =>
    if first ≤ lower ∧ lower ≤ last then
      if split > data lower then scan_up_chk first last data split fuel (lower + 1)
      else some lower
    else none

/-- `scan_down` within the segment `first .. last`: the read `data[upper]` fails
when `upper` is outside the segment. -/
def scan_down_chk (first last : Int) (data : Int → ℚ) (split : ℚ) : Nat → Int → Option Int
  | 0, _ => none
  | fuel + 1, upper =>
    if first ≤ upper ∧ upper ≤ last then
      if split < data upper then scan_down_chk first last data split fuel (upper - 1)
      else some upper
    else none

/-- `exchange` within the segment `first .. last`: when two cells are exchanged
(`lower < upper`), both must be cells of the segment. -/
def exchange_chk (first last : Int) (data : Int → ℚ) (lower upper : Int) : Option Part :=
  if lower < upper ∧ ¬ ((first ≤ lower ∧ lower ≤ last) ∧ (first ≤ upper ∧ upper ≤ last)) then
    none
  else some (exchange data lower upper)

/-- The partitioning loop of `qsortd` with every access checked against the
segment `first .. last`. -/
def partition_loop_chk (first last : Int) (split : ℚ) : Nat → Part → Option Part
  | 0, _ => none
  | fuel + 1, p =>
    match scan_up_chk first last p.data split fuel p.lower with
    | none => none
    | some lower =>
      match scan_down_chk first last p.data split fuel p.upper with
      | none => none
      | some upper =>
        match exchange_chk first last p.data lower upper with
        | none => none
        | some p1 =>
          if p1.lower ≤ p1.upper then partition_loop_chk first last split fuel p1 else some p1

/-- `qsortd` with checks: the read of the pivot `data[(first+last)/2]`, the reads
of the two scans and the cells exchanged must lie in `first .. last`, and each
recursive call must be on a segment strictly shorter than `first .. last`;
`none` when a check fails or `fuel` does not suffice. -/
def qsortd_chk : Nat → Int → Int → (Int → ℚ) → Option (Int → ℚ)
  | 0, _, _, _ => none
  | fuel + 1, first, last, data =>
    if first ≤ Int.tdiv (first + last) 2 ∧ Int.tdiv (first + last) 2 ≤ last then
      let split := data (Int.tdiv (first + last) 2)
      match partition_loop_chk first last split fuel
          { data := data, lower := first, upper := last } with
      | none => none
      | some p =>
        match (if first < p.upper then
            (if p.upper - first < last - first then qsortd_chk fuel first p.upper p.data
              else none)
          else some p.data) with
        | none => none
        | some d1 =>
          if p.lower < last then
            (if last - p.lower < last - first then qsortd_chk fuel p.lower last d1 else none)
          else some d1
    else none

end ENTROPY

/-! ## The shuffle loop as a map from the indices drawn -/

namespace MCPT_TRN

/-- The shuffle loop of `do_permute` for given indices: the passes are entered
with `i = nc-1, nc-2, ..., 2`, the pass entered with `i` exchanges `changes[i-1]`
and `changes[j]`, `j` being the index of `js` that goes with this pass. -/
def swap_loop (nc : Int) (changes : Int → ℚ) (js : List Int) : Int → ℚ :=
  ((downTo (nc - 1) 1).zip js).foldl (fun ch p => swap_cells ch (p.1 - 1) p.2) changes

/-- The indices that successive passes of the shuffle loop, entered with the
counts of the list, draw from the generator state `g`. -/
def draws_along {σ : Type} (unifrand : σ → ℚ × σ) : List Int → σ → List Int
  | [], _ => []
  | i :: rest, g => draw_index (unifrand g).1 i :: draws_along unifrand rest (unifrand g).2

/-- The indices drawn by the shuffle loop of `do_permute` from the state `g`. -/
def drawn_indices {σ : Type} (unifrand : σ → ℚ × σ) (nc : Int) (g : σ) : List Int :=
  draws_along unifrand (downTo (nc - 1) 1) g

end MCPT_TRN

/-! ## The indicator and the binning of ENTROPY.CPP -/

namespace ENTROPY

/-- One pass of the loop of `find_slope`, on the state `(slope, denom)`:
`coef = i - 0.5 * (lookback - 1) ; denom += coef * coef ; slope += coef * *pptr++ ;`
where `pptr` started at `x - lookback + 1`, so pass `i` reads `x[i - lookback + 1]`. -/
def slope_step (lookback : Int) (x : Int → ℚ) (s : ℚ × ℚ) (i : Int) : ℚ × ℚ :=
  let coef : ℚ := (i : ℚ) - (1 / 2) * ((lookback - 1 : Int) : ℚ)
  let denom := s.2 + coef * coef
  let slope := s.1 + coef * x (i - lookback + 1)
  (slope, denom)

/-- `find_slope (lookback, x)`: `x` points to the current price, the window is
`x[-lookback+1 .. 0]`; the loop `for (i=0 ; i<lookback ; i++)` starts from
`slope = denom = 0.0` and the routine returns `slope / denom`. -/
def find_slope (lookback : Int) (x : Int → ℚ) : ℚ :=
  let s := (upTo 0 lookback).foldl (slope_step lookback x) (0, 0)
  s.1 / s.2

/-- One pass of the first loop of `entropy`, on the state `(minval, maxval)`:
`if (x[i] < minval) minval = x[i] ; if (x[i] > maxval) maxval = x[i] ;`. -/
def range_step (x : Int → ℚ) (s : ℚ × ℚ) (i : Int) : ℚ × ℚ :=
  let minval := if x i < s.1 then x i else s.1
  let maxval := if x i > s.2 then x i else s.2
  (minval, maxval)

/-- The first loop of `entropy`: `minval = maxval = x[0]`, then
`for (i=1 ; i<n ; i++)`. The result is `(minval, maxval)`. -/
def data_range (n : Int) (x : Int → ℚ) : ℚ × ℚ :=
  (upTo 1 n).foldl (range_step x) (x 0, x 0)

/-- The scale of `entropy`:
`factor = (nbins - 1.e-10) / (maxval - minval + 1.e-60)`. -/
def bin_factor (n : Int) (x : Int → ℚ) (nbins : Int) : ℚ :=
  ((nbins : ℚ) - 1 / 10 ^ 10) / ((data_range n x).2 - (data_range n x).1 + 1 / 10 ^ 60)

/-- The bin of case `i` in `entropy`: `k = (int) (factor * (x[i] - minval))`. -/
def bin_index (n : Int) (x : Int → ℚ) (nbins : Int) (i : Int) : Int :=
  trunc (bin_factor n x nbins * (x i - (data_range n x).1))

/-- The loop `for (i=0 ; i<nbins ; i++) count[i] = 0 ;` of `entropy`. -/
def clear_counts (nbins : Int) (count : Int → Int) : Int → Int :=
  (upTo 0 nbins).foldl (fun c i => Function.update c i 0) count

/-- One pass of the counting loop of `entropy`:
`k = (int) (factor * (x[i] - minval)) ; ++count[k] ;`. -/
def count_step (n : Int) (x : Int → ℚ) (nbins : Int) (count : Int → Int) (i : Int) : Int → Int :=
  let k := bin_index n x nbins i
  Function.update count k (count k + 1)

/-- The work area `count` of `entropy` after its second and third loops:
cleared, then `for (i=0 ; i<n ; i++)` counts each case in its bin. -/
def bin_counts (n : Int) (x : Int → ℚ) (nbins : Int) (count : Int → Int) : Int → Int :=
  (upTo 0 n).foldl (count_step n x nbins) (clear_counts nbins count)

end ENTROPY

/-! ## The divisions at the end of the permutation test -/

namespace MCPT_TRN

/-- A quotient of two `double`s as a number: `none` when the divisor is zero,
the quotient being then an infinity or not a number. -/
def div_defined (a b : ℚ) : Option ℚ := if b = 0 then none else some (a / b)

/-- The figures of the report of `main` that come out of a division or depend
on one; `none` stands for a value that is not a number. -/
structure Figures where
  p_value : Option ℚ
  training_bias : Option ℚ
  unbiased_return : Option ℚ
  skill : Option ℚ
  deriving DecidableEq

/-- The lines that follow the MCPT loop of `main`, each division being checked:
`mean_training_bias /= (nreps - 1) ; unbiased_return = original - mean_training_bias ;
skill = unbiased_return - original_trend_component ;` and the p-value printed,
`(double) count / (double) nreps`. A value computed from one that is not a
number is not a number. -/
def mcpt_figures {σ : Type} (unifrand : σ → ℚ × σ) (nprices max_lookback nreps : Int)
    (s0 : Mcpt σ) : Figures :=
  let tpr := trend_per_return nprices max_lookback s0.prices
  let changes := prepare_permute (nprices - max_lookback + 1)
    (shift s0.prices (max_lookback - 1)) s0.changes
  let s1 : Mcpt σ := { s0 with changes := changes, printed := [] }
  let s := mcpt_upto unifrand nprices max_lookback tpr s1 nreps
  let mean_training_bias := div_defined s.mean_training_bias ((nreps - 1 : Int) : ℚ)
  let unbiased_return := mean_training_bias.map (fun m => s.original - m)
  let skill := unbiased_return.map (fun u => u - s.original_trend_component)
  { p_value := div_defined (s.count : ℚ) ((nreps : Int) : ℚ),
    training_bias := mean_training_bias, unbiased_return := unbiased_return, skill := skill }

end MCPT_TRN

/-! ## The bars that the walk-forward scores -/

namespace BND_RET

/-- The bars of the history whose one-bar change the test of a fold scores.
`main` calls `test_system ( n , prices + train_start + n_train - long_lookback , ... )`,
whose loop makes the passes `i = long_term-1, ...`, `n` of them, pass `i`
scoring `x[i+1] - x[i]`: in `prices` that is the bar
`train_start + n_train - long_lookback + i`. -/
def scored_bars (n_train : Int) (f : Fold) : List Int :=
  (upTo (f.long_lookback - 1) (f.long_lookback - 1 + f.n)).map
    (fun i => f.train_start + n_train - f.long_lookback + i)

end BND_RET

/-! ## `double` arithmetic with its rounding

The definitions above read the `double` operations of the source as exact
operations on rationals. The definitions of this section and of the next ones,
whose names end in `_fl`, are the same routines with every `double` operation
rounded as the machine rounds it (each operation on its own, to `double`). -/

/-- The power `2^e` of an integer exponent, a rational. -/
def pow2 (e : Int) : ℚ :=
  if 0 ≤ e then ((2 ^ e.toNat : Nat) : ℚ) else 1 / ((2 ^ (-e).toNat : Nat) : ℚ)

/-- The number of times `n` can be halved before it is below `2`, in at most
`fuel` steps: the position of the leading bit of `n` when `fuel` suffices. -/
def leading_bit : Nat → Nat → Nat
  | 0, _ => 0
  | fuel + 1, n => if n < 2 then 0 else leading_bit fuel (n / 2) + 1

/-- The exponent `e` of a positive rational `a`: `2^e ≤ a < 2^(e+1)`. -/
def binade (a : ℚ) : Int :=
  let k : Int := (leading_bit a.num.natAbs a.num.natAbs : Int) - (leading_bit a.den a.den : Int)
  if pow2 k ≤ a then k else k - 1

/-- The integer nearest to `m`, the even one of the two when `m` is half way. -/
def round_even (m : ℚ) : Int :=
  let f := ⌊m⌋
  if m - (f : ℚ) < 1 / 2 then f
  else if m - (f : ℚ) > 1 / 2 then f + 1
  else if f % 2 = 0 then f else f + 1

/-- The `double` nearest to `q`: IEEE 754 binary64, 53 significant bits, round
to nearest, ties to even; the bounds of the exponent are left aside (no
overflow or underflow occurs at the values considered). It is what a `double`
operation of the source stores when its exact result is `q`. -/
def fl (q : ℚ) : ℚ :=
  if q = 0 then 0
  else
    let e := binade |q| - 52
    (round_even (q / pow2 e) : ℚ) * pow2 e

/-! ## The permutation, the grid search and the slope in `double` arithmetic -/

namespace MCPT_TRN

/-- `prepare_permute` with its subtraction rounded:
`changes[icase-1] = data[icase] - data[icase-1] ;`. -/
def prepare_permute_fl (nc : Int) (data changes : Int → ℚ) : Int → ℚ :=
  (upTo 1 nc).foldl
    (fun ch icase => Function.update ch (icase - 1) (fl (data icase - data (icase - 1))))
    changes

/-- One pass of the shuffle loop of `do_permute`, the product `unifrand() * i`
rounded before the cast:
`j = (int) (unifrand() * i) ; if (j >= i) j = i - 1 ; --i ;` and the swap, which
copies the cells as they are. -/
def shuffle_step_fl {σ : Type} (unifrand : σ → ℚ × σ) (s : (Int → ℚ) × σ) (i : Int) :
    (Int → ℚ) × σ :=
  let u := unifrand s.2
  let j0 := trunc (fl (u.1 * (i : ℚ)))
  let j := if j0 ≥ i then i - 1 else j0
  let i1 := i - 1
  let dtemp := s.1 i1
  let ch1 := Function.update s.1 i1 (s.1 j)
  let ch2 := Function.update ch1 j dtemp
  (ch2, u.2)

/-- The shuffle loop of `do_permute` in `double` arithmetic, entered with
`i = nc-1, nc-2, ..., 2`. -/
def shuffle_fl {σ : Type} (unifrand : σ → ℚ × σ) (nc : Int) (changes : Int → ℚ) (g : σ) :
    (Int → ℚ) × σ :=
  (downTo (nc - 1) 1).foldl (shuffle_step_fl unifrand) (changes, g)

/-- The rebuilding loop of `do_permute` with its addition rounded:
`data[icase] = data[icase-1] + changes[icase-1] ;`. -/
def rebuild_fl (nc : Int) (data changes : Int → ℚ) : Int → ℚ :=
  (upTo 1 nc).foldl
    (fun d icase => Function.update d icase (fl (d (icase - 1) + changes (icase - 1))))
    data

/-- `do_permute` in `double` arithmetic. -/
def do_permute_fl {σ : Type} (unifrand : σ → ℚ × σ) (nc : Int) (s : Permuting σ) :
    Permuting σ :=
  let sh := shuffle_fl unifrand nc s.changes s.rng
  { data := rebuild_fl nc s.data sh.1, changes := sh.1, rng := sh.2 }

/-- `unifrand` in `double` arithmetic: `double mult = 1.0 / 0xFFFFFFFF ;
return mult * RAND32M() ;`, the quotient and the product rounded; the 32-bit
value of `RAND32M` converts to `double` as it is. -/
def unifrand_fl (g : Rng) : ℚ × Rng :=
  let mult : ℚ := fl (1 / 4294967295)
  let r := RAND32M g
  (fl (mult * (r.1 : ℚ)), r.2)

/-- The trend per bar as `main` computes it,
`(prices[nprices-1] - prices[max_lookback-1]) / (nprices - max_lookback)`, the
difference and the quotient rounded. -/
def trend_per_return_fl (nprices max_lookback : Int) (prices : Int → ℚ) : ℚ :=
  fl (fl (prices (nprices - 1) - prices (max_lookback - 1))
    / ((nprices - max_lookback : Int) : ℚ))

/-- The sum `for ( ; j>lo ; j--) acc += x[j]` with each addition rounded. -/
def sum_down_fl (x : Int → ℚ) (acc : ℚ) (hi lo : Int) : ℚ :=
  (downTo hi lo).foldl (fun s j => fl (s + x j)) acc

/-- The two sums of the first evaluated bar, each addition rounded. -/
def window_sums_fl (x : Int → ℚ) (i ishort ilong : Int) : ℚ × ℚ :=
  let short_sum := sum_down_fl x 0 i (i - ishort)
  let long_sum := sum_down_fl x short_sum (min i (i - ishort)) (i - ilong)
  (short_sum, long_sum)

/-- Body of the loop over bars `i` of `opt_params` (MCPT_TRN.CPP lines 106-140)
in `double` arithmetic: the differences, the updates of the sums, the two
means, the return of the bar and its addition to `total_return` are rounded one
by one. -/
def trial_step_fl (max_lookback ishort ilong : Int) (x : Int → ℚ) (s : Trial) (i : Int) :
    Trial :=
  let sums : ℚ × ℚ :=
    if i = max_lookback - 1 then window_sums_fl x i ishort ilong
    else (fl (s.short_sum + fl (x i - x (i - ishort))),
          fl (s.long_sum + fl (x i - x (i - ilong))))
  let short_mean := fl (sums.1 / (ishort : ℚ))
  let long_mean := fl (sums.2 / (ilong : ℚ))
  if short_mean > long_mean then
    { short_sum := sums.1, long_sum := sums.2,
      total_return := fl (s.total_return + fl (x (i + 1) - x i)), nl := s.nl + 1, ns := s.ns }
  else if short_mean < long_mean then
    { short_sum := sums.1, long_sum := sums.2,
      total_return := fl (s.total_return + fl (x i - x (i + 1))), nl := s.nl, ns := s.ns + 1 }
  else
    { short_sum := sums.1, long_sum := sums.2,
      total_return := fl (s.total_return + 0), nl := s.nl, ns := s.ns }

/-- One trial of `opt_params` in `double` arithmetic. -/
def trial_fl (ncases max_lookback ishort ilong : Int) (x : Int → ℚ) : Trial :=
  (upTo (max_lookback - 1) (ncases - 1)).foldl (trial_step_fl max_lookback ishort ilong x)
    { short_sum := 0, long_sum := 0, total_return := 0, nl := 0, ns := 0 }

/-- The two grid loops of `opt_params` in `double` arithmetic. -/
def search_fl (ncases max_lookback : Int) (x : Int → ℚ) (s : Search) : Search :=
  (upTo 2 (max_lookback + 1)).foldl
    (fun s ilong =>
      (upTo 1 ilong).foldl
        (fun s ishort =>
          keep_best s ishort ilong (trial_fl ncases max_lookback ishort ilong x))
        s)
    s

/-- `opt_params` of MCPT_TRN.CPP in `double` arithmetic. -/
def opt_params_fl (ncases max_lookback : Int) (x : Int → ℚ) (out : Outs) : ℚ × Outs :=
  let r := search_fl ncases max_lookback x { best_perf := sentinel, out := out }
  (r.best_perf, r.out)

/-- Body of the MCPT loop of `main` (MCPT_TRN.CPP lines 367-389) in `double`
arithmetic: `trend_component = (nlong - nshort) * trend_per_return`,
`training_bias = opt_return - trend_component` and
`mean_training_bias += training_bias` are rounded one by one. -/
def mcpt_step_fl {σ : Type} (unifrand : σ → ℚ × σ) (nprices max_lookback : Int)
    (trend_per_return : ℚ) (s : Mcpt σ) (irep : Int) : Mcpt σ :=
  let p : Permuting σ :=
    if irep ≠ 0 then
      let q := do_permute_fl unifrand (nprices - max_lookback + 1)
        { data := shift s.prices (max_lookback - 1), changes := s.changes, rng := s.rng }
      { data := shift q.data (-(max_lookback - 1)), changes := q.changes, rng := q.rng }
    else { data := s.prices, changes := s.changes, rng := s.rng }
  let r := opt_params_fl nprices max_lookback p.data s.out
  let opt_return := r.1
  let out := r.2
  let trend_component := fl (((out.nlong - out.nshort : Int) : ℚ) * trend_per_return)
  let training_bias := fl (opt_return - trend_component)
  let line : Line :=
    { irep := irep, opt_return := opt_return, short_lookback := out.short_term,
      long_lookback := out.long_term, nshort := out.nshort, nlong := out.nlong,
      trend_component := trend_component, training_bias := training_bias }
  if irep = 0 then
    { prices := p.data, changes := p.changes, rng := p.rng, out := out,
      original := opt_return, original_trend_component := trend_component,
      original_nshort := out.nshort, original_nlong := out.nlong,
      count := 1, mean_training_bias := 0, printed := s.printed ++ [line] }
  else
    { prices := p.data, changes := p.changes, rng := p.rng, out := out,
      original := s.original, original_trend_component := s.original_trend_component,
      original_nshort := s.original_nshort, original_nlong := s.original_nlong,
      count := if opt_return ≥ s.original then s.count + 1 else s.count,
      mean_training_bias := fl (s.mean_training_bias + training_bias),
      printed := s.printed ++ [line] }

/-- The MCPT part of `main` (MCPT_TRN.CPP lines 357-406) in `double`
arithmetic: the trend per bar, `prepare_permute`, the loop, then
`mean_training_bias /= (nreps - 1) ; unbiased_return = original - mean_training_bias ;
skill = unbiased_return - original_trend_component ;`, each operation rounded. -/
def mcpt_fl {σ : Type} (unifrand : σ → ℚ × σ) (nprices max_lookback nreps : Int)
    (s0 : Mcpt σ) : Report :=
  let tpr := trend_per_return_fl nprices max_lookback s0.prices
  let changes := prepare_permute_fl (nprices - max_lookback + 1)
    (shift s0.prices (max_lookback - 1)) s0.changes
  let s1 : Mcpt σ := { s0 with changes := changes, printed := [] }
  let s := (upTo 0 nreps).foldl (mcpt_step_fl unifrand nprices max_lookback tpr) s1
  let mean_training_bias := fl (s.mean_training_bias / ((nreps - 1 : Int) : ℚ))
  let unbiased_return := fl (s.original - mean_training_bias)
  let skill := fl (unbiased_return - s.original_trend_component)
  { p_value := fl ((s.count : ℚ) / (nreps : ℚ)),
    total_trend := fl (s.prices (nprices - 1) - s.prices (max_lookback - 1)),
    original_nshort := s.original_nshort, original_nlong := s.original_nlong,
    original := s.original, trend_component := s.original_trend_component,
    training_bias := mean_training_bias, skill := skill,
    unbiased_return := unbiased_return, printed := s.printed }

end MCPT_TRN

namespace ENTROPY

/-- One pass of the loop of `find_slope` in `double` arithmetic:
`coef = i - 0.5 * (lookback - 1) ; denom += coef * coef ; slope += coef * *pptr++ ;`,
each product, difference and sum rounded. -/
def slope_step_fl (lookback : Int) (x : Int → ℚ) (s : ℚ × ℚ) (i : Int) : ℚ × ℚ :=
  let coef : ℚ := fl ((i : ℚ) - fl ((1 / 2) * ((lookback - 1 : Int) : ℚ)))
  let denom := fl (s.2 + fl (coef * coef))
  let slope := fl (s.1 + fl (coef * x (i - lookback + 1)))
  (slope, denom)

/-- `find_slope` in `double` arithmetic; the quotient returned is rounded. -/
def find_slope_fl (lookback : Int) (x : Int → ℚ) : ℚ :=
  let s := (upTo 0 lookback).foldl (slope_step_fl lookback x) (0, 0)
  fl (s.1 / s.2)

end ENTROPY

/-! ## The counts of each replication -/

namespace MCPT_TRN

/-- What the four pointers of `opt_params` hold after replication `r` of the
MCPT loop: `opt_params` is called on the prices of replication `r` with the
pointers as the previous replication left them (as `main` found them, for
replication 0). -/
def rep_outs {σ : Type} (unifrand : σ → ℚ × σ) (nprices max_lookback : Int) (s0 : Mcpt σ) :
    Nat → Outs
  | 0 => (opt_params nprices max_lookback (rep_prices unifrand nprices max_lookback s0 0)
      s0.out).2
  | r + 1 => (opt_params nprices max_lookback
      (rep_prices unifrand nprices max_lookback s0 (r + 1))
      (rep_outs unifrand nprices max_lookback s0 r)).2

/-- What the MCPT loop has established after the replications `0 .. b`, on top
of `McptInv`: the pointers hold the counts of replication `b`, line `r` shows
the score and the counts that `opt_params` returned for replication `r`, and
the bias accumulated is the sum over the replications `1 .. b` of the score
less the trend component of the replication's own counts. -/
def BiasInv {σ : Type} (unifrand : σ → ℚ × σ) (nprices max_lookback : Int) (s0 : Mcpt σ)
    (tpr : ℚ) (b : Nat) (s : Mcpt σ) : Prop :=
  s.out = rep_outs unifrand nprices max_lookback s0 b ∧
  s.printed.map (fun l => (l.irep, l.opt_return, l.nshort, l.nlong))
    = (List.range (b + 1)).map
        (fun (r : Nat) => ((r : Int), score unifrand nprices max_lookback s0 r,
          (rep_outs unifrand nprices max_lookback s0 r).nshort,
          (rep_outs unifrand nprices max_lookback s0 r).nlong)) ∧
  s.original = score unifrand nprices max_lookback s0 0 ∧
  s.original_trend_component
    = (((rep_outs unifrand nprices max_lookback s0 0).nlong
        - (rep_outs unifrand nprices max_lookback s0 0).nshort : Int) : ℚ) * tpr ∧
  s.mean_training_bias
    = ((List.range b).map
        (fun (k : Nat) => score unifrand nprices max_lookback s0 (k + 1)
          - (((rep_outs unifrand nprices max_lookback s0 (k + 1)).nlong
              - (rep_outs unifrand nprices max_lookback s0 (k + 1)).nshort : Int) : ℚ)
            * tpr)).sum

end MCPT_TRN

/-! ## Loop counters: lemmas -/

theorem mem_upTo {a b i : Int} : i ∈ upTo a b ↔ a ≤ i ∧ i < b := by
  unfold upTo
  simp only [List.mem_map, List.mem_range]
  constructor
  · rintro ⟨k, hk, rfl⟩
    omega
  · rintro ⟨h1, h2⟩
    exact ⟨(i - a).toNat, by omega, by omega⟩

theorem upTo_of_le {a b : Int} (h : b ≤ a) : upTo a b = [] := by
  unfold upTo
  have : (b - a).toNat = 0 := by omega
  simp [this]

theorem upTo_snoc {a b : Int} (h : a ≤ b) : upTo a (b + 1) = upTo a b ++ [b] := by
  unfold upTo
  have : (b + 1 - a).toNat = (b - a).toNat + 1 := by omega
  rw [this, List.range_succ, List.map_append]
  simp
  omega

theorem upTo_cons {a b : Int} (h : a < b) : upTo a b = a :: upTo (a + 1) b := by
  unfold upTo
  have : (b - a).toNat = (b - (a + 1)).toNat + 1 := by omega
  rw [this, List.range_succ_eq_map, List.map_cons, List.map_map]
  simp
  intro k _
  omega

theorem mem_downTo {hi lo j : Int} : j ∈ downTo hi lo ↔ lo < j ∧ j ≤ hi := by
  unfold downTo
  simp only [List.mem_map, List.mem_range]
  constructor
  · rintro ⟨k, hk, rfl⟩
    omega
  · rintro ⟨h1, h2⟩
    exact ⟨(hi - j).toNat, by omega, by omega⟩

theorem downTo_of_le {hi lo : Int} (h : hi ≤ lo) : downTo hi lo = [] := by
  unfold downTo
  have : (hi - lo).toNat = 0 := by omega
  simp [this]

theorem downTo_cons {hi lo : Int} (h : lo < hi) : downTo hi lo = hi :: downTo (hi - 1) lo := by
  unfold downTo
  have : (hi - lo).toNat = (hi - 1 - lo).toNat + 1 := by omega
  rw [this, List.range_succ_eq_map, List.map_cons, List.map_map]
  simp
  intro k _
  omega

/-! ## Sums over integer intervals -/

theorem sum_Icc_empty (f : Int → ℚ) {a b : Int} (h : b < a) :
    ∑ k in Finset.Icc a b, f k = 0 := by
  rw [Finset.Icc_eq_empty (by omega), Finset.sum_empty]

theorem sum_Icc_top (f : Int → ℚ) {a b : Int} (h : a ≤ b) :
    ∑ k in Finset.Icc a b, f k = ∑ k in Finset.Icc a (b - 1), f k + f b := by
  have e : Finset.Icc a b = insert b (Finset.Icc a (b - 1)) := by
    ext k
    simp only [Finset.mem_Icc, Finset.mem_insert]
    omega
  rw [e, Finset.sum_insert (by simp), add_comm]

theorem sum_Icc_bot (f : Int → ℚ) {a b : Int} (h : a ≤ b) :
    ∑ k in Finset.Icc a b, f k = f a + ∑ k in Finset.Icc (a + 1) b, f k := by
  have e : Finset.Icc a b = insert a (Finset.Icc (a + 1) b) := by
    ext k
    simp only [Finset.mem_Icc, Finset.mem_insert]
    omega
  rw [e, Finset.sum_insert (by simp)]

theorem sum_down_eq (x : Int → ℚ) (n : Nat) :
    ∀ (acc : ℚ) (hi lo : Int), (hi - lo).toNat = n →
      sum_down x acc hi lo = acc + ∑ k in Finset.Icc (lo + 1) hi, x k := by
  induction n with
  | zero =>
    intro acc hi lo h
    have hle : hi ≤ lo := by omega
    simp [sum_down, downTo_of_le hle, sum_Icc_empty x (show hi < lo + 1 by omega)]
  | succ n ih =>
    intro acc hi lo h
    have hlt : lo < hi := by omega
    have := ih (acc + x hi) (hi - 1) lo (by omega)
    unfold sum_down at this ⊢
    rw [downTo_cons hlt, List.foldl_cons, this, sum_Icc_top x (show lo + 1 ≤ hi by omega)]
    ring

theorem sum_Icc_split (f : Int → ℚ) (n : Nat) :
    ∀ (a b c : Int), (c - b).toNat = n → a ≤ b + 1 → b ≤ c →
      ∑ k in Finset.Icc a c, f k
        = ∑ k in Finset.Icc a b, f k + ∑ k in Finset.Icc (b + 1) c, f k := by
  induction n with
  | zero =>
    intro a b c h _ hbc
    have : c = b := by omega
    subst this
    simp
  | succ n ih =>
    intro a b c h hab hbc
    rw [sum_Icc_top f (show a ≤ c by omega), sum_Icc_top f (show b + 1 ≤ c by omega),
      ih a b (c - 1) (by omega) hab (by omega)]
    ring

theorem window_sums_eq (x : Int → ℚ) (i ishort ilong : Int) (h0 : 0 ≤ ishort)
    (h1 : ishort ≤ ilong) :
    window_sums x i ishort ilong
      = (∑ k in Finset.Icc (i - ishort + 1) i, x k, ∑ k in Finset.Icc (i - ilong + 1) i, x k) := by
  unfold window_sums
  simp only
  rw [sum_down_eq x _ 0 i (i - ishort) rfl, min_eq_right (by omega),
    sum_down_eq x _ _ (i - ishort) (i - ilong) rfl,
    sum_Icc_split x _ (i - ilong + 1) (i - ishort) i rfl (by omega) (by omega)]
  simp only [zero_add, Prod.mk.injEq, true_and]
  ring

/-! ## The crossover rule: lemmas shared by both programs -/

/-- The sums a bar works with: set from scratch at the first bar, updated by
the entering and the leaving price afterwards; both ways they are the sums of
the two windows ending at the bar. -/
theorem running_sums_eq (x : Int → ℚ) (first i ishort ilong : Int) (ss ls : ℚ)
    (hS : 0 < ishort) (hL : ishort ≤ ilong)
    (hs : i ≠ first →
      ss = ∑ k in Finset.Icc (i - 1 - ishort + 1) (i - 1), x k ∧
      ls = ∑ k in Finset.Icc (i - 1 - ilong + 1) (i - 1), x k) :
    (if i = first then window_sums x i ishort ilong
      else (ss + (x i - x (i - ishort)), ls + (x i - x (i - ilong))))
      = (∑ k in Finset.Icc (i - ishort + 1) i, x k, ∑ k in Finset.Icc (i - ilong + 1) i, x k) := by
  by_cases hi : i = first
  · rw [if_pos hi, window_sums_eq x i ishort ilong (by omega) hL]
  · rw [if_neg hi]
    obtain ⟨h1, h2⟩ := hs hi
    have e1 : i - 1 - ishort + 1 = i - ishort := by ring
    have e2 : i - 1 - ilong + 1 = i - ilong := by ring
    rw [e1] at h1
    rw [e2] at h2
    rw [h1, h2, sum_Icc_top x (show i - ishort + 1 ≤ i by omega),
      sum_Icc_top x (show i - ilong + 1 ≤ i by omega),
      sum_Icc_bot x (show i - ishort ≤ i - 1 by omega),
      sum_Icc_bot x (show i - ilong ≤ i - 1 by omega)]
    simp only [Prod.mk.injEq]
    constructor <;> ring

/-- The return taken at a bar, as the code selects it, is the position times
the one-bar change. -/
theorem ret_eq_position (x : Int → ℚ) (S L i : Int) :
    (if window_mean x S i > window_mean x L i then x (i + 1) - x i
      else if window_mean x S i < window_mean x L i then x i - x (i + 1)
      else 0) = position x S L i * (x (i + 1) - x i) := by
  unfold position
  by_cases hgt : window_mean x S i > window_mean x L i
  · simp [hgt]
  · by_cases hlt : window_mean x S i < window_mean x L i
    · simp [hgt, hlt]
    · simp [hgt, hlt]

/-! ## Permutations of a segment of cells -/

theorem upTo_nodup (a b : Int) : (upTo a b).Nodup := by
  unfold upTo
  refine List.Nodup.map (fun m n h => ?_) (List.nodup_range _)
  simpa using h

/-- A permutation that moves only the cells `a .. b` maps them to themselves. -/
theorem perm_maps_seg (π : Equiv.Perm Int) (a b : Int)
    (hfix : ∀ k, ¬ (a ≤ k ∧ k ≤ b) → π k = k) (k : Int) (hk : a ≤ k ∧ k ≤ b) :
    a ≤ π k ∧ π k ≤ b := by
  by_contra hout
  have h1 : π (π k) = π k := hfix (π k) hout
  have h2 : π k = k := π.injective h1
  rw [h2] at hout
  exact hout hk

/-- Reading the cells `a .. b` through a permutation that moves only these
cells gives the same values, in another order. -/
theorem map_perm_seg (f : Int → ℚ) (π : Equiv.Perm Int) (a b : Int)
    (hfix : ∀ k, ¬ (a ≤ k ∧ k ≤ b) → π k = k) :
    ((upTo a (b + 1)).map (fun k => f (π k))).Perm ((upTo a (b + 1)).map f) := by
  have hp : ((upTo a (b + 1)).map π).Perm (upTo a (b + 1)) := by
    refine (List.perm_ext_iff_of_nodup ((upTo_nodup a (b + 1)).map π.injective)
      (upTo_nodup a (b + 1))).mpr (fun c => ?_)
    simp only [List.mem_map, mem_upTo]
    constructor
    · rintro ⟨k, hk, rfl⟩
      have := perm_maps_seg π a b hfix k ⟨hk.1, by omega⟩
      omega
    · intro hc
      refine ⟨π.symm c, ?_, π.apply_symm_apply c⟩
      have hfix1 : ∀ k, ¬ (a ≤ k ∧ k ≤ b) → π.symm k = k := by
        intro k hk
        exact (Equiv.symm_apply_eq π).mpr (hfix k hk).symm
      have := perm_maps_seg π.symm a b hfix1 c ⟨hc.1, by omega⟩
      omega
  have := hp.map f
  rwa [List.map_map] at this

/-! ## MCPT_TRN: the grid search -/

namespace MCPT_TRN

theorem trial_eq_upto (ncases max_lookback ishort ilong : Int) (x : Int → ℚ) :
    trial ncases max_lookback ishort ilong x
      = trial_upto max_lookback ishort ilong x (ncases - 1) := rfl

theorem trial_upto_succ (max_lookback ishort ilong : Int) (x : Int → ℚ) {b : Int}
    (h : max_lookback - 1 ≤ b) :
    trial_upto max_lookback ishort ilong x (b + 1)
      = trial_step max_lookback ishort ilong x (trial_upto max_lookback ishort ilong x b) b := by
  unfold trial_upto
  rw [upTo_snoc h, List.foldl_append]
  rfl

/-- What one pass of the bar loop does, given the sums it works with. -/
theorem trial_step_of_sums (max_lookback ishort ilong : Int) (x : Int → ℚ) (s t : Trial)
    (i : Int) (hS : 0 < ishort) (hL : ishort ≤ ilong)
    (hs : i ≠ max_lookback - 1 →
      s.short_sum = ∑ k in Finset.Icc (i - 1 - ishort + 1) (i - 1), x k ∧
      s.long_sum = ∑ k in Finset.Icc (i - 1 - ilong + 1) (i - 1), x k)
    (ht : t = trial_step max_lookback ishort ilong x s i) :
    t.short_sum = ∑ k in Finset.Icc (i - ishort + 1) i, x k ∧
    t.long_sum = ∑ k in Finset.Icc (i - ilong + 1) i, x k ∧
    t.total_return = s.total_return + position x ishort ilong i * (x (i + 1) - x i) ∧
    t.nl = s.nl + (if window_mean x ishort i > window_mean x ilong i then 1 else 0) ∧
    t.ns = s.ns + (if window_mean x ishort i < window_mean x ilong i then 1 else 0) := by
  have hsums := running_sums_eq x (max_lookback - 1) i ishort ilong s.short_sum s.long_sum
    hS hL hs
  unfold trial_step at ht
  simp only [hsums] at ht
  have hm1 : (∑ k in Finset.Icc (i - ishort + 1) i, x k) / (ishort : ℚ)
      = window_mean x ishort i := rfl
  have hm2 : (∑ k in Finset.Icc (i - ilong + 1) i, x k) / (ilong : ℚ)
      = window_mean x ilong i := rfl
  rw [hm1, hm2] at ht
  unfold position
  by_cases hgt : window_mean x ishort i > window_mean x ilong i
  · have hnlt : ¬ window_mean x ishort i < window_mean x ilong i := not_lt.mpr (le_of_lt hgt)
    rw [if_pos hgt] at ht
    subst ht
    simp [hgt, hnlt]
  · by_cases hlt : window_mean x ishort i < window_mean x ilong i
    · rw [if_neg hgt, if_pos hlt] at ht
      subst ht
      simp [hgt, hlt]
    · rw [if_neg hgt, if_neg hlt] at ht
      subst ht
      simp [hgt, hlt]

theorem count_bars_top (p : Int → Prop) [DecidablePred p] {a b : Int} (h : a ≤ b) :
    count_bars p a b = count_bars p a (b - 1) + (if p b then 1 else 0) := by
  unfold count_bars
  have e : Finset.Icc a b = insert b (Finset.Icc a (b - 1)) := by
    ext k
    simp only [Finset.mem_Icc, Finset.mem_insert]
    omega
  rw [e, Finset.filter_insert]
  by_cases hp : p b
  · rw [if_pos hp, if_pos hp, Finset.card_insert_of_not_mem (by simp)]
    push_cast
    ring
  · rw [if_neg hp, if_neg hp]
    simp

theorem count_bars_empty (p : Int → Prop) [DecidablePred p] {a b : Int} (h : b < a) :
    count_bars p a b = 0 := by
  unfold count_bars
  rw [Finset.Icc_eq_empty (by omega)]
  simp

/-- The running sums of a trial are, at every bar, the sums of the two windows
taken from scratch; its total is the cumulative signed return and its counters
count the long and the short bars. -/
theorem trial_upto_spec (max_lookback ishort ilong : Int) (x : Int → ℚ)
    (hS : 0 < ishort) (hL : ishort ≤ ilong) (n : Nat) :
    ∀ i : Int, i = max_lookback - 1 + (n : Int) →
    (trial_upto max_lookback ishort ilong x (i + 1)).short_sum
      = ∑ k in Finset.Icc (i - ishort + 1) i, x k ∧
    (trial_upto max_lookback ishort ilong x (i + 1)).long_sum
      = ∑ k in Finset.Icc (i - ilong + 1) i, x k ∧
    (trial_upto max_lookback ishort ilong x (i + 1)).total_return
      = ∑ k in Finset.Icc (max_lookback - 1) i, position x ishort ilong k * (x (k + 1) - x k) ∧
    (trial_upto max_lookback ishort ilong x (i + 1)).nl
      = count_bars (fun k => window_mean x ishort k > window_mean x ilong k)
          (max_lookback - 1) i ∧
    (trial_upto max_lookback ishort ilong x (i + 1)).ns
      = count_bars (fun k => window_mean x ishort k < window_mean x ilong k)
          (max_lookback - 1) i := by
  induction n with
  | zero =>
    intro i hi
    have hi0 : i = max_lookback - 1 := by simpa using hi
    have h0 : trial_upto max_lookback ishort ilong x i
        = { short_sum := 0, long_sum := 0, total_return := 0, nl := 0, ns := 0 } := by
      unfold trial_upto
      rw [upTo_of_le (by omega)]
      rfl
    obtain ⟨h1, h2, h3, h4, h5⟩ := trial_step_of_sums max_lookback ishort ilong x
      (trial_upto max_lookback ishort ilong x i) _ i hS hL
      (fun h => absurd hi0 h) (trial_upto_succ max_lookback ishort ilong x (by omega))
    refine ⟨h1, h2, ?_, ?_, ?_⟩
    · rw [h3, h0, sum_Icc_top _ (show max_lookback - 1 ≤ i by omega),
        sum_Icc_empty _ (show i - 1 < max_lookback - 1 by omega)]
    · rw [h4, h0, count_bars_top _ (show max_lookback - 1 ≤ i by omega),
        count_bars_empty _ (show i - 1 < max_lookback - 1 by omega)]
    · rw [h5, h0, count_bars_top _ (show max_lookback - 1 ≤ i by omega),
        count_bars_empty _ (show i - 1 < max_lookback - 1 by omega)]
  | succ n ih =>
    intro i hi
    have hi1 : i - 1 = max_lookback - 1 + (n : Int) := by
      push_cast at hi
      omega
    obtain ⟨i1, i2, i3, i4, i5⟩ := ih (i - 1) hi1
    simp only [sub_add_cancel] at i1 i2 i3 i4 i5
    obtain ⟨h1, h2, h3, h4, h5⟩ := trial_step_of_sums max_lookback ishort ilong x
      (trial_upto max_lookback ishort ilong x i) _ i hS hL
      (fun _ => ⟨i1, i2⟩) (trial_upto_succ max_lookback ishort ilong x (by omega))
    refine ⟨h1, h2, ?_, ?_, ?_⟩
    · rw [h3, i3, sum_Icc_top _ (show max_lookback - 1 ≤ i by omega)]
    · rw [h4, i4, count_bars_top _ (show max_lookback - 1 ≤ i by omega)]
    · rw [h5, i5, count_bars_top _ (show max_lookback - 1 ≤ i by omega)]

/-- The total of a trial is the cumulative signed return of its pair. -/
theorem trial_total (ncases max_lookback ishort ilong : Int) (x : Int → ℚ)
    (hS : 0 < ishort) (hL : ishort ≤ ilong) (hn : max_lookback < ncases) :
    (trial ncases max_lookback ishort ilong x).total_return
      = cum_return ncases max_lookback x ishort ilong := by
  have h := (trial_upto_spec max_lookback ishort ilong x hS hL
    (ncases - 1 - max_lookback).toNat (ncases - 2) (by omega)).2.2.1
  have e : ncases - 2 + 1 = ncases - 1 := by ring
  rw [e] at h
  rw [trial_eq_upto, cum_return, signed_return, h]

end MCPT_TRN

namespace MCPT_TRN

theorem SearchInv.congr {ncases max_lookback : Int} {x : Int → ℚ} {s0 s : Search}
    {P Q : Int → Int → Prop} (h : SearchInv ncases max_lookback x s0 s P)
    (hPQ : ∀ S L, P S L ↔ Q S L) : SearchInv ncases max_lookback x s0 s Q := by
  obtain ⟨h1, h2, h3⟩ := h
  refine ⟨h1, fun S L hq => h2 S L ((hPQ S L).mpr hq), ?_⟩
  rcases h3 with h3 | ⟨S, L, hp, h4⟩
  · exact Or.inl h3
  · exact Or.inr ⟨S, L, (hPQ S L).mp hp, h4⟩

theorem SearchInv.keep_best {ncases max_lookback : Int} {x : Int → ℚ} {s0 s : Search}
    {P : Int → Int → Prop} (h : SearchInv ncases max_lookback x s0 s P) (S L : Int) :
    SearchInv ncases max_lookback x s0
      (MCPT_TRN.keep_best s S L (trial ncases max_lookback S L x))
      (fun S1 L1 => P S1 L1 ∨ (S1 = S ∧ L1 = L)) := by
  obtain ⟨h1, h2, h3⟩ := h
  unfold MCPT_TRN.keep_best
  by_cases hgt : (trial ncases max_lookback S L x).total_return > s.best_perf
  · rw [if_pos hgt]
    refine ⟨le_trans h1 (le_of_lt hgt), ?_, ?_⟩
    · rintro S1 L1 (hp | ⟨rfl, rfl⟩)
      · exact le_trans (h2 S1 L1 hp) (le_of_lt hgt)
      · exact le_refl _
    · exact Or.inr ⟨S, L, Or.inr ⟨rfl, rfl⟩, lt_of_le_of_lt h1 hgt, rfl, rfl⟩
  · rw [if_neg hgt]
    refine ⟨h1, ?_, ?_⟩
    · rintro S1 L1 (hp | ⟨rfl, rfl⟩)
      · exact h2 S1 L1 hp
      · exact not_lt.mp hgt
    · rcases h3 with h3 | ⟨S1, L1, hp, h4⟩
      · exact Or.inl h3
      · exact Or.inr ⟨S1, L1, Or.inl hp, h4⟩

theorem SearchInv.inner {ncases max_lookback : Int} {x : Int → ℚ} {s0 : Search} (L : Int)
    (lS : List Int) :
    ∀ (s : Search) (P : Int → Int → Prop), SearchInv ncases max_lookback x s0 s P →
      SearchInv ncases max_lookback x s0
        (lS.foldl (fun s ishort =>
          MCPT_TRN.keep_best s ishort L (trial ncases max_lookback ishort L x)) s)
        (fun S1 L1 => P S1 L1 ∨ (S1 ∈ lS ∧ L1 = L)) := by
  induction lS with
  | nil =>
    intro s P h
    exact h.congr (fun S1 L1 => by simp)
  | cons a tl ih =>
    intro s P h
    rw [List.foldl_cons]
    refine (ih _ _ (h.keep_best a L)).congr (fun S1 L1 => ?_)
    simp only [List.mem_cons]
    tauto

theorem SearchInv.outer {ncases max_lookback : Int} {x : Int → ℚ} {s0 : Search}
    (lL : List Int) :
    ∀ (s : Search) (P : Int → Int → Prop), SearchInv ncases max_lookback x s0 s P →
      SearchInv ncases max_lookback x s0
        (lL.foldl (fun s ilong => (upTo 1 ilong).foldl (fun s ishort =>
          MCPT_TRN.keep_best s ishort ilong (trial ncases max_lookback ishort ilong x)) s) s)
        (fun S1 L1 => P S1 L1 ∨ (L1 ∈ lL ∧ S1 ∈ upTo 1 L1)) := by
  induction lL with
  | nil =>
    intro s P h
    exact h.congr (fun S1 L1 => by simp)
  | cons a tl ih =>
    intro s P h
    rw [List.foldl_cons]
    refine (ih _ _ (SearchInv.inner a (upTo 1 a) s P h)).congr (fun S1 L1 => ?_)
    simp only [List.mem_cons]
    constructor
    · rintro ((hp | ⟨h1, rfl⟩) | ⟨h1, h2⟩)
      · exact Or.inl hp
      · exact Or.inr ⟨Or.inl rfl, h1⟩
      · exact Or.inr ⟨Or.inr h1, h2⟩
    · rintro (hp | ⟨rfl | h1, h2⟩)
      · exact Or.inl (Or.inl hp)
      · exact Or.inl (Or.inr ⟨h2, rfl⟩)
      · exact Or.inr ⟨h1, h2⟩

/-- The record left by the grid loops, in terms of the trials of the grid
`1 ≤ S < L ≤ max_lookback`. -/
theorem search_spec (ncases max_lookback : Int) (x : Int → ℚ) (s0 : Search) :
    SearchInv ncases max_lookback x s0 (search ncases max_lookback x s0)
      (fun S L => 1 ≤ S ∧ S < L ∧ L ≤ max_lookback) := by
  have h0 : SearchInv ncases max_lookback x s0 s0 (fun _ _ => False) :=
    ⟨le_refl _, fun _ _ h => h.elim, Or.inl rfl⟩
  refine (SearchInv.outer (upTo 2 (max_lookback + 1)) s0 _ h0).congr (fun S L => ?_)
  simp only [mem_upTo, false_or]
  omega

end MCPT_TRN

/-- C1. `opt_params` of MCPT_TRN is an exact argmax over the whole grid: for
`2 ≤ max_lookback < ncases`, when every trial total is above the sentinel, the
returned pair is a grid pair `1 ≤ S < L ≤ max_lookback`, the returned score is the
cumulative signed return of that pair, and no grid pair has a greater one. -/
theorem MCPT_TRN.opt_params_argmax (ncases max_lookback : Int) (x : Int → ℚ)
    (out : MCPT_TRN.Outs) (h2 : 2 ≤ max_lookback) (hn : max_lookback < ncases)
    (hs : ∀ S L : Int, 1 ≤ S → S < L → L ≤ max_lookback →
      sentinel < MCPT_TRN.cum_return ncases max_lookback x S L) :
    (1 ≤ (MCPT_TRN.opt_params ncases max_lookback x out).2.short_term ∧
      (MCPT_TRN.opt_params ncases max_lookback x out).2.short_term
        < (MCPT_TRN.opt_params ncases max_lookback x out).2.long_term ∧
      (MCPT_TRN.opt_params ncases max_lookback x out).2.long_term ≤ max_lookback) ∧
    (MCPT_TRN.opt_params ncases max_lookback x out).1
      = MCPT_TRN.cum_return ncases max_lookback x
          (MCPT_TRN.opt_params ncases max_lookback x out).2.short_term
          (MCPT_TRN.opt_params ncases max_lookback x out).2.long_term ∧
    ∀ S L : Int, 1 ≤ S → S < L → L ≤ max_lookback →
      MCPT_TRN.cum_return ncases max_lookback x S L
        ≤ (MCPT_TRN.opt_params ncases max_lookback x out).1 := by
  obtain ⟨_, hmax, hatt⟩ := MCPT_TRN.search_spec ncases max_lookback x
    { best_perf := sentinel, out := out }
  have hle : ∀ S L : Int, 1 ≤ S → S < L → L ≤ max_lookback →
      MCPT_TRN.cum_return ncases max_lookback x S L
        ≤ (MCPT_TRN.opt_params ncases max_lookback x out).1 := by
    intro S L h1 hSL hL
    rw [← MCPT_TRN.trial_total ncases max_lookback S L x (by omega) (by omega) hn]
    exact hmax S L ⟨h1, hSL, hL⟩
  rcases hatt with heq | ⟨S, L, ⟨h1, hSL, hL⟩, _, hbest, hout⟩
  · exfalso
    have h := hle 1 2 (le_refl _) (by norm_num) h2
    have h' := hs 1 2 (le_refl _) (by norm_num) h2
    have : (MCPT_TRN.opt_params ncases max_lookback x out).1 = sentinel := by
      show (MCPT_TRN.search ncases max_lookback x _).best_perf = sentinel
      rw [heq]
    rw [this] at h
    exact absurd h' (not_lt.mpr h)
  · have e1 : (MCPT_TRN.opt_params ncases max_lookback x out).2.short_term = S := by
      show (MCPT_TRN.search ncases max_lookback x _).out.short_term = S
      rw [hout]
    have e2 : (MCPT_TRN.opt_params ncases max_lookback x out).2.long_term = L := by
      show (MCPT_TRN.search ncases max_lookback x _).out.long_term = L
      rw [hout]
    refine ⟨?_, ?_, hle⟩
    · rw [e1, e2]
      exact ⟨h1, hSL, hL⟩
    · rw [e1, e2, ← MCPT_TRN.trial_total ncases max_lookback S L x (by omega) (by omega) hn]
      exact hbest

/-- C1, at a series of five prices with `max_lookback = 3`. -/
theorem MCPT_TRN.opt_params_argmax_witness :
    (1 ≤ (MCPT_TRN.opt_params 5 3 (fun j => if j = 2 then 5 else (j : ℚ)) ⟨0, 0, 0, 0⟩).2.short_term ∧
      (MCPT_TRN.opt_params 5 3 (fun j => if j = 2 then 5 else (j : ℚ)) ⟨0, 0, 0, 0⟩).2.short_term
        < (MCPT_TRN.opt_params 5 3 (fun j => if j = 2 then 5 else (j : ℚ)) ⟨0, 0, 0, 0⟩).2.long_term ∧
      (MCPT_TRN.opt_params 5 3 (fun j => if j = 2 then 5 else (j : ℚ)) ⟨0, 0, 0, 0⟩).2.long_term ≤ 3) ∧
    (MCPT_TRN.opt_params 5 3 (fun j => if j = 2 then 5 else (j : ℚ)) ⟨0, 0, 0, 0⟩).1
      = MCPT_TRN.cum_return 5 3 (fun j => if j = 2 then 5 else (j : ℚ))
          (MCPT_TRN.opt_params 5 3 (fun j => if j = 2 then 5 else (j : ℚ)) ⟨0, 0, 0, 0⟩).2.short_term
          (MCPT_TRN.opt_params 5 3 (fun j => if j = 2 then 5 else (j : ℚ)) ⟨0, 0, 0, 0⟩).2.long_term ∧
    ∀ S L : Int, 1 ≤ S → S < L → L ≤ 3 →
      MCPT_TRN.cum_return 5 3 (fun j => if j = 2 then 5 else (j : ℚ)) S L
        ≤ (MCPT_TRN.opt_params 5 3 (fun j => if j = 2 then 5 else (j : ℚ)) ⟨0, 0, 0, 0⟩).1 :=
  MCPT_TRN.opt_params_argmax 5 3 (fun j => if j = 2 then 5 else (j : ℚ)) ⟨0, 0, 0, 0⟩
    (by decide) (by decide)
    (by
      intro S L h1 h2 h3
      have hL : L = 2 ∨ L = 3 := by omega
      have hS : S = 1 ∨ S = 2 := by omega
      rcases hL with rfl | rfl <;> rcases hS with rfl | rfl
      · decide!
      · omega
      · decide!
      · decide!)

/-! ## BND_RET: the grid search and the out-of-sample test -/

namespace BND_RET

theorem bnd_trial_upto_succ (ishort ilong : Int) (x : Int → ℚ) {b : Int}
    (h : ilong - 1 ≤ b) :
    trial_upto ishort ilong x (b + 1)
      = trial_step ishort ilong x (trial_upto ishort ilong x b) b := by
  unfold trial_upto
  rw [upTo_snoc h, List.foldl_append]
  rfl

theorem bnd_trial_step_of_sums (ishort ilong : Int) (x : Int → ℚ) (s t : Trial)
    (i : Int) (hS : 0 < ishort) (hL : ishort ≤ ilong)
    (hs : i ≠ ilong - 1 →
      s.short_sum = ∑ k in Finset.Icc (i - 1 - ishort + 1) (i - 1), x k ∧
      s.long_sum = ∑ k in Finset.Icc (i - 1 - ilong + 1) (i - 1), x k)
    (ht : t = trial_step ishort ilong x s i) :
    t.short_sum = ∑ k in Finset.Icc (i - ishort + 1) i, x k ∧
    t.long_sum = ∑ k in Finset.Icc (i - ilong + 1) i, x k ∧
    t.total_return = s.total_return + position x ishort ilong i * (x (i + 1) - x i) := by
  unfold trial_step at ht
  simp only [running_sums_eq x (ilong - 1) i ishort ilong _ _ hS hL hs] at ht
  have hm1 : (∑ k in Finset.Icc (i - ishort + 1) i, x k) / (ishort : ℚ)
      = window_mean x ishort i := rfl
  have hm2 : (∑ k in Finset.Icc (i - ilong + 1) i, x k) / (ilong : ℚ)
      = window_mean x ilong i := rfl
  rw [hm1, hm2, ret_eq_position] at ht
  subst ht
  exact ⟨rfl, rfl, rfl⟩

/-- The running sums of a trial are, at every bar, the sums of the two windows
taken from scratch, and its total is the signed return so far. -/
theorem bnd_trial_upto_spec (ishort ilong : Int) (x : Int → ℚ)
    (hS : 0 < ishort) (hL : ishort ≤ ilong) (n : Nat) :
    ∀ i : Int, i = ilong - 1 + (n : Int) →
    (trial_upto ishort ilong x (i + 1)).short_sum
      = ∑ k in Finset.Icc (i - ishort + 1) i, x k ∧
    (trial_upto ishort ilong x (i + 1)).long_sum
      = ∑ k in Finset.Icc (i - ilong + 1) i, x k ∧
    (trial_upto ishort ilong x (i + 1)).total_return
      = signed_return x ishort ilong (ilong - 1) i := by
  induction n with
  | zero =>
    intro i hi
    have hi0 : i = ilong - 1 := by simpa using hi
    have h0 : trial_upto ishort ilong x i
        = { short_sum := 0, long_sum := 0, total_return := 0 } := by
      unfold trial_upto
      rw [upTo_of_le (by omega)]
      rfl
    obtain ⟨h1, h2, h3⟩ := bnd_trial_step_of_sums ishort ilong x
      (trial_upto ishort ilong x i) _ i hS hL
      (fun h => absurd hi0 h) (bnd_trial_upto_succ ishort ilong x (by omega))
    refine ⟨h1, h2, ?_⟩
    rw [h3, h0, signed_return, sum_Icc_top _ (show ilong - 1 ≤ i by omega),
      sum_Icc_empty _ (show i - 1 < ilong - 1 by omega)]
  | succ n ih =>
    intro i hi
    have hi1 : i - 1 = ilong - 1 + (n : Int) := by
      push_cast at hi
      omega
    obtain ⟨i1, i2, i3⟩ := ih (i - 1) hi1
    simp only [sub_add_cancel] at i1 i2 i3
    obtain ⟨h1, h2, h3⟩ := bnd_trial_step_of_sums ishort ilong x
      (trial_upto ishort ilong x i) _ i hS hL
      (fun _ => ⟨i1, i2⟩) (bnd_trial_upto_succ ishort ilong x (by omega))
    refine ⟨h1, h2, ?_⟩
    rw [h3, i3, signed_return, signed_return, sum_Icc_top _ (show ilong - 1 ≤ i by omega)]

/-- The total of a trial over the bars `ilong-1 .. b-1`. -/
theorem bnd_trial_total (ishort ilong : Int) (x : Int → ℚ) (hS : 0 < ishort)
    (hL : ishort ≤ ilong) (b : Int) :
    (trial_upto ishort ilong x b).total_return
      = signed_return x ishort ilong (ilong - 1) (b - 1) := by
  by_cases hb : ilong - 1 < b
  · have h := (bnd_trial_upto_spec ishort ilong x hS hL (b - 1 - (ilong - 1)).toNat
      (b - 1) (by omega)).2.2
    simpa only [sub_add_cancel] using h
  · unfold trial_upto
    rw [upTo_of_le (by omega), signed_return, sum_Icc_empty _ (by omega)]
    rfl

theorem test_step_eq (x : Int → ℚ) (S L : Int) (sum : ℚ) (i : Int) (hS : 0 < S)
    (hL : S ≤ L) :
    test_step x S L sum i = sum + position x S L i * (x (i + 1) - x i) := by
  unfold test_step
  simp only [window_sums_eq x i S L (by omega) hL]
  have hm1 : (∑ k in Finset.Icc (i - S + 1) i, x k) / (S : ℚ) = window_mean x S i := rfl
  have hm2 : (∑ k in Finset.Icc (i - L + 1) i, x k) / (L : ℚ) = window_mean x L i := rfl
  rw [hm1, hm2]
  unfold position
  by_cases hgt : window_mean x S i > window_mean x L i
  · simp [hgt]
  · by_cases hlt : window_mean x S i < window_mean x L i
    · simp [hgt, hlt]
      ring
    · simp [hgt, hlt]

/-- The running total of `test_system` over the bars `L-1 .. b-1`. -/
theorem test_fold_eq (x : Int → ℚ) (S L : Int) (hS : 0 < S) (hL : S ≤ L) (n : Nat) :
    ∀ b : Int, b = L - 1 + (n : Int) →
      (upTo (L - 1) b).foldl (test_step x S L) 0 = signed_return x S L (L - 1) (b - 1) := by
  induction n with
  | zero =>
    intro b hb
    rw [upTo_of_le (by omega), signed_return, sum_Icc_empty _ (by omega)]
    rfl
  | succ n ih =>
    intro b hb
    have hb1 : b - 1 = L - 1 + (n : Int) := by
      push_cast at hb
      omega
    have e : b = b - 1 + 1 := by ring
    have h := ih (b - 1) hb1
    rw [e, upTo_snoc (by omega), List.foldl_append, h, ← e]
    simp only [List.foldl_cons, List.foldl_nil]
    rw [test_step_eq x S L _ _ hS hL, signed_return, signed_return,
      sum_Icc_top _ (show L - 1 ≤ b - 1 by omega)]

/-- `test_system` is the mean signed return of the pair over its `n` bars. -/
theorem test_system_eq (n : Int) (x : Int → ℚ) (S L : Int) (hS : 0 < S) (hL : S ≤ L) :
    test_system n x S L = signed_return x S L (L - 1) (L - 1 + n - 1) / (n : ℚ) := by
  unfold test_system
  by_cases hn : 0 ≤ n
  · rw [test_fold_eq x S L hS hL n.toNat (L - 1 + n) (by omega)]
  · rw [upTo_of_le (by omega), signed_return, sum_Icc_empty _ (by omega)]
    rfl

/-- The score of a trial of the grid search is what `test_system` computes
from scratch for its pair over the same bars. -/
theorem trial_score_eq_test_system (ncases : Int) (x : Int → ℚ) (S L : Int) (hS : 0 < S)
    (hL : S ≤ L) : trial_score ncases S L x = test_system (ncases - L) x S L := by
  rw [test_system_eq _ x S L hS hL, trial_score, bnd_trial_total S L x hS hL]
  have e : L - 1 + (ncases - L) - 1 = ncases - 1 - 1 := by ring
  rw [e]

theorem SearchInv.bnd_congr {ncases : Int} {x : Int → ℚ} {s0 s : Search}
    {P Q : Int → Int → Prop} (h : SearchInv ncases x s0 s P)
    (hPQ : ∀ S L, P S L ↔ Q S L) : SearchInv ncases x s0 s Q := by
  obtain ⟨h1, h2, h3⟩ := h
  refine ⟨h1, fun S L hq => h2 S L ((hPQ S L).mpr hq), ?_⟩
  rcases h3 with h3 | ⟨S, L, hp, h4⟩
  · exact Or.inl h3
  · exact Or.inr ⟨S, L, (hPQ S L).mp hp, h4⟩

theorem SearchInv.bnd_keep_best {ncases : Int} {x : Int → ℚ} {s0 s : Search}
    {P : Int → Int → Prop} (h : SearchInv ncases x s0 s P) (S L : Int) :
    SearchInv ncases x s0 (BND_RET.keep_best s S L (trial_score ncases S L x))
      (fun S1 L1 => P S1 L1 ∨ (S1 = S ∧ L1 = L)) := by
  obtain ⟨h1, h2, h3⟩ := h
  unfold BND_RET.keep_best
  by_cases hgt : trial_score ncases S L x > s.best_perf
  · rw [if_pos hgt]
    refine ⟨le_trans h1 (le_of_lt hgt), ?_, ?_⟩
    · rintro S1 L1 (hp | ⟨rfl, rfl⟩)
      · exact le_trans (h2 S1 L1 hp) (le_of_lt hgt)
      · exact le_refl _
    · exact Or.inr ⟨S, L, Or.inr ⟨rfl, rfl⟩, lt_of_le_of_lt h1 hgt, rfl, rfl⟩
  · rw [if_neg hgt]
    refine ⟨h1, ?_, ?_⟩
    · rintro S1 L1 (hp | ⟨rfl, rfl⟩)
      · exact h2 S1 L1 hp
      · exact not_lt.mp hgt
    · rcases h3 with h3 | ⟨S1, L1, hp, h4⟩
      · exact Or.inl h3
      · exact Or.inr ⟨S1, L1, Or.inl hp, h4⟩

theorem SearchInv.bnd_inner {ncases : Int} {x : Int → ℚ} {s0 : Search} (L : Int)
    (lS : List Int) :
    ∀ (s : Search) (P : Int → Int → Prop), SearchInv ncases x s0 s P →
      SearchInv ncases x s0
        (lS.foldl (fun s ishort =>
          BND_RET.keep_best s ishort L (trial_score ncases ishort L x)) s)
        (fun S1 L1 => P S1 L1 ∨ (S1 ∈ lS ∧ L1 = L)) := by
  induction lS with
  | nil =>
    intro s P h
    exact h.bnd_congr (fun S1 L1 => by simp)
  | cons a tl ih =>
    intro s P h
    rw [List.foldl_cons]
    refine (ih _ _ (h.bnd_keep_best a L)).bnd_congr (fun S1 L1 => ?_)
    simp only [List.mem_cons]
    tauto

theorem SearchInv.bnd_outer {ncases : Int} {x : Int → ℚ} {s0 : Search} (lL : List Int) :
    ∀ (s : Search) (P : Int → Int → Prop), SearchInv ncases x s0 s P →
      SearchInv ncases x s0
        (lL.foldl (fun s ilong => (upTo 1 ilong).foldl (fun s ishort =>
          BND_RET.keep_best s ishort ilong (trial_score ncases ishort ilong x)) s) s)
        (fun S1 L1 => P S1 L1 ∨ (L1 ∈ lL ∧ S1 ∈ upTo 1 L1)) := by
  induction lL with
  | nil =>
    intro s P h
    exact h.bnd_congr (fun S1 L1 => by simp)
  | cons a tl ih =>
    intro s P h
    rw [List.foldl_cons]
    refine (ih _ _ (SearchInv.bnd_inner a (upTo 1 a) s P h)).bnd_congr (fun S1 L1 => ?_)
    simp only [List.mem_cons]
    constructor
    · rintro ((hp | ⟨h1, rfl⟩) | ⟨h1, h2⟩)
      · exact Or.inl hp
      · exact Or.inr ⟨Or.inl rfl, h1⟩
      · exact Or.inr ⟨Or.inr h1, h2⟩
    · rintro (hp | ⟨rfl | h1, h2⟩)
      · exact Or.inl (Or.inl hp)
      · exact Or.inl (Or.inr ⟨h2, rfl⟩)
      · exact Or.inr ⟨h1, h2⟩

/-- The record left by the grid loops of BND_RET, in terms of the trials of
the grid it visits, `1 ≤ S < L < max_lookback`. -/
theorem bnd_search_spec (ncases max_lookback : Int) (x : Int → ℚ) (s0 : Search) :
    SearchInv ncases x s0 (search ncases max_lookback x s0)
      (fun S L => 1 ≤ S ∧ S < L ∧ L < max_lookback) := by
  have h0 : SearchInv ncases x s0 s0 (fun _ _ => False) :=
    ⟨le_refl _, fun _ _ h => h.elim, Or.inl rfl⟩
  refine (SearchInv.bnd_outer (upTo 2 max_lookback) s0 _ h0).bnd_congr (fun S L => ?_)
  simp only [mem_upTo, false_or]
  omega

end BND_RET

/-- C2. No drift between the incremental and the from-scratch computation in
BND_RET: for `3 ≤ max_lookback < ncases`, when `opt_params` returns the score `p`
with the pair `(S, L)`, then `p = test_system (ncases - L) x S L`; and in every
trial `1 ≤ S < L`, at every bar `i ≥ L-1`, the running sums updated bar to bar
are the two window sums that `test_system` takes from scratch at that bar. -/
theorem BND_RET.opt_params_eq_test_system (ncases max_lookback : Int) (x : Int → ℚ)
    (p : ℚ) (S L : Int) (_h3 : 3 ≤ max_lookback) (_hn : max_lookback < ncases)
    (hret : BND_RET.opt_params ncases max_lookback x = (p, some (S, L))) :
    p = BND_RET.test_system (ncases - L) x S L ∧
    ∀ S1 L1 i : Int, 1 ≤ S1 → S1 < L1 → L1 - 1 ≤ i →
      (BND_RET.trial_upto S1 L1 x (i + 1)).short_sum = (window_sums x i S1 L1).1 ∧
      (BND_RET.trial_upto S1 L1 x (i + 1)).long_sum = (window_sums x i S1 L1).2 := by
  constructor
  · obtain ⟨_, _, hatt⟩ := BND_RET.bnd_search_spec ncases max_lookback x
      { best_perf := sentinel, ibest := none }
    have hp : (BND_RET.search ncases max_lookback x
        { best_perf := sentinel, ibest := none }).best_perf = p :=
      congrArg Prod.fst hret
    have hi : (BND_RET.search ncases max_lookback x
        { best_perf := sentinel, ibest := none }).ibest = some (S, L) :=
      congrArg Prod.snd hret
    rcases hatt with heq | ⟨S1, L1, ⟨h1, hSL, _⟩, _, hbest, hout⟩
    · rw [heq] at hi
      exact absurd hi (by simp)
    · rw [hout] at hi
      simp only [Option.some.injEq, Prod.mk.injEq] at hi
      obtain ⟨rfl, rfl⟩ := hi
      rw [← hp, hbest]
      exact BND_RET.trial_score_eq_test_system ncases x S1 L1 (by omega) (by omega)
  · intro S1 L1 i h1 hSL hi
    obtain ⟨e1, e2, _⟩ := BND_RET.bnd_trial_upto_spec S1 L1 x (by omega) (by omega)
      (i - (L1 - 1)).toNat i (by omega)
    rw [e1, e2, window_sums_eq x i S1 L1 (by omega) (by omega)]
    exact ⟨rfl, rfl⟩

set_option maxRecDepth 100000 in
/-- C2, at a series of five prices with `max_lookback = 4`. -/
theorem BND_RET.opt_params_eq_test_system_witness :
    (1 / 3 : ℚ) = BND_RET.test_system (5 - 2) (fun j => if j = 2 then 5 else (j : ℚ)) 1 2 ∧
    ∀ S1 L1 i : Int, 1 ≤ S1 → S1 < L1 → L1 - 1 ≤ i →
      (BND_RET.trial_upto S1 L1 (fun j => if j = 2 then 5 else (j : ℚ)) (i + 1)).short_sum
        = (window_sums (fun j => if j = 2 then 5 else (j : ℚ)) i S1 L1).1 ∧
      (BND_RET.trial_upto S1 L1 (fun j => if j = 2 then 5 else (j : ℚ)) (i + 1)).long_sum
        = (window_sums (fun j => if j = 2 then 5 else (j : ℚ)) i S1 L1).2 :=
  BND_RET.opt_params_eq_test_system 5 4 (fun j => if j = 2 then 5 else (j : ℚ)) (1 / 3) 1 2
    (by decide) (by decide) (by decide!)

/-! ## MCPT_TRN: the permutation routines -/

theorem trunc_nonneg {q : ℚ} (h : 0 ≤ q) : 0 ≤ trunc q := by
  unfold trunc
  rw [if_pos h]
  exact Int.floor_nonneg.mpr h

/-- Telescoping sum of the one-bar differences. -/
theorem sum_differences (data : Int → ℚ) (n : Nat) :
    ∀ b : Int, b = (n : Int) - 1 →
      ∑ k in Finset.Icc 0 b, (data (k + 1) - data k) = data (b + 1) - data 0 := by
  induction n with
  | zero =>
    intro b hb
    have : b = -1 := by simpa using hb
    subst this
    rw [sum_Icc_empty _ (by norm_num)]
    norm_num
  | succ n ih =>
    intro b hb
    push_cast at hb
    rw [sum_Icc_top _ (show (0 : Int) ≤ b by omega), ih (b - 1) (by omega)]
    simp only [sub_add_cancel]
    ring

namespace MCPT_TRN

/-- The `changes` array that `prepare_permute` leaves. -/
theorem prepare_permute_eq (nc : Int) (data work : Int → ℚ) (k : Int) :
    prepare_permute nc data work k
      = if 0 ≤ k ∧ k ≤ nc - 2 then data (k + 1) - data k else work k := by
  have key : ∀ (n : Nat) (b : Int), b = 1 + (n : Int) →
      (upTo 1 b).foldl
        (fun ch icase => Function.update ch (icase - 1) (data icase - data (icase - 1))) work k
        = if 0 ≤ k ∧ k ≤ b - 2 then data (k + 1) - data k else work k := by
    intro n
    induction n with
    | zero =>
      intro b hb
      rw [upTo_of_le (by omega), if_neg (by omega)]
      rfl
    | succ n ih =>
      intro b hb
      push_cast at hb
      have e : b = b - 1 + 1 := by ring
      rw [e, upTo_snoc (by omega), List.foldl_append, ← e]
      simp only [List.foldl_cons, List.foldl_nil]
      by_cases hk : k = b - 1 - 1
      · subst hk
        rw [Function.update_same, if_pos (by omega)]
        simp only [sub_add_cancel]
      · rw [Function.update_noteq hk, ih (b - 1) (by omega)]
        by_cases hin : 0 ≤ k ∧ k ≤ b - 2
        · rw [if_pos hin, if_pos (by omega)]
        · rw [if_neg hin, if_neg (by omega)]
  by_cases h : 1 ≤ nc
  · exact key (nc - 1).toNat nc (by omega)
  · unfold prepare_permute
    rw [upTo_of_le (by omega), if_neg (by omega)]
    rfl

/-- The `data` array that the rebuilding loop leaves. -/
theorem rebuild_eq (nc : Int) (data ch : Int → ℚ) (k : Int) :
    rebuild nc data ch k
      = if 1 ≤ k ∧ k ≤ nc - 1 then data 0 + ∑ j in Finset.Icc 0 (k - 1), ch j else data k := by
  have key : ∀ (n : Nat) (b : Int), b = 1 + (n : Int) → ∀ k : Int,
      (upTo 1 b).foldl
        (fun d icase => Function.update d icase (d (icase - 1) + ch (icase - 1))) data k
        = if 1 ≤ k ∧ k ≤ b - 1 then data 0 + ∑ j in Finset.Icc 0 (k - 1), ch j else data k := by
    intro n
    induction n with
    | zero =>
      intro b hb k
      rw [upTo_of_le (by omega), if_neg (by omega)]
      rfl
    | succ n ih =>
      intro b hb k
      push_cast at hb
      have e : b = b - 1 + 1 := by ring
      rw [e, upTo_snoc (by omega), List.foldl_append, ← e]
      simp only [List.foldl_cons, List.foldl_nil]
      by_cases hk : k = b - 1
      · subst hk
        rw [Function.update_same, if_pos (by omega), ih (b - 1) (by omega) (b - 1 - 1)]
        by_cases h1 : b - 1 = 1
        · rw [if_neg (by omega), h1]
          norm_num
        · rw [if_pos (by omega), sum_Icc_top ch (show (0 : Int) ≤ b - 1 - 1 by omega)]
          ring
      · rw [Function.update_noteq hk, ih (b - 1) (by omega) k]
        by_cases hin : 1 ≤ k ∧ k ≤ b - 1
        · rw [if_pos hin, if_pos (by omega)]
        · rw [if_neg hin, if_neg (by omega)]
  by_cases h : 1 ≤ nc
  · exact key (nc - 1).toNat nc (by omega) k
  · unfold rebuild
    rw [upTo_of_le (by omega), if_neg (by omega)]
    rfl

/-- One pass of the shuffle loop exchanges two cells of `0 .. i-1`. -/
theorem shuffle_step_swap {σ : Type} (unifrand : σ → ℚ × σ)
    (hu : ∀ g, 0 ≤ (unifrand g).1) (s : (Int → ℚ) × σ) (i : Int) (hi : 2 ≤ i) :
    ∃ j : Int, 0 ≤ j ∧ j ≤ i - 1 ∧
      (shuffle_step unifrand s i).1 = s.1 ∘ (Equiv.swap (i - 1) j) := by
  have h0 : 0 ≤ trunc ((unifrand s.2).1 * (i : ℚ)) :=
    trunc_nonneg (mul_nonneg (hu s.2) (by exact_mod_cast (show (0 : Int) ≤ i by omega)))
  refine ⟨if trunc ((unifrand s.2).1 * (i : ℚ)) ≥ i then i - 1
    else trunc ((unifrand s.2).1 * (i : ℚ)), ?_, ?_, ?_⟩
  · split_ifs <;> omega
  · split_ifs <;> omega
  · generalize hj : (if trunc ((unifrand s.2).1 * (i : ℚ)) ≥ i then i - 1
      else trunc ((unifrand s.2).1 * (i : ℚ))) = j
    have : (shuffle_step unifrand s i).1
        = Function.update (Function.update s.1 (i - 1) (s.1 j)) j (s.1 (i - 1)) := by
      unfold shuffle_step
      simp only [hj]
    rw [this]
    funext k
    simp only [Function.comp_apply]
    by_cases hkj : k = j
    · subst hkj
      rw [Function.update_same, Equiv.swap_apply_right]
    · rw [Function.update_noteq hkj]
      by_cases hki : k = i - 1
      · subst hki
        rw [Function.update_same, Equiv.swap_apply_left]
      · rw [Function.update_noteq hki, Equiv.swap_apply_of_ne_of_ne hki hkj]

/-- The shuffle loop rearranges the cells `0 .. nc-2` of `changes` by a
permutation and touches no other cell. -/
theorem shuffle_perm {σ : Type} (unifrand : σ → ℚ × σ) (hu : ∀ g, 0 ≤ (unifrand g).1)
    (nc : Int) (ch : Int → ℚ) (g : σ) :
    ∃ π : Equiv.Perm Int, (∀ k, ¬ (0 ≤ k ∧ k ≤ nc - 2) → π k = k) ∧
      (shuffle unifrand nc ch g).1 = ch ∘ π := by
  have key : ∀ (l : List Int), (∀ i ∈ l, 2 ≤ i ∧ i ≤ nc - 1) → ∀ s : (Int → ℚ) × σ,
      ∃ π : Equiv.Perm Int, (∀ k, ¬ (0 ≤ k ∧ k ≤ nc - 2) → π k = k) ∧
        (l.foldl (shuffle_step unifrand) s).1 = s.1 ∘ π := by
    intro l
    induction l with
    | nil =>
      intro _ s
      exact ⟨1, fun _ _ => rfl, rfl⟩
    | cons i tl ih =>
      intro hl s
      obtain ⟨hi2, hin⟩ := hl i (List.mem_cons_self _ _)
      obtain ⟨j, hj0, hji, hstep⟩ := shuffle_step_swap unifrand hu s i hi2
      obtain ⟨π, hfix, hπ⟩ := ih (fun a ha => hl a (List.mem_cons_of_mem _ ha))
        (shuffle_step unifrand s i)
      refine ⟨Equiv.swap (i - 1) j * π, ?_, ?_⟩
      · intro k hk
        rw [Equiv.Perm.mul_apply, hfix k hk,
          Equiv.swap_apply_of_ne_of_ne (by omega) (by omega)]
      · rw [List.foldl_cons, hπ, hstep]
        funext k
        simp only [Function.comp_apply, Equiv.Perm.mul_apply]
  exact key (downTo (nc - 1) 1) (fun i hi => by
    have := mem_downTo.mp hi
    omega) (ch, g)

theorem PermuteInv.prepare {σ : Type} (nc : Int) (data work : Int → ℚ) (g : σ) :
    PermuteInv nc data
      ({ data := data, changes := prepare_permute nc data work, rng := g } : Permuting σ) := by
  refine ⟨rfl, ?_, 1, fun _ _ => rfl, ?_⟩
  · intro k h1 hk
    have hsum : ∑ j in Finset.Icc 0 (k - 1), prepare_permute nc data work j
        = ∑ j in Finset.Icc 0 (k - 1), (data (j + 1) - data j) := by
      refine Finset.sum_congr rfl (fun j hj => ?_)
      rw [Finset.mem_Icc] at hj
      rw [prepare_permute_eq, if_pos (by omega)]
    show data k = _
    rw [hsum, sum_differences data k.toNat (k - 1) (by omega)]
    simp only [sub_add_cancel]
    ring
  · intro k h0 hk
    show prepare_permute nc data work k = _
    rw [prepare_permute_eq, if_pos ⟨h0, hk⟩]
    rfl

theorem PermuteInv.do_permute {σ : Type} (unifrand : σ → ℚ × σ)
    (hu : ∀ g, 0 ≤ (unifrand g).1) (nc : Int) (data0 : Int → ℚ) (s : Permuting σ)
    (h : PermuteInv nc data0 s) : PermuteInv nc data0 (MCPT_TRN.do_permute unifrand nc s) := by
  obtain ⟨hd0, _, π, hfix, hπ⟩ := h
  obtain ⟨π1, hfix1, hsh⟩ := shuffle_perm unifrand hu nc s.changes s.rng
  refine ⟨?_, ?_, π * π1, ?_, ?_⟩
  · show rebuild nc s.data _ 0 = _
    rw [rebuild_eq, if_neg (by omega), hd0]
  · intro k h1 hk
    show rebuild nc s.data _ k = _
    rw [rebuild_eq, if_pos ⟨h1, hk⟩, hd0]
    rfl
  · intro k hk
    rw [Equiv.Perm.mul_apply, hfix1 k hk, hfix k hk]
  · intro k h0 hk
    show (shuffle unifrand nc s.changes s.rng).1 k = _
    have hin := perm_maps_seg π1 0 (nc - 2) hfix1 k ⟨h0, hk⟩
    rw [hsh, Function.comp_apply, hπ (π1 k) hin.1 hin.2, Equiv.Perm.mul_apply]

/-- The invariant holds after `prepare_permute` and any number of calls of
`do_permute` on the same arrays. -/
theorem PermuteInv.iterate {σ : Type} (unifrand : σ → ℚ × σ)
    (hu : ∀ g, 0 ≤ (unifrand g).1) (nc : Int) (data work : Int → ℚ) (g : σ) (reps : Nat) :
    PermuteInv nc data ((MCPT_TRN.do_permute unifrand nc)^[reps]
      { data := data, changes := prepare_permute nc data work, rng := g }) := by
  induction reps with
  | zero => exact PermuteInv.prepare nc data work g
  | succ n ih =>
    rw [Function.iterate_succ_apply']
    exact PermuteInv.do_permute unifrand hu nc data _ ih

end MCPT_TRN

/-- C3. Anchor invariant of the permutation: for `nc ≥ 1`, any prices `data`,
any generator whose draws are not negative, `changes` computed by
`prepare_permute`, after any number `reps` of successive `do_permute` calls on
the same buffers the first price `data[0]` and the last price `data[nc-1]` are
exactly what they were before the first call. -/
theorem MCPT_TRN.do_permute_anchors {σ : Type} (unifrand : σ → ℚ × σ)
    (hu : ∀ g, 0 ≤ (unifrand g).1) (nc : Int) (hnc : 1 ≤ nc) (data work : Int → ℚ) (g : σ)
    (reps : Nat) :
    ((MCPT_TRN.do_permute unifrand nc)^[reps]
      { data := data, changes := MCPT_TRN.prepare_permute nc data work, rng := g }).data 0
      = data 0 ∧
    ((MCPT_TRN.do_permute unifrand nc)^[reps]
      { data := data, changes := MCPT_TRN.prepare_permute nc data work, rng := g }).data (nc - 1)
      = data (nc - 1) := by
  obtain ⟨h0, hk, π, hfix, hπ⟩ := MCPT_TRN.PermuteInv.iterate unifrand hu nc data work g reps
  refine ⟨h0, ?_⟩
  by_cases h1 : nc = 1
  · subst h1
    simpa using h0
  · rw [hk (nc - 1) (by omega) (le_refl _)]
    have e : nc - 1 - 1 = nc - 2 := by ring
    rw [e]
    have hsum : ∑ j in Finset.Icc 0 (nc - 2),
        ((MCPT_TRN.do_permute unifrand nc)^[reps]
          { data := data, changes := MCPT_TRN.prepare_permute nc data work, rng := g }).changes j
        = ∑ j in Finset.Icc 0 (nc - 2), (fun k => data (k + 1) - data k) (π j) := by
      refine Finset.sum_congr rfl (fun j hj => ?_)
      rw [Finset.mem_Icc] at hj
      exact hπ j hj.1 hj.2
    rw [hsum, Equiv.Perm.sum_comp π (Finset.Icc 0 (nc - 2)) (fun k => data (k + 1) - data k)
      (fun a ha => by
        rw [Finset.coe_Icc, Set.mem_Icc]
        by_contra hout
        exact ha (hfix a hout)),
      sum_differences data (nc - 1).toNat (nc - 2) (by omega)]
    have e2 : nc - 2 + 1 = nc - 1 := by ring
    rw [e2]
    ring

/-- C3, at five prices shuffled twice with the draws 1/2, 9/10, 1, 1/3, 0, 2/3. -/
theorem MCPT_TRN.do_permute_anchors_witness :
    ((MCPT_TRN.do_permute MCPT_TRN.replay 5)^[2]
      { data := fun j => if j = 2 then 5 else (j : ℚ),
        changes := MCPT_TRN.prepare_permute 5 (fun j => if j = 2 then 5 else (j : ℚ))
          (fun _ => 0),
        rng := [1 / 2, 9 / 10, 1, 1 / 3, 0, 2 / 3] }).data 0
      = (fun j : Int => if j = 2 then 5 else (j : ℚ)) 0 ∧
    ((MCPT_TRN.do_permute MCPT_TRN.replay 5)^[2]
      { data := fun j => if j = 2 then 5 else (j : ℚ),
        changes := MCPT_TRN.prepare_permute 5 (fun j => if j = 2 then 5 else (j : ℚ))
          (fun _ => 0),
        rng := [1 / 2, 9 / 10, 1, 1 / 3, 0, 2 / 3] }).data (5 - 1)
      = (fun j : Int => if j = 2 then 5 else (j : ℚ)) (5 - 1) :=
  MCPT_TRN.do_permute_anchors MCPT_TRN.replay
    (fun g => NNRat.coe_nonneg _)
    5 (by decide) (fun j => if j = 2 then 5 else (j : ℚ)) (fun _ => 0)
    [1 / 2, 9 / 10, 1, 1 / 3, 0, 2 / 3] 2

namespace MCPT_TRN

/-- The one-bar differences of the rebuilt prices are the shuffled changes. -/
theorem PermuteInv.differences_eq {σ : Type} {nc : Int} {data0 : Int → ℚ} {s : Permuting σ}
    (h : PermuteInv nc data0 s) :
    differences nc s.data = (upTo 0 (nc - 1)).map s.changes := by
  obtain ⟨h0, hk, _⟩ := h
  unfold differences
  refine List.map_congr_left (fun k hm => ?_)
  obtain ⟨hk0, hk1⟩ := mem_upTo.mp hm
  rw [hk (k + 1) (by omega) (by omega)]
  by_cases hz : k = 0
  · subst hz
    rw [h0]
    norm_num
  · rw [hk k (by omega) (by omega), add_sub_cancel_right,
      sum_Icc_top s.changes (show (0 : Int) ≤ k by omega)]
    ring

end MCPT_TRN

/-- C4, in exact arithmetic. No change is fabricated or dropped when the
subtractions of `prepare_permute` and the additions of the rebuilding loop are
exact: for `nc ≥ 2` and any generator whose draws are not negative, after each
of any number `reps` of successive `do_permute` calls (each one shuffling the
buffer left by the one before) the list of the one-bar differences
`data[k+1]-data[k]`, `k = 0 .. nc-2`, of the rebuilt series is a permutation of
the differences of the original series, which are the changes computed by
`prepare_permute`. -/
theorem MCPT_TRN.do_permute_differences_perm {σ : Type} (unifrand : σ → ℚ × σ)
    (hu : ∀ g, 0 ≤ (unifrand g).1) (nc : Int) (_hnc : 2 ≤ nc) (data work : Int → ℚ) (g : σ)
    (reps : Nat) :
    (MCPT_TRN.differences nc ((MCPT_TRN.do_permute unifrand nc)^[reps]
      { data := data, changes := MCPT_TRN.prepare_permute nc data work, rng := g }).data).Perm
      (MCPT_TRN.differences nc data) ∧
    MCPT_TRN.differences nc data
      = (upTo 0 (nc - 1)).map (MCPT_TRN.prepare_permute nc data work) := by
  have hinv := MCPT_TRN.PermuteInv.iterate unifrand hu nc data work g reps
  have h0 := MCPT_TRN.PermuteInv.prepare nc data work g
  refine ⟨?_, h0.differences_eq⟩
  rw [hinv.differences_eq]
  obtain ⟨_, _, π, hfix, hπ⟩ := hinv
  have e : nc - 1 = nc - 2 + 1 := by ring
  have h1 : (upTo 0 (nc - 1)).map ((MCPT_TRN.do_permute unifrand nc)^[reps]
      { data := data, changes := MCPT_TRN.prepare_permute nc data work, rng := g }).changes
      = (upTo 0 (nc - 1)).map (fun k => (fun j => data (j + 1) - data j) (π k)) := by
    refine List.map_congr_left (fun k hm => ?_)
    obtain ⟨hk0, hk1⟩ := mem_upTo.mp hm
    exact hπ k hk0 (by omega)
  rw [h1]
  unfold MCPT_TRN.differences
  rw [e]
  exact map_perm_seg (fun j => data (j + 1) - data j) π 0 (nc - 2) hfix

/-- C4, at five prices shuffled twice with the draws 1/2, 9/10, 1, 1/3, 0, 2/3. -/
theorem MCPT_TRN.do_permute_differences_perm_witness :
    (MCPT_TRN.differences 5 ((MCPT_TRN.do_permute MCPT_TRN.replay 5)^[2]
      { data := fun j => if j = 2 then 5 else (j : ℚ),
        changes := MCPT_TRN.prepare_permute 5 (fun j => if j = 2 then 5 else (j : ℚ))
          (fun _ => 0),
        rng := [1 / 2, 9 / 10, 1, 1 / 3, 0, 2 / 3] }).data).Perm
      (MCPT_TRN.differences 5 (fun j => if j = 2 then 5 else (j : ℚ))) ∧
    MCPT_TRN.differences 5 (fun j => if j = 2 then 5 else (j : ℚ))
      = (upTo 0 (5 - 1)).map (MCPT_TRN.prepare_permute 5
          (fun j => if j = 2 then 5 else (j : ℚ)) (fun _ => 0)) :=
  MCPT_TRN.do_permute_differences_perm MCPT_TRN.replay (fun _ => NNRat.coe_nonneg _)
    5 (by decide) (fun j => if j = 2 then 5 else (j : ℚ)) (fun _ => 0)
    [1 / 2, 9 / 10, 1, 1 / 3, 0, 2 / 3] 2

/-! ## MCPT_TRN: the permutation test of `main` -/

theorem shift_shift_neg (x : Int → ℚ) (k : Int) : shift (shift x k) (-k) = x := by
  funext j
  simp [shift]

theorem shift_neg_shift (x : Int → ℚ) (k : Int) : shift (shift x (-k)) k = x := by
  funext j
  simp [shift]

namespace MCPT_TRN

/-- The score returned by `opt_params` does not depend on what the four
pointers hold on entry. -/
theorem opt_params_fst_indep (ncases max_lookback : Int) (x : Int → ℚ) (o1 o2 : Outs) :
    (opt_params ncases max_lookback x o1).1 = (opt_params ncases max_lookback x o2).1 := by
  have inner : ∀ (L : Int) (lS : List Int) (s1 s2 : Search), s1.best_perf = s2.best_perf →
      (lS.foldl (fun s ishort =>
        keep_best s ishort L (trial ncases max_lookback ishort L x)) s1).best_perf
      = (lS.foldl (fun s ishort =>
        keep_best s ishort L (trial ncases max_lookback ishort L x)) s2).best_perf := by
    intro L lS
    induction lS with
    | nil => intro s1 s2 h; exact h
    | cons a tl ih =>
      intro s1 s2 h
      rw [List.foldl_cons, List.foldl_cons]
      apply ih
      unfold keep_best
      rw [h]
      split_ifs <;> first | rfl | exact h
  have outer : ∀ (lL : List Int) (s1 s2 : Search), s1.best_perf = s2.best_perf →
      (lL.foldl (fun s ilong => (upTo 1 ilong).foldl (fun s ishort =>
        keep_best s ishort ilong (trial ncases max_lookback ishort ilong x)) s) s1).best_perf
      = (lL.foldl (fun s ilong => (upTo 1 ilong).foldl (fun s ishort =>
        keep_best s ishort ilong (trial ncases max_lookback ishort ilong x)) s) s2).best_perf := by
    intro lL
    induction lL with
    | nil => intro s1 s2 h; exact h
    | cons a tl ih =>
      intro s1 s2 h
      rw [List.foldl_cons, List.foldl_cons]
      exact ih _ _ (inner a (upTo 1 a) s1 s2 h)
  exact outer (upTo 2 (max_lookback + 1)) _ _ rfl

theorem mcpt_upto_succ {σ : Type} (unifrand : σ → ℚ × σ) (nprices max_lookback : Int)
    (tpr : ℚ) (s : Mcpt σ) {b : Int} (h : 0 ≤ b) :
    mcpt_upto unifrand nprices max_lookback tpr s (b + 1)
      = mcpt_step unifrand nprices max_lookback tpr
          (mcpt_upto unifrand nprices max_lookback tpr s b) b := by
  unfold mcpt_upto
  rw [upTo_snoc h, List.foldl_append]
  rfl

theorem rep_prices_zero {σ : Type} (unifrand : σ → ℚ × σ) (nprices max_lookback : Int)
    (s0 : Mcpt σ) : rep_prices unifrand nprices max_lookback s0 0 = s0.prices := by
  unfold rep_prices replication
  exact shift_shift_neg _ _

/-- The state after replication 0, which is not shuffled. -/
theorem McptInv.first {σ : Type} (unifrand : σ → ℚ × σ) (nprices max_lookback : Int)
    (s0 : Mcpt σ) (tpr : ℚ) (s1 : Mcpt σ) (hp : s1.prices = s0.prices)
    (hc : s1.changes = prepare_permute (nprices - max_lookback + 1)
      (shift s0.prices (max_lookback - 1)) s0.changes)
    (hr : s1.rng = s0.rng) (hl : s1.printed = []) :
    McptInv unifrand nprices max_lookback s0 tpr 0
      (mcpt_step unifrand nprices max_lookback tpr s1 0) := by
  unfold mcpt_step
  simp only [ne_eq, not_true_eq_false, if_false, if_true, hl, List.nil_append]
  refine ⟨?_, hc, hr, _, [], rfl, rfl, ?_, rfl, rfl, rfl, rfl, ?_, ?_⟩
  · rw [rep_prices_zero]
    exact hp
  · have : List.range (0 + 1) = [0] := rfl
    rw [this]
    simp only [List.map_cons, List.map_nil, score]
    rw [rep_prices_zero, hp]
    congr 1
    exact opt_params_fst_indep _ _ _ _ _
  · simp
  · simp

/-- One more replication, which is shuffled. -/
theorem McptInv.next {σ : Type} (unifrand : σ → ℚ × σ) (nprices max_lookback : Int)
    (s0 : Mcpt σ) (tpr : ℚ) (b : Nat) (s : Mcpt σ)
    (h : McptInv unifrand nprices max_lookback s0 tpr b s) :
    McptInv unifrand nprices max_lookback s0 tpr (b + 1)
      (mcpt_step unifrand nprices max_lookback tpr s ((b : Int) + 1)) := by
  obtain ⟨hp, hc, hr, l0, rest, hl, hlen, hsc, ho, hotc, hons, honl, hcnt, hmtb⟩ := h
  have hne : ((b : Int) + 1) ≠ 0 := by omega
  have hq : do_permute unifrand (nprices - max_lookback + 1)
      { data := shift s.prices (max_lookback - 1), changes := s.changes, rng := s.rng }
      = replication unifrand nprices max_lookback s0 (b + 1) := by
    have : ({ data := shift s.prices (max_lookback - 1), changes := s.changes, rng := s.rng }
        : Permuting σ) = replication unifrand nprices max_lookback s0 b := by
      rw [hp, hc, hr, rep_prices, shift_neg_shift]
    rw [this]
    unfold replication
    rw [Function.iterate_succ_apply']
  unfold mcpt_step
  simp only [ne_eq, hne, not_false_eq_true, if_true, if_false, hq]
  refine ⟨rfl, rfl, rfl, l0, rest ++ [_], by rw [hl]; rfl, by simp [hlen], ?_, ho, hotc,
    hons, honl, ?_, ?_⟩
  · rw [← List.cons_append, List.map_append, hsc, List.range_succ (n := b + 1),
      List.map_append]
    congr 1
    simp only [List.map_cons, List.map_nil, score, rep_prices]
    congr 1
    exact opt_params_fst_indep _ _ _ _ _
  · rw [List.countP_append, ho]
    simp only [List.countP_cons, List.countP_nil, zero_add, decide_eq_true_eq]
    split_ifs
    · rw [hcnt]
      push_cast
      ring
    · rw [hcnt]
      simp
  · rw [List.map_append, List.sum_append, hmtb]
    simp

/-- The invariant of the MCPT loop after the replications `0 .. b`. -/
theorem McptInv.upto {σ : Type} (unifrand : σ → ℚ × σ) (nprices max_lookback : Int)
    (s0 : Mcpt σ) (tpr : ℚ) (s1 : Mcpt σ) (hp : s1.prices = s0.prices)
    (hc : s1.changes = prepare_permute (nprices - max_lookback + 1)
      (shift s0.prices (max_lookback - 1)) s0.changes)
    (hr : s1.rng = s0.rng) (hl : s1.printed = []) (b : Nat) :
    McptInv unifrand nprices max_lookback s0 tpr b
      (mcpt_upto unifrand nprices max_lookback tpr s1 ((b : Int) + 1)) := by
  induction b with
  | zero =>
    have : mcpt_upto unifrand nprices max_lookback tpr s1 0 = s1 := by
      unfold mcpt_upto
      rw [upTo_of_le (le_refl _)]
      rfl
    rw [Nat.cast_zero, mcpt_upto_succ _ _ _ _ _ (le_refl _), this]
    exact McptInv.first unifrand nprices max_lookback s0 tpr s1 hp hc hr hl
  | succ n ih =>
    rw [mcpt_upto_succ _ _ _ _ _ (by omega)]
    push_cast
    exact McptInv.next unifrand nprices max_lookback s0 tpr n _ ih

/-- The invariant at the end of the MCPT loop of `mcpt`, for `nreps ≥ 1`. -/
theorem mcpt_inv {σ : Type} (unifrand : σ → ℚ × σ) (nprices max_lookback nreps : Int)
    (s0 : Mcpt σ) (h : 1 ≤ nreps) :
    McptInv unifrand nprices max_lookback s0
      (trend_per_return nprices max_lookback s0.prices) (nreps - 1).toNat
      (mcpt_upto unifrand nprices max_lookback
        (trend_per_return nprices max_lookback s0.prices)
        { s0 with
          changes := prepare_permute (nprices - max_lookback + 1)
            (shift s0.prices (max_lookback - 1)) s0.changes,
          printed := [] } nreps) := by
  have := McptInv.upto unifrand nprices max_lookback s0
    (trend_per_return nprices max_lookback s0.prices)
    { s0 with
      changes := prepare_permute (nprices - max_lookback + 1)
        (shift s0.prices (max_lookback - 1)) s0.changes,
      printed := [] } rfl rfl rfl rfl (nreps - 1).toNat
  have e : (((nreps - 1).toNat : Nat) : Int) + 1 = nreps := by omega
  rwa [e] at this

end MCPT_TRN

/-- C5. The permutation-test p-value is `count / nreps` where `count` is 1 plus
the number of replications `r` in `1 .. nreps-1` whose grid-search score is at
least the score of replication 0; replication 0 is the unpermuted original
series; and for every `nreps ≥ 1` the p-value lies between `1 / nreps` and 1. -/
theorem MCPT_TRN.mcpt_p_value {σ : Type} (unifrand : σ → ℚ × σ)
    (nprices max_lookback nreps : Int) (s0 : MCPT_TRN.Mcpt σ) (h : 1 ≤ nreps) :
    (MCPT_TRN.mcpt unifrand nprices max_lookback nreps s0).p_value
      = ((1 + (List.range' 1 (nreps - 1).toNat).countP
            (fun r => MCPT_TRN.score unifrand nprices max_lookback s0 r
              ≥ MCPT_TRN.score unifrand nprices max_lookback s0 0) : Nat) : ℚ) / (nreps : ℚ) ∧
    MCPT_TRN.score unifrand nprices max_lookback s0 0
      = (MCPT_TRN.opt_params nprices max_lookback s0.prices s0.out).1 ∧
    1 / (nreps : ℚ) ≤ (MCPT_TRN.mcpt unifrand nprices max_lookback nreps s0).p_value ∧
    (MCPT_TRN.mcpt unifrand nprices max_lookback nreps s0).p_value ≤ 1 := by
  obtain ⟨_, _, _, l0, rest, _, hlen, hsc, _, _, _, _, hcnt, _⟩ :=
    MCPT_TRN.mcpt_inv unifrand nprices max_lookback nreps s0 h
  have hpos : (0 : ℚ) < (nreps : ℚ) := by exact_mod_cast (show (0 : Int) < nreps by omega)
  rw [List.range_succ_eq_map, List.map_cons, List.map_cons, List.cons.injEq] at hsc
  obtain ⟨hs0, hsr⟩ := hsc
  have hcount : rest.countP (fun l => l.opt_return ≥ l0.opt_return)
      = (List.range' 1 (nreps - 1).toNat).countP
          (fun r => MCPT_TRN.score unifrand nprices max_lookback s0 r
            ≥ MCPT_TRN.score unifrand nprices max_lookback s0 0) := by
    have e1 : rest.countP (fun l => l.opt_return ≥ l0.opt_return)
        = (rest.map MCPT_TRN.Line.opt_return).countP (fun v => v ≥ l0.opt_return) := by
      rw [List.countP_map]
      rfl
    rw [e1, hsr, List.map_map, List.countP_map, hs0, List.range'_eq_map_range,
      List.countP_map]
    refine List.countP_congr (fun r _ => ?_)
    simp [Nat.succ_eq_add_one, add_comm]
  have hp : (MCPT_TRN.mcpt unifrand nprices max_lookback nreps s0).p_value
      = ((1 + rest.countP (fun l => l.opt_return ≥ l0.opt_return) : Nat) : ℚ) / (nreps : ℚ) := by
    show ((_ : Int) : ℚ) / (nreps : ℚ) = _
    rw [hcnt]
    push_cast
    rfl
  have hle : rest.countP (fun l => l.opt_return ≥ l0.opt_return) ≤ (nreps - 1).toNat := by
    rw [← hlen]
    exact List.countP_le_length _
  refine ⟨by rw [hp, hcount], ?_, ?_, ?_⟩
  · unfold MCPT_TRN.score
    rw [MCPT_TRN.rep_prices_zero]
  · rw [hp, div_le_div_iff_of_pos_right hpos]
    exact_mod_cast Nat.le_add_right 1 _
  · rw [hp, div_le_one hpos]
    have : ((1 + rest.countP (fun l => l.opt_return ≥ l0.opt_return) : Nat) : Int) ≤ nreps := by
      omega
    exact_mod_cast this

/-- C5, at three replications of a series of 14 prices with `max_lookback = 3`. -/
theorem MCPT_TRN.mcpt_p_value_witness :
    (MCPT_TRN.mcpt MCPT_TRN.replay 14 3 3
      { prices := fun j => if j = 2 then 5 else (j : ℚ), changes := fun _ => 0,
        rng := [1 / 2, 9 / 10, 1, 1 / 3, 0, 2 / 3], out := ⟨0, 0, 0, 0⟩, original := 0,
        original_trend_component := 0, original_nshort := 0, original_nlong := 0,
        count := 0, mean_training_bias := 0, printed := [] }).p_value ≤ 1 :=
  (MCPT_TRN.mcpt_p_value MCPT_TRN.replay 14 3 3
      { prices := fun j => if j = 2 then 5 else (j : ℚ), changes := fun _ => 0,
        rng := [1 / 2, 9 / 10, 1, 1 / 3, 0, 2 / 3], out := ⟨0, 0, 0, 0⟩, original := 0,
        original_trend_component := 0, original_nshort := 0, original_nlong := 0,
        count := 0, mean_training_bias := 0, printed := [] } (by decide)).2.2.2

/-! ## BND_RET: the walk-forward loop -/

namespace BND_RET

theorem fold_at_n (nprices max_lookback n_train n_test : Int) (prices : Int → ℚ)
    (junk : Int × Int) (ts : Int) :
    (fold_at nprices max_lookback n_train n_test prices junk ts).n
      = min n_test (nprices - n_train - ts) := by
  show (if n_test > nprices - ts - n_train then nprices - ts - n_train else n_test) = _
  rw [min_def]
  split_ifs <;> omega

theorem fold_at_ok (nprices max_lookback n_train n_test : Int) (prices : Int → ℚ)
    (junk : Int × Int) (ts : Int) (h1 : 1 ≤ n_test) (h0 : 0 ≤ ts)
    (hlt : ts < nprices - n_train) :
    FoldOk nprices max_lookback n_train n_test prices junk
      (fold_at nprices max_lookback n_train n_test prices junk ts) := by
  have hn := fold_at_n nprices max_lookback n_train n_test prices junk ts
  have hmin1 := min_le_left n_test (nprices - n_train - ts)
  have hmin2 := min_le_right n_test (nprices - n_train - ts)
  have hmin3 : 1 ≤ min n_test (nprices - n_train - ts) := le_min h1 (by omega)
  refine ⟨h0, ?_, ?_, ?_, rfl, rfl, rfl, rfl, rfl⟩
  · rw [hn]
    exact hmin3
  · rw [hn]
    exact hmin1
  · rw [hn]
    show ts + n_train + _ ≤ nprices
    omega

/-- One pass of the walk-forward loop, entered at a multiple of `n_test` short
of the end of the history. -/
theorem WalkInv.step (nprices max_lookback n_train n_test : Int) (prices : Int → ℚ)
    (junk : Int × Int) (s : Walk) (h1 : 1 ≤ n_test)
    (hinv : WalkInv nprices max_lookback n_train n_test prices junk s)
    (hts : s.train_start = s.n_returns * n_test)
    (hlt : s.train_start < nprices - n_train) :
    WalkInv nprices max_lookback n_train n_test prices junk
      (walk_step nprices max_lookback n_train n_test prices junk s) ∧
    (walk_step nprices max_lookback n_train n_test prices junk s).n_returns
      = s.n_returns + 1 ∧
    (walk_step nprices max_lookback n_train n_test prices junk s).train_start
      = s.train_start + min n_test (nprices - n_train - s.train_start) := by
  obtain ⟨h0, hfolds, hret, hall⟩ := hinv
  have hn := fold_at_n nprices max_lookback n_train n_test prices junk s.train_start
  have hnat : (s.n_returns + 1).toNat = s.n_returns.toNat + 1 := by omega
  have hk : ((s.n_returns.toNat : Nat) : Int) = s.n_returns := by omega
  have hts0 : 0 ≤ s.train_start := by
    rw [hts]
    exact mul_nonneg h0 (by omega)
  have e1 : (walk_step nprices max_lookback n_train n_test prices junk s).folds
      = s.folds ++ [fold_at nprices max_lookback n_train n_test prices junk s.train_start] := rfl
  have e2 : (walk_step nprices max_lookback n_train n_test prices junk s).n_returns
      = s.n_returns + 1 := rfl
  have e3 : (walk_step nprices max_lookback n_train n_test prices junk s).returns
      = Function.update s.returns s.n_returns
          (fold_at nprices max_lookback n_train n_test prices junk s.train_start).OOS := rfl
  have e4 : (walk_step nprices max_lookback n_train n_test prices junk s).train_start
      = s.train_start
        + (fold_at nprices max_lookback n_train n_test prices junk s.train_start).n := rfl
  refine ⟨⟨?_, ?_, ?_, ?_⟩, e2, ?_⟩
  · rw [e2]
    omega
  · rw [e1, e2, hnat, List.range_succ, List.map_append, List.map_append, hfolds]
    congr 1
    simp only [List.map_cons, List.map_nil, hk]
    rw [hn, ← hts]
    rfl
  · rw [e1, e2, e3, hnat, List.range_succ, List.map_append, List.map_append, hret]
    congr 1
    · refine List.map_congr_left (fun k hkm => ?_)
      rw [List.mem_range] at hkm
      rw [Function.update_noteq (by omega)]
    · simp only [List.map_cons, List.map_nil]
      rw [hk, Function.update_same]
  · intro f hf
    rw [e1, List.mem_append, List.mem_singleton] at hf
    rcases hf with hf | hf
    · exact hall f hf
    · subst hf
      exact fold_at_ok nprices max_lookback n_train n_test prices junk s.train_start h1 hts0 hlt
  · rw [e4, hn]

/-- The walk-forward loop ends, with the fold count bracketed by the history
left to test. -/
theorem walk_spec (nprices max_lookback n_train n_test : Int) (prices : Int → ℚ)
    (junk : Int × Int) (h1 : 1 ≤ n_test) (fuel : Nat) :
    ∀ s : Walk, WalkInv nprices max_lookback n_train n_test prices junk s →
      s.train_start = s.n_returns * n_test → s.train_start < nprices - n_train →
      nprices - n_train - s.train_start ≤ (fuel : Int) →
      ∃ s1, walk nprices max_lookback n_train n_test prices junk fuel s = some s1 ∧
        WalkInv nprices max_lookback n_train n_test prices junk s1 ∧
        (s1.n_returns - 1) * n_test < nprices - n_train ∧
        nprices - n_train ≤ s1.n_returns * n_test := by
  induction fuel with
  | zero =>
    intro s _ _ hlt hfuel
    simp only [Nat.cast_zero] at hfuel
    omega
  | succ fuel ih =>
    intro s hinv hts hlt hfuel
    obtain ⟨hinv1, hn1, hts1⟩ := WalkInv.step nprices max_lookback n_train n_test prices junk
      s h1 hinv hts hlt
    unfold walk
    simp only
    by_cases hbreak : (walk_step nprices max_lookback n_train n_test prices junk s).train_start
        + n_train ≥ nprices
    · rw [if_pos hbreak]
      refine ⟨_, rfl, hinv1, ?_, ?_⟩
      · rw [hn1, add_sub_cancel_right, ← hts]
        exact hlt
      · rw [hn1, add_mul, one_mul, ← hts]
        rw [hts1] at hbreak
        rcases min_choice n_test (nprices - n_train - s.train_start) with hm | hm
        · rw [hm] at hbreak
          omega
        · omega
    · rw [if_neg hbreak]
      rw [hts1] at hbreak
      have hm : min n_test (nprices - n_train - s.train_start) = n_test := by
        rcases min_choice n_test (nprices - n_train - s.train_start) with hm | hm
        · exact hm
        · rw [hm] at hbreak
          omega
      rw [hm] at hts1 hbreak
      refine ih _ hinv1 ?_ (by omega) ?_
      · rw [hts1, hn1, hts]
        ring
      · rw [hts1]
        push_cast at hfuel
        omega

/-- More passes allowed do not change what the walk-forward loop returns. -/
theorem walk_mono (nprices max_lookback n_train n_test : Int) (prices : Int → ℚ)
    (junk : Int × Int) (fuel : Nat) :
    ∀ (s r : Walk), walk nprices max_lookback n_train n_test prices junk fuel s = some r →
      ∀ fuel1 : Nat, fuel ≤ fuel1 →
        walk nprices max_lookback n_train n_test prices junk fuel1 s = some r := by
  induction fuel with
  | zero =>
    intro s r h
    exact absurd h (by simp [walk])
  | succ fuel ih =>
    intro s r h fuel1 hle
    obtain ⟨m, rfl⟩ : ∃ m, fuel1 = m + 1 := ⟨fuel1 - 1, by omega⟩
    unfold walk at h ⊢
    simp only at h ⊢
    split_ifs at h ⊢ with hb
    · exact h
    · exact ih _ r h m (by omega)

/-- The walk-forward of `main` ends within `nprices - n_train` passes. -/
theorem walkforward_spec (nprices max_lookback n_train n_test : Int)
    (prices returns : Int → ℚ) (junk : Int × Int) (h1 : 1 ≤ n_test)
    (h2 : n_train + n_test ≤ nprices) (fuel : Nat) (hfuel : nprices - n_train ≤ (fuel : Int)) :
    ∃ s1, walkforward nprices max_lookback n_train n_test prices returns junk fuel = some s1 ∧
      WalkInv nprices max_lookback n_train n_test prices junk s1 ∧
      (s1.n_returns - 1) * n_test < nprices - n_train ∧
      nprices - n_train ≤ s1.n_returns * n_test := by
  refine walk_spec nprices max_lookback n_train n_test prices junk h1 fuel _ ?_ ?_ ?_ ?_
  · exact ⟨le_refl _, rfl, rfl, fun f hf => absurd hf (List.not_mem_nil f)⟩
  · show (0 : Int) = 0 * n_test
    ring
  · show (0 : Int) < nprices - n_train
    omega
  · show nprices - n_train - 0 ≤ (fuel : Int)
    omega

/-- A count `k` with `(k-1) * n < D ≤ k * n` is the ceiling of `D / n`. -/
theorem ceil_div_eq (D n k : Int) (hn : 1 ≤ n) (hlo : (k - 1) * n < D) (hhi : D ≤ k * n) :
    ⌈(D : ℚ) / (n : ℚ)⌉ = k := by
  have hpos : (0 : ℚ) < (n : ℚ) := by exact_mod_cast (show (0 : Int) < n by omega)
  rw [Int.ceil_eq_iff]
  constructor
  · rw [lt_div_iff₀ hpos]
    exact_mod_cast hlo
  · rw [div_le_iff₀ hpos]
    exact_mod_cast hhi

end BND_RET

/-- C7. Walk-forward fold count: for `n_test ≥ 1` and `n_train + n_test ≤ nprices`
the walk-forward loop ends (within `nprices - n_train` passes) having appended
exactly `⌈(nprices - n_train) / n_test⌉` out-of-sample returns, at least one;
fold `k` starts at `k * n_test` and tests `min n_test (nprices - n_train - k * n_test)`
cases, so that only the last fold can be cut to the history that is left; and
`returns[k]` holds the out-of-sample score of fold `k`. -/
theorem BND_RET.walkforward_fold_count (nprices max_lookback n_train n_test : Int)
    (prices returns : Int → ℚ) (junk : Int × Int) (h1 : 1 ≤ n_test)
    (h2 : n_train + n_test ≤ nprices) :
    ∃ s : BND_RET.Walk,
      (∀ fuel : Nat, nprices - n_train ≤ (fuel : Int) →
        BND_RET.walkforward nprices max_lookback n_train n_test prices returns junk fuel
          = some s) ∧
      s.n_returns = ⌈((nprices - n_train : Int) : ℚ) / (n_test : ℚ)⌉ ∧
      1 ≤ s.n_returns ∧
      (s.folds.length : Int) = s.n_returns ∧
      s.folds.map (fun f => (f.train_start, f.n))
        = (List.range s.n_returns.toNat).map
            (fun (k : Nat) => ((k : Int) * n_test,
              min n_test (nprices - n_train - (k : Int) * n_test))) ∧
      s.folds.map BND_RET.Fold.OOS
        = (List.range s.n_returns.toNat).map (fun (k : Nat) => s.returns (k : Int)) := by
  obtain ⟨s, hs, ⟨h0, hfolds, hret, _⟩, hlo, hhi⟩ := BND_RET.walkforward_spec nprices
    max_lookback n_train n_test prices returns junk h1 h2 (nprices - n_train).toNat (by omega)
  refine ⟨s, ?_, ?_, ?_, ?_, hfolds, hret⟩
  · intro fuel hfuel
    exact BND_RET.walk_mono nprices max_lookback n_train n_test prices junk _ _ s hs fuel
      (by omega)
  · exact (BND_RET.ceil_div_eq _ _ _ h1 hlo hhi).symm
  · by_contra hneg
    have : s.n_returns * n_test ≤ 0 := by
      have h00 : s.n_returns = 0 := by omega
      rw [h00]
      simp
    omega
  · have := congrArg List.length hfolds
    simp only [List.length_map, List.length_range] at this
    omega

/-- C7, at 30 prices with a training set of 13 and test sets of 5: four folds. -/
theorem BND_RET.walkforward_fold_count_witness :
    ∃ s : BND_RET.Walk,
      (∀ fuel : Nat, (30 : Int) - 13 ≤ (fuel : Int) →
        BND_RET.walkforward 30 3 13 5 (fun j => if j = 2 then 5 else (j : ℚ)) (fun _ => 0)
          (0, 0) fuel = some s) ∧
      s.n_returns = ⌈(((30 : Int) - 13 : Int) : ℚ) / ((5 : Int) : ℚ)⌉ ∧
      1 ≤ s.n_returns ∧
      (s.folds.length : Int) = s.n_returns ∧
      s.folds.map (fun f => (f.train_start, f.n))
        = (List.range s.n_returns.toNat).map
            (fun (k : Nat) => ((k : Int) * 5, min 5 ((30 : Int) - 13 - (k : Int) * 5))) ∧
      s.folds.map BND_RET.Fold.OOS
        = (List.range s.n_returns.toNat).map (fun (k : Nat) => s.returns (k : Int)) :=
  BND_RET.walkforward_fold_count 30 3 13 5 (fun j => if j = 2 then 5 else (j : ℚ))
    (fun _ => 0) (0, 0) (by decide) (by decide)

/-! ## BND_RET: the cells read by the walk-forward -/

/-- A loop whose every pass succeeds and does what the unchecked pass does
succeeds and gives what the unchecked loop gives. -/
theorem foldlM_eq_some_foldl {α β : Type} (f : β → α → Option β) (g : β → α → β)
    (l : List α) (h : ∀ a ∈ l, ∀ b, f b a = some (g b a)) :
    ∀ b, l.foldlM f b = some (l.foldl g b) := by
  induction l with
  | nil => intro b; rfl
  | cons a tl ih =>
    intro b
    rw [List.foldlM_cons, h a (List.mem_cons_self _ _) b, List.foldl_cons]
    exact ih (fun a1 h1 => h a1 (List.mem_cons_of_mem _ h1)) _

theorem sum_down_chk_eq (m : Int → Option ℚ) (x : Int → ℚ) (acc : ℚ) (hi lo : Int)
    (hm : ∀ j, lo < j → j ≤ hi → m j = some (x j)) :
    sum_down_chk m acc hi lo = some (sum_down x acc hi lo) := by
  unfold sum_down_chk sum_down
  refine foldlM_eq_some_foldl _ _ _ (fun j hj s => ?_) acc
  obtain ⟨h1, h2⟩ := mem_downTo.mp hj
  rw [hm j h1 h2]
  rfl

theorem window_sums_chk_eq (m : Int → Option ℚ) (x : Int → ℚ) (i ishort ilong a b : Int)
    (hm : ∀ j, a ≤ j → j ≤ b → m j = some (x j)) (hb : i ≤ b) (hS : a ≤ i - ishort + 1)
    (hL : a ≤ i - ilong + 1) :
    window_sums_chk m i ishort ilong = some (window_sums x i ishort ilong) := by
  unfold window_sums_chk window_sums
  rw [sum_down_chk_eq m x 0 i (i - ishort) (fun j h1 h2 => hm j (by omega) (by omega)),
    Option.some_bind,
    sum_down_chk_eq m x _ (min i (i - ishort)) (i - ilong) (fun j h1 h2 => hm j (by omega)
      (le_trans h2 (le_trans (min_le_left _ _) hb))),
    Option.some_bind]

theorem cells_shift (x : Int → ℚ) (lo hi k : Int) (j : Int) (h1 : lo ≤ k + j)
    (h2 : k + j ≤ hi) : shift_cells (cells x lo hi) k j = some (shift x k j) := by
  unfold shift_cells cells shift
  rw [if_pos ⟨h1, h2⟩]

namespace BND_RET

theorem trial_step_chk_eq (m : Int → Option ℚ) (x : Int → ℚ) (ishort ilong i b : Int)
    (s : Trial) (hm : ∀ j, 0 ≤ j → j ≤ b → m j = some (x j)) (hS : 1 ≤ ishort)
    (hL : ishort ≤ ilong) (hi : ilong - 1 ≤ i) (hb : i + 1 ≤ b) :
    trial_step_chk ishort ilong m s i = some (trial_step ishort ilong x s i) := by
  unfold trial_step_chk trial_step
  have hsums : (if i = ilong - 1 then window_sums_chk m i ishort ilong
      else (m i).bind (fun xi => (m (i - ishort)).bind (fun xs => (m (i - ilong)).bind
        (fun xl => some (s.short_sum + (xi - xs), s.long_sum + (xi - xl))))))
      = some (if i = ilong - 1 then window_sums x i ishort ilong
          else (s.short_sum + (x i - x (i - ishort)), s.long_sum + (x i - x (i - ilong)))) := by
    by_cases h : i = ilong - 1
    · rw [if_pos h, if_pos h]
      exact window_sums_chk_eq m x i ishort ilong 0 b hm (by omega) (by omega) (by omega)
    · rw [if_neg h, if_neg h, hm i (by omega) (by omega), hm (i - ishort) (by omega) (by omega),
        hm (i - ilong) (by omega) (by omega)]
      rfl
  rw [hsums, Option.some_bind]
  simp only [hm i (by omega) (by omega), hm (i + 1) (by omega) (by omega), Option.some_bind]
  split_ifs <;> rfl

theorem trial_score_chk_eq (m : Int → Option ℚ) (x : Int → ℚ) (ncases ishort ilong : Int)
    (hm : ∀ j, 0 ≤ j → j ≤ ncases - 1 → m j = some (x j)) (hS : 1 ≤ ishort)
    (hL : ishort ≤ ilong) :
    trial_score_chk ncases ishort ilong m = some (trial_score ncases ishort ilong x) := by
  unfold trial_score_chk trial_score trial_upto
  rw [foldlM_eq_some_foldl _ (trial_step ishort ilong x) _ (fun i hi s => by
    obtain ⟨h1, h2⟩ := mem_upTo.mp hi
    exact trial_step_chk_eq m x ishort ilong i (ncases - 1) s hm hS hL h1 (by omega))]
  rfl

theorem search_chk_eq (m : Int → Option ℚ) (x : Int → ℚ) (ncases max_lookback : Int)
    (hm : ∀ j, 0 ≤ j → j ≤ ncases - 1 → m j = some (x j)) (s : Search) :
    search_chk ncases max_lookback m s = some (search ncases max_lookback x s) := by
  unfold search_chk search
  refine foldlM_eq_some_foldl _ _ _ (fun L hL s1 => ?_) s
  refine foldlM_eq_some_foldl _ _ _ (fun S hS s2 => ?_) s1
  obtain ⟨h1, h2⟩ := mem_upTo.mp hS
  rw [trial_score_chk_eq m x ncases S L hm h1 (by omega)]
  rfl

/-- Every cell that `opt_params` reads is one of `x[0 .. ncases-1]`: with reads
checked against these bounds it succeeds, with the same result. -/
theorem opt_params_chk_eq (m : Int → Option ℚ) (x : Int → ℚ) (ncases max_lookback : Int)
    (hm : ∀ j, 0 ≤ j → j ≤ ncases - 1 → m j = some (x j)) :
    opt_params_chk ncases max_lookback m = some (opt_params ncases max_lookback x) := by
  unfold opt_params_chk opt_params
  rw [search_chk_eq m x ncases max_lookback hm]
  rfl

theorem test_step_chk_eq (m : Int → Option ℚ) (x : Int → ℚ) (S L i b : Int) (sum : ℚ)
    (hm : ∀ j, 0 ≤ j → j ≤ b → m j = some (x j)) (hSL : S ≤ L) (hi : L - 1 ≤ i)
    (hb : i + 1 ≤ b) (hL : 1 ≤ L) :
    test_step_chk m S L sum i = some (test_step x S L sum i) := by
  unfold test_step_chk test_step
  rw [window_sums_chk_eq m x i S L 0 b hm (by omega) (by omega) (by omega), Option.some_bind]
  simp only [hm i (by omega) (by omega), hm (i + 1) (by omega) (by omega), Option.some_bind]
  split_ifs <;> rfl

/-- Every cell that `test_system` reads for a pair `S ≤ L`, `1 ≤ L`, is one of
`x[0 .. L+n-1]`: with reads checked against these bounds it succeeds, with the
same result. -/
theorem test_system_chk_eq (m : Int → Option ℚ) (x : Int → ℚ) (n S L : Int)
    (hm : ∀ j, 0 ≤ j → j ≤ L + n - 1 → m j = some (x j)) (hSL : S ≤ L) (hL : 1 ≤ L) :
    test_system_chk n m S L = some (test_system n x S L) := by
  unfold test_system_chk test_system
  rw [foldlM_eq_some_foldl _ (test_step x S L) _ (fun i hi s => by
    obtain ⟨h1, h2⟩ := mem_upTo.mp hi
    exact test_step_chk_eq m x S L i (L + n - 1) s hm hSL h1 (by omega) hL)]
  rfl

end BND_RET

namespace BND_RET

/-- A pair returned by `opt_params` is a pair of the grid it visits. -/
theorem opt_params_pair_grid (ncases max_lookback : Int) (x : Int → ℚ) (S L : Int)
    (h : (opt_params ncases max_lookback x).2 = some (S, L)) :
    1 ≤ S ∧ S < L ∧ L < max_lookback := by
  obtain ⟨_, _, hatt⟩ := bnd_search_spec ncases max_lookback x
    { best_perf := sentinel, ibest := none }
  have hi : (search ncases max_lookback x { best_perf := sentinel, ibest := none }).ibest
      = some (S, L) := h
  rcases hatt with heq | ⟨S1, L1, hgrid, _, _, hout⟩
  · rw [heq] at hi
    exact absurd hi (by simp)
  · rw [hout] at hi
    simp only [Option.some.injEq, Prod.mk.injEq] at hi
    obtain ⟨rfl, rfl⟩ := hi
    exact hgrid

end BND_RET

/-- C8, as amended. Under `n_test ≥ 1`, `max_lookback ≥ 3`, `n_train - max_lookback ≥ 10`
and `n_train + n_test ≤ nprices`, the walk-forward ends and in every fold: the
training window `train_start .. train_start + n_train - 1` lies in the price
array and `opt_params` reads no cell outside it; and, when `opt_params` has
returned a pair in that fold, `test_system` reads no cell outside
`train_start + n_train - long_lookback .. train_start + n_train + n - 1`, which
lies in `0 .. nprices - 1`. (Reads are checked by running the code on an array
that has these cells only.) -/
theorem BND_RET.walkforward_reads (nprices max_lookback n_train n_test : Int)
    (prices returns : Int → ℚ) (junk : Int × Int) (h1 : 1 ≤ n_test) (_h3 : 3 ≤ max_lookback)
    (h10 : 10 ≤ n_train - max_lookback) (h2 : n_train + n_test ≤ nprices) :
    ∃ s : BND_RET.Walk,
      (∀ fuel : Nat, nprices - n_train ≤ (fuel : Int) →
        BND_RET.walkforward nprices max_lookback n_train n_test prices returns junk fuel
          = some s) ∧
      ∀ f ∈ s.folds,
        (0 ≤ f.train_start ∧ f.train_start + n_train - 1 ≤ nprices - 1) ∧
        BND_RET.opt_params_chk n_train max_lookback
            (shift_cells (cells prices f.train_start (f.train_start + n_train - 1))
              f.train_start)
          = some (BND_RET.opt_params n_train max_lookback (shift prices f.train_start)) ∧
        (f.pair ≠ none →
          BND_RET.test_system_chk f.n
              (shift_cells
                (cells prices (f.train_start + n_train - f.long_lookback)
                  (f.train_start + n_train + f.n - 1))
                (f.train_start + n_train - f.long_lookback))
              f.short_lookback f.long_lookback
            = some (BND_RET.test_system f.n
                (shift prices (f.train_start + n_train - f.long_lookback))
                f.short_lookback f.long_lookback) ∧
          0 ≤ f.train_start + n_train - f.long_lookback ∧
          f.train_start + n_train + f.n - 1 ≤ nprices - 1) := by
  obtain ⟨s, hs, ⟨_, _, _, hall⟩, _, _⟩ := BND_RET.walkforward_spec nprices
    max_lookback n_train n_test prices returns junk h1 h2 (nprices - n_train).toNat (by omega)
  refine ⟨s, fun fuel hfuel => BND_RET.walk_mono nprices max_lookback n_train n_test prices
    junk _ _ s hs fuel (by omega), fun f hf => ?_⟩
  obtain ⟨hts, hn1, _, hend, _, hpair, hS, hL, _⟩ := hall f hf
  refine ⟨⟨hts, by omega⟩, ?_, ?_⟩
  · exact BND_RET.opt_params_chk_eq _ _ n_train max_lookback
      (fun j hj0 hj1 => cells_shift prices _ _ _ j (by omega) (by omega))
  · intro hne
    obtain ⟨⟨S, L⟩, hSL⟩ := Option.ne_none_iff_exists'.mp hne
    rw [hSL] at hS hL
    simp only [Option.getD_some] at hS hL
    obtain ⟨g1, g2, g3⟩ := BND_RET.opt_params_pair_grid n_train max_lookback
      (shift prices f.train_start) S L (by rw [← hpair, hSL])
    rw [hS, hL]
    refine ⟨?_, by omega, by omega⟩
    exact BND_RET.test_system_chk_eq _ _ f.n S L
      (fun j hj0 hj1 => cells_shift prices _ _ _ j (by omega) (by omega)) (by omega) (by omega)

/-- C8, at 30 prices with a training set of 13 and test sets of 5. -/
theorem BND_RET.walkforward_reads_witness :
    ∃ s : BND_RET.Walk,
      (∀ fuel : Nat, (30 : Int) - 13 ≤ (fuel : Int) →
        BND_RET.walkforward 30 3 13 5 (fun j => if j = 2 then 5 else (j : ℚ)) (fun _ => 0)
          (0, 0) fuel = some s) ∧
      ∀ f ∈ s.folds, 0 ≤ f.train_start := by
  obtain ⟨s, hs, hall⟩ := BND_RET.walkforward_reads 30 3 13 5
    (fun j => if j = 2 then 5 else (j : ℚ)) (fun _ => 0) (0, 0) (by decide) (by decide)
    (by decide) (by decide)
  exact ⟨s, hs, fun f hf => (hall f hf).1.1⟩

set_option maxRecDepth 100000 in
/-- C8 as stated fails: 14 prices that fall by `10 ^ 62` after the second one,
`n_train = 13`, `n_test = 1`, `max_lookback = 3`. The one trial of the grid scores
below the sentinel, `opt_params` returns no pair, and with `ibestshort = 1`,
`ibestlong = 100` left in the locals, `test_system` run on the cells
`prices[0 .. 13]` reads a cell that is not there. -/
theorem BND_RET.walkforward_reads_counterexample :
    (BND_RET.walkforward 14 3 13 1
        (fun j => if j ≤ 0 then 0 else if j = 1 then 1 else -(10 ^ 62)) (fun _ => 0)
        (1, 100) 1).map
      (fun s => s.folds.map (fun f =>
        (f.train_start, f.short_lookback, f.long_lookback, f.n)))
      = some [((0 : Int), (1 : Int), (100 : Int), (1 : Int))] ∧
    (BND_RET.walkforward 14 3 13 1
        (fun j => if j ≤ 0 then 0 else if j = 1 then 1 else -(10 ^ 62)) (fun _ => 0)
        (1, 100) 1).map
      (fun s => s.folds.map (fun f =>
        (f.pair,
          BND_RET.test_system_chk f.n
            (shift_cells
              (cells (fun j => if j ≤ 0 then 0 else if j = 1 then 1 else -(10 ^ 62)) 0 13)
              (f.train_start + 13 - f.long_lookback))
            f.short_lookback f.long_lookback)))
      = some [((none : Option (Int × Int)), (none : Option ℚ))] := by
  constructor <;> decide!

/-! ## ENTROPY: `qsortd` -/

namespace ENTROPY

/-- The upward scan stops at the first cell not below `split`, provided there
is one at or after `lower`. -/
theorem scan_up_spec (data : Int → ℚ) (v : ℚ) (n : Nat) :
    ∀ lower ku : Int, lower ≤ ku → v ≤ data ku → (ku - lower).toNat = n →
      ∃ l, lower ≤ l ∧ l ≤ ku ∧ v ≤ data l ∧ (∀ k, lower ≤ k → k < l → data k < v) ∧
        ∀ fuel : Nat, ku - lower < (fuel : Int) → scan_up data v fuel lower = some l := by
  induction n with
  | zero =>
    intro lower ku hle hku hn
    have : ku = lower := by omega
    subst this
    refine ⟨ku, le_refl _, le_refl _, hku, fun k h1 h2 => by omega, fun fuel hf => ?_⟩
    obtain ⟨f, rfl⟩ : ∃ f, fuel = f + 1 := ⟨fuel - 1, by omega⟩
    unfold scan_up
    rw [if_neg (not_lt.mpr hku)]
  | succ n ih =>
    intro lower ku hle hku hn
    by_cases hlt : v > data lower
    · have hne : lower ≠ ku := fun h => by
        rw [h] at hlt
        exact absurd hlt (not_lt.mpr hku)
      obtain ⟨l, h1, h2, h3, h4, h5⟩ := ih (lower + 1) ku (by omega) hku (by omega)
      refine ⟨l, by omega, h2, h3, fun k hk1 hk2 => ?_, fun fuel hf => ?_⟩
      · by_cases hk : k = lower
        · rw [hk]
          exact hlt
        · exact h4 k (by omega) hk2
      · obtain ⟨f, rfl⟩ : ∃ f, fuel = f + 1 := ⟨fuel - 1, by omega⟩
        unfold scan_up
        rw [if_pos hlt]
        exact h5 f (by push_cast at hf; omega)
    · refine ⟨lower, le_refl _, hle, not_lt.mp hlt, fun k h1 h2 => by omega, fun fuel hf => ?_⟩
      obtain ⟨f, rfl⟩ : ∃ f, fuel = f + 1 := ⟨fuel - 1, by omega⟩
      unfold scan_up
      rw [if_neg hlt]

/-- The downward scan stops at the first cell not above `split`, provided there
is one at or before `upper`. -/
theorem scan_down_spec (data : Int → ℚ) (v : ℚ) (n : Nat) :
    ∀ upper kd : Int, kd ≤ upper → data kd ≤ v → (upper - kd).toNat = n →
      ∃ u, kd ≤ u ∧ u ≤ upper ∧ data u ≤ v ∧ (∀ k, u < k → k ≤ upper → v < data k) ∧
        ∀ fuel : Nat, upper - kd < (fuel : Int) → scan_down data v fuel upper = some u := by
  induction n with
  | zero =>
    intro upper kd hle hkd hn
    have : kd = upper := by omega
    subst this
    refine ⟨kd, le_refl _, le_refl _, hkd, fun k h1 h2 => by omega, fun fuel hf => ?_⟩
    obtain ⟨f, rfl⟩ : ∃ f, fuel = f + 1 := ⟨fuel - 1, by omega⟩
    unfold scan_down
    rw [if_neg (not_lt.mpr hkd)]
  | succ n ih =>
    intro upper kd hle hkd hn
    by_cases hlt : v < data upper
    · have hne : upper ≠ kd := fun h => by
        rw [h] at hlt
        exact absurd hlt (not_lt.mpr hkd)
      obtain ⟨u, h1, h2, h3, h4, h5⟩ := ih (upper - 1) kd (by omega) hkd (by omega)
      refine ⟨u, h1, by omega, h3, fun k hk1 hk2 => ?_, fun fuel hf => ?_⟩
      · by_cases hk : k = upper
        · rw [hk]
          exact hlt
        · exact h4 k hk1 (by omega)
      · obtain ⟨f, rfl⟩ : ∃ f, fuel = f + 1 := ⟨fuel - 1, by omega⟩
        unfold scan_down
        rw [if_pos hlt]
        exact h5 f (by push_cast at hf; omega)
    · refine ⟨upper, hle, le_refl _, not_lt.mp hlt, fun k h1 h2 => by omega, fun fuel hf => ?_⟩
      obtain ⟨f, rfl⟩ : ∃ f, fuel = f + 1 := ⟨fuel - 1, by omega⟩
      unfold scan_down
      rw [if_neg hlt]

theorem SegPerm.refl (a b : Int) (d : Int → ℚ) : SegPerm a b d d :=
  ⟨1, fun _ _ => rfl, rfl⟩

theorem SegPerm.trans {a b : Int} {d d1 d2 : Int → ℚ} (h1 : SegPerm a b d d1)
    (h2 : SegPerm a b d1 d2) : SegPerm a b d d2 := by
  obtain ⟨π1, hf1, rfl⟩ := h1
  obtain ⟨π2, hf2, rfl⟩ := h2
  refine ⟨π1 * π2, fun k hk => ?_, ?_⟩
  · rw [Equiv.Perm.mul_apply, hf2 k hk, hf1 k hk]
  · funext k
    simp only [Function.comp_apply, Equiv.Perm.mul_apply]

theorem SegPerm.mono {a b a1 b1 : Int} {d d1 : Int → ℚ} (h : SegPerm a b d d1)
    (ha : a1 ≤ a) (hb : b ≤ b1) : SegPerm a1 b1 d d1 := by
  obtain ⟨π, hf, rfl⟩ := h
  exact ⟨π, fun k hk => hf k (fun hin => hk ⟨by omega, by omega⟩), rfl⟩

/-- Exchanging two cells of the segment. -/
theorem SegPerm.exchange (a b i j : Int) (d : Int → ℚ) (hi : a ≤ i ∧ i ≤ b)
    (hj : a ≤ j ∧ j ≤ b) :
    SegPerm a b d (Function.update (Function.update d i (d j)) j (d i)) := by
  refine ⟨Equiv.swap i j, fun k hk => ?_, ?_⟩
  · exact Equiv.swap_apply_of_ne_of_ne (fun h => hk (h ▸ hi)) (fun h => hk (h ▸ hj))
  · funext k
    simp only [Function.comp_apply]
    by_cases hkj : k = j
    · subst hkj
      rw [Function.update_same, Equiv.swap_apply_right]
    · rw [Function.update_noteq hkj]
      by_cases hki : k = i
      · subst hki
        rw [Function.update_same, Equiv.swap_apply_left]
      · rw [Function.update_noteq hki, Equiv.swap_apply_of_ne_of_ne hki hkj]

/-- The cells outside the segment are unchanged. -/
theorem SegPerm.frame {a b : Int} {d d1 : Int → ℚ} (h : SegPerm a b d d1) (k : Int)
    (hk : ¬ (a ≤ k ∧ k ≤ b)) : d1 k = d k := by
  obtain ⟨π, hf, rfl⟩ := h
  simp only [Function.comp_apply, hf k hk]

/-- What holds of every cell of the segment before holds of every cell after. -/
theorem SegPerm.forall_seg {a b : Int} {d d1 : Int → ℚ} (h : SegPerm a b d d1)
    (P : ℚ → Prop) (hP : ∀ k, a ≤ k → k ≤ b → P (d k)) : ∀ k, a ≤ k → k ≤ b → P (d1 k) := by
  obtain ⟨π, hf, rfl⟩ := h
  intro k h1 h2
  obtain ⟨h3, h4⟩ := perm_maps_seg π a b hf k ⟨h1, h2⟩
  exact hP (π k) h3 h4

/-- The list of the cells of the segment is a permutation of what it was. -/
theorem SegPerm.segment_perm {a b : Int} {d d1 : Int → ℚ} (h : SegPerm a b d d1) :
    (segment a b d1).Perm (segment a b d) := by
  obtain ⟨π, hfix, rfl⟩ := h
  exact map_perm_seg d π a b hfix

end ENTROPY
namespace ENTROPY

theorem exchange_eq (d : Int → ℚ) (l u : Int) (h : l = u) :
    exchange d l u = { data := d, lower := l + 1, upper := u - 1 } := by
  unfold exchange
  rw [if_pos h]

theorem exchange_lt (d : Int → ℚ) (l u : Int) (h : l < u) :
    exchange d l u
      = { data := Function.update (Function.update d l (d u)) u (d l),
          lower := l + 1, upper := u - 1 } := by
  unfold exchange
  rw [if_neg (by omega), if_pos h]

theorem exchange_gt (d : Int → ℚ) (l u : Int) (h : u < l) :
    exchange d l u = { data := d, lower := l, upper := u } := by
  unfold exchange
  rw [if_neg (by omega), if_neg (by omega)]

/-- One pass of the partitioning loop: after the two scans and the exchange,
either the loop goes on with the invariant kept and both indices moved, or it
ends with the postcondition. -/
theorem part_pass (first last : Int) (d0 : Int → ℚ) (v : ℚ) (p : Part)
    (hinv : PartInv first last d0 v p) (hle : p.lower ≤ p.upper) :
    ∃ l u : Int,
      (∀ fuel : Nat, last - p.lower < (fuel : Int) → scan_up p.data v fuel p.lower = some l) ∧
      (∀ fuel : Nat, p.upper - first < (fuel : Int) →
        scan_down p.data v fuel p.upper = some u) ∧
      (((exchange p.data l u).lower ≤ (exchange p.data l u).upper ∧
          PartInv first last d0 v (exchange p.data l u) ∧
          p.lower < (exchange p.data l u).lower ∧ (exchange p.data l u).upper < p.upper) ∨
        (¬ (exchange p.data l u).lower ≤ (exchange p.data l u).upper ∧
          PartPost first last d0 v (exchange p.data l u))) := by
  obtain ⟨hperm, h2, h3, hfl, hul, hcase⟩ := hinv
  -- the cells at which the two scans are sure to stop
  have hs : ∃ ku kd, p.lower ≤ ku ∧ ku ≤ last ∧ v ≤ p.data ku ∧
      first ≤ kd ∧ kd ≤ p.upper ∧ p.data kd ≤ v ∧
      (ku ≤ kd ∨ (first < p.lower ∧ p.upper < last)) := by
    rcases hcase with ⟨e1, e2, k, hk1, hk2, hk3⟩ | ⟨hl, hu⟩
    · exact ⟨k, k, by omega, hk2, le_of_eq hk3.symm, hk1, by omega, le_of_eq hk3,
        Or.inl (le_refl _)⟩
    · exact ⟨p.upper + 1, p.lower - 1, by omega, by omega, h3 _ (by omega) (by omega),
        by omega, by omega, h2 _ (by omega) (by omega), Or.inr ⟨hl, hu⟩⟩
  obtain ⟨ku, kd, hku1, hku2, hku3, hkd1, hkd2, hkd3, hmoved⟩ := hs
  obtain ⟨l, hl1, hl2, hl3, hl4, hl5⟩ := scan_up_spec p.data v _ p.lower ku hku1 hku3 rfl
  obtain ⟨u, hu1, hu2, hu3, hu4, hu5⟩ := scan_down_spec p.data v _ p.upper kd hkd2 hkd3 rfl
  have A2 : ∀ k, first ≤ k → k < l → p.data k ≤ v := by
    intro k hk1 hk2
    by_cases hk : k < p.lower
    · exact h2 k hk1 hk
    · exact le_of_lt (hl4 k (by omega) hk2)
  have A3 : ∀ k, u < k → k ≤ last → v ≤ p.data k := by
    intro k hk1 hk2
    by_cases hk : p.upper < k
    · exact h3 k hk hk2
    · exact le_of_lt (hu4 k hk1 (by omega))
  refine ⟨l, u, fun fuel hf => hl5 fuel (by omega), fun fuel hf => hu5 fuel (by omega), ?_⟩
  rcases lt_trichotomy l u with hlu | hlu | hlu
  · -- the two cells are exchanged
    rw [exchange_lt _ _ _ hlu]
    have hperm1 : SegPerm first last d0
        (Function.update (Function.update p.data l (p.data u)) u (p.data l)) :=
      hperm.trans (SegPerm.exchange first last l u p.data ⟨by omega, by omega⟩
        ⟨by omega, by omega⟩)
    have B2 : ∀ k, first ≤ k → k < l + 1 →
        Function.update (Function.update p.data l (p.data u)) u (p.data l) k ≤ v := by
      intro k hk1 hk2
      rw [Function.update_noteq (by omega)]
      by_cases hk : k = l
      · rw [hk, Function.update_same]
        exact hu3
      · rw [Function.update_noteq hk]
        exact A2 k hk1 (by omega)
    have B3 : ∀ k, u - 1 < k → k ≤ last →
        v ≤ Function.update (Function.update p.data l (p.data u)) u (p.data l) k := by
      intro k hk1 hk2
      by_cases hk : k = u
      · rw [hk, Function.update_same]
        exact hl3
      · rw [Function.update_noteq hk, Function.update_noteq (by omega)]
        exact A3 k (by omega) hk2
    by_cases hgo : l + 1 ≤ u - 1
    · exact Or.inl ⟨hgo, ⟨hperm1, B2, B3, by show first ≤ l + 1; omega,
        by show u - 1 ≤ last; omega, Or.inr ⟨by show first < l + 1; omega,
          by show u - 1 < last; omega⟩⟩, by show p.lower < l + 1; omega,
        by show u - 1 < p.upper; omega⟩
    · exact Or.inr ⟨hgo, ⟨hperm1, B2, B3, by show u - 1 < l + 1; omega,
        by show first < l + 1; omega, by show u - 1 < last; omega,
        by show l + 1 ≤ last + 1; omega, by show first - 1 ≤ u - 1; omega⟩⟩
  · -- both scans stop at the same cell, which holds the pivot value
    rw [exchange_eq _ _ _ hlu]
    refine Or.inr ⟨by show ¬ (l + 1 ≤ u - 1); omega, hperm, ?_, ?_,
      by show u - 1 < l + 1; omega, by show first < l + 1; omega,
      by show u - 1 < last; omega, by show l + 1 ≤ last + 1; omega,
      by show first - 1 ≤ u - 1; omega⟩
    · intro k hk1 hk2
      by_cases hk : k = l
      · rw [hk, hlu]
        exact hu3
      · exact A2 k hk1 (by change k < l + 1 at hk2; omega)
    · intro k hk1 hk2
      by_cases hk : k = u
      · rw [hk, ← hlu]
        exact hl3
      · exact A3 k (by change u - 1 < k at hk1; omega) hk2
  · -- the scans have crossed: not in the first pass
    rw [exchange_gt _ _ _ hlu]
    have hm : first < p.lower ∧ p.upper < last := by
      rcases hmoved with h | h
      · omega
      · exact h
    exact Or.inr ⟨by show ¬ (l ≤ u); omega, hperm, A2, A3, hlu, by show first < l; omega,
      by show u < last; omega, by show l ≤ last + 1; omega, by show first - 1 ≤ u; omega⟩

/-- The partitioning loop ends, with the postcondition. -/
theorem partition_spec (first last : Int) (d0 : Int → ℚ) (v : ℚ) (n : Nat) :
    ∀ p : Part, PartInv first last d0 v p → p.lower ≤ p.upper →
      (p.upper - p.lower).toNat ≤ n →
      ∃ p1, PartPost first last d0 v p1 ∧
        ∀ fuel : Nat, last - p.lower + 1 < (fuel : Int) → p.upper - first + 1 < (fuel : Int) →
          partition_loop v fuel p = some p1 := by
  induction n with
  | zero =>
    intro p hinv hle hn
    have hb1 : first ≤ p.lower := hinv.2.2.2.1
    have hb2 : p.upper ≤ last := hinv.2.2.2.2.1
    obtain ⟨l, u, hsu, hsd, hres⟩ := part_pass first last d0 v p hinv hle
    rcases hres with ⟨hgo, _, h1, h2⟩ | ⟨hstop, hpost⟩
    · omega
    · refine ⟨_, hpost, fun fuel hf1 hf2 => ?_⟩
      obtain ⟨f, rfl⟩ : ∃ f, fuel = f + 1 := ⟨fuel - 1, by omega⟩
      push_cast at hf1 hf2
      unfold partition_loop
      rw [hsu f (by omega), hsd f (by omega)]
      simp only
      rw [if_neg hstop]
  | succ n ih =>
    intro p hinv hle hn
    have hb1 : first ≤ p.lower := hinv.2.2.2.1
    have hb2 : p.upper ≤ last := hinv.2.2.2.2.1
    obtain ⟨l, u, hsu, hsd, hres⟩ := part_pass first last d0 v p hinv hle
    rcases hres with ⟨hgo, hinv1, h1, h2⟩ | ⟨hstop, hpost⟩
    · obtain ⟨p1, hpost, hrun⟩ := ih _ hinv1 hgo (by omega)
      refine ⟨p1, hpost, fun fuel hf1 hf2 => ?_⟩
      obtain ⟨f, rfl⟩ : ∃ f, fuel = f + 1 := ⟨fuel - 1, by omega⟩
      push_cast at hf1 hf2
      unfold partition_loop
      rw [hsu f (by omega), hsd f (by omega)]
      simp only
      rw [if_pos hgo]
      exact hrun f (by omega) (by omega)
    · refine ⟨_, hpost, fun fuel hf1 hf2 => ?_⟩
      obtain ⟨f, rfl⟩ : ∃ f, fuel = f + 1 := ⟨fuel - 1, by omega⟩
      push_cast at hf1 hf2
      unfold partition_loop
      rw [hsu f (by omega), hsd f (by omega)]
      simp only
      rw [if_neg hstop]

end ENTROPY
namespace ENTROPY

/-- `qsortd` ends, and leaves the segment sorted and rearranged. -/
theorem qsortd_spec (n : Nat) :
    ∀ (first last : Int) (data : Int → ℚ), 0 ≤ first → first ≤ last →
      (last - first).toNat = n →
      ∃ d, SegPerm first last data d ∧ SortedSeg first last d ∧
        ∀ fuel : Nat, last - first + 3 ≤ (fuel : Int) → qsortd fuel first last data = some d := by
  induction n using Nat.strong_induction_on with
  | _ n ih =>
    intro first last data h0 hle hn
    have hmid : first ≤ Int.tdiv (first + last) 2 ∧ Int.tdiv (first + last) 2 ≤ last := by
      rw [Int.tdiv_eq_ediv (by omega) (by norm_num)]
      omega
    obtain ⟨p, ⟨hperm, P2, P3, hcross, hfl, hul, hlb, hub⟩, hrun⟩ :=
      partition_spec first last data (data (Int.tdiv (first + last) 2)) _
        { data := data, lower := first, upper := last }
        ⟨SegPerm.refl _ _ _, fun k h1 h2 => absurd h2 (by show ¬ k < first; omega),
          fun k h1 h2 => absurd h1 (by show ¬ last < k; omega), le_refl _, le_refl _,
          Or.inl ⟨rfl, rfl, _, hmid.1, hmid.2, rfl⟩⟩ hle (le_refl _)
    -- the left part
    have hleft : ∃ d1, SegPerm first p.upper p.data d1 ∧ SortedSeg first p.upper d1 ∧
        ∀ fuel : Nat, p.upper - first + 3 ≤ (fuel : Int) →
          (if first < p.upper then qsortd fuel first p.upper p.data else some p.data)
            = some d1 := by
      by_cases hL : first < p.upper
      · obtain ⟨d1, g1, g2, g3⟩ := ih (p.upper - first).toNat (by omega) first p.upper p.data
          h0 (by omega) rfl
        exact ⟨d1, g1, g2, fun fuel hf => by rw [if_pos hL]; exact g3 fuel hf⟩
      · refine ⟨p.data, SegPerm.refl _ _ _, fun i j h1 h2 h3 => ?_,
          fun fuel _ => by rw [if_neg hL]⟩
        have : i = j := by omega
        rw [this]
    obtain ⟨d1, hp1, hs1, hrun1⟩ := hleft
    -- the right part
    have hright : ∃ d2, SegPerm p.lower last d1 d2 ∧ SortedSeg p.lower last d2 ∧
        ∀ fuel : Nat, last - p.lower + 3 ≤ (fuel : Int) →
          (if p.lower < last then qsortd fuel p.lower last d1 else some d1) = some d2 := by
      by_cases hR : p.lower < last
      · obtain ⟨d2, g1, g2, g3⟩ := ih (last - p.lower).toNat (by omega) p.lower last d1
          (by omega) (by omega) rfl
        exact ⟨d2, g1, g2, fun fuel hf => by rw [if_pos hR]; exact g3 fuel hf⟩
      · refine ⟨d1, SegPerm.refl _ _ _, fun i j h1 h2 h3 => ?_,
          fun fuel _ => by rw [if_neg hR]⟩
        have : i = j := by omega
        rw [this]
    obtain ⟨d2, hp2, hs2, hrun2⟩ := hright
    have F1 : ∀ k, first ≤ k → k ≤ p.upper → d2 k ≤ data (Int.tdiv (first + last) 2) := by
      intro k h1 h2
      rw [hp2.frame k (by omega)]
      exact hp1.forall_seg (fun q => q ≤ data (Int.tdiv (first + last) 2))
        (fun k1 g1 g2 => P2 k1 g1 (by omega)) k h1 h2
    have F2 : ∀ k, p.lower ≤ k → k ≤ last → data (Int.tdiv (first + last) 2) ≤ d2 k := by
      refine hp2.forall_seg (fun q => data (Int.tdiv (first + last) 2) ≤ q)
        (fun k h1 h2 => ?_)
      rw [hp1.frame k (by omega)]
      exact P3 k (by omega) h2
    have F3 : ∀ k, p.upper < k → k < p.lower → d2 k = data (Int.tdiv (first + last) 2) := by
      intro k h1 h2
      rw [hp2.frame k (by omega), hp1.frame k (by omega)]
      exact le_antisymm (P2 k (by omega) h2) (P3 k h1 (by omega))
    have F4 : ∀ i j, first ≤ i → i ≤ j → j ≤ p.upper → d2 i ≤ d2 j := by
      intro i j h1 h2 h3
      rw [hp2.frame i (by omega), hp2.frame j (by omega)]
      exact hs1 i j h1 h2 h3
    refine ⟨d2, hperm.trans ((hp1.mono (le_refl _) (by omega)).trans
      (hp2.mono (by omega) (le_refl _))), ?_, ?_⟩
    · intro i j h1 h2 h3
      by_cases hi : i ≤ p.upper
      · by_cases hj : j ≤ p.upper
        · exact F4 i j h1 h2 hj
        · by_cases hj2 : j < p.lower
          · rw [F3 j (by omega) hj2]
            exact F1 i h1 hi
          · exact le_trans (F1 i h1 hi) (F2 j (by omega) h3)
      · by_cases hi2 : i < p.lower
        · rw [F3 i (by omega) hi2]
          by_cases hj2 : j < p.lower
          · rw [F3 j (by omega) hj2]
          · exact F2 j (by omega) h3
        · exact hs2 i j (by omega) h2 h3
    · intro fuel hf
      obtain ⟨f, rfl⟩ : ∃ f, fuel = f + 1 := ⟨fuel - 1, by omega⟩
      push_cast at hf
      unfold qsortd
      simp only
      rw [hrun f (by show last - first + 1 < (f : Int); omega)
        (by show last - first + 1 < (f : Int); omega)]
      simp only
      rw [hrun1 f (by omega)]
      simp only
      exact hrun2 f (by omega)

end ENTROPY

/-- C10. `qsortd` sorts ascending in place: for `0 ≤ first ≤ last` and any array,
`qsortd (first, last, data)` ends (a recursion depth of `last - first + 3`
suffices), and afterwards the segment `data[first .. last]` is in non-decreasing
order, it is a permutation of what it was (as a list, duplicates included), and
the cells outside `first .. last` are unchanged. -/
theorem ENTROPY.qsortd_sorts (first last : Int) (data : Int → ℚ) (h0 : 0 ≤ first)
    (hle : first ≤ last) :
    ∃ d : Int → ℚ,
      (∀ fuel : Nat, last - first + 3 ≤ (fuel : Int) →
        ENTROPY.qsortd fuel first last data = some d) ∧
      (∀ i j : Int, first ≤ i → i ≤ j → j ≤ last → d i ≤ d j) ∧
      (ENTROPY.segment first last d).Perm (ENTROPY.segment first last data) ∧
      ∀ k : Int, (k < first ∨ last < k) → d k = data k := by
  obtain ⟨d, hp, hs, hrun⟩ := ENTROPY.qsortd_spec _ first last data h0 hle rfl
  exact ⟨d, hrun, hs, hp.segment_perm, fun k hk => hp.frame k (by omega)⟩

/-- C10, at the segment 1 .. 5 of an array of seven values. -/
theorem ENTROPY.qsortd_sorts_witness :
    ∃ d : Int → ℚ,
      (∀ fuel : Nat, (5 : Int) - 1 + 3 ≤ (fuel : Int) →
        ENTROPY.qsortd fuel 1 5 (fun j => [3, -1, 4, 1, -5, 9, 2].getD j.toNat 0) = some d) ∧
      (∀ i j : Int, 1 ≤ i → i ≤ j → j ≤ 5 → d i ≤ d j) ∧
      (ENTROPY.segment 1 5 d).Perm
        (ENTROPY.segment 1 5 (fun j => [3, -1, 4, 1, -5, 9, 2].getD j.toNat 0)) ∧
      ∀ k : Int, (k < 1 ∨ 5 < k) → d k = (fun j : Int => [3, -1, 4, 1, -5, 9, 2].getD j.toNat 0) k :=
  ENTROPY.qsortd_sorts 1 5 (fun j => [3, -1, 4, 1, -5, 9, 2].getD j.toNat 0) (by decide)
    (by decide)

/-! ## BND_RET: the bounds on future returns -/

namespace ENTROPY

theorem SegPerm.symm {a b : Int} {d d1 : Int → ℚ} (h : SegPerm a b d d1) :
    SegPerm a b d1 d := by
  obtain ⟨π, hf, rfl⟩ := h
  refine ⟨π.symm, fun k hk => (Equiv.symm_apply_eq π).mpr (hf k hk).symm, ?_⟩
  funext k
  simp only [Function.comp_apply, Equiv.apply_symm_apply]

end ENTROPY

namespace BND_RET

/-- The rank of a bound for a failure rate in `[0, 1)`. -/
theorem bound_m_spec (r : ℚ) (n : Int) (hn : 1 ≤ n) (h0 : 0 ≤ r) (h1 : r < 1) :
    bound_m r n = max 1 ⌊r * ((n + 1 : Int) : ℚ)⌋ ∧ 1 ≤ bound_m r n ∧ bound_m r n ≤ n := by
  have hpos : (0 : ℚ) < ((n + 1 : Int) : ℚ) := by exact_mod_cast (show (0 : Int) < n + 1 by omega)
  have hx : 0 ≤ r * ((n + 1 : Int) : ℚ) := mul_nonneg h0 (le_of_lt hpos)
  have hfl : ⌊r * ((n + 1 : Int) : ℚ)⌋ < n + 1 := by
    rw [Int.floor_lt]
    calc r * ((n + 1 : Int) : ℚ) < 1 * ((n + 1 : Int) : ℚ) := by
          exact mul_lt_mul_of_pos_right h1 hpos
      _ = ((n + 1 : Int) : ℚ) := one_mul _
  have hm : bound_m r n = if ⌊r * ((n + 1 : Int) : ℚ)⌋ < 1 then 1
      else ⌊r * ((n + 1 : Int) : ℚ)⌋ := by
    unfold bound_m trunc
    rw [if_pos hx]
  rw [hm]
  refine ⟨?_, ?_, ?_⟩
  · rw [max_def]
    split_ifs <;> omega
  · split_ifs <;> omega
  · split_ifs <;> omega

end BND_RET

/-- C9. Order-statistic bounds: for a sample `returns[0 .. n-1]`, `n ≥ 1`, and
failure rates in `[0, 1)`, the return bounding of `main` sorts the sample
ascending (`d` is the sorted sample) and then: the lower-bound rank is
`m_lo = max 1 ⌊lower_fail_rate * (n+1)⌋` and the lower bound is the `m_lo`-th
smallest return `d[m_lo - 1]`; the upper-bound rank is
`m_hi = max 1 ⌊upper_fail_rate * (n+1)⌋` and the upper bound is the `m_hi`-th
largest return `d[n - m_hi]`; both ranks are in `1 .. n`. Whenever
`⌊rate * (n+1)⌋ ≤ 1` the lower bound is the sample minimum and the upper bound
the sample maximum. -/
theorem BND_RET.bounding_order_statistics (n : Int) (returns : Int → ℚ)
    (lower_fail_rate upper_fail_rate : ℚ) (hn : 1 ≤ n)
    (hl0 : 0 ≤ lower_fail_rate) (hl1 : lower_fail_rate < 1)
    (hu0 : 0 ≤ upper_fail_rate) (hu1 : upper_fail_rate < 1) :
    ∃ (d : Int → ℚ) (b : BND_RET.Bounds),
      (∀ fuel : Nat, n + 2 ≤ (fuel : Int) →
        BND_RET.bounding fuel n returns lower_fail_rate upper_fail_rate = some b) ∧
      (∀ i j : Int, 0 ≤ i → i ≤ j → j ≤ n - 1 → d i ≤ d j) ∧
      (ENTROPY.segment 0 (n - 1) d).Perm (ENTROPY.segment 0 (n - 1) returns) ∧
      b.lower_bound_m = max 1 ⌊lower_fail_rate * ((n + 1 : Int) : ℚ)⌋ ∧
      (1 ≤ b.lower_bound_m ∧ b.lower_bound_m ≤ n) ∧
      b.lower_bound = d (b.lower_bound_m - 1) ∧
      b.upper_bound_m = max 1 ⌊upper_fail_rate * ((n + 1 : Int) : ℚ)⌋ ∧
      (1 ≤ b.upper_bound_m ∧ b.upper_bound_m ≤ n) ∧
      b.upper_bound = d (n - b.upper_bound_m) ∧
      (⌊lower_fail_rate * ((n + 1 : Int) : ℚ)⌋ ≤ 1 →
        b.lower_bound ∈ ENTROPY.segment 0 (n - 1) returns ∧
        ∀ k : Int, 0 ≤ k → k ≤ n - 1 → b.lower_bound ≤ returns k) ∧
      (⌊upper_fail_rate * ((n + 1 : Int) : ℚ)⌋ ≤ 1 →
        b.upper_bound ∈ ENTROPY.segment 0 (n - 1) returns ∧
        ∀ k : Int, 0 ≤ k → k ≤ n - 1 → returns k ≤ b.upper_bound) := by
  obtain ⟨d, hp, hs, hrun⟩ := ENTROPY.qsortd_spec _ 0 (n - 1) returns (le_refl _) (by omega) rfl
  obtain ⟨hl, hlb1, hlb2⟩ := BND_RET.bound_m_spec lower_fail_rate n hn hl0 hl1
  obtain ⟨hu, hub1, hub2⟩ := BND_RET.bound_m_spec upper_fail_rate n hn hu0 hu1
  have hmem : ∀ k : Int, 0 ≤ k → k ≤ n - 1 → d k ∈ ENTROPY.segment 0 (n - 1) returns := by
    intro k h1 h2
    refine hp.segment_perm.mem_iff.mp ?_
    unfold ENTROPY.segment
    exact List.mem_map.mpr ⟨k, mem_upTo.mpr ⟨h1, by omega⟩, rfl⟩
  refine ⟨d, BND_RET.return_bounds n d lower_fail_rate upper_fail_rate, ?_, hs,
    hp.segment_perm, hl, ⟨hlb1, hlb2⟩, rfl, hu, ⟨hub1, hub2⟩, rfl, ?_, ?_⟩
  · intro fuel hf
    unfold BND_RET.bounding
    rw [hrun fuel (by omega)]
    rfl
  · intro hfl
    have hm : BND_RET.bound_m lower_fail_rate n = 1 := by
      rw [hl]
      exact max_eq_left hfl
    have hb : (BND_RET.return_bounds n d lower_fail_rate upper_fail_rate).lower_bound = d 0 := by
      show d (BND_RET.bound_m lower_fail_rate n - 1) = d 0
      rw [hm]
      rfl
    rw [hb]
    exact ⟨hmem 0 (le_refl _) (by omega), hp.symm.forall_seg (fun q => d 0 ≤ q)
      (fun k h1 h2 => hs 0 k (le_refl _) h1 h2)⟩
  · intro hfl
    have hm : BND_RET.bound_m upper_fail_rate n = 1 := by
      rw [hu]
      exact max_eq_left hfl
    have hb : (BND_RET.return_bounds n d lower_fail_rate upper_fail_rate).upper_bound
        = d (n - 1) := by
      show d (n - BND_RET.bound_m upper_fail_rate n) = d (n - 1)
      rw [hm]
    rw [hb]
    exact ⟨hmem (n - 1) (by omega) (le_refl _), hp.symm.forall_seg (fun q => q ≤ d (n - 1))
      (fun k h1 h2 => hs k (n - 1) h1 h2 (le_refl _))⟩

set_option maxRecDepth 100000 in
/-- C9, at the sample -2.1, -0.4, 0.3, 0.9, 1.5, 2.2, 3.0 with both failure rates
0.2: both ranks are 1, the lower bound is -2.1 and the upper bound is 3.0. -/
theorem BND_RET.bounding_order_statistics_witness :
    (∃ (d : Int → ℚ) (b : BND_RET.Bounds),
      (∀ fuel : Nat, (7 : Int) + 2 ≤ (fuel : Int) →
        BND_RET.bounding fuel 7 (fun j => [-2.1, -0.4, 0.3, 0.9, 1.5, 2.2, 3.0].getD j.toNat 0)
          0.2 0.2 = some b) ∧
      b.lower_bound = d (b.lower_bound_m - 1) ∧ b.upper_bound = d (7 - b.upper_bound_m)) ∧
    BND_RET.bounding 9 7 (fun j => [-2.1, -0.4, 0.3, 0.9, 1.5, 2.2, 3.0].getD j.toNat 0) 0.2 0.2
      = some { lower_bound_m := 1, lower_bound := -2.1, upper_bound_m := 1,
               upper_bound := 3.0 } := by
  constructor
  · obtain ⟨d, b, h1, _, _, _, _, h2, _, _, h3, _⟩ := BND_RET.bounding_order_statistics 7
      (fun j => [-2.1, -0.4, 0.3, 0.9, 1.5, 2.2, 3.0].getD j.toNat 0) 0.2 0.2 (by decide)
      (by norm_num) (by norm_num) (by norm_num) (by norm_num)
    exact ⟨d, b, h1, h2, h3⟩
  · decide!

/-! ## BND_RET: the out-of-sample score and the size of the folds -/

/-- C19. Out-of-sample evaluation is the mean per-bar signed return with frozen
parameters: for `n ≥ 1` and `1 ≤ S < L`, `test_system (n, x, S, L)` is
`(1/n) * Σ_{i = L-1}^{L+n-2} s_i * (x[i+1] - x[i])`, where `s_i` is `+1` when the
mean of `x[i-S+1 .. i]` exceeds the mean of `x[i-L+1 .. i]`, `-1` when it is
smaller and `0` on an exact tie, the position rule of the grid search. -/
theorem BND_RET.test_system_mean_signed_return (n : Int) (x : Int → ℚ) (S L : Int)
    (_hn : 1 ≤ n) (hS : 1 ≤ S) (hSL : S < L) :
    BND_RET.test_system n x S L
      = (1 / (n : ℚ)) * ∑ i in Finset.Icc (L - 1) (L + n - 2),
          (if (∑ k in Finset.Icc (i - S + 1) i, x k) / (S : ℚ)
                > (∑ k in Finset.Icc (i - L + 1) i, x k) / (L : ℚ) then (1 : ℚ)
            else if (∑ k in Finset.Icc (i - S + 1) i, x k) / (S : ℚ)
                < (∑ k in Finset.Icc (i - L + 1) i, x k) / (L : ℚ) then -1
            else 0) * (x (i + 1) - x i) := by
  rw [BND_RET.test_system_eq n x S L (by omega) (by omega)]
  have e : L - 1 + n - 1 = L + n - 2 := by ring
  rw [e, signed_return, div_eq_mul_inv, mul_comm, one_div]
  rfl

/-- C19, at two test cases of a series of five prices with the pair (1, 2). -/
theorem BND_RET.test_system_mean_signed_return_witness :
    BND_RET.test_system 2 (fun j => if j = 2 then 5 else (j : ℚ)) 1 2
      = (1 / ((2 : Int) : ℚ)) * ∑ i in Finset.Icc ((2 : Int) - 1) (2 + 2 - 2),
          (if (∑ k in Finset.Icc (i - 1 + 1) i, (fun j : Int => if j = 2 then 5 else (j : ℚ)) k)
                  / ((1 : Int) : ℚ)
                > (∑ k in Finset.Icc (i - 2 + 1) i,
                    (fun j : Int => if j = 2 then 5 else (j : ℚ)) k) / ((2 : Int) : ℚ)
              then (1 : ℚ)
            else if (∑ k in Finset.Icc (i - 1 + 1) i,
                    (fun j : Int => if j = 2 then 5 else (j : ℚ)) k) / ((1 : Int) : ℚ)
                < (∑ k in Finset.Icc (i - 2 + 1) i,
                    (fun j : Int => if j = 2 then 5 else (j : ℚ)) k) / ((2 : Int) : ℚ)
              then -1
            else 0)
          * ((fun j : Int => if j = 2 then 5 else (j : ℚ)) (i + 1)
              - (fun j : Int => if j = 2 then 5 else (j : ℚ)) i) :=
  BND_RET.test_system_mean_signed_return 2 (fun j => if j = 2 then 5 else (j : ℚ)) 1 2
    (by decide) (by decide) (by decide)

/-- C20. A fold with zero evaluable bars never occurs: for `n_test ≥ 1` and
`n_train + n_test ≤ nprices` the walk-forward ends, and in every one of its folds
the number of test cases is `n = min n_test (nprices - train_start - n_train)`
with `1 ≤ n ≤ n_test`; `test_system` is called with this `n`, which is not zero,
so that its division by `ncases` is not a division by zero. -/
theorem BND_RET.walkforward_fold_not_empty (nprices max_lookback n_train n_test : Int)
    (prices returns : Int → ℚ) (junk : Int × Int) (h1 : 1 ≤ n_test)
    (h2 : n_train + n_test ≤ nprices) :
    ∃ s : BND_RET.Walk,
      (∀ fuel : Nat, nprices - n_train ≤ (fuel : Int) →
        BND_RET.walkforward nprices max_lookback n_train n_test prices returns junk fuel
          = some s) ∧
      ∀ f ∈ s.folds,
        f.n = min n_test (nprices - f.train_start - n_train) ∧
        1 ≤ f.n ∧ f.n ≤ n_test ∧
        f.OOS = BND_RET.test_system f.n
            (shift prices (f.train_start + n_train - f.long_lookback))
            f.short_lookback f.long_lookback * 25200 ∧
        (f.n : ℚ) ≠ 0 := by
  obtain ⟨s, hs, ⟨_, hfolds, _, hall⟩, _, _⟩ := BND_RET.walkforward_spec nprices
    max_lookback n_train n_test prices returns junk h1 h2 (nprices - n_train).toNat (by omega)
  refine ⟨s, fun fuel hfuel => BND_RET.walk_mono nprices max_lookback n_train n_test prices
    junk _ _ s hs fuel (by omega), fun f hf => ?_⟩
  obtain ⟨_, hn1, hn2, _, _, _, _, _, hoos⟩ := hall f hf
  have hmem : (f.train_start, f.n) ∈ s.folds.map (fun f => (f.train_start, f.n)) :=
    List.mem_map.mpr ⟨f, hf, rfl⟩
  rw [hfolds] at hmem
  obtain ⟨k, _, hk⟩ := List.mem_map.mp hmem
  simp only [Prod.mk.injEq] at hk
  obtain ⟨hk1, hk2⟩ := hk
  refine ⟨?_, hn1, hn2, hoos, ?_⟩
  · rw [← hk2, ← hk1]
    congr 1
    ring
  · exact_mod_cast (show f.n ≠ 0 by omega)

/-- C20, at 30 prices with a training set of 13 and test sets of 5. -/
theorem BND_RET.walkforward_fold_not_empty_witness :
    ∃ s : BND_RET.Walk,
      (∀ fuel : Nat, (30 : Int) - 13 ≤ (fuel : Int) →
        BND_RET.walkforward 30 3 13 5 (fun j => if j = 2 then 5 else (j : ℚ)) (fun _ => 0)
          (0, 0) fuel = some s) ∧
      ∀ f ∈ s.folds, 1 ≤ f.n ∧ f.n ≤ 5 := by
  obtain ⟨s, hs, hall⟩ := BND_RET.walkforward_fold_not_empty 30 3 13 5
    (fun j => if j = 2 then 5 else (j : ℚ)) (fun _ => 0) (0, 0) (by decide) (by decide)
  exact ⟨s, hs, fun f hf => ⟨(hall f hf).2.1, (hall f hf).2.2.1⟩⟩

/-! ## MCPT_TRN: a purely linear series -/

/-- Telescoping sum of the one-bar changes over the bars `lo .. hi`. -/
theorem sum_changes (x : Int → ℚ) (n : Nat) :
    ∀ lo hi : Int, hi = lo - 1 + (n : Int) →
      ∑ k in Finset.Icc lo hi, (x (k + 1) - x k) = x (hi + 1) - x lo := by
  induction n with
  | zero =>
    intro lo hi h
    have e : hi + 1 = lo := by simp at h; omega
    rw [sum_Icc_empty _ (by omega), e]
    ring
  | succ n ih =>
    intro lo hi h
    push_cast at h
    rw [sum_Icc_top _ (show lo ≤ hi by omega), ih lo (hi - 1) (by omega)]
    simp only [sub_add_cancel]
    ring

/-- Sum of a linear series over the cells `lo .. hi`. -/
theorem sum_linear (a d : ℚ) (n : Nat) :
    ∀ lo hi : Int, hi = lo - 1 + (n : Int) →
      ∑ k in Finset.Icc lo hi, (a + d * (k : ℚ))
        = (n : ℚ) * (a + d * (((lo : ℚ) + (hi : ℚ)) / 2)) := by
  induction n with
  | zero =>
    intro lo hi h
    rw [sum_Icc_empty _ (by simp at h; omega)]
    simp
  | succ n ih =>
    intro lo hi h
    push_cast at h
    have hq : (hi : ℚ) = (lo : ℚ) - 1 + ((n : ℚ) + 1) := by exact_mod_cast h
    rw [sum_Icc_top _ (show lo ≤ hi by omega), ih lo (hi - 1) (by omega)]
    push_cast
    rw [hq]
    ring

/-- The mean of the `n` prices of a linear series ending at bar `i`. -/
theorem window_mean_linear (a d : ℚ) (n i : Int) (hn : 1 ≤ n) :
    window_mean (fun j => a + d * (j : ℚ)) n i
      = a + d * ((2 * (i : ℚ) - (n : ℚ) + 1) / 2) := by
  unfold window_mean
  rw [sum_linear a d n.toNat (i - n + 1) i (by omega)]
  have hc : ((n.toNat : Nat) : ℚ) = (n : ℚ) := by
    have : ((n.toNat : Nat) : Int) = n := by omega
    exact_mod_cast this
  have hpos : (n : ℚ) ≠ 0 := by
    have : (0 : ℚ) < (n : ℚ) := by exact_mod_cast (show (0 : Int) < n by omega)
    exact ne_of_gt this
  rw [hc]
  push_cast
  field_simp
  ring

/-- On a linear series the short mean is above the long mean when the slope is
positive and below it when the slope is negative. -/
theorem window_mean_linear_cmp (a d : ℚ) (S L i : Int) (hS : 1 ≤ S) (hSL : S < L) :
    (0 < d → window_mean (fun j => a + d * (j : ℚ)) S i
        > window_mean (fun j => a + d * (j : ℚ)) L i) ∧
    (d < 0 → window_mean (fun j => a + d * (j : ℚ)) S i
        < window_mean (fun j => a + d * (j : ℚ)) L i) := by
  rw [window_mean_linear a d S i hS, window_mean_linear a d L i (by omega)]
  have hlt : (S : ℚ) < (L : ℚ) := by exact_mod_cast hSL
  constructor
  · intro hd
    nlinarith
  · intro hd
    nlinarith

theorem count_bars_all (p : Int → Prop) [DecidablePred p] (a b : Int) (hab : a ≤ b + 1)
    (h : ∀ i, a ≤ i → i ≤ b → p i) : MCPT_TRN.count_bars p a b = b - a + 1 := by
  unfold MCPT_TRN.count_bars
  rw [Finset.filter_true_of_mem (fun i hi => by
    rw [Finset.mem_Icc] at hi
    exact h i hi.1 hi.2), Int.card_Icc]
  omega

theorem count_bars_none (p : Int → Prop) [DecidablePred p] (a b : Int)
    (h : ∀ i, a ≤ i → i ≤ b → ¬ p i) : MCPT_TRN.count_bars p a b = 0 := by
  unfold MCPT_TRN.count_bars
  rw [Finset.filter_false_of_mem (fun i hi => by
    rw [Finset.mem_Icc] at hi
    exact h i hi.1 hi.2)]
  simp

theorem sentinel_neg : sentinel < 0 := by
  unfold sentinel
  norm_num

/-- The counters of a trial of MCPT_TRN count the long and the short bars. -/
theorem MCPT_TRN.trial_counts (ncases max_lookback ishort ilong : Int) (x : Int → ℚ)
    (hS : 0 < ishort) (hL : ishort ≤ ilong) (hn : max_lookback < ncases) :
    (MCPT_TRN.trial ncases max_lookback ishort ilong x).nl
      = MCPT_TRN.count_bars (fun k => window_mean x ishort k > window_mean x ilong k)
          (max_lookback - 1) (ncases - 2) ∧
    (MCPT_TRN.trial ncases max_lookback ishort ilong x).ns
      = MCPT_TRN.count_bars (fun k => window_mean x ishort k < window_mean x ilong k)
          (max_lookback - 1) (ncases - 2) := by
  have h := MCPT_TRN.trial_upto_spec max_lookback ishort ilong x hS hL
    (ncases - 1 - max_lookback).toNat (ncases - 2) (by omega)
  have e : ncases - 2 + 1 = ncases - 1 := by ring
  rw [e] at h
  rw [MCPT_TRN.trial_eq_upto]
  exact ⟨h.2.2.2.1, h.2.2.2.2⟩

/-- C18. Pure trend: on the series `x[i] = a + d * i` with `d ≠ 0` and
`2 ≤ max_lookback < ncases`, every pair `1 ≤ S < L` has its short mean above its
long mean at every bar when `d > 0` (long) and below it when `d < 0` (short);
`opt_params` of MCPT_TRN returns the score `|x[ncases-1] - x[max_lookback-1]|`,
with `nlong = ncases - max_lookback`, `nshort = 0` when `d > 0`, and
`nshort = ncases - max_lookback`, `nlong = 0` when `d < 0`. -/
theorem MCPT_TRN.opt_params_pure_trend (ncases max_lookback : Int) (a d : ℚ)
    (out : MCPT_TRN.Outs) (h2 : 2 ≤ max_lookback) (hn : max_lookback < ncases) (hd : d ≠ 0) :
    (∀ S L i : Int, 1 ≤ S → S < L →
      (0 < d → window_mean (fun j => a + d * (j : ℚ)) S i
          > window_mean (fun j => a + d * (j : ℚ)) L i) ∧
      (d < 0 → window_mean (fun j => a + d * (j : ℚ)) S i
          < window_mean (fun j => a + d * (j : ℚ)) L i)) ∧
    (MCPT_TRN.opt_params ncases max_lookback (fun j => a + d * (j : ℚ)) out).1
      = |(a + d * ((ncases - 1 : Int) : ℚ)) - (a + d * ((max_lookback - 1 : Int) : ℚ))| ∧
    (0 < d →
      (MCPT_TRN.opt_params ncases max_lookback (fun j => a + d * (j : ℚ)) out).2.nlong
        = ncases - max_lookback ∧
      (MCPT_TRN.opt_params ncases max_lookback (fun j => a + d * (j : ℚ)) out).2.nshort = 0) ∧
    (d < 0 →
      (MCPT_TRN.opt_params ncases max_lookback (fun j => a + d * (j : ℚ)) out).2.nshort
        = ncases - max_lookback ∧
      (MCPT_TRN.opt_params ncases max_lookback (fun j => a + d * (j : ℚ)) out).2.nlong = 0) := by
  have hcmp := fun (S L i : Int) (h1 : 1 ≤ S) (h2 : S < L) =>
    window_mean_linear_cmp a d S L i h1 h2
  -- the total of every grid pair is the magnitude of the drift
  have hdrift : (a + d * ((ncases - 1 : Int) : ℚ)) - (a + d * ((max_lookback - 1 : Int) : ℚ))
      = d * ((ncases : ℚ) - (max_lookback : ℚ)) := by
    push_cast
    ring
  have hbars : (0 : ℚ) < (ncases : ℚ) - (max_lookback : ℚ) := by
    have : (max_lookback : ℚ) < (ncases : ℚ) := by exact_mod_cast hn
    linarith
  have htotal : ∀ S L : Int, 1 ≤ S → S < L →
      MCPT_TRN.cum_return ncases max_lookback (fun j => a + d * (j : ℚ)) S L
        = |d * ((ncases : ℚ) - (max_lookback : ℚ))| := by
    intro S L h1 hSL
    unfold MCPT_TRN.cum_return signed_return
    rcases lt_or_gt_of_ne hd with hneg | hpos
    · have hp : ∀ i : Int, position (fun j => a + d * (j : ℚ)) S L i = -1 := by
        intro i
        have hlt := (hcmp S L i h1 hSL).2 hneg
        unfold position
        rw [if_neg (not_lt.mpr (le_of_lt hlt)), if_pos hlt]
      rw [Finset.sum_congr rfl (fun i _ => by rw [hp i]),
        abs_of_neg (mul_neg_of_neg_of_pos hneg hbars)]
      simp only [neg_mul, one_mul, Finset.sum_neg_distrib]
      rw [sum_changes (fun j => a + d * (j : ℚ)) (ncases - max_lookback).toNat
        (max_lookback - 1) (ncases - 2) (by omega)]
      push_cast
      ring
    · have hp : ∀ i : Int, position (fun j => a + d * (j : ℚ)) S L i = 1 := by
        intro i
        have hgt := (hcmp S L i h1 hSL).1 hpos
        unfold position
        rw [if_pos hgt]
      rw [Finset.sum_congr rfl (fun i _ => by rw [hp i]),
        abs_of_pos (mul_pos hpos hbars)]
      simp only [one_mul]
      rw [sum_changes (fun j => a + d * (j : ℚ)) (ncases - max_lookback).toNat
        (max_lookback - 1) (ncases - 2) (by omega)]
      push_cast
      ring
  have hpos_total : (0 : ℚ) < |d * ((ncases : ℚ) - (max_lookback : ℚ))| :=
    abs_pos.mpr (mul_ne_zero hd (ne_of_gt hbars))
  obtain ⟨_, hmax, hatt⟩ := MCPT_TRN.search_spec ncases max_lookback
    (fun j => a + d * (j : ℚ)) { best_perf := sentinel, out := out }
  rcases hatt with heq | ⟨S, L, ⟨h1, hSL, hL⟩, _, hbest, hout⟩
  · exfalso
    have h := hmax 1 2 ⟨le_refl _, by norm_num, h2⟩
    rw [heq, MCPT_TRN.trial_total ncases max_lookback 1 2 _ (by norm_num) (by norm_num) hn,
      htotal 1 2 (le_refl _) (by norm_num)] at h
    have : sentinel < 0 := sentinel_neg
    have h' : |d * ((ncases : ℚ) - (max_lookback : ℚ))| ≤ sentinel := h
    linarith
  · obtain ⟨hnl, hns⟩ := MCPT_TRN.trial_counts ncases max_lookback S L
      (fun j => a + d * (j : ℚ)) (by omega) (by omega) hn
    refine ⟨hcmp, ?_, ?_, ?_⟩
    · show (MCPT_TRN.search ncases max_lookback _ _).best_perf = _
      rw [hbest, MCPT_TRN.trial_total ncases max_lookback S L _ (by omega) (by omega) hn,
        htotal S L h1 hSL, hdrift]
    · intro hpos
      have e1 : (MCPT_TRN.opt_params ncases max_lookback (fun j => a + d * (j : ℚ)) out).2
          = (MCPT_TRN.search ncases max_lookback (fun j => a + d * (j : ℚ))
              { best_perf := sentinel, out := out }).out := rfl
      rw [e1, hout]
      constructor
      · show (MCPT_TRN.trial ncases max_lookback S L _).nl = _
        rw [hnl, count_bars_all _ _ _ (by omega) (fun i _ _ => (hcmp S L i h1 hSL).1 hpos)]
        ring
      · show (MCPT_TRN.trial ncases max_lookback S L _).ns = _
        rw [hns, count_bars_none _ _ _ (fun i _ _ =>
          not_lt.mpr (le_of_lt ((hcmp S L i h1 hSL).1 hpos)))]
    · intro hneg
      have e1 : (MCPT_TRN.opt_params ncases max_lookback (fun j => a + d * (j : ℚ)) out).2
          = (MCPT_TRN.search ncases max_lookback (fun j => a + d * (j : ℚ))
              { best_perf := sentinel, out := out }).out := rfl
      rw [e1, hout]
      constructor
      · show (MCPT_TRN.trial ncases max_lookback S L _).ns = _
        rw [hns, count_bars_all _ _ _ (by omega) (fun i _ _ => (hcmp S L i h1 hSL).2 hneg)]
        ring
      · show (MCPT_TRN.trial ncases max_lookback S L _).nl = _
        rw [hnl, count_bars_none _ _ _ (fun i _ _ =>
          not_lt.mpr (le_of_lt ((hcmp S L i h1 hSL).2 hneg)))]

/-- C18, at the series `x[i] = 1 + 2 i` of eight prices with `max_lookback = 3`. -/
theorem MCPT_TRN.opt_params_pure_trend_witness :
    (MCPT_TRN.opt_params 8 3 (fun j => 1 + 2 * (j : ℚ)) ⟨0, 0, 0, 0⟩).1
      = |(1 + 2 * (((8 : Int) - 1 : Int) : ℚ)) - (1 + 2 * (((3 : Int) - 1 : Int) : ℚ))| :=
  (MCPT_TRN.opt_params_pure_trend 8 3 1 2 ⟨0, 0, 0, 0⟩ (by decide) (by decide)
    (by norm_num)).2.1

/-! ## The grid loops keep the first pair of greatest score -/

theorem FirstMaxInv.fm_congr {sc : Int → Int → ℚ} {best0 : ℚ} {arg0 : Int × Int}
    {P Q : Int → Int → Prop} {best : ℚ} {arg : Int × Int}
    (h : FirstMaxInv sc best0 arg0 P best arg) (hPQ : ∀ S L, P S L ↔ Q S L) :
    FirstMaxInv sc best0 arg0 Q best arg := by
  rcases h with ⟨h1, h2, h3⟩ | ⟨S, L, hp, h1, h2, h3, h4, h5⟩
  · exact Or.inl ⟨h1, h2, fun S L hq => h3 S L ((hPQ S L).mpr hq)⟩
  · exact Or.inr ⟨S, L, (hPQ S L).mp hp, h1, h2, h3,
      fun S1 L1 hq => h4 S1 L1 ((hPQ S1 L1).mpr hq),
      fun S1 L1 hq => h5 S1 L1 ((hPQ S1 L1).mpr hq)⟩

/-- One more pair tried, after all those tried so far. -/
theorem FirstMaxInv.fm_step {sc : Int → Int → ℚ} {best0 : ℚ} {arg0 : Int × Int}
    {P : Int → Int → Prop} {best : ℚ} {arg : Int × Int}
    (h : FirstMaxInv sc best0 arg0 P best arg) (S0 L0 : Int)
    (hord : ∀ S L, P S L → (L < L0 ∨ (L = L0 ∧ S < S0))) :
    FirstMaxInv sc best0 arg0 (fun S L => P S L ∨ (S = S0 ∧ L = L0))
      (if sc S0 L0 > best then sc S0 L0 else best)
      (if sc S0 L0 > best then (S0, L0) else arg) := by
  rcases h with ⟨h1, h2, h3⟩ | ⟨S, L, hp, h1, h2, h3, h4, h5⟩
  · by_cases hgt : sc S0 L0 > best
    · rw [if_pos hgt, if_pos hgt]
      rw [h1] at hgt
      refine Or.inr ⟨S0, L0, Or.inr ⟨rfl, rfl⟩, rfl, rfl, hgt, ?_, ?_⟩
      · rintro S1 L1 (hq | ⟨rfl, rfl⟩)
        · exact le_trans (h3 S1 L1 hq) (le_of_lt hgt)
        · exact le_refl _
      · rintro S1 L1 (hq | ⟨rfl, rfl⟩) heq
        · exact absurd heq (ne_of_lt (lt_of_le_of_lt (h3 S1 L1 hq) hgt))
        · exact Or.inr ⟨rfl, le_refl _⟩
    · rw [if_neg hgt, if_neg hgt]
      refine Or.inl ⟨h1, h2, ?_⟩
      rintro S1 L1 (hq | ⟨rfl, rfl⟩)
      · exact h3 S1 L1 hq
      · rw [← h1]
        exact not_lt.mp hgt
  · by_cases hgt : sc S0 L0 > best
    · rw [if_pos hgt, if_pos hgt]
      rw [h2] at hgt
      refine Or.inr ⟨S0, L0, Or.inr ⟨rfl, rfl⟩, rfl, rfl, lt_trans h3 hgt, ?_, ?_⟩
      · rintro S1 L1 (hq | ⟨rfl, rfl⟩)
        · exact le_trans (h4 S1 L1 hq) (le_of_lt hgt)
        · exact le_refl _
      · rintro S1 L1 (hq | ⟨rfl, rfl⟩) heq
        · exact absurd heq (ne_of_lt (lt_of_le_of_lt (h4 S1 L1 hq) hgt))
        · exact Or.inr ⟨rfl, le_refl _⟩
    · rw [if_neg hgt, if_neg hgt]
      rw [h2] at hgt
      refine Or.inr ⟨S, L, Or.inl hp, h1, h2, h3, ?_, ?_⟩
      · rintro S1 L1 (hq | ⟨rfl, rfl⟩)
        · exact h4 S1 L1 hq
        · exact not_lt.mp hgt
      · rintro S1 L1 (hq | ⟨rfl, rfl⟩) heq
        · exact h5 S1 L1 hq heq
        · rcases hord S L hp with h | ⟨h, h'⟩
          · exact Or.inl h
          · exact Or.inr ⟨h, le_of_lt h'⟩

/-- The loop over the short lookbacks `1 .. b-1` of one long lookback `L0`. -/
theorem FirstMaxInv.fm_inner {σ : Type} (step : σ → Int → Int → σ) (best : σ → ℚ)
    (arg : σ → Int × Int) (sc : Int → Int → ℚ)
    (hstep : ∀ s S L, best (step s S L) = (if sc S L > best s then sc S L else best s) ∧
      arg (step s S L) = (if sc S L > best s then (S, L) else arg s))
    (best0 : ℚ) (arg0 : Int × Int) (L0 : Int) (s : σ)
    (h : FirstMaxInv sc best0 arg0 (TriedBefore 1 L0) (best s) (arg s)) (n : Nat) :
    ∀ b : Int, b = 1 + (n : Int) → b ≤ L0 →
      FirstMaxInv sc best0 arg0 (TriedBefore b L0)
        (best ((upTo 1 b).foldl (fun s S => step s S L0) s))
        (arg ((upTo 1 b).foldl (fun s S => step s S L0) s)) := by
  induction n with
  | zero =>
    intro b hb _
    have : b = 1 := by simpa using hb
    subst this
    rw [upTo_of_le (le_refl _)]
    exact h
  | succ n ih =>
    intro b hb hle
    push_cast at hb
    have e : b = b - 1 + 1 := by ring
    have hprev := ih (b - 1) (by omega) (by omega)
    rw [e, upTo_snoc (by omega), List.foldl_append, ← e]
    simp only [List.foldl_cons, List.foldl_nil]
    obtain ⟨hb1, hb2⟩ := hstep ((upTo 1 (b - 1)).foldl (fun s S => step s S L0) s) (b - 1) L0
    rw [hb1, hb2]
    refine (hprev.fm_step (b - 1) L0 (fun S L hp => hp.2.2)).fm_congr (fun S L => ?_)
    unfold TriedBefore
    constructor
    · rintro (⟨h1, h2, h3⟩ | ⟨rfl, rfl⟩)
      · exact ⟨h1, h2, by omega⟩
      · exact ⟨by omega, by omega, by omega⟩
    · rintro ⟨h1, h2, h3⟩
      by_cases hc : S = b - 1 ∧ L = L0
      · exact Or.inr hc
      · exact Or.inl ⟨h1, h2, by omega⟩

/-- The two grid loops, the long lookback running over `2 .. hi-1`: the record
they leave is the first pair of greatest score, if any pair beats the record they
start from. -/
theorem FirstMaxInv.fm_grid {σ : Type} (step : σ → Int → Int → σ) (best : σ → ℚ)
    (arg : σ → Int × Int) (sc : Int → Int → ℚ)
    (hstep : ∀ s S L, best (step s S L) = (if sc S L > best s then sc S L else best s) ∧
      arg (step s S L) = (if sc S L > best s then (S, L) else arg s))
    (s0 : σ) (n : Nat) :
    ∀ hi : Int, hi = 2 + (n : Int) →
      FirstMaxInv sc (best s0) (arg s0) (TriedBefore 1 hi)
        (best ((upTo 2 hi).foldl (fun s L => (upTo 1 L).foldl (fun s S => step s S L) s) s0))
        (arg ((upTo 2 hi).foldl (fun s L => (upTo 1 L).foldl (fun s S => step s S L) s) s0))
    := by
  induction n with
  | zero =>
    intro hi hhi
    have : hi = 2 := by simpa using hhi
    subst this
    rw [upTo_of_le (le_refl _)]
    exact Or.inl ⟨rfl, rfl, fun S L hp => by
      unfold TriedBefore at hp
      omega⟩
  | succ n ih =>
    intro hi hhi
    push_cast at hhi
    have e : hi = hi - 1 + 1 := by ring
    have hprev := ih (hi - 1) (by omega)
    rw [e, upTo_snoc (by omega), List.foldl_append, ← e]
    simp only [List.foldl_cons, List.foldl_nil]
    have hin := FirstMaxInv.fm_inner step best arg sc hstep (best s0) (arg s0) (hi - 1) _ hprev
      (hi - 2).toNat (hi - 1) (by omega) (le_refl _)
    refine hin.fm_congr (fun S L => ?_)
    unfold TriedBefore
    constructor
    · rintro ⟨h1, h2, h3⟩
      exact ⟨h1, h2, by omega⟩
    · rintro ⟨h1, h2, h3⟩
      exact ⟨h1, h2, by omega⟩

/-- The pairs tried by grid loops whose long lookback runs over `2 .. hi-1`. -/
theorem triedBefore_grid (hi S L : Int) : TriedBefore 1 hi S L ↔ 1 ≤ S ∧ S < L ∧ L < hi := by
  unfold TriedBefore
  constructor
  · rintro ⟨h1, h2, h3⟩
    exact ⟨h1, h2, by omega⟩
  · rintro ⟨h1, h2, h3⟩
    exact ⟨h1, h2, Or.inl h3⟩

namespace MCPT_TRN

/-- The grid loops of MCPT_TRN leave the first pair of greatest total, if any
total beats the record they start from. -/
theorem search_first_max (ncases max_lookback : Int) (x : Int → ℚ) (s0 : Search) :
    FirstMaxInv (fun S L => (trial ncases max_lookback S L x).total_return)
      s0.best_perf (s0.out.short_term, s0.out.long_term)
      (fun S L => 1 ≤ S ∧ S < L ∧ L ≤ max_lookback)
      (search ncases max_lookback x s0).best_perf
      ((search ncases max_lookback x s0).out.short_term,
        (search ncases max_lookback x s0).out.long_term) := by
  by_cases h : 2 ≤ max_lookback + 1
  · have := FirstMaxInv.fm_grid
      (fun s S L => keep_best s S L (trial ncases max_lookback S L x))
      Search.best_perf (fun s => (s.out.short_term, s.out.long_term))
      (fun S L => (trial ncases max_lookback S L x).total_return)
      (fun s S L => by
        dsimp only [keep_best]
        split_ifs <;> exact ⟨rfl, rfl⟩)
      s0 (max_lookback + 1 - 2).toNat (max_lookback + 1) (by omega)
    refine this.fm_congr (fun S L => ?_)
    rw [triedBefore_grid]
    omega
  · unfold search
    rw [upTo_of_le (by omega)]
    exact Or.inl ⟨rfl, rfl, fun S L hp => by omega⟩

end MCPT_TRN

namespace BND_RET

/-- The grid loops of BND_RET leave the first pair of greatest score, if any
score beats the record they start from. -/
theorem bnd_search_first_max (ncases max_lookback : Int) (x : Int → ℚ) (s0 : Search) :
    FirstMaxInv (fun S L => trial_score ncases S L x)
      s0.best_perf (s0.ibest.getD (0, 0))
      (fun S L => 1 ≤ S ∧ S < L ∧ L < max_lookback)
      (search ncases max_lookback x s0).best_perf
      ((search ncases max_lookback x s0).ibest.getD (0, 0)) := by
  by_cases h : 2 ≤ max_lookback
  · have := FirstMaxInv.fm_grid
      (fun s S L => keep_best s S L (trial_score ncases S L x))
      Search.best_perf (fun s => s.ibest.getD (0, 0))
      (fun S L => trial_score ncases S L x)
      (fun s S L => by
        dsimp only [keep_best]
        split_ifs <;> exact ⟨rfl, rfl⟩)
      s0 (max_lookback - 2).toNat max_lookback (by omega)
    refine this.fm_congr (fun S L => ?_)
    rw [triedBefore_grid]
  · unfold search
    rw [upTo_of_le (by omega)]
    exact Or.inl ⟨rfl, rfl, fun S L hp => by omega⟩

end BND_RET

namespace MCPT_TRN

/-- The two outcomes of `opt_params` of MCPT_TRN: no trial total is above the
sentinel and the four outputs are left as they were; or the outputs are those of
the first grid pair of greatest total. -/
theorem opt_params_cases (ncases max_lookback : Int) (x : Int → ℚ) (out : Outs) :
    ((∀ S L : Int, 1 ≤ S → S < L → L ≤ max_lookback →
        (trial ncases max_lookback S L x).total_return ≤ sentinel) ∧
      opt_params ncases max_lookback x out = (sentinel, out)) ∨
    (∃ S L : Int, (1 ≤ S ∧ S < L ∧ L ≤ max_lookback) ∧
      sentinel < (trial ncases max_lookback S L x).total_return ∧
      opt_params ncases max_lookback x out
        = ((trial ncases max_lookback S L x).total_return,
            { short_term := S, long_term := L,
              nshort := (trial ncases max_lookback S L x).ns,
              nlong := (trial ncases max_lookback S L x).nl }) ∧
      (∀ S1 L1 : Int, 1 ≤ S1 → S1 < L1 → L1 ≤ max_lookback →
        (trial ncases max_lookback S1 L1 x).total_return
          ≤ (trial ncases max_lookback S L x).total_return) ∧
      (∀ S1 L1 : Int, 1 ≤ S1 → S1 < L1 → L1 ≤ max_lookback →
        (trial ncases max_lookback S1 L1 x).total_return
          = (trial ncases max_lookback S L x).total_return →
        (L < L1 ∨ (L = L1 ∧ S ≤ S1)))) := by
  obtain ⟨_, hmax, hatt⟩ := search_spec ncases max_lookback x
    { best_perf := sentinel, out := out }
  have hfm := search_first_max ncases max_lookback x { best_perf := sentinel, out := out }
  rcases hatt with heq | ⟨S, L, hg, hgt, hbest, hout⟩
  · left
    refine ⟨fun S L h1 h2 h3 => ?_, ?_⟩
    · have := hmax S L ⟨h1, h2, h3⟩
      rwa [heq] at this
    · unfold opt_params
      simp only [heq]
  · right
    refine ⟨S, L, hg, hgt, ?_, ?_, ?_⟩
    · unfold opt_params
      simp only [hbest, hout]
    · intro S1 L1 h1 h2 h3
      rw [← hbest]
      exact hmax S1 L1 ⟨h1, h2, h3⟩
    · intro S1 L1 h1 h2 h3 heq
      rcases hfm with ⟨hb, _, _⟩ | ⟨S', L', _, harg, _, _, _, hfirst⟩
      · rw [hbest] at hb
        exact absurd hb (ne_of_gt hgt)
      · rw [hout] at harg
        simp only [Prod.mk.injEq] at harg
        obtain ⟨rfl, rfl⟩ := harg
        exact hfirst S1 L1 ⟨h1, h2, h3⟩ heq

end MCPT_TRN

namespace BND_RET

/-- The two outcomes of `opt_params` of BND_RET: no score is above the
sentinel and no pair is set; or the pair is the first pair tried that has the
greatest score. -/
theorem bnd_opt_params_cases (ncases max_lookback : Int) (x : Int → ℚ) :
    ((∀ S L : Int, 1 ≤ S → S < L → L < max_lookback →
        trial_score ncases S L x ≤ sentinel) ∧
      opt_params ncases max_lookback x = (sentinel, none)) ∨
    (∃ S L : Int, (1 ≤ S ∧ S < L ∧ L < max_lookback) ∧
      sentinel < trial_score ncases S L x ∧
      opt_params ncases max_lookback x = (trial_score ncases S L x, some (S, L)) ∧
      (∀ S1 L1 : Int, 1 ≤ S1 → S1 < L1 → L1 < max_lookback →
        trial_score ncases S1 L1 x ≤ trial_score ncases S L x) ∧
      (∀ S1 L1 : Int, 1 ≤ S1 → S1 < L1 → L1 < max_lookback →
        trial_score ncases S1 L1 x = trial_score ncases S L x →
        (L < L1 ∨ (L = L1 ∧ S ≤ S1)))) := by
  obtain ⟨_, hmax, hatt⟩ := bnd_search_spec ncases max_lookback x
    { best_perf := sentinel, ibest := none }
  have hfm := bnd_search_first_max ncases max_lookback x
    { best_perf := sentinel, ibest := none }
  rcases hatt with heq | ⟨S, L, hg, hgt, hbest, hout⟩
  · left
    refine ⟨fun S L h1 h2 h3 => ?_, ?_⟩
    · have := hmax S L ⟨h1, h2, h3⟩
      rwa [heq] at this
    · unfold opt_params
      simp only [heq]
  · right
    refine ⟨S, L, hg, hgt, ?_, ?_, ?_⟩
    · unfold opt_params
      simp only [hbest, hout]
    · intro S1 L1 h1 h2 h3
      rw [← hbest]
      exact hmax S1 L1 ⟨h1, h2, h3⟩
    · intro S1 L1 h1 h2 h3 heq
      rcases hfm with ⟨hb, _, _⟩ | ⟨S', L', _, harg, _, _, _, hfirst⟩
      · rw [hbest] at hb
        exact absurd hb (ne_of_gt hgt)
      · rw [hout] at harg
        simp only [Option.getD_some, Prod.mk.injEq] at harg
        obtain ⟨rfl, rfl⟩ := harg
        exact hfirst S1 L1 ⟨h1, h2, h3⟩ heq

end BND_RET

/-! ## The pair returned by the grid search: validity, tie-break, counts -/

/-- C11. The pair returned by `opt_params` is a grid pair as soon as one trial
beats the sentinel `-1e60`. In MCPT_TRN, if some pair `1 ≤ S < L ≤ max_lookback`
has a total return above the sentinel, the returned pair satisfies
`1 ≤ short < long ≤ max_lookback`; if none has, the four outputs are left as
they were on entry. In BND_RET, if some pair `1 ≤ S < L < max_lookback` has a
score above the sentinel, a pair is returned and it satisfies
`1 ≤ short < long < max_lookback`; if none has, no pair is set. -/
theorem opt_params_pair_in_grid (ncases max_lookback : Int) (x : Int → ℚ)
    (out : MCPT_TRN.Outs) :
    ((∃ S L : Int, 1 ≤ S ∧ S < L ∧ L ≤ max_lookback ∧
        sentinel < (MCPT_TRN.trial ncases max_lookback S L x).total_return) →
      1 ≤ (MCPT_TRN.opt_params ncases max_lookback x out).2.short_term ∧
      (MCPT_TRN.opt_params ncases max_lookback x out).2.short_term
        < (MCPT_TRN.opt_params ncases max_lookback x out).2.long_term ∧
      (MCPT_TRN.opt_params ncases max_lookback x out).2.long_term ≤ max_lookback) ∧
    ((∀ S L : Int, 1 ≤ S → S < L → L ≤ max_lookback →
        (MCPT_TRN.trial ncases max_lookback S L x).total_return ≤ sentinel) →
      (MCPT_TRN.opt_params ncases max_lookback x out).2 = out) ∧
    ((∃ S L : Int, 1 ≤ S ∧ S < L ∧ L < max_lookback ∧
        sentinel < BND_RET.trial_score ncases S L x) →
      ∃ S L : Int, (BND_RET.opt_params ncases max_lookback x).2 = some (S, L) ∧
        1 ≤ S ∧ S < L ∧ L < max_lookback) ∧
    ((∀ S L : Int, 1 ≤ S → S < L → L < max_lookback →
        BND_RET.trial_score ncases S L x ≤ sentinel) →
      (BND_RET.opt_params ncases max_lookback x).2 = none) := by
  refine ⟨?_, ?_, ?_, ?_⟩
  · rintro ⟨S, L, h1, h2, h3, hgt⟩
    rcases MCPT_TRN.opt_params_cases ncases max_lookback x out with
      ⟨hall, _⟩ | ⟨S', L', hg, _, heq, _, _⟩
    · exact absurd hgt (not_lt.mpr (hall S L h1 h2 h3))
    · rw [heq]
      exact hg
  · intro hall
    rcases MCPT_TRN.opt_params_cases ncases max_lookback x out with
      ⟨_, heq⟩ | ⟨S', L', hg, hgt, _, _, _⟩
    · rw [heq]
    · exact absurd hgt (not_lt.mpr (hall S' L' hg.1 hg.2.1 hg.2.2))
  · rintro ⟨S, L, h1, h2, h3, hgt⟩
    rcases BND_RET.bnd_opt_params_cases ncases max_lookback x with
      ⟨hall, _⟩ | ⟨S', L', hg, _, heq, _, _⟩
    · exact absurd hgt (not_lt.mpr (hall S L h1 h2 h3))
    · exact ⟨S', L', by rw [heq], hg⟩
  · intro hall
    rcases BND_RET.bnd_opt_params_cases ncases max_lookback x with
      ⟨_, heq⟩ | ⟨S', L', hg, hgt, _, _, _⟩
    · rw [heq]
    · exact absurd hgt (not_lt.mpr (hall S' L' hg.1 hg.2.1 hg.2.2))

set_option maxRecDepth 100000 in
/-- C11, at a series of five prices with `max_lookback = 3`: both programs
return a grid pair. -/
theorem opt_params_pair_in_grid_witness :
    (1 ≤ (MCPT_TRN.opt_params 5 3 (fun j => if j = 2 then 5 else (j : ℚ)) ⟨0, 0, 0, 0⟩).2.short_term ∧
      (MCPT_TRN.opt_params 5 3 (fun j => if j = 2 then 5 else (j : ℚ)) ⟨0, 0, 0, 0⟩).2.short_term
        < (MCPT_TRN.opt_params 5 3 (fun j => if j = 2 then 5 else (j : ℚ)) ⟨0, 0, 0, 0⟩).2.long_term ∧
      (MCPT_TRN.opt_params 5 3 (fun j => if j = 2 then 5 else (j : ℚ)) ⟨0, 0, 0, 0⟩).2.long_term ≤ 3) ∧
    (∃ S L : Int, (BND_RET.opt_params 5 3 (fun j => if j = 2 then 5 else (j : ℚ))).2 = some (S, L) ∧
      1 ≤ S ∧ S < L ∧ L < 3) :=
  ⟨(opt_params_pair_in_grid 5 3 (fun j => if j = 2 then 5 else (j : ℚ)) ⟨0, 0, 0, 0⟩).1
      ⟨1, 2, by decide, by decide, by decide, by decide!⟩,
    (opt_params_pair_in_grid 5 3 (fun j => if j = 2 then 5 else (j : ℚ)) ⟨0, 0, 0, 0⟩).2.2.1
      ⟨1, 2, by decide, by decide, by decide, by decide!⟩⟩

set_option maxRecDepth 100000 in
/-- C11 fails without the proviso. On the four prices `0, 1, -2e60, -2e60` with
`max_lookback = 2` (grid `{(1, 2)}`, `ncases = 4 > 2`) the only trial of MCPT_TRN
totals `-2e60 - 1`, which does not beat the sentinel: the outputs keep the value
`0` they had on entry, so `1 ≤ short` fails. On `0, 1, -4e60, -4e60` with
`max_lookback = 3` BND_RET sets no pair at all. -/
theorem opt_params_pair_in_grid_counterexample :
    ((2 : Int) ≤ 2 ∧ (2 : Int) < 4 ∧
      (MCPT_TRN.trial 4 2 1 2
        (fun j => if j = 1 then 1 else if 2 ≤ j then -(2 * 10 ^ 60) else 0)).total_return
        = -(2 * 10 ^ 60) - 1 ∧
      ((MCPT_TRN.opt_params 4 2
        (fun j => if j = 1 then 1 else if 2 ≤ j then -(2 * 10 ^ 60) else 0)
        ⟨0, 0, 0, 0⟩).2.short_term,
       (MCPT_TRN.opt_params 4 2
        (fun j => if j = 1 then 1 else if 2 ≤ j then -(2 * 10 ^ 60) else 0)
        ⟨0, 0, 0, 0⟩).2.long_term) = (0, 0)) ∧
    ((3 : Int) ≤ 3 ∧ (3 : Int) < 4 ∧
      (BND_RET.opt_params 4 3
        (fun j => if j = 1 then 1 else if 2 ≤ j then -(4 * 10 ^ 60) else 0)).2 = none) := by
  refine ⟨⟨by decide, by decide, ?_, ?_⟩, by decide, by decide, ?_⟩
  · decide!
  · decide!
  · decide!

/-- C16. Deterministic tie-break, as soon as one trial beats the sentinel `-1e60`.
In MCPT_TRN, if some grid pair `1 ≤ S < L ≤ max_lookback` has a total above the
sentinel, the returned pair is a grid pair, the returned score is its total, no
grid pair has a greater total, and every grid pair `(S1, L1)` of the same total
comes at or after it in the order of the loops (`L < L1`, or `L = L1` and
`S ≤ S1`). The same holds for BND_RET over the pairs it tries,
`1 ≤ S < L < max_lookback`, with its score. In both programs a trial whose score
is not strictly greater than the record leaves the record as it is. -/
theorem opt_params_tie_break (ncases max_lookback : Int) (x : Int → ℚ)
    (out : MCPT_TRN.Outs) :
    ((∃ S L : Int, 1 ≤ S ∧ S < L ∧ L ≤ max_lookback ∧
        sentinel < (MCPT_TRN.trial ncases max_lookback S L x).total_return) →
      (1 ≤ (MCPT_TRN.opt_params ncases max_lookback x out).2.short_term ∧
        (MCPT_TRN.opt_params ncases max_lookback x out).2.short_term
          < (MCPT_TRN.opt_params ncases max_lookback x out).2.long_term ∧
        (MCPT_TRN.opt_params ncases max_lookback x out).2.long_term ≤ max_lookback) ∧
      (MCPT_TRN.opt_params ncases max_lookback x out).1
        = (MCPT_TRN.trial ncases max_lookback
            (MCPT_TRN.opt_params ncases max_lookback x out).2.short_term
            (MCPT_TRN.opt_params ncases max_lookback x out).2.long_term x).total_return ∧
      (∀ S1 L1 : Int, 1 ≤ S1 → S1 < L1 → L1 ≤ max_lookback →
        (MCPT_TRN.trial ncases max_lookback S1 L1 x).total_return
          ≤ (MCPT_TRN.opt_params ncases max_lookback x out).1) ∧
      (∀ S1 L1 : Int, 1 ≤ S1 → S1 < L1 → L1 ≤ max_lookback →
        (MCPT_TRN.trial ncases max_lookback S1 L1 x).total_return
          = (MCPT_TRN.opt_params ncases max_lookback x out).1 →
        ((MCPT_TRN.opt_params ncases max_lookback x out).2.long_term < L1 ∨
          ((MCPT_TRN.opt_params ncases max_lookback x out).2.long_term = L1 ∧
            (MCPT_TRN.opt_params ncases max_lookback x out).2.short_term ≤ S1)))) ∧
    ((∃ S L : Int, 1 ≤ S ∧ S < L ∧ L < max_lookback ∧
        sentinel < BND_RET.trial_score ncases S L x) →
      ∃ S L : Int, (1 ≤ S ∧ S < L ∧ L < max_lookback) ∧
        BND_RET.opt_params ncases max_lookback x
          = (BND_RET.trial_score ncases S L x, some (S, L)) ∧
        (∀ S1 L1 : Int, 1 ≤ S1 → S1 < L1 → L1 < max_lookback →
          BND_RET.trial_score ncases S1 L1 x ≤ BND_RET.trial_score ncases S L x) ∧
        (∀ S1 L1 : Int, 1 ≤ S1 → S1 < L1 → L1 < max_lookback →
          BND_RET.trial_score ncases S1 L1 x = BND_RET.trial_score ncases S L x →
          (L < L1 ∨ (L = L1 ∧ S ≤ S1)))) ∧
    (∀ (s : MCPT_TRN.Search) (S L : Int) (t : MCPT_TRN.Trial),
      t.total_return ≤ s.best_perf → MCPT_TRN.keep_best s S L t = s) ∧
    (∀ (s : BND_RET.Search) (S L : Int) (t : ℚ),
      t ≤ s.best_perf → BND_RET.keep_best s S L t = s) := by
  refine ⟨?_, ?_, ?_, ?_⟩
  · rintro ⟨S, L, h1, h2, h3, hgt⟩
    rcases MCPT_TRN.opt_params_cases ncases max_lookback x out with
      ⟨hall, _⟩ | ⟨S', L', hg, _, heq, hmax, hfirst⟩
    · exact absurd hgt (not_lt.mpr (hall S L h1 h2 h3))
    · rw [heq]
      exact ⟨hg, rfl, hmax, hfirst⟩
  · rintro ⟨S, L, h1, h2, h3, hgt⟩
    rcases BND_RET.bnd_opt_params_cases ncases max_lookback x with
      ⟨hall, _⟩ | ⟨S', L', hg, _, heq, hmax, hfirst⟩
    · exact absurd hgt (not_lt.mpr (hall S L h1 h2 h3))
    · exact ⟨S', L', hg, heq, hmax, hfirst⟩
  · intro s S L t h
    unfold MCPT_TRN.keep_best
    rw [if_neg (not_lt.mpr h)]
  · intro s S L t h
    unfold BND_RET.keep_best
    rw [if_neg (not_lt.mpr h)]

set_option maxRecDepth 100000 in
/-- C16, at the constant series with `max_lookback = 4`: every trial scores `0`,
and both programs return the first pair tried, `(1, 2)`. -/
theorem opt_params_tie_break_witness :
    ((MCPT_TRN.opt_params 6 4 (fun _ => 1) ⟨0, 0, 0, 0⟩).2.short_term = 1 ∧
      (MCPT_TRN.opt_params 6 4 (fun _ => 1) ⟨0, 0, 0, 0⟩).2.long_term = 1 + 1) ∧
    (∃ S L : Int, (1 ≤ S ∧ S < L ∧ L < 4) ∧
        BND_RET.opt_params 6 4 (fun _ => 1)
          = (BND_RET.trial_score 6 S L (fun _ => 1), some (S, L)) ∧
        (∀ S1 L1 : Int, 1 ≤ S1 → S1 < L1 → L1 < 4 →
          BND_RET.trial_score 6 S1 L1 (fun _ => 1) ≤ BND_RET.trial_score 6 S L (fun _ => 1)) ∧
        (∀ S1 L1 : Int, 1 ≤ S1 → S1 < L1 → L1 < 4 →
          BND_RET.trial_score 6 S1 L1 (fun _ => 1) = BND_RET.trial_score 6 S L (fun _ => 1) →
          (L < L1 ∨ (L = L1 ∧ S ≤ S1)))) := by
  have h := opt_params_tie_break 6 4 (fun _ => 1) ⟨0, 0, 0, 0⟩
  have hM := h.1 ⟨1, 2, by decide, by decide, by decide, by decide!⟩
  have hB := h.2.1 ⟨1, 2, by decide, by decide, by decide, by decide!⟩
  refine ⟨?_, hB⟩
  have hfirst := hM.2.2.2 1 2 (by decide) (by decide) (by decide) (by decide!)
  have hg := hM.1
  omega

set_option maxRecDepth 100000 in
/-- C16 fails without the proviso. On the three prices `0, 1, -2e60` with
`max_lookback = 2` the grid of MCPT_TRN is the single pair `(1, 2)`, whose total
`-2e60 - 1` is therefore the greatest; it does not beat the sentinel, and
`opt_params` returns the sentinel as score and the pair `(7, 9)` it was entered
with, not `(1, 2)`. -/
theorem opt_params_tie_break_counterexample :
    (MCPT_TRN.trial 3 2 1 2
      (fun j => if j = 1 then 1 else if 2 ≤ j then -(2 * 10 ^ 60) else 0)).total_return
      = -(2 * 10 ^ 60) - 1 ∧
    (MCPT_TRN.opt_params 3 2
      (fun j => if j = 1 then 1 else if 2 ≤ j then -(2 * 10 ^ 60) else 0)
      ⟨7, 9, 0, 0⟩).1 = -(10 ^ 60) ∧
    ((MCPT_TRN.opt_params 3 2
      (fun j => if j = 1 then 1 else if 2 ≤ j then -(2 * 10 ^ 60) else 0)
      ⟨7, 9, 0, 0⟩).2.short_term,
     (MCPT_TRN.opt_params 3 2
      (fun j => if j = 1 then 1 else if 2 ≤ j then -(2 * 10 ^ 60) else 0)
      ⟨7, 9, 0, 0⟩).2.long_term) = (7, 9) := by
  refine ⟨?_, ?_, ?_⟩
  · decide!
  · decide!
  · decide!

namespace MCPT_TRN

/-- The value returned by `RAND32M` is a 32-bit word. -/
theorem RAND32M_lt (g : Rng) : (RAND32M g).1 < 2 ^ 32 := by
  unfold RAND32M
  exact Nat.mod_lt _ (by norm_num)

/-- What `unifrand` returns is what `RAND32M` returns, divided by `0xFFFFFFFF`. -/
theorem unifrand_eq (g : Rng) : (unifrand g).1 = ((RAND32M g).1 : ℚ) / 4294967295 := by
  unfold unifrand
  simp only
  ring

end MCPT_TRN

set_option maxRecDepth 100000 in
/-- C12. `RAND32M_seed` does not reset the carry word nor the table index: it
leaves both as they are in every state. Seeded with `1`, the generator as the
program starts (`carry = 362436`, `i = 255`) first returns `1304893148`; seeded
with `1` after one earlier draw (`carry = 287757942`, `i = 0`) it first returns
`1128169490`. -/
theorem MCPT_TRN.RAND32M_seed_keeps_carry :
    (∀ (g : MCPT_TRN.Rng) (s : Int),
      (MCPT_TRN.RAND32M_seed g s).carry = g.carry ∧ (MCPT_TRN.RAND32M_seed g s).i = g.i) ∧
    ((MCPT_TRN.RAND32M MCPT_TRN.Rng.start).2.carry = 287757942 ∧
      (MCPT_TRN.RAND32M MCPT_TRN.Rng.start).2.i = 0) ∧
    (MCPT_TRN.RAND32M (MCPT_TRN.RAND32M_seed MCPT_TRN.Rng.start 1)).1 = 1304893148 ∧
    (MCPT_TRN.RAND32M
      (MCPT_TRN.RAND32M_seed (MCPT_TRN.RAND32M MCPT_TRN.Rng.start).2 1)).1 = 1128169490 ∧
    (MCPT_TRN.unifrand (MCPT_TRN.RAND32M_seed MCPT_TRN.Rng.start 1)).1
      ≠ (MCPT_TRN.unifrand
          (MCPT_TRN.RAND32M_seed (MCPT_TRN.RAND32M MCPT_TRN.Rng.start).2 1)).1 := by
  refine ⟨fun g s => ⟨rfl, rfl⟩, ⟨?_, ?_⟩, ?_, ?_, ?_⟩
  · decide!
  · decide!
  · decide!
  · decide!
  · decide!

/-- C13. For every generator state, `unifrand` returns `u` with `0 ≤ u ≤ 1`,
where `u` is the output of `RAND32M`, a word below `2^32`, divided by
`0xFFFFFFFF`; `u` is below `1` unless that word is `0xFFFFFFFF`, when `u = 1`. -/
theorem MCPT_TRN.unifrand_range (g : MCPT_TRN.Rng) :
    (MCPT_TRN.unifrand g).1 = (1 / 4294967295) * ((MCPT_TRN.RAND32M g).1 : ℚ) ∧
    (MCPT_TRN.RAND32M g).1 < 2 ^ 32 ∧
    0 ≤ (MCPT_TRN.unifrand g).1 ∧ (MCPT_TRN.unifrand g).1 ≤ 1 ∧
    ((MCPT_TRN.unifrand g).1 < 1 ↔ (MCPT_TRN.RAND32M g).1 ≠ 4294967295) ∧
    ((MCPT_TRN.unifrand g).1 = 1 ↔ (MCPT_TRN.RAND32M g).1 = 4294967295) := by
  have hlt := MCPT_TRN.RAND32M_lt g
  have hu := MCPT_TRN.unifrand_eq g
  have hle : (MCPT_TRN.RAND32M g).1 ≤ 4294967295 := by omega
  have hq : ((MCPT_TRN.RAND32M g).1 : ℚ) ≤ 4294967295 := by exact_mod_cast hle
  have h0 : (0 : ℚ) ≤ ((MCPT_TRN.RAND32M g).1 : ℚ) := Nat.cast_nonneg _
  have hone : (MCPT_TRN.unifrand g).1 = 1 ↔ (MCPT_TRN.RAND32M g).1 = 4294967295 := by
    rw [hu, div_eq_one_iff_eq (by norm_num)]
    exact_mod_cast Iff.rfl
  have hle1 : (MCPT_TRN.unifrand g).1 ≤ 1 := by
    rw [hu, div_le_one (by norm_num)]
    exact hq
  refine ⟨?_, hlt, ?_, hle1, ?_, hone⟩
  · rw [hu]
    ring
  · rw [hu]
    exact div_nonneg h0 (by norm_num)
  · rw [lt_iff_le_and_ne]
    exact ⟨fun h hc => h.2 (hone.mpr hc), fun h => ⟨hle1, fun hc => h (hone.mp hc)⟩⟩

set_option maxRecDepth 100000 in
/-- C13 fails as stated: `1` is returned. Started as the program starts and
seeded with `30688223`, the generator returns `0xFFFFFFFF` at its second draw,
and `unifrand` returns `1` there. -/
theorem MCPT_TRN.unifrand_range_counterexample :
    (MCPT_TRN.RAND32M
      (MCPT_TRN.RAND32M (MCPT_TRN.RAND32M_seed MCPT_TRN.Rng.start 30688223)).2).1
      = 4294967295 ∧
    (MCPT_TRN.unifrand
      (MCPT_TRN.unifrand (MCPT_TRN.RAND32M_seed MCPT_TRN.Rng.start 30688223)).2).1 = 1 := by
  refine ⟨?_, ?_⟩
  · decide!
  · decide!

/-! ## The grid of BND_RET and its normalised score -/

set_option maxRecDepth 100000 in
/-- C14. `opt_params` of BND_RET never tries the long lookback `max_lookback`.
With `max_lookback = 2` it tries nothing and returns the sentinel and no pair,
whatever the series. On the five prices `0, 1, 0, 0, 0` with `max_lookback = 3` it
returns the score `-1/3` of the pair `(1, 2)`, while the pair `(1, 3)` scores
`0`; entered with `max_lookback = 4` it does return `(1, 3)` with the score `0`. -/
theorem BND_RET.opt_params_skips_max_lookback :
    (∀ (ncases : Int) (x : Int → ℚ), BND_RET.opt_params ncases 2 x = (sentinel, none)) ∧
    BND_RET.opt_params 5 3 (fun j => if j = 1 then 1 else 0) = (-1 / 3, some (1, 2)) ∧
    BND_RET.trial_score 5 1 3 (fun j => if j = 1 then 1 else 0) = 0 ∧
    BND_RET.test_system (5 - 3) (fun j => if j = 1 then 1 else 0) 1 3 = 0 ∧
    BND_RET.opt_params 5 4 (fun j => if j = 1 then 1 else 0) = (0, some (1, 3)) := by
  refine ⟨fun ncases x => ?_, ?_, ?_, ?_, ?_⟩
  · unfold BND_RET.opt_params BND_RET.search
    rw [upTo_of_le (le_refl _)]
    rfl
  · decide!
  · decide!
  · decide!
  · decide!

/-- C15. The pair returned by `opt_params` of BND_RET wins on the normalised
score. For `max_lookback ≤ ncases`, if the score `p` is returned with the pair
`(S, L)`, then `(S, L)` is a pair tried, `p` is its cumulative return divided by
`ncases - L`, no pair tried has a greater cumulative return per evaluated bar,
which is to say that every pair tried `(S1, L1)` has
`total (S1, L1) * (ncases - L) ≤ total (S, L) * (ncases - L1)`; and among the
pairs tried with the same long lookback `L` it has the greatest un-normalised
cumulative return. -/
theorem BND_RET.opt_params_normalised_winner (ncases max_lookback : Int) (x : Int → ℚ)
    (p : ℚ) (S L : Int) (hn : max_lookback ≤ ncases)
    (hret : BND_RET.opt_params ncases max_lookback x = (p, some (S, L))) :
    (1 ≤ S ∧ S < L ∧ L < max_lookback) ∧
    p = (BND_RET.trial_upto S L x (ncases - 1)).total_return / ((ncases - L : Int) : ℚ) ∧
    (∀ S1 L1 : Int, 1 ≤ S1 → S1 < L1 → L1 < max_lookback →
      (BND_RET.trial_upto S1 L1 x (ncases - 1)).total_return / ((ncases - L1 : Int) : ℚ)
        ≤ p) ∧
    (∀ S1 L1 : Int, 1 ≤ S1 → S1 < L1 → L1 < max_lookback →
      (BND_RET.trial_upto S1 L1 x (ncases - 1)).total_return * ((ncases - L : Int) : ℚ)
        ≤ (BND_RET.trial_upto S L x (ncases - 1)).total_return * ((ncases - L1 : Int) : ℚ)) ∧
    (∀ S1 : Int, 1 ≤ S1 → S1 < L →
      (BND_RET.trial_upto S1 L x (ncases - 1)).total_return
        ≤ (BND_RET.trial_upto S L x (ncases - 1)).total_return) := by
  rcases BND_RET.bnd_opt_params_cases ncases max_lookback x with
    ⟨_, heq⟩ | ⟨S', L', hg, _, heq, hmax, _⟩
  · rw [heq] at hret
    simp at hret
  · rw [heq] at hret
    simp only [Prod.mk.injEq, Option.some.injEq] at hret
    obtain ⟨hp, rfl, rfl⟩ := hret
    have hL : (0 : ℚ) < ((ncases - L' : Int) : ℚ) := by
      have : 0 < ncases - L' := by omega
      exact_mod_cast this
    have hcross : ∀ S1 L1 : Int, 1 ≤ S1 → S1 < L1 → L1 < max_lookback →
        (BND_RET.trial_upto S1 L1 x (ncases - 1)).total_return * ((ncases - L' : Int) : ℚ)
          ≤ (BND_RET.trial_upto S' L' x (ncases - 1)).total_return
            * ((ncases - L1 : Int) : ℚ) := by
      intro S1 L1 h1 h2 h3
      have hL1 : (0 : ℚ) < ((ncases - L1 : Int) : ℚ) := by
        have : 0 < ncases - L1 := by omega
        exact_mod_cast this
      have := hmax S1 L1 h1 h2 h3
      unfold BND_RET.trial_score at this
      rwa [div_le_div_iff₀ hL1 hL] at this
    refine ⟨hg, ?_, ?_, hcross, ?_⟩
    · rw [← hp]
      rfl
    · intro S1 L1 h1 h2 h3
      rw [← hp]
      exact hmax S1 L1 h1 h2 h3
    · intro S1 h1 h2
      have := hcross S1 L' h1 h2 hg.2.2
      exact le_of_mul_le_mul_right this hL

set_option maxRecDepth 100000 in
/-- C15, at the five prices `5, 4, 3, 0, 0` with `max_lookback = 4`. -/
theorem BND_RET.opt_params_normalised_winner_witness :
    (1 ≤ (1 : Int) ∧ (1 : Int) < 3 ∧ (3 : Int) < 4) ∧
    (3 / 2 : ℚ) = (BND_RET.trial_upto 1 3
        (fun j => if j = 0 then 5 else if j = 1 then 4 else if j = 2 then 3 else 0)
        (5 - 1)).total_return / ((5 - 3 : Int) : ℚ) ∧
    (∀ S1 L1 : Int, 1 ≤ S1 → S1 < L1 → L1 < 4 →
      (BND_RET.trial_upto S1 L1
        (fun j => if j = 0 then 5 else if j = 1 then 4 else if j = 2 then 3 else 0)
        (5 - 1)).total_return / ((5 - L1 : Int) : ℚ) ≤ 3 / 2) ∧
    (∀ S1 L1 : Int, 1 ≤ S1 → S1 < L1 → L1 < 4 →
      (BND_RET.trial_upto S1 L1
        (fun j => if j = 0 then 5 else if j = 1 then 4 else if j = 2 then 3 else 0)
        (5 - 1)).total_return * ((5 - 3 : Int) : ℚ)
        ≤ (BND_RET.trial_upto 1 3
        (fun j => if j = 0 then 5 else if j = 1 then 4 else if j = 2 then 3 else 0)
        (5 - 1)).total_return * ((5 - L1 : Int) : ℚ)) ∧
    (∀ S1 : Int, 1 ≤ S1 → S1 < 3 →
      (BND_RET.trial_upto S1 3
        (fun j => if j = 0 then 5 else if j = 1 then 4 else if j = 2 then 3 else 0)
        (5 - 1)).total_return
        ≤ (BND_RET.trial_upto 1 3
        (fun j => if j = 0 then 5 else if j = 1 then 4 else if j = 2 then 3 else 0)
        (5 - 1)).total_return) :=
  BND_RET.opt_params_normalised_winner 5 4
    (fun j => if j = 0 then 5 else if j = 1 then 4 else if j = 2 then 3 else 0)
    (3 / 2) 1 3 (by decide) (by decide!)

set_option maxRecDepth 100000 in
/-- C15 fails as stated: normalisation changes the winner. On the five prices
`5, 4, 3, 0, 0` with `max_lookback = 4` the pair `(1, 2)` has the un-normalised
return `4` over its 3 bars, the pair `(1, 3)` the return `3` over its 2 bars;
`opt_params` compares `4/3` with `3/2` and returns `(1, 3)`. -/
theorem BND_RET.opt_params_normalised_winner_counterexample :
    BND_RET.opt_params 5 4
      (fun j => if j = 0 then 5 else if j = 1 then 4 else if j = 2 then 3 else 0)
      = (3 / 2, some (1, 3)) ∧
    (BND_RET.trial_upto 1 3
      (fun j => if j = 0 then 5 else if j = 1 then 4 else if j = 2 then 3 else 0)
      (5 - 1)).total_return = 3 ∧
    (BND_RET.trial_upto 1 2
      (fun j => if j = 0 then 5 else if j = 1 then 4 else if j = 2 then 3 else 0)
      (5 - 1)).total_return = 4 ∧
    BND_RET.trial_score 5 1 2
      (fun j => if j = 0 then 5 else if j = 1 then 4 else if j = 2 then 3 else 0) = 4 / 3 := by
  refine ⟨?_, ?_, ?_, ?_⟩
  · decide!
  · decide!
  · decide!
  · decide!

/-! ## The checks of `main`, and the run with a single replication -/

theorem upTo_zero_one : upTo 0 1 = [0] := by
  rw [upTo_cons (by norm_num), upTo_of_le (by norm_num)]

namespace MCPT_TRN

/-- The state of `main` after the MCPT loop with `nreps = 1`: the one pass, for
`irep = 0`, which does not shuffle. -/
theorem mcpt_upto_one {σ : Type} (unifrand : σ → ℚ × σ) (nprices max_lookback : Int)
    (tpr : ℚ) (s : Mcpt σ) :
    mcpt_upto unifrand nprices max_lookback tpr s 1
      = mcpt_step unifrand nprices max_lookback tpr s 0 := by
  unfold mcpt_upto
  rw [upTo_zero_one]
  rfl

/-- With an empty grid `opt_params` of MCPT_TRN runs no trial. -/
theorem opt_params_empty_grid (ncases max_lookback : Int) (x : Int → ℚ) (out : Outs)
    (h : max_lookback < 2) : opt_params ncases max_lookback x out = (sentinel, out) := by
  unfold opt_params search
  rw [upTo_of_le (by omega)]
  rfl

end MCPT_TRN

namespace BND_RET

/-- With an empty grid `opt_params` of BND_RET runs no trial. -/
theorem bnd_opt_params_empty_grid (ncases max_lookback : Int) (x : Int → ℚ)
    (h : max_lookback < 3) : opt_params ncases max_lookback x = (sentinel, none) := by
  unfold opt_params search
  rw [upTo_of_le (by omega)]
  rfl

end BND_RET

/-- C21. With `nreps = 1` the permutation test reports the p-value `1` exactly,
for every generator and every price series: the loop makes the one pass
`irep = 0`, which draws nothing and leaves the prices as they are, prints one
line, that of the original series, and sets `count = 1`; the p-value printed is
`count / nreps = 1 / 1`. The same holds of `main` whenever it passes its check. -/
theorem MCPT_TRN.mcpt_one_replication {σ : Type} (unifrand : σ → ℚ × σ)
    (nprices max_lookback : Int) (s0 : MCPT_TRN.Mcpt σ) :
    (MCPT_TRN.mcpt unifrand nprices max_lookback 1 s0).p_value = 1 ∧
    (MCPT_TRN.mcpt unifrand nprices max_lookback 1 s0).printed.map MCPT_TRN.Line.irep = [0] ∧
    (MCPT_TRN.mcpt unifrand nprices max_lookback 1 s0).printed.map MCPT_TRN.Line.opt_return
      = [(MCPT_TRN.opt_params nprices max_lookback s0.prices s0.out).1] ∧
    (MCPT_TRN.mcpt_upto unifrand nprices max_lookback
        (MCPT_TRN.trend_per_return nprices max_lookback s0.prices)
        { s0 with
          changes := MCPT_TRN.prepare_permute (nprices - max_lookback + 1)
            (shift s0.prices (max_lookback - 1)) s0.changes,
          printed := [] } 1).count = 1 ∧
    (MCPT_TRN.mcpt_upto unifrand nprices max_lookback
        (MCPT_TRN.trend_per_return nprices max_lookback s0.prices)
        { s0 with
          changes := MCPT_TRN.prepare_permute (nprices - max_lookback + 1)
            (shift s0.prices (max_lookback - 1)) s0.changes,
          printed := [] } 1).rng = s0.rng ∧
    (MCPT_TRN.mcpt_upto unifrand nprices max_lookback
        (MCPT_TRN.trend_per_return nprices max_lookback s0.prices)
        { s0 with
          changes := MCPT_TRN.prepare_permute (nprices - max_lookback + 1)
            (shift s0.prices (max_lookback - 1)) s0.changes,
          printed := [] } 1).prices = s0.prices ∧
    ∀ r : MCPT_TRN.Report,
      MCPT_TRN.main unifrand max_lookback 1 nprices s0 = Except.ok r → r.p_value = 1 := by
  have hp : (MCPT_TRN.mcpt unifrand nprices max_lookback 1 s0).p_value = 1 := by
    unfold MCPT_TRN.mcpt
    simp only [MCPT_TRN.mcpt_upto_one]
    unfold MCPT_TRN.mcpt_step
    simp
  refine ⟨hp, ?_, ?_, ?_, ?_, ?_, ?_⟩
  · unfold MCPT_TRN.mcpt
    simp only [MCPT_TRN.mcpt_upto_one]
    unfold MCPT_TRN.mcpt_step
    simp
  · unfold MCPT_TRN.mcpt
    simp only [MCPT_TRN.mcpt_upto_one]
    unfold MCPT_TRN.mcpt_step
    simp
  · rw [MCPT_TRN.mcpt_upto_one]
    unfold MCPT_TRN.mcpt_step
    simp
  · rw [MCPT_TRN.mcpt_upto_one]
    unfold MCPT_TRN.mcpt_step
    simp
  · rw [MCPT_TRN.mcpt_upto_one]
    unfold MCPT_TRN.mcpt_step
    simp
  · intro r hr
    unfold MCPT_TRN.main at hr
    split_ifs at hr
    simp only [Except.ok.injEq] at hr
    rw [← hr]
    exact hp

/-- C22. Neither program checks `max_lookback` against 2. For every
`max_lookback < 2` the grid is empty: `opt_params` runs no trial and returns the
sentinel `-1e60` as score, MCPT_TRN leaving its four outputs as they were and
BND_RET setting no pair; and `main` does not stop on such a `max_lookback`: it
goes on to the MCPT part whenever `nprices - max_lookback ≥ 10` (MCPT_TRN), to
the walk-forward whenever `n_train - max_lookback ≥ 10` and
`n_train + n_test ≤ nprices` (BND_RET). -/
theorem main_no_lookback_check {σ : Type} (unifrand : σ → ℚ × σ)
    (max_lookback : Int) (h : max_lookback < 2) :
    (∀ (ncases : Int) (x : Int → ℚ) (out : MCPT_TRN.Outs),
      MCPT_TRN.opt_params ncases max_lookback x out = (sentinel, out)) ∧
    (∀ (ncases : Int) (x : Int → ℚ),
      BND_RET.opt_params ncases max_lookback x = (sentinel, none)) ∧
    (∀ (nreps nprices : Int) (s0 : MCPT_TRN.Mcpt σ), 10 ≤ nprices - max_lookback →
      MCPT_TRN.main unifrand max_lookback nreps nprices s0
        = Except.ok (MCPT_TRN.mcpt unifrand nprices max_lookback nreps s0)) ∧
    (∀ (n_train n_test : Int) (lower_fail_rate upper_fail_rate : ℚ) (nprices : Int)
      (prices returns : Int → ℚ) (junk : Int × Int) (fuel : Nat),
      10 ≤ n_train - max_lookback → n_train + n_test ≤ nprices →
      ∃ r, BND_RET.main max_lookback n_train n_test lower_fail_rate upper_fail_rate nprices
        prices returns junk fuel = Except.ok r) := by
  refine ⟨fun ncases x out => MCPT_TRN.opt_params_empty_grid ncases max_lookback x out h,
    fun ncases x => BND_RET.bnd_opt_params_empty_grid ncases max_lookback x (by omega),
    fun nreps nprices s0 hg => ?_, fun n_train n_test lfr ufr nprices prices returns junk fuel
      hg1 hg2 => ?_⟩
  · unfold MCPT_TRN.main
    rw [if_neg (by omega)]
  · unfold BND_RET.main
    rw [if_neg (by omega), if_neg (by omega)]
    exact ⟨_, rfl⟩

/-- C22, at `max_lookback = 1`: a grid search on 11 prices returns the sentinel
and the outputs it was entered with. -/
theorem main_no_lookback_check_witness :
    MCPT_TRN.opt_params 11 1 (fun j => (j : ℚ)) ⟨7, 9, 0, 0⟩ = (sentinel, ⟨7, 9, 0, 0⟩) :=
  (main_no_lookback_check MCPT_TRN.unifrand 1 (by decide)).1 11 (fun j => (j : ℚ)) ⟨7, 9, 0, 0⟩

set_option maxRecDepth 100000 in
/-- C22 fails as stated. MCPT_TRN with `max_lookback = 1`, one replication and
the 11 log prices `0, 1, ..., 10` does not stop with an error: it reports the
sentinel `-1e60` as the original return and the p-value `1`. BND_RET with
`max_lookback = 1`, `n_train = 11`, `n_test = 1` and 12 prices does not stop
either: its one fold has the in-sample score `-1e60 * 25200` and no pair. -/
theorem main_no_lookback_check_counterexample :
    (MCPT_TRN.main MCPT_TRN.unifrand 1 1 11
        { prices := fun j => (j : ℚ), changes := fun _ => 0, rng := MCPT_TRN.Rng.start,
          out := ⟨0, 0, 0, 0⟩, original := 0, original_trend_component := 0,
          original_nshort := 0, original_nlong := 0, count := 0, mean_training_bias := 0,
          printed := [] }).toOption.map (fun r => (r.original, r.p_value))
      = some (-(10 ^ 60), 1) ∧
    (BND_RET.main 1 11 1 (1 / 10) (1 / 10) 12 (fun j => (j : ℚ)) (fun _ => 0) (1, 2)
        5).toOption.map
        (fun o => o.map (fun wb => wb.1.folds.map (fun f => (f.IS, f.pair))))
      = some (some [(-(10 ^ 60) * 25200, none)]) := by
  refine ⟨?_, ?_⟩
  · decide!
  · decide!

/-- C23. Insufficient history is rejected before any computation. The market
file being read into `nprices` prices, `main` of MCPT_TRN goes on to the MCPT
part exactly when `nprices - max_lookback ≥ 10`, and otherwise stops with its
error; `main` of BND_RET goes on to the walk-forward exactly when
`n_train - max_lookback ≥ 10` and `n_train + n_test ≤ nprices`, and otherwise
stops with the error of the check that fails first, with no return computed. -/
theorem main_history_checks {σ : Type} (unifrand : σ → ℚ × σ)
    (max_lookback nreps nprices : Int) (s0 : MCPT_TRN.Mcpt σ)
    (n_train n_test : Int) (lower_fail_rate upper_fail_rate : ℚ)
    (prices returns : Int → ℚ) (junk : Int × Int) (fuel : Nat) :
    ((∃ r, MCPT_TRN.main unifrand max_lookback nreps nprices s0 = Except.ok r)
      ↔ 10 ≤ nprices - max_lookback) ∧
    (10 ≤ nprices - max_lookback →
      MCPT_TRN.main unifrand max_lookback nreps nprices s0
        = Except.ok (MCPT_TRN.mcpt unifrand nprices max_lookback nreps s0)) ∧
    (nprices - max_lookback < 10 →
      MCPT_TRN.main unifrand max_lookback nreps nprices s0
        = Except.error MCPT_TRN.Stop.too_few_prices) ∧
    ((∃ r, BND_RET.main max_lookback n_train n_test lower_fail_rate upper_fail_rate nprices
        prices returns junk fuel = Except.ok r)
      ↔ (10 ≤ n_train - max_lookback ∧ n_train + n_test ≤ nprices)) ∧
    (10 ≤ n_train - max_lookback → n_train + n_test ≤ nprices →
      BND_RET.main max_lookback n_train n_test lower_fail_rate upper_fail_rate nprices
        prices returns junk fuel
        = Except.ok
          ((BND_RET.walkforward nprices max_lookback n_train n_test prices returns junk
              fuel).bind
            (fun w => (BND_RET.bounding fuel w.n_returns w.returns lower_fail_rate
              upper_fail_rate).map (fun b => (w, b))))) ∧
    (n_train - max_lookback < 10 →
      BND_RET.main max_lookback n_train n_test lower_fail_rate upper_fail_rate nprices
        prices returns junk fuel = Except.error BND_RET.Stop.n_train_too_small) ∧
    (10 ≤ n_train - max_lookback → nprices < n_train + n_test →
      BND_RET.main max_lookback n_train n_test lower_fail_rate upper_fail_rate nprices
        prices returns junk fuel = Except.error BND_RET.Stop.history_too_short) := by
  have hM1 : 10 ≤ nprices - max_lookback →
      MCPT_TRN.main unifrand max_lookback nreps nprices s0
        = Except.ok (MCPT_TRN.mcpt unifrand nprices max_lookback nreps s0) := by
    intro hg
    unfold MCPT_TRN.main
    rw [if_neg (by omega)]
  have hM2 : nprices - max_lookback < 10 →
      MCPT_TRN.main unifrand max_lookback nreps nprices s0
        = Except.error MCPT_TRN.Stop.too_few_prices := by
    intro hg
    unfold MCPT_TRN.main
    rw [if_pos hg]
  have hB1 : 10 ≤ n_train - max_lookback → n_train + n_test ≤ nprices →
      BND_RET.main max_lookback n_train n_test lower_fail_rate upper_fail_rate nprices
        prices returns junk fuel
        = Except.ok
          ((BND_RET.walkforward nprices max_lookback n_train n_test prices returns junk
              fuel).bind
            (fun w => (BND_RET.bounding fuel w.n_returns w.returns lower_fail_rate
              upper_fail_rate).map (fun b => (w, b)))) := by
    intro hg1 hg2
    unfold BND_RET.main
    rw [if_neg (by omega), if_neg (by omega)]
  have hB2 : n_train - max_lookback < 10 →
      BND_RET.main max_lookback n_train n_test lower_fail_rate upper_fail_rate nprices
        prices returns junk fuel = Except.error BND_RET.Stop.n_train_too_small := by
    intro hg
    unfold BND_RET.main
    rw [if_pos hg]
  have hB3 : 10 ≤ n_train - max_lookback → nprices < n_train + n_test →
      BND_RET.main max_lookback n_train n_test lower_fail_rate upper_fail_rate nprices
        prices returns junk fuel = Except.error BND_RET.Stop.history_too_short := by
    intro hg1 hg2
    unfold BND_RET.main
    rw [if_neg (by omega), if_pos (by omega)]
  refine ⟨⟨?_, fun hg => ⟨_, hM1 hg⟩⟩, hM1, hM2, ⟨?_, fun hg => ⟨_, hB1 hg.1 hg.2⟩⟩, hB1, hB2,
    hB3⟩
  · rintro ⟨r, hr⟩
    by_contra hg
    rw [hM2 (by omega)] at hr
    exact absurd hr (by simp)
  · rintro ⟨r, hr⟩
    by_contra hg
    by_cases h1 : n_train - max_lookback < 10
    · rw [hB2 h1] at hr
      exact absurd hr (by simp)
    · rw [hB3 (by omega) (by omega)] at hr
      exact absurd hr (by simp)

/-- C23, at `max_lookback = 3`: 12 prices are too few for MCPT_TRN, and a
training set of 13 with test sets of 5 does not fit into 17 prices. -/
theorem main_history_checks_witness :
    MCPT_TRN.main MCPT_TRN.unifrand 3 10 12
        { prices := fun j => (j : ℚ), changes := fun _ => 0, rng := MCPT_TRN.Rng.start,
          out := ⟨0, 0, 0, 0⟩, original := 0, original_trend_component := 0,
          original_nshort := 0, original_nlong := 0, count := 0, mean_training_bias := 0,
          printed := [] }
      = Except.error MCPT_TRN.Stop.too_few_prices ∧
    BND_RET.main 3 13 5 (1 / 10) (1 / 10) 17 (fun j => (j : ℚ)) (fun _ => 0) (1, 2) 5
      = Except.error BND_RET.Stop.history_too_short :=
  ⟨(main_history_checks MCPT_TRN.unifrand 3 10 12
      { prices := fun j => (j : ℚ), changes := fun _ => 0, rng := MCPT_TRN.Rng.start,
        out := ⟨0, 0, 0, 0⟩, original := 0, original_trend_component := 0,
        original_nshort := 0, original_nlong := 0, count := 0, mean_training_bias := 0,
        printed := [] }
      13 5 (1 / 10) (1 / 10) (fun j => (j : ℚ)) (fun _ => 0) (1, 2) 5).2.2.1 (by decide),
    (main_history_checks MCPT_TRN.unifrand 3 10 17
      { prices := fun j => (j : ℚ), changes := fun _ => 0, rng := MCPT_TRN.Rng.start,
        out := ⟨0, 0, 0, 0⟩, original := 0, original_trend_component := 0,
        original_nshort := 0, original_nlong := 0, count := 0, mean_training_bias := 0,
        printed := [] }
      13 5 (1 / 10) (1 / 10) (fun j => (j : ℚ)) (fun _ => 0) (1, 2) 5).2.2.2.2.2.2
      (by decide) (by decide)⟩

/-! ## The rounding to `double` is rounding to nearest -/

/-- The power of two of an integer exponent. -/
theorem pow2_eq_zpow (e : Int) : pow2 e = (2 : ℚ) ^ e := by
  unfold pow2
  split_ifs with h
  · have he : e = ((e.toNat : Nat) : Int) := by omega
    rw [Nat.cast_pow, Nat.cast_ofNat]
    nth_rewrite 2 [he]
    rw [zpow_natCast]
  · have he : e = -(((-e).toNat : Nat) : Int) := by omega
    rw [Nat.cast_pow, Nat.cast_ofNat]
    nth_rewrite 2 [he]
    rw [zpow_neg, zpow_natCast, one_div]

theorem pow2_pos (e : Int) : 0 < pow2 e := by
  rw [pow2_eq_zpow]
  positivity

/-- With enough fuel `leading_bit` is the position of the leading bit. -/
theorem leading_bit_spec (fuel : Nat) :
    ∀ n : Nat, 1 ≤ n → n ≤ fuel →
      2 ^ leading_bit fuel n ≤ n ∧ n < 2 ^ (leading_bit fuel n + 1) := by
  induction fuel with
  | zero =>
    intro n h1 h2
    omega
  | succ fuel ih =>
    intro n h1 h2
    unfold leading_bit
    split_ifs with hn
    · have : n = 1 := by omega
      subst this
      norm_num
    · obtain ⟨a, b⟩ := ih (n / 2) (by omega) (by omega)
      constructor
      · rw [pow_succ]
        omega
      · rw [pow_succ]
        omega

/-- The exponent of a positive rational. -/
theorem binade_spec (a : ℚ) (ha : 0 < a) :
    pow2 (binade a) ≤ a ∧ a < pow2 (binade a + 1) := by
  have hn : 0 < a.num := Rat.num_pos.mpr ha
  have hd : 0 < a.den := a.den_pos
  obtain ⟨n1, n2⟩ := leading_bit_spec a.num.natAbs a.num.natAbs (by omega) (le_refl _)
  obtain ⟨d1, d2⟩ := leading_bit_spec a.den a.den (by omega) (le_refl _)
  have hnum : ((a.num.natAbs : Nat) : ℚ) = (a.num : ℚ) := by
    rw [← Int.cast_natCast, Int.natAbs_of_nonneg (le_of_lt hn)]
  have hdq : (0 : ℚ) < (a.den : ℚ) := by exact_mod_cast hd
  have ea : a = (a.num.natAbs : ℚ) / (a.den : ℚ) := by
    rw [hnum]
    exact (Rat.num_div_den a).symm
  unfold binade
  simp only
  generalize leading_bit a.num.natAbs a.num.natAbs = ln at n1 n2
  generalize leading_bit a.den a.den = ld at d1 d2
  have n1q : (2 : ℚ) ^ ln ≤ (a.num.natAbs : ℚ) := by exact_mod_cast n1
  have n2q : ((a.num.natAbs : Nat) : ℚ) < (2 : ℚ) ^ (ln + 1) := by exact_mod_cast n2
  have d1q : (2 : ℚ) ^ ld ≤ (a.den : ℚ) := by exact_mod_cast d1
  have d2q : ((a.den : Nat) : ℚ) < (2 : ℚ) ^ (ld + 1) := by exact_mod_cast d2
  have hk : ∀ j : Int, pow2 ((ln : Int) - (ld : Int) + j)
      = (2 : ℚ) ^ ln / (2 : ℚ) ^ ld * (2 : ℚ) ^ j := by
    intro j
    rw [pow2_eq_zpow, zpow_add₀ (by norm_num), zpow_sub₀ (by norm_num), zpow_natCast,
      zpow_natCast]
  have hpl : (0 : ℚ) < (2 : ℚ) ^ ld := by positivity
  have hpn : (0 : ℚ) < (2 : ℚ) ^ ln := by positivity
  have hup : a < pow2 ((ln : Int) - (ld : Int) + 1) := by
    rw [hk 1, zpow_one, ea, div_mul_eq_mul_div, div_lt_div_iff₀ hdq hpl]
    rw [pow_succ] at n2q
    calc ((a.num.natAbs : Nat) : ℚ) * (2 : ℚ) ^ ld ≤ (a.num.natAbs : ℚ) * (a.den : ℚ) :=
          mul_le_mul_of_nonneg_left d1q (by positivity)
      _ < (2 : ℚ) ^ ln * 2 * (a.den : ℚ) := mul_lt_mul_of_pos_right n2q hdq
  have hlo : pow2 ((ln : Int) - (ld : Int) + -1) ≤ a := by
    rw [hk (-1), ea, div_mul_eq_mul_div, div_le_div_iff₀ hpl hdq]
    rw [pow_succ] at d2q
    have e : (2 : ℚ) ^ ln * (2 : ℚ) ^ (-1 : Int) * (a.den : ℚ)
        = (2 : ℚ) ^ ln * ((a.den : ℚ) / 2) := by
      rw [zpow_neg, zpow_one]
      ring
    rw [e]
    calc (2 : ℚ) ^ ln * ((a.den : ℚ) / 2) ≤ (2 : ℚ) ^ ln * (2 : ℚ) ^ ld :=
          mul_le_mul_of_nonneg_left (by linarith) (le_of_lt hpn)
      _ ≤ (a.num.natAbs : ℚ) * (2 : ℚ) ^ ld := mul_le_mul_of_nonneg_right n1q (le_of_lt hpl)
  split_ifs with hc
  · exact ⟨hc, hup⟩
  · have e1 : (ln : Int) - (ld : Int) - 1 = (ln : Int) - (ld : Int) + -1 := by ring
    have e2 : (ln : Int) - (ld : Int) - 1 + 1 = (ln : Int) - (ld : Int) := by ring
    rw [e2, e1]
    exact ⟨hlo, lt_of_not_le hc⟩

/-- `round_even` is within one half of its argument. -/
theorem round_even_near (m : ℚ) : |(round_even m : ℚ) - m| ≤ 1 / 2 := by
  have h1 : ((⌊m⌋ : Int) : ℚ) ≤ m := Int.floor_le m
  have h2 : m < ((⌊m⌋ : Int) : ℚ) + 1 := Int.lt_floor_add_one m
  unfold round_even
  simp only
  rw [abs_le]
  split_ifs with a b c
  · constructor <;> linarith
  · push_cast
    constructor <;> linarith
  · constructor <;> linarith
  · push_cast
    constructor <;> linarith

/-- The value `fl q` is a multiple of the unit in the last place of `q`, with
a significand of at most 53 bits, and it is within half a unit of `q`: rounding
to nearest. -/
theorem fl_near (q : ℚ) (hq : q ≠ 0) :
    fl q = (round_even (q / pow2 (binade |q| - 52)) : ℚ) * pow2 (binade |q| - 52) ∧
    |fl q - q| ≤ pow2 (binade |q| - 52) / 2 ∧
    pow2 (binade |q|) ≤ |q| ∧ |q| < 2 * pow2 (binade |q|) ∧
    |(round_even (q / pow2 (binade |q| - 52)) : ℚ)| ≤ 2 ^ 53 := by
  have hpos := pow2_pos (binade |q| - 52)
  obtain ⟨b1, b2⟩ := binade_spec |q| (abs_pos.mpr hq)
  have e53 : pow2 (binade |q| + 1) = 2 * pow2 (binade |q|) := by
    rw [pow2_eq_zpow, pow2_eq_zpow, zpow_add_one₀ (by norm_num)]
    ring
  have e52 : pow2 (binade |q|) = 2 ^ 52 * pow2 (binade |q| - 52) := by
    rw [pow2_eq_zpow, pow2_eq_zpow, zpow_sub₀ (by norm_num)]
    norm_num
    ring
  rw [e53] at b2
  have hfl : fl q = (round_even (q / pow2 (binade |q| - 52)) : ℚ) * pow2 (binade |q| - 52) := by
    unfold fl
    rw [if_neg hq]
  have hr := round_even_near (q / pow2 (binade |q| - 52))
  have hdiff : fl q - q
      = ((round_even (q / pow2 (binade |q| - 52)) : ℚ) - q / pow2 (binade |q| - 52))
        * pow2 (binade |q| - 52) := by
    rw [hfl]
    field_simp
  refine ⟨hfl, ?_, b1, b2, ?_⟩
  · rw [hdiff, abs_mul, abs_of_pos hpos]
    calc |(round_even (q / pow2 (binade |q| - 52)) : ℚ) - q / pow2 (binade |q| - 52)|
          * pow2 (binade |q| - 52)
        ≤ 1 / 2 * pow2 (binade |q| - 52) := mul_le_mul_of_nonneg_right hr (le_of_lt hpos)
      _ = pow2 (binade |q| - 52) / 2 := by ring
  · have hm : |q / pow2 (binade |q| - 52)| < 2 ^ 53 := by
      rw [abs_div, abs_of_pos hpos, div_lt_iff₀ hpos]
      calc |q| < 2 * pow2 (binade |q|) := b2
        _ = 2 ^ 53 * pow2 (binade |q| - 52) := by
          rw [e52]
          ring
    have hlt : |(round_even (q / pow2 (binade |q| - 52)) : ℚ)| < 2 ^ 53 + 1 := by
      have := abs_sub_abs_le_abs_sub (round_even (q / pow2 (binade |q| - 52)) : ℚ)
        (q / pow2 (binade |q| - 52))
      linarith
    have hi : |round_even (q / pow2 (binade |q| - 52))| < 2 ^ 53 + 1 := by
      have h3 : ((|round_even (q / pow2 (binade |q| - 52))| : Int) : ℚ)
          < ((2 ^ 53 + 1 : Int) : ℚ) := by
        rw [Int.cast_abs]
        push_cast
        linarith
      exact_mod_cast h3
    have hi2 : |round_even (q / pow2 (binade |q| - 52))| ≤ 2 ^ 53 := by omega
    have h4 : ((|round_even (q / pow2 (binade |q| - 52))| : Int) : ℚ) ≤ ((2 ^ 53 : Int) : ℚ) := by
      exact_mod_cast hi2
    rw [Int.cast_abs] at h4
    push_cast at h4
    linarith

/-! ## The round trip of the changes, and the ranks of the bounds -/

namespace MCPT_TRN

/-- Rebuilding the prices from their own changes gives the prices back. -/
theorem rebuild_prepare (nc : Int) (data work : Int → ℚ) :
    rebuild nc data (prepare_permute nc data work) = data := by
  funext k
  rw [rebuild_eq]
  by_cases hk : 1 ≤ k ∧ k ≤ nc - 1
  · rw [if_pos hk]
    have hsum : ∑ j in Finset.Icc 0 (k - 1), prepare_permute nc data work j
        = ∑ j in Finset.Icc 0 (k - 1), (data (j + 1) - data j) := by
      refine Finset.sum_congr rfl (fun j hj => ?_)
      rw [Finset.mem_Icc] at hj
      rw [prepare_permute_eq, if_pos (by omega)]
    rw [hsum, sum_differences data k.toNat (k - 1) (by omega)]
    simp only [sub_add_cancel]
    ring
  · rw [if_neg hk]

/-- With fewer than two changes the shuffle loop makes no pass. -/
theorem shuffle_small {σ : Type} (unifrand : σ → ℚ × σ) (nc : Int) (ch : Int → ℚ) (g : σ)
    (h : nc ≤ 2) : shuffle unifrand nc ch g = (ch, g) := by
  unfold shuffle
  rw [downTo_of_le (by omega)]
  rfl

end MCPT_TRN

/-- C27, in exact arithmetic. Difference / cumulative-sum round trip.
`prepare_permute (nc, data, changes)` sets `changes[k] = data[k+1] - data[k]`
for `k = 0 .. nc-2` and leaves every other cell of `changes` as it was (it
assigns to `changes` only, so `data` is as before); when the subtractions and
the additions are exact, the rebuilding loop of `do_permute`, run on these
changes in their original order, gives back the prices it started from, and
`do_permute` with `nc ≤ 2`, where no swap occurs, leaves the prices, the changes
and the generator unchanged. -/
theorem MCPT_TRN.prepare_rebuild_round_trip {σ : Type} (unifrand : σ → ℚ × σ) (nc : Int)
    (data work : Int → ℚ) (g : σ) :
    (∀ k : Int, 0 ≤ k → k ≤ nc - 2 →
      MCPT_TRN.prepare_permute nc data work k = data (k + 1) - data k) ∧
    (∀ k : Int, ¬ (0 ≤ k ∧ k ≤ nc - 2) → MCPT_TRN.prepare_permute nc data work k = work k) ∧
    MCPT_TRN.rebuild nc data (MCPT_TRN.prepare_permute nc data work) = data ∧
    (nc ≤ 2 →
      (MCPT_TRN.do_permute unifrand nc
        { data := data, changes := MCPT_TRN.prepare_permute nc data work, rng := g }).data
        = data ∧
      (MCPT_TRN.do_permute unifrand nc
        { data := data, changes := MCPT_TRN.prepare_permute nc data work, rng := g }).changes
        = MCPT_TRN.prepare_permute nc data work ∧
      (MCPT_TRN.do_permute unifrand nc
        { data := data, changes := MCPT_TRN.prepare_permute nc data work, rng := g }).rng
        = g) := by
  refine ⟨fun k h1 h2 => ?_, fun k hk => ?_, MCPT_TRN.rebuild_prepare nc data work,
    fun h => ?_⟩
  · rw [MCPT_TRN.prepare_permute_eq, if_pos ⟨h1, h2⟩]
  · rw [MCPT_TRN.prepare_permute_eq, if_neg hk]
  · unfold MCPT_TRN.do_permute
    simp only [MCPT_TRN.shuffle_small unifrand nc _ g h]
    refine ⟨MCPT_TRN.rebuild_prepare nc data work, ?_, ?_⟩ <;> trivial

set_option maxRecDepth 100000 in
/-- C27, at the four prices `3, 5, 4, 8` (the first two of them for
`do_permute`): the changes are `2, -1, 4`. -/
theorem MCPT_TRN.prepare_rebuild_round_trip_witness :
    (List.map (MCPT_TRN.prepare_permute 4 (fun j => [3, 5, 4, 8].getD j.toNat 0) (fun _ => 0))
        [0, 1, 2] = [2, -1, 4]) ∧
    (MCPT_TRN.do_permute MCPT_TRN.unifrand 2
        { data := fun j => [3, 5, 4, 8].getD j.toNat 0,
          changes := MCPT_TRN.prepare_permute 2 (fun j => [3, 5, 4, 8].getD j.toNat 0)
            (fun _ => 0),
          rng := MCPT_TRN.Rng.start }).data
      = (fun j => [3, 5, 4, 8].getD j.toNat 0) :=
  ⟨by decide!,
    ((MCPT_TRN.prepare_rebuild_round_trip MCPT_TRN.unifrand 2
      (fun j => [3, 5, 4, 8].getD j.toNat 0) (fun _ => 0) MCPT_TRN.Rng.start).2.2.2
      (by decide)).1⟩

namespace BND_RET

/-- The rank of a bound for a failure rate of at least 1. -/
theorem bound_m_large (r : ℚ) (n : Int) (hn : 1 ≤ n) (h1 : 1 ≤ r) : n + 1 ≤ bound_m r n := by
  have hpos : (0 : ℚ) < ((n + 1 : Int) : ℚ) := by exact_mod_cast (show (0 : Int) < n + 1 by omega)
  have hx : ((n + 1 : Int) : ℚ) ≤ r * ((n + 1 : Int) : ℚ) := by
    calc ((n + 1 : Int) : ℚ) = 1 * ((n + 1 : Int) : ℚ) := (one_mul _).symm
      _ ≤ r * ((n + 1 : Int) : ℚ) := mul_le_mul_of_nonneg_right h1 (le_of_lt hpos)
  have hfl : n + 1 ≤ ⌊r * ((n + 1 : Int) : ℚ)⌋ := Int.le_floor.mpr hx
  unfold bound_m trunc
  rw [if_pos (le_trans (le_of_lt hpos) hx)]
  simp only
  split_ifs <;> omega

end BND_RET

/-- C30. Bound-rank index safety. For a sample of `n ≥ 1` returns and a failure
rate `0 ≤ r < 1` the rank `m = max 1 ⌊r * (n+1)⌋` satisfies `1 ≤ m ≤ n`, so that
`m - 1` and `n - m` are indices in `0 .. n-1`: with both rates below 1 the two
reads of the bounds are reads of cells of the sample. For `r ≥ 1` the rank is at
least `n + 1`, `m - 1` is above `n - 1` and `n - m` is below `0`: the read of the
bound with such a rate (`r2` being the other rate, whatever it is) is outside
the sample. -/
theorem BND_RET.bound_rank_in_range (n : Int) (returns : Int → ℚ) (r r2 : ℚ) (hn : 1 ≤ n)
    (h0 : 0 ≤ r) :
    (r < 1 →
      BND_RET.bound_m r n = max 1 ⌊r * ((n + 1 : Int) : ℚ)⌋ ∧
      (1 ≤ BND_RET.bound_m r n ∧ BND_RET.bound_m r n ≤ n) ∧
      (0 ≤ BND_RET.bound_m r n - 1 ∧ BND_RET.bound_m r n - 1 ≤ n - 1) ∧
      (0 ≤ n - BND_RET.bound_m r n ∧ n - BND_RET.bound_m r n ≤ n - 1)) ∧
    (r < 1 → 0 ≤ r2 → r2 < 1 →
      BND_RET.return_bounds_chk n (cells returns 0 (n - 1)) r r2
        = some (BND_RET.return_bounds n returns r r2)) ∧
    (1 ≤ r →
      n + 1 ≤ BND_RET.bound_m r n ∧ n - 1 < BND_RET.bound_m r n - 1 ∧
      n - BND_RET.bound_m r n < 0 ∧
      BND_RET.return_bounds_chk n (cells returns 0 (n - 1)) r r2 = none ∧
      BND_RET.return_bounds_chk n (cells returns 0 (n - 1)) r2 r = none) := by
  refine ⟨fun h1 => ?_, fun h1 h02 h12 => ?_, fun h1 => ?_⟩
  · obtain ⟨e, a, b⟩ := BND_RET.bound_m_spec r n hn h0 h1
    exact ⟨e, ⟨a, b⟩, ⟨by omega, by omega⟩, ⟨by omega, by omega⟩⟩
  · obtain ⟨_, a, b⟩ := BND_RET.bound_m_spec r n hn h0 h1
    obtain ⟨_, a2, b2⟩ := BND_RET.bound_m_spec r2 n hn h02 h12
    unfold BND_RET.return_bounds_chk BND_RET.return_bounds cells
    simp only
    rw [if_pos (by omega), if_pos (by omega)]
    rfl
  · have hm := BND_RET.bound_m_large r n hn h1
    refine ⟨hm, by omega, by omega, ?_, ?_⟩
    · unfold BND_RET.return_bounds_chk cells
      simp only
      rw [if_neg (by omega)]
      rfl
    · have hB : ¬ (0 ≤ n - BND_RET.bound_m r n ∧ n - BND_RET.bound_m r n ≤ n - 1) := by omega
      unfold BND_RET.return_bounds_chk cells
      simp only
      rw [if_neg hB]
      cases (if 0 ≤ BND_RET.bound_m r2 n - 1 ∧ BND_RET.bound_m r2 n - 1 ≤ n - 1
        then some (returns (BND_RET.bound_m r2 n - 1)) else none) <;> rfl

set_option maxRecDepth 100000 in
/-- C30, at a sample of nine returns: the rate `1/10` gives the rank 1, read in
range; the rate `1` gives the rank 10, read outside. -/
theorem BND_RET.bound_rank_in_range_witness :
    (BND_RET.bound_m (1 / 10) 9 = max 1 ⌊(1 / 10 : ℚ) * ((9 + 1 : Int) : ℚ)⌋ ∧
      (1 ≤ BND_RET.bound_m (1 / 10) 9 ∧ BND_RET.bound_m (1 / 10) 9 ≤ 9) ∧
      (0 ≤ BND_RET.bound_m (1 / 10) 9 - 1 ∧ BND_RET.bound_m (1 / 10) 9 - 1 ≤ 9 - 1) ∧
      (0 ≤ 9 - BND_RET.bound_m (1 / 10) 9 ∧ 9 - BND_RET.bound_m (1 / 10) 9 ≤ 9 - 1)) ∧
    (9 + 1 ≤ BND_RET.bound_m 1 9 ∧ 9 - 1 < BND_RET.bound_m 1 9 - 1 ∧
      9 - BND_RET.bound_m 1 9 < 0 ∧
      BND_RET.return_bounds_chk 9 (cells (fun j => (j : ℚ)) 0 (9 - 1)) 1 (1 / 2) = none ∧
      BND_RET.return_bounds_chk 9 (cells (fun j => (j : ℚ)) 0 (9 - 1)) (1 / 2) 1 = none) :=
  ⟨(BND_RET.bound_rank_in_range 9 (fun j => (j : ℚ)) (1 / 10) (1 / 2) (by decide)
      (by decide!)).1 (by decide!),
    (BND_RET.bound_rank_in_range 9 (fun j => (j : ℚ)) 1 (1 / 2) (by decide)
      (by decide!)).2.2 (by decide!)⟩

/-! ## MCPT_TRN: the indices of the shuffle -/

namespace MCPT_TRN

/-- The index drawn lies among the `i` items remaining. -/
theorem draw_index_range (u : ℚ) (i : Int) (hu : 0 ≤ u) (hi : 1 ≤ i) :
    0 ≤ draw_index u i ∧ draw_index u i ≤ i - 1 := by
  have h0 : 0 ≤ trunc (u * (i : ℚ)) :=
    trunc_nonneg (mul_nonneg hu (by exact_mod_cast (show (0 : Int) ≤ i by omega)))
  unfold draw_index
  simp only
  split_ifs <;> omega

/-- One pass of the shuffle loop is the exchange at the index drawn. -/
theorem shuffle_step_eq {σ : Type} (unifrand : σ → ℚ × σ) (s : (Int → ℚ) × σ) (i : Int) :
    shuffle_step unifrand s i
      = (swap_cells s.1 (i - 1) (draw_index (unifrand s.2).1 i), (unifrand s.2).2) := rfl

/-- The concrete generator never draws a negative value. -/
theorem unifrand_nonneg (g : Rng) : 0 ≤ (unifrand g).1 := by
  rw [unifrand_eq]
  exact div_nonneg (Nat.cast_nonneg _) (by norm_num)

/-- With draws that are not negative, the checked shuffle goes through. -/
theorem shuffle_chk_eq {σ : Type} (unifrand : σ → ℚ × σ) (hu : ∀ g, 0 ≤ (unifrand g).1)
    (nc : Int) (ch : Int → ℚ) (g : σ) :
    shuffle_chk unifrand nc ch g = some (shuffle unifrand nc ch g) := by
  unfold shuffle_chk shuffle
  refine foldlM_eq_some_foldl _ _ _ (fun i hi s => ?_) _
  rw [mem_downTo] at hi
  obtain ⟨h1, h2⟩ := draw_index_range (unifrand s.2).1 i (hu s.2) (by omega)
  unfold shuffle_step_chk
  simp only
  rw [if_pos ⟨⟨by omega, by omega⟩, ⟨h1, by omega⟩⟩, shuffle_step_eq]

/-- The checked rebuilding goes through. -/
theorem rebuild_chk_eq (nc : Int) (data ch : Int → ℚ) :
    rebuild_chk nc data ch = some (rebuild nc data ch) := by
  unfold rebuild_chk rebuild
  refine foldlM_eq_some_foldl _ _ _ (fun i hi d => ?_) _
  rw [mem_upTo] at hi
  rw [if_pos ⟨⟨by omega, by omega⟩, ⟨by omega, by omega⟩⟩]

/-- With draws that are not negative, the checked `do_permute` goes through. -/
theorem do_permute_chk_eq {σ : Type} (unifrand : σ → ℚ × σ) (hu : ∀ g, 0 ≤ (unifrand g).1)
    (nc : Int) (s : Permuting σ) :
    do_permute_chk unifrand nc s = some (do_permute unifrand nc s) := by
  unfold do_permute_chk do_permute
  rw [shuffle_chk_eq unifrand hu]
  simp only [Option.some_bind]
  rw [rebuild_chk_eq]
  rfl

end MCPT_TRN

/-- C25. Shuffle index safety. For a draw `u ≥ 0` (so for every `0 ≤ u ≤ 1`,
`u = 1` included) and `i ≥ 2` items remaining, the index
`j = (int) (u * i)`, set to `i - 1` when `j ≥ i`, satisfies `0 ≤ j ≤ i - 1`; it
is `⌊u * i⌋` when `u < 1`, and `i - 1` when `u = 1`. Every pass of the shuffle
loop is the exchange of `changes[i-1]` and `changes[j]`, and `do_permute`, run
with every access checked against the cells `0 .. nc-2` of `changes` and
`0 .. nc-1` of `data`, goes through with the same result, for every `nc`: with any
generator of draws `u ≥ 0`, and with the generator of the program. -/
theorem MCPT_TRN.do_permute_index_safe {σ : Type} (unifrand : σ → ℚ × σ)
    (hu : ∀ g, 0 ≤ (unifrand g).1) :
    (∀ (u : ℚ) (i : Int), 0 ≤ u → 2 ≤ i →
      (0 ≤ MCPT_TRN.draw_index u i ∧ MCPT_TRN.draw_index u i ≤ i - 1) ∧
      (u < 1 → MCPT_TRN.draw_index u i = ⌊u * (i : ℚ)⌋) ∧
      (u = 1 → MCPT_TRN.draw_index u i = i - 1)) ∧
    (∀ (s : (Int → ℚ) × σ) (i : Int),
      MCPT_TRN.shuffle_step unifrand s i
        = (MCPT_TRN.swap_cells s.1 (i - 1) (MCPT_TRN.draw_index (unifrand s.2).1 i),
            (unifrand s.2).2)) ∧
    (∀ (nc : Int) (s : MCPT_TRN.Permuting σ),
      MCPT_TRN.do_permute_chk unifrand nc s = some (MCPT_TRN.do_permute unifrand nc s)) ∧
    (∀ (nc : Int) (s : MCPT_TRN.Permuting MCPT_TRN.Rng),
      MCPT_TRN.do_permute_chk MCPT_TRN.unifrand nc s
        = some (MCPT_TRN.do_permute MCPT_TRN.unifrand nc s)) := by
  refine ⟨fun u i h0 hi => ⟨MCPT_TRN.draw_index_range u i h0 (by omega), fun h1 => ?_,
      fun h1 => ?_⟩,
    fun s i => MCPT_TRN.shuffle_step_eq unifrand s i,
    fun nc s => MCPT_TRN.do_permute_chk_eq unifrand hu nc s,
    fun nc s => MCPT_TRN.do_permute_chk_eq MCPT_TRN.unifrand MCPT_TRN.unifrand_nonneg nc s⟩
  · have hpos : (0 : ℚ) < (i : ℚ) := by exact_mod_cast (show (0 : Int) < i by omega)
    have hx : 0 ≤ u * (i : ℚ) := mul_nonneg h0 (le_of_lt hpos)
    have hlt : ⌊u * (i : ℚ)⌋ < i := by
      rw [Int.floor_lt]
      calc u * (i : ℚ) < 1 * (i : ℚ) := mul_lt_mul_of_pos_right h1 hpos
        _ = (i : ℚ) := one_mul _
    unfold MCPT_TRN.draw_index trunc
    simp only
    rw [if_pos hx, if_neg (by omega)]
  · subst h1
    have hx : (0 : ℚ) ≤ 1 * (i : ℚ) := by
      rw [one_mul]
      exact_mod_cast (show (0 : Int) ≤ i by omega)
    have hfl : ⌊(1 : ℚ) * (i : ℚ)⌋ = i := by
      rw [one_mul]
      exact Int.floor_intCast i
    unfold MCPT_TRN.draw_index trunc
    simp only
    rw [if_pos hx, hfl, if_pos (le_refl _)]

set_option maxRecDepth 100000 in
/-- C25, with a generator that draws `u = 1` every time, on four changes: every
pass exchanges a cell with itself. -/
theorem MCPT_TRN.do_permute_index_safe_witness :
    (MCPT_TRN.do_permute_chk (fun (g : Unit) => ((1 : ℚ), g)) 5
        { data := fun j => (j : ℚ) * (j : ℚ), changes := fun j => 2 * (j : ℚ) + 1,
          rng := () }).map (fun s => [0, 1, 2, 3].map s.changes)
      = some [1, 3, 5, 7] := by
  rw [((MCPT_TRN.do_permute_index_safe (fun (g : Unit) => ((1 : ℚ), g))
    (fun _ => by norm_num)).2.2.1 5 _)]
  decide!

/-! ## The grid searches: reads in range, divisors at least 1 -/

theorem div_chk_eq (a : ℚ) (b : Int) (h : 1 ≤ b) : div_chk a b = some (a / (b : ℚ)) := by
  unfold div_chk
  rw [if_pos h]

namespace MCPT_TRN

theorem mcpt_trial_step_chk_eq (m : Int → Option ℚ) (x : Int → ℚ)
    (max_lookback ishort ilong i b : Int) (s : Trial)
    (hm : ∀ j, 0 ≤ j → j ≤ b → m j = some (x j)) (hS : 1 ≤ ishort) (hL : ishort ≤ ilong)
    (hML : ilong ≤ max_lookback) (hi : max_lookback - 1 ≤ i) (hb : i + 1 ≤ b) :
    trial_step_chk max_lookback ishort ilong m s i
      = some (trial_step max_lookback ishort ilong x s i) := by
  unfold trial_step_chk trial_step
  have hsums : (if i = max_lookback - 1 then window_sums_chk m i ishort ilong
      else (m i).bind (fun xi => (m (i - ishort)).bind (fun xs => (m (i - ilong)).bind
        (fun xl => some (s.short_sum + (xi - xs), s.long_sum + (xi - xl))))))
      = some (if i = max_lookback - 1 then window_sums x i ishort ilong
          else (s.short_sum + (x i - x (i - ishort)), s.long_sum + (x i - x (i - ilong)))) := by
    by_cases h : i = max_lookback - 1
    · rw [if_pos h, if_pos h]
      exact window_sums_chk_eq m x i ishort ilong 0 b hm (by omega) (by omega) (by omega)
    · rw [if_neg h, if_neg h, hm i (by omega) (by omega), hm (i - ishort) (by omega) (by omega),
        hm (i - ilong) (by omega) (by omega)]
      rfl
  rw [hsums, Option.some_bind]
  simp only [div_chk_eq _ ishort hS, div_chk_eq _ ilong (by omega : 1 ≤ ilong),
    hm i (by omega) (by omega), hm (i + 1) (by omega) (by omega), Option.some_bind]
  split_ifs <;> rfl

theorem mcpt_trial_chk_eq (m : Int → Option ℚ) (x : Int → ℚ)
    (ncases max_lookback ishort ilong : Int)
    (hm : ∀ j, 0 ≤ j → j ≤ ncases - 1 → m j = some (x j)) (hS : 1 ≤ ishort)
    (hL : ishort ≤ ilong) (hML : ilong ≤ max_lookback) :
    trial_chk ncases max_lookback ishort ilong m
      = some (trial ncases max_lookback ishort ilong x) := by
  unfold trial_chk trial
  exact foldlM_eq_some_foldl _ (trial_step max_lookback ishort ilong x) _ (fun i hi s => by
    obtain ⟨h1, h2⟩ := mem_upTo.mp hi
    exact mcpt_trial_step_chk_eq m x max_lookback ishort ilong i (ncases - 1) s hm hS hL hML h1
      (by omega)) _

theorem mcpt_search_chk_eq (m : Int → Option ℚ) (x : Int → ℚ) (ncases max_lookback : Int)
    (hm : ∀ j, 0 ≤ j → j ≤ ncases - 1 → m j = some (x j)) (s : Search) :
    search_chk ncases max_lookback m s = some (search ncases max_lookback x s) := by
  unfold search_chk search
  refine foldlM_eq_some_foldl _ _ _ (fun L hL s1 => ?_) s
  refine foldlM_eq_some_foldl _ _ _ (fun S hS s2 => ?_) s1
  obtain ⟨h1, h2⟩ := mem_upTo.mp hS
  obtain ⟨h3, h4⟩ := mem_upTo.mp hL
  rw [mcpt_trial_chk_eq m x ncases max_lookback S L hm h1 (by omega) (by omega)]
  rfl

/-- Every cell that `opt_params` of MCPT_TRN reads is one of `x[0 .. ncases-1]`,
and every divisor is at least 1. -/
theorem mcpt_opt_params_chk_eq (m : Int → Option ℚ) (x : Int → ℚ)
    (ncases max_lookback : Int) (out : Outs)
    (hm : ∀ j, 0 ≤ j → j ≤ ncases - 1 → m j = some (x j)) :
    opt_params_chk ncases max_lookback m out = some (opt_params ncases max_lookback x out) := by
  unfold opt_params_chk opt_params
  rw [mcpt_search_chk_eq m x ncases max_lookback hm]
  rfl

end MCPT_TRN

namespace BND_RET

theorem trial_score_chk_div_eq (m : Int → Option ℚ) (x : Int → ℚ) (ncases ishort ilong : Int)
    (hm : ∀ j, 0 ≤ j → j ≤ ncases - 1 → m j = some (x j)) (hS : 1 ≤ ishort)
    (hL : ishort ≤ ilong) (hn : ilong < ncases) :
    trial_score_chk_div ncases ishort ilong m = some (trial_score ncases ishort ilong x) := by
  unfold trial_score_chk_div trial_score trial_upto
  rw [foldlM_eq_some_foldl _ (trial_step ishort ilong x) _ (fun i hi s => by
    obtain ⟨h1, h2⟩ := mem_upTo.mp hi
    exact trial_step_chk_eq m x ishort ilong i (ncases - 1) s hm hS hL h1 (by omega)),
    Option.some_bind, div_chk_eq _ _ (by omega)]

theorem search_chk_div_eq (m : Int → Option ℚ) (x : Int → ℚ) (ncases max_lookback : Int)
    (hm : ∀ j, 0 ≤ j → j ≤ ncases - 1 → m j = some (x j)) (hn : max_lookback ≤ ncases)
    (s : Search) :
    search_chk_div ncases max_lookback m s = some (search ncases max_lookback x s) := by
  unfold search_chk_div search
  refine foldlM_eq_some_foldl _ _ _ (fun L hL s1 => ?_) s
  refine foldlM_eq_some_foldl _ _ _ (fun S hS s2 => ?_) s1
  obtain ⟨h1, h2⟩ := mem_upTo.mp hS
  obtain ⟨h3, h4⟩ := mem_upTo.mp hL
  rw [trial_score_chk_div_eq m x ncases S L hm h1 (by omega) (by omega)]
  rfl

/-- Every cell that `opt_params` of BND_RET reads is one of `x[0 .. ncases-1]`,
and the normalising divisor is at least 1. -/
theorem opt_params_chk_div_eq (m : Int → Option ℚ) (x : Int → ℚ) (ncases max_lookback : Int)
    (hm : ∀ j, 0 ≤ j → j ≤ ncases - 1 → m j = some (x j)) (hn : max_lookback ≤ ncases) :
    opt_params_chk_div ncases max_lookback m = some (opt_params ncases max_lookback x) := by
  unfold opt_params_chk_div opt_params
  rw [search_chk_div_eq m x ncases max_lookback hm hn]
  rfl

end BND_RET

/-- C28. Grid-search index and division safety. For `2 ≤ max_lookback < ncases`,
`opt_params` of MCPT_TRN run on an array of which only the cells `0 .. ncases-1`
exist, every read of `x` checked against these bounds and both divisors `ishort`
and `ilong` checked to be at least 1, goes through and returns what the
unchecked code returns; likewise `opt_params` of BND_RET, with its reads and the
divisor `ncases - ilong` checked. Every pair of lookbacks the loops reach has
`1 ≤ ishort < ilong`, and in BND_RET `ncases - ilong ≥ 1`. -/
theorem opt_params_reads_in_range (ncases max_lookback : Int) (x : Int → ℚ)
    (out : MCPT_TRN.Outs) (h2 : 2 ≤ max_lookback) (hn : max_lookback < ncases) :
    (∀ j : Int, (j < 0 ∨ ncases - 1 < j) → cells x 0 (ncases - 1) j = none) ∧
    MCPT_TRN.opt_params_chk ncases max_lookback (cells x 0 (ncases - 1)) out
      = some (MCPT_TRN.opt_params ncases max_lookback x out) ∧
    BND_RET.opt_params_chk_div ncases max_lookback (cells x 0 (ncases - 1))
      = some (BND_RET.opt_params ncases max_lookback x) ∧
    (∀ ilong ∈ upTo 2 (max_lookback + 1), ∀ ishort ∈ upTo 1 ilong,
      1 ≤ ishort ∧ ishort < ilong ∧ 1 ≤ ilong) ∧
    (∀ ilong ∈ upTo 2 max_lookback, ∀ ishort ∈ upTo 1 ilong,
      1 ≤ ishort ∧ ishort < ilong ∧ 1 ≤ ncases - ilong) := by
  have _ := h2
  have hm : ∀ j, 0 ≤ j → j ≤ ncases - 1 → cells x 0 (ncases - 1) j = some (x j) := by
    intro j h1 h2
    unfold cells
    rw [if_pos ⟨h1, h2⟩]
  refine ⟨fun j hj => ?_, MCPT_TRN.mcpt_opt_params_chk_eq _ x ncases max_lookback out hm,
    BND_RET.opt_params_chk_div_eq _ x ncases max_lookback hm (by omega), ?_, ?_⟩
  · unfold cells
    rw [if_neg (by omega)]
  · intro ilong hL ishort hS
    rw [mem_upTo] at hL hS
    omega
  · intro ilong hL ishort hS
    rw [mem_upTo] at hL hS
    omega

set_option maxRecDepth 100000 in
/-- C28, at a series of five prices with `max_lookback = 3`; with the cell
`x[0]` or the cell `x[4]` taken away the checked runs fail. -/
theorem opt_params_reads_in_range_witness :
    MCPT_TRN.opt_params_chk 5 3 (cells (fun j => if j = 2 then 5 else (j : ℚ)) 0 (5 - 1))
        ⟨0, 0, 0, 0⟩
      = some (MCPT_TRN.opt_params 5 3 (fun j => if j = 2 then 5 else (j : ℚ)) ⟨0, 0, 0, 0⟩) ∧
    BND_RET.opt_params_chk_div 5 3 (cells (fun j => if j = 2 then 5 else (j : ℚ)) 0 (5 - 1))
      = some (BND_RET.opt_params 5 3 (fun j => if j = 2 then 5 else (j : ℚ))) ∧
    (MCPT_TRN.opt_params_chk 5 3 (cells (fun j => if j = 2 then 5 else (j : ℚ)) 1 (5 - 1))
        ⟨0, 0, 0, 0⟩).isSome = false ∧
    (BND_RET.opt_params_chk_div 5 3
        (cells (fun j => if j = 2 then 5 else (j : ℚ)) 0 (4 - 1))).isSome = false :=
  ⟨(opt_params_reads_in_range 5 3 (fun j => if j = 2 then 5 else (j : ℚ)) ⟨0, 0, 0, 0⟩
      (by decide) (by decide)).2.1,
    (opt_params_reads_in_range 5 3 (fun j => if j = 2 then 5 else (j : ℚ)) ⟨0, 0, 0, 0⟩
      (by decide) (by decide)).2.2.1, by decide!, by decide!⟩

/-! ## The binomial tail is monotone in `q` -/

/-- The terms of the binomial tail obey the rule of Pascal's triangle. -/
theorem binom_term_succ (n k : Nat) (q : ℚ) :
    ((n + 1).choose (k + 1) : ℚ) * q ^ (k + 1) * (1 - q) ^ (n + 1 - (k + 1))
      = q * ((n.choose k : ℚ) * q ^ k * (1 - q) ^ (n - k))
        + (1 - q) * ((n.choose (k + 1) : ℚ) * q ^ (k + 1) * (1 - q) ^ (n - (k + 1))) := by
  rw [Nat.choose_succ_succ, Nat.succ_sub_succ]
  push_cast
  by_cases h : k + 1 ≤ n
  · have e : n - k = (n - (k + 1)) + 1 := by omega
    rw [e, pow_succ, pow_succ]
    ring
  · rw [Nat.choose_eq_zero_of_lt (by omega : n < k + 1)]
    push_cast
    rw [pow_succ]
    ring

/-- The binomial tail as a sum over `0 .. n - m`. -/
theorem binom_tail_range (n m : Nat) (q : ℚ) :
    ∑ k in Finset.Icc m n, (n.choose k : ℚ) * q ^ k * (1 - q) ^ (n - k)
      = ∑ k in Finset.range (n + 1 - m),
          (n.choose (m + k) : ℚ) * q ^ (m + k) * (1 - q) ^ (n - (m + k)) := by
  rw [← Nat.Ico_succ_right, Finset.sum_Ico_eq_sum_range]

/-- The tail from `m + 1` of `n + 1` draws, from the tails of `n` draws. -/
theorem binom_tail_succ (n m : Nat) (q : ℚ) :
    ∑ k in Finset.Icc (m + 1) (n + 1),
        ((n + 1).choose k : ℚ) * q ^ k * (1 - q) ^ (n + 1 - k)
      = q * ∑ k in Finset.Icc m n, (n.choose k : ℚ) * q ^ k * (1 - q) ^ (n - k)
        + (1 - q) * ∑ k in Finset.Icc (m + 1) n,
            (n.choose k : ℚ) * q ^ k * (1 - q) ^ (n - k) := by
  rw [binom_tail_range (n + 1) (m + 1), binom_tail_range n m, binom_tail_range n (m + 1)]
  have e1 : n + 1 + 1 - (m + 1) = n + 1 - m := by omega
  rw [e1]
  have hterm : ∀ k ∈ Finset.range (n + 1 - m),
      ((n + 1).choose (m + 1 + k) : ℚ) * q ^ (m + 1 + k) * (1 - q) ^ (n + 1 - (m + 1 + k))
        = q * ((n.choose (m + k) : ℚ) * q ^ (m + k) * (1 - q) ^ (n - (m + k)))
          + (1 - q) * ((n.choose (m + 1 + k) : ℚ) * q ^ (m + 1 + k)
              * (1 - q) ^ (n - (m + 1 + k))) := by
    intro k _
    have e : m + 1 + k = (m + k) + 1 := by omega
    rw [e]
    exact binom_term_succ n (m + k) q
  rw [Finset.sum_congr rfl hterm, Finset.sum_add_distrib, ← Finset.mul_sum, ← Finset.mul_sum]
  congr 2
  by_cases h : m ≤ n
  · have e2 : n + 1 - m = (n + 1 - (m + 1)) + 1 := by omega
    rw [e2, Finset.sum_range_succ]
    have hz : (n.choose (m + 1 + (n + 1 - (m + 1))) : ℚ) = 0 := by
      rw [Nat.choose_eq_zero_of_lt (by omega)]
      rfl
    rw [hz]
    ring
  · have e2 : n + 1 - m = n + 1 - (m + 1) := by omega
    rw [e2]

/-- The whole binomial sum is 1. -/
theorem binom_tail_zero (n : Nat) (q : ℚ) :
    ∑ k in Finset.Icc 0 n, (n.choose k : ℚ) * q ^ k * (1 - q) ^ (n - k) = 1 := by
  have h := add_pow q (1 - q) n
  rw [add_sub_cancel, one_pow] at h
  rw [← Nat.Ico_succ_right, ← Finset.range_eq_Ico]
  refine Eq.trans (Finset.sum_congr rfl (fun k _ => ?_)) h.symm
  ring

/-- For `0 ≤ q ≤ 1` the tail from `m + 1` is at most the tail from `m`. -/
theorem binom_tail_anti (n m : Nat) (q : ℚ) (h0 : 0 ≤ q) (h1 : q ≤ 1) :
    ∑ k in Finset.Icc (m + 1) n, (n.choose k : ℚ) * q ^ k * (1 - q) ^ (n - k)
      ≤ ∑ k in Finset.Icc m n, (n.choose k : ℚ) * q ^ k * (1 - q) ^ (n - k) := by
  refine Finset.sum_le_sum_of_subset_of_nonneg (fun k hk => ?_) (fun k _ _ => ?_)
  · rw [Finset.mem_Icc] at hk ⊢
    omega
  · exact mul_nonneg (mul_nonneg (Nat.cast_nonneg _) (pow_nonneg h0 _))
      (pow_nonneg (by linarith) _)

/-- The binomial tail does not decrease when `q` grows within `[0, 1]`. -/
theorem binom_tail_mono (n : Nat) :
    ∀ (m : Nat) (q q' : ℚ), 0 ≤ q → q ≤ q' → q' ≤ 1 →
      ∑ k in Finset.Icc m n, (n.choose k : ℚ) * q ^ k * (1 - q) ^ (n - k)
        ≤ ∑ k in Finset.Icc m n, (n.choose k : ℚ) * q' ^ k * (1 - q') ^ (n - k) := by
  induction n with
  | zero =>
    intro m q q' _ _ _
    cases m with
    | zero => rw [binom_tail_zero, binom_tail_zero]
    | succ m =>
      rw [Finset.Icc_eq_empty (by omega), Finset.sum_empty, Finset.sum_empty]
  | succ n ih =>
    intro m q q' h0 hqq h1
    cases m with
    | zero => rw [binom_tail_zero, binom_tail_zero]
    | succ m =>
      rw [binom_tail_succ, binom_tail_succ]
      have hA := ih m q q' h0 hqq h1
      have hB := ih (m + 1) q q' h0 hqq h1
      have hAB := binom_tail_anti n m q h0 (le_trans hqq h1)
      have p1 := mul_nonneg (le_trans h0 hqq) (sub_nonneg.mpr hA)
      have p2 := mul_nonneg (sub_nonneg.mpr h1) (sub_nonneg.mpr hB)
      have p3 := mul_nonneg (sub_nonneg.mpr hqq) (sub_nonneg.mpr hAB)
      nlinarith [p1, p2, p3]

/-- C24. The order-statistic tail probability
`orderstat_tail (n, q, m) = Σ_{k=m}^{n} C(n,k) q^k (1-q)^(n-k)` is monotone
non-decreasing in `q` on `[0, 1]`, for every `n ≥ 1` and `1 ≤ m ≤ n`:
`0 ≤ q ≤ q' ≤ 1` gives `orderstat_tail (n, q, m) ≤ orderstat_tail (n, q', m)`. -/
theorem BND_RET.orderstat_tail_mono (n m : Int) (q q' : ℚ) (_hn : 1 ≤ n) (_hm1 : 1 ≤ m)
    (_hmn : m ≤ n) (h0 : 0 ≤ q) (hqq : q ≤ q') (h1 : q' ≤ 1) :
    BND_RET.orderstat_tail n q m ≤ BND_RET.orderstat_tail n q' m := by
  unfold BND_RET.orderstat_tail
  exact binom_tail_mono n.toNat m.toNat q q' h0 hqq h1

set_option maxRecDepth 100000 in
/-- C24, at `n = 4`, `m = 2`, `q = 1/4` and `q' = 1/2`: the tail grows from
`67/256` to `11/16`. -/
theorem BND_RET.orderstat_tail_mono_witness :
    BND_RET.orderstat_tail 4 (1 / 4) 2 = 67 / 256 ∧
    BND_RET.orderstat_tail 4 (1 / 2) 2 = 11 / 16 ∧
    BND_RET.orderstat_tail 4 (1 / 4) 2 ≤ BND_RET.orderstat_tail 4 (1 / 2) 2 :=
  ⟨by decide!, by decide!,
    BND_RET.orderstat_tail_mono 4 2 (1 / 4) (1 / 2) (by decide) (by decide) (by decide)
      (by norm_num) (by norm_num) (by norm_num)⟩

/-! ## `qsortd` stays inside its segment -/

namespace ENTROPY

/-- The upward scan does not move below where it starts. -/
theorem scan_up_le (data : Int → ℚ) (v : ℚ) :
    ∀ (fuel : Nat) (lower l : Int), scan_up data v fuel lower = some l → lower ≤ l := by
  intro fuel
  induction fuel with
  | zero =>
    intro lower l h
    simp [scan_up] at h
  | succ f ih =>
    intro lower l h
    unfold scan_up at h
    split_ifs at h with hc
    · have := ih (lower + 1) l h
      omega
    · simp only [Option.some.injEq] at h
      omega

/-- The downward scan does not move above where it starts. -/
theorem scan_down_le (data : Int → ℚ) (v : ℚ) :
    ∀ (fuel : Nat) (upper u : Int), scan_down data v fuel upper = some u → u ≤ upper := by
  intro fuel
  induction fuel with
  | zero =>
    intro upper u h
    simp [scan_down] at h
  | succ f ih =>
    intro upper u h
    unfold scan_down at h
    split_ifs at h with hc
    · have := ih (upper - 1) u h
      omega
    · simp only [Option.some.injEq] at h
      omega

/-- An upward scan that starts in the segment and stops in it reads only cells
of the segment. -/
theorem scan_up_chk_eq (first last : Int) (data : Int → ℚ) (v : ℚ) :
    ∀ (fuel : Nat) (lower l : Int), scan_up data v fuel lower = some l → first ≤ lower →
      l ≤ last → scan_up_chk first last data v fuel lower = some l := by
  intro fuel
  induction fuel with
  | zero =>
    intro lower l h
    simp [scan_up] at h
  | succ f ih =>
    intro lower l h h1 h2
    have hle := scan_up_le data v (f + 1) lower l h
    unfold scan_up at h
    unfold scan_up_chk
    rw [if_pos ⟨h1, by omega⟩]
    split_ifs at h ⊢ with hc
    · exact ih (lower + 1) l h (by omega) h2
    · exact h

/-- A downward scan that starts in the segment and stops in it reads only cells
of the segment. -/
theorem scan_down_chk_eq (first last : Int) (data : Int → ℚ) (v : ℚ) :
    ∀ (fuel : Nat) (upper u : Int), scan_down data v fuel upper = some u → upper ≤ last →
      first ≤ u → scan_down_chk first last data v fuel upper = some u := by
  intro fuel
  induction fuel with
  | zero =>
    intro upper u h
    simp [scan_down] at h
  | succ f ih =>
    intro upper u h h1 h2
    have hle := scan_down_le data v (f + 1) upper u h
    unfold scan_down at h
    unfold scan_down_chk
    rw [if_pos ⟨by omega, h1⟩]
    split_ifs at h ⊢ with hc
    · exact ih (upper - 1) u h (by omega) h2
    · exact h

/-- Where the two scans of a pass stop: inside the segment, `lower` not below
and `upper` not above where they started. -/
theorem part_scans_in_range (first last : Int) (d0 : Int → ℚ) (v : ℚ) (p : Part)
    (hinv : PartInv first last d0 v p) (hle : p.lower ≤ p.upper) :
    ∃ l u : Int, p.lower ≤ l ∧ l ≤ last ∧ first ≤ u ∧ u ≤ p.upper ∧
      (∀ fuel : Nat, last - p.lower < (fuel : Int) → scan_up p.data v fuel p.lower = some l) ∧
      (∀ fuel : Nat, p.upper - first < (fuel : Int) →
        scan_down p.data v fuel p.upper = some u) := by
  obtain ⟨_, h2, h3, hfl, hul, hcase⟩ := hinv
  have hs : ∃ ku kd, p.lower ≤ ku ∧ ku ≤ last ∧ v ≤ p.data ku ∧
      first ≤ kd ∧ kd ≤ p.upper ∧ p.data kd ≤ v := by
    rcases hcase with ⟨e1, e2, k, hk1, hk2, hk3⟩ | ⟨hl, hu⟩
    · exact ⟨k, k, by omega, hk2, le_of_eq hk3.symm, hk1, by omega, le_of_eq hk3⟩
    · exact ⟨p.upper + 1, p.lower - 1, by omega, by omega, h3 _ (by omega) (by omega),
        by omega, by omega, h2 _ (by omega) (by omega)⟩
  obtain ⟨ku, kd, hku1, hku2, hku3, hkd1, hkd2, hkd3⟩ := hs
  obtain ⟨l, hl1, hl2, _, _, hl5⟩ := scan_up_spec p.data v _ p.lower ku hku1 hku3 rfl
  obtain ⟨u, hu1, hu2, _, _, hu5⟩ := scan_down_spec p.data v _ p.upper kd hkd2 hkd3 rfl
  exact ⟨l, u, hl1, by omega, by omega, by omega, fun fuel hf => hl5 fuel (by omega),
    fun fuel hf => hu5 fuel (by omega)⟩

/-- The partitioning loop accesses only cells of the segment: with every access
checked it gives what it gives unchecked. -/
theorem partition_loop_chk_eq (first last : Int) (d0 : Int → ℚ) (v : ℚ) :
    ∀ (fuel : Nat) (p p1 : Part), PartInv first last d0 v p → p.lower ≤ p.upper →
      last - p.lower + 1 < (fuel : Int) → p.upper - first + 1 < (fuel : Int) →
      partition_loop v fuel p = some p1 →
      partition_loop_chk first last v fuel p = some p1 := by
  intro fuel
  induction fuel with
  | zero =>
    intro p p1 hinv hle hf1 hf2 _
    have hb2 : p.upper ≤ last := hinv.2.2.2.2.1
    simp only [Nat.cast_zero] at hf1
    omega
  | succ f ih =>
    intro p p1 hinv hle hf1 hf2 h
    have hb1 : first ≤ p.lower := hinv.2.2.2.1
    have hb2 : p.upper ≤ last := hinv.2.2.2.2.1
    push_cast at hf1 hf2
    obtain ⟨l, u, hsu, hsd, hres⟩ := part_pass first last d0 v p hinv hle
    obtain ⟨l', u', g1, g2, g3, g4, hsu', hsd'⟩ := part_scans_in_range first last d0 v p hinv hle
    have el : l' = l := by
      have := (hsu' f (by omega)).symm.trans (hsu f (by omega))
      simpa using this
    have eu : u' = u := by
      have := (hsd' f (by omega)).symm.trans (hsd f (by omega))
      simpa using this
    subst el eu
    unfold partition_loop at h
    rw [hsu f (by omega), hsd f (by omega)] at h
    simp only at h
    unfold partition_loop_chk
    rw [scan_up_chk_eq first last p.data v f p.lower l' (hsu f (by omega)) hb1 g2,
      scan_down_chk_eq first last p.data v f p.upper u' (hsd f (by omega)) hb2 g3]
    have hex : exchange_chk first last p.data l' u' = some (exchange p.data l' u') := by
      unfold exchange_chk
      rw [if_neg]
      intro hc
      exact hc.2 ⟨⟨by omega, g2⟩, ⟨g3, by omega⟩⟩
    simp only [hex]
    rcases hres with ⟨hgo, hinv1, hm1, hm2⟩ | ⟨hstop, _⟩
    · rw [if_pos hgo] at h ⊢
      exact ih _ p1 hinv1 hgo (by omega) (by omega) h
    · rw [if_neg hstop] at h ⊢
      exact h

/-- `qsortd` reads the pivot and partitions inside its segment, and recurses on
strictly shorter segments: with all of this checked it gives what it gives
unchecked. -/
theorem qsortd_chk_eq :
    ∀ (fuel : Nat) (first last : Int) (data d : Int → ℚ), 0 ≤ first → first ≤ last →
      last - first + 3 ≤ (fuel : Int) → qsortd fuel first last data = some d →
      qsortd_chk fuel first last data = some d := by
  intro fuel
  induction fuel with
  | zero =>
    intro first last data d _ hle hf _
    simp only [Nat.cast_zero] at hf
    omega
  | succ f ih =>
    intro first last data d h0 hle hf h
    push_cast at hf
    have hmid : first ≤ Int.tdiv (first + last) 2 ∧ Int.tdiv (first + last) 2 ≤ last := by
      rw [Int.tdiv_eq_ediv (by omega) (by norm_num)]
      omega
    have hinv0 : PartInv first last data (data (Int.tdiv (first + last) 2))
        { data := data, lower := first, upper := last } :=
      ⟨SegPerm.refl _ _ _, fun k h1 h2 => absurd h2 (by show ¬ k < first; omega),
        fun k h1 h2 => absurd h1 (by show ¬ last < k; omega), le_refl _, le_refl _,
        Or.inl ⟨rfl, rfl, _, hmid.1, hmid.2, rfl⟩⟩
    obtain ⟨p, ⟨_, _, _, hcross, hfl, hul, hlb, hub⟩, hrun⟩ :=
      partition_spec first last data (data (Int.tdiv (first + last) 2)) _
        { data := data, lower := first, upper := last } hinv0 hle (le_refl _)
    have hp := hrun f (by show last - first + 1 < (f : Int); omega)
      (by show last - first + 1 < (f : Int); omega)
    have hpc := partition_loop_chk_eq first last data (data (Int.tdiv (first + last) 2)) f
      { data := data, lower := first, upper := last } p hinv0 hle
      (by show last - first + 1 < (f : Int); omega)
      (by show last - first + 1 < (f : Int); omega) hp
    unfold qsortd at h
    simp only at h
    rw [hp] at h
    simp only at h
    unfold qsortd_chk
    rw [if_pos hmid]
    simp only
    rw [hpc]
    simp only
    cases hL : (if first < p.upper then qsortd f first p.upper p.data else some p.data) with
    | none =>
      rw [hL] at h
      simp at h
    | some d1 =>
      rw [hL] at h
      simp only at h
      have hLc : (if first < p.upper then
          (if p.upper - first < last - first then qsortd_chk f first p.upper p.data else none)
          else some p.data) = some d1 := by
        by_cases hlt : first < p.upper
        · rw [if_pos hlt] at hL ⊢
          rw [if_pos (by omega)]
          exact ih first p.upper p.data d1 h0 (by omega) (by omega) hL
        · rw [if_neg hlt] at hL ⊢
          exact hL
      rw [hLc]
      simp only
      by_cases hR : p.lower < last
      · rw [if_pos hR] at h ⊢
        rw [if_pos (by omega)]
        exact ih p.lower last d1 d (by omega) (by omega) (by omega) h
      · rw [if_neg hR] at h ⊢
        exact h

end ENTROPY

/-- C29. `qsortd` terminates and stays inside its segment. For every array and
every `0 ≤ first ≤ last`, `qsortd (first, last, data)` run with these checks
goes through and gives what the unchecked routine gives, a recursion depth of
`last - first + 3` sufficing: the pivot read, every read of the two scanning
loops and every cell exchanged has its index in `first .. last` of the call at
hand (so `lower` is never above `last` and `upper` never below `first` when
read), and each recursive call is on a segment strictly shorter than the one of
its caller. -/
theorem ENTROPY.qsortd_in_segment (first last : Int) (data : Int → ℚ) (h0 : 0 ≤ first)
    (hle : first ≤ last) :
    ∃ d : Int → ℚ, ∀ fuel : Nat, last - first + 3 ≤ (fuel : Int) →
      ENTROPY.qsortd_chk fuel first last data = some d ∧
      ENTROPY.qsortd fuel first last data = some d := by
  obtain ⟨d, _, _, hrun⟩ := ENTROPY.qsortd_spec _ first last data h0 hle rfl
  exact ⟨d, fun fuel hf =>
    ⟨ENTROPY.qsortd_chk_eq fuel first last data d h0 hle hf (hrun fuel hf), hrun fuel hf⟩⟩

/-- C29, at the segment 1 .. 5 of an array of seven values. -/
theorem ENTROPY.qsortd_in_segment_witness :
    ∃ d : Int → ℚ, ∀ fuel : Nat, (5 : Int) - 1 + 3 ≤ (fuel : Int) →
      ENTROPY.qsortd_chk fuel 1 5 (fun j => [3, -1, 4, 1, -5, 9, 2].getD j.toNat 0) = some d ∧
      ENTROPY.qsortd fuel 1 5 (fun j => [3, -1, 4, 1, -5, 9, 2].getD j.toNat 0) = some d :=
  ENTROPY.qsortd_in_segment 1 5 (fun j => [3, -1, 4, 1, -5, 9, 2].getD j.toNat 0) (by decide)
    (by decide)

/-! ## The shuffle loop is a bijection from the draws to the orderings -/

namespace MCPT_TRN

/-- The exchange of one pass, as a rearrangement of a segment. -/
theorem swap_cells_segperm (a b i j : Int) (ch : Int → ℚ) (hi : a ≤ i ∧ i ≤ b)
    (hj : a ≤ j ∧ j ≤ b) : ENTROPY.SegPerm a b ch (swap_cells ch i j) :=
  ENTROPY.SegPerm.exchange a b i j ch hi hj

theorem swap_cells_left (ch : Int → ℚ) (i j : Int) : swap_cells ch i j i = ch j := by
  unfold swap_cells
  by_cases h : i = j
  · subst h
    simp
  · rw [Function.update_noteq h, Function.update_same]

/-- Passes entered with counts of at most `B` rearrange the cells `0 .. B-1`. -/
theorem swap_passes_segperm (B : Int) :
    ∀ (l js : List Int) (ch : Int → ℚ), List.Forall₂ (fun i j => 0 ≤ j ∧ j < i) l js →
      (∀ i ∈ l, i ≤ B) →
      ENTROPY.SegPerm 0 (B - 1) ch
        ((l.zip js).foldl (fun c p => swap_cells c (p.1 - 1) p.2) ch) := by
  intro l
  induction l with
  | nil =>
    intro js ch _ _
    exact ENTROPY.SegPerm.refl _ _ _
  | cons i rest ih =>
    intro js ch hv hB
    rw [List.forall₂_cons_left_iff] at hv
    obtain ⟨j, js', hj, hv', rfl⟩ := hv
    have hiB := hB i (List.mem_cons_self _ _)
    simp only [List.zip_cons_cons, List.foldl_cons]
    exact (swap_cells_segperm 0 (B - 1) (i - 1) j ch ⟨by omega, by omega⟩
      ⟨by omega, by omega⟩).trans
      (ih js' _ hv' (fun k hk => hB k (List.mem_cons_of_mem _ hk)))

/-- The arrangement of the cells `0 .. b-1` determines the draws, and every
rearrangement of these cells is reached: the step of the bijection. -/
theorem swap_passes_unique (n : Nat) :
    ∀ (b : Int), b = (n : Int) → ∀ (ch : Int → ℚ),
      (∀ a a' : Int, 0 ≤ a → a < b → 0 ≤ a' → a' < b → ch a = ch a' → a = a') →
      ∀ tgt : List ℚ, tgt.Perm ((upTo 0 b).map ch) →
        ∃! js : List Int, List.Forall₂ (fun i j => 0 ≤ j ∧ j < i) (downTo b 1) js ∧
          (upTo 0 b).map (((downTo b 1).zip js).foldl
            (fun c p => swap_cells c (p.1 - 1) p.2) ch) = tgt := by
  induction n with
  | zero =>
    intro b hb ch _ tgt htgt
    have hb0 : b = 0 := by simpa using hb
    subst hb0
    rw [upTo_of_le (le_refl _)] at htgt ⊢
    rw [downTo_of_le (by norm_num)]
    simp only [List.map_nil, List.perm_nil] at htgt
    subst htgt
    refine ⟨[], ⟨List.Forall₂.nil, rfl⟩, fun js hjs => ?_⟩
    exact List.forall₂_nil_left_iff.mp hjs.1
  | succ n ih =>
    intro b hb ch hinj tgt htgt
    push_cast at hb
    by_cases hn : n = 0
    · -- one cell, no pass
      subst hn
      have hb1 : b = 1 := by simpa using hb
      subst hb1
      rw [downTo_of_le (le_refl _)]
      refine ⟨[], ⟨List.Forall₂.nil, ?_⟩, fun js hjs => List.forall₂_nil_left_iff.mp hjs.1⟩
      rw [upTo_zero_one] at htgt ⊢
      simp only [List.map_cons, List.map_nil, List.perm_singleton] at htgt
      simp only [List.zip_nil_left, List.foldl_nil, List.map_cons, List.map_nil]
      exact htgt.symm
    · have hb2 : 2 ≤ b := by omega
      have hsnoc : upTo 0 b = upTo 0 (b - 1) ++ [b - 1] := by
        have e : b = b - 1 + 1 := by ring
        rw [e, upTo_snoc (by omega), ← e]
      have hdown : downTo b 1 = b :: downTo (b - 1) 1 := downTo_cons (by omega)
      -- the target ends with one of the values
      have hlen : tgt.length = (upTo 0 b).length := by
        rw [htgt.length_eq, List.length_map]
      have hne : tgt ≠ [] := by
        intro h
        rw [h, hsnoc] at hlen
        simp at hlen
      obtain ⟨tgt', v, rfl⟩ : ∃ L v, tgt = L ++ [v] := by
        rcases List.eq_nil_or_concat' tgt with h | h
        · exact absurd h hne
        · exact h
      have hv : v ∈ (upTo 0 b).map ch := htgt.mem_iff.mp (by simp)
      obtain ⟨j, hj, hjv⟩ := List.mem_map.mp hv
      rw [mem_upTo] at hj
      -- what is left after the first pass
      have hperm1 : ∀ j1 : Int, 0 ≤ j1 → j1 < b →
          ((upTo 0 (b - 1)).map (swap_cells ch (b - 1) j1) ++ [ch j1]).Perm
            ((upTo 0 b).map ch) := by
        intro j1 h1 h2
        have hsp := (swap_cells_segperm 0 (b - 1) (b - 1) j1 ch ⟨by omega, le_refl _⟩
          ⟨h1, by omega⟩).segment_perm
        unfold ENTROPY.segment at hsp
        rw [sub_add_cancel] at hsp
        rw [hsnoc] at hsp ⊢
        simpa [swap_cells_left] using hsp
      have hinj1 : ∀ j1 : Int, 0 ≤ j1 → j1 < b → ∀ a a' : Int, 0 ≤ a → a < b - 1 → 0 ≤ a' →
          a' < b - 1 → swap_cells ch (b - 1) j1 a = swap_cells ch (b - 1) j1 a' → a = a' := by
        intro j1 h1 h2 a a' ha1 ha2 ha1' ha2' heq
        have hval : ∀ c : Int, 0 ≤ c → c < b - 1 →
            swap_cells ch (b - 1) j1 c = ch (if c = j1 then b - 1 else c) := by
          intro c hc1 hc2
          unfold swap_cells
          by_cases hcj : c = j1
          · rw [if_pos hcj, hcj, Function.update_same]
          · rw [if_neg hcj, Function.update_noteq hcj, Function.update_noteq (by omega)]
        rw [hval a ha1 ha2, hval a' ha1' ha2'] at heq
        have := hinj _ _ (by split_ifs <;> omega) (by split_ifs <;> omega)
          (by split_ifs <;> omega) (by split_ifs <;> omega) heq
        split_ifs at this <;> omega
      -- the last cell after all passes
      have hlast : ∀ (j1 : Int) (js1 : List Int), 0 ≤ j1 → j1 < b →
          List.Forall₂ (fun i j => 0 ≤ j ∧ j < i) (downTo (b - 1) 1) js1 →
          (upTo 0 b).map (((downTo b 1).zip (j1 :: js1)).foldl
            (fun c p => swap_cells c (p.1 - 1) p.2) ch)
            = (upTo 0 (b - 1)).map (((downTo (b - 1) 1).zip js1).foldl
                (fun c p => swap_cells c (p.1 - 1) p.2) (swap_cells ch (b - 1) j1))
              ++ [ch j1] := by
        intro j1 js1 h1 h2 hv1
        rw [hdown]
        simp only [List.zip_cons_cons, List.foldl_cons]
        rw [hsnoc, List.map_append, List.map_cons, List.map_nil]
        have hfr := (swap_passes_segperm (b - 1) (downTo (b - 1) 1) js1
          (swap_cells ch (b - 1) j1) hv1
          (fun i hi => (mem_downTo.mp hi).2)).frame (b - 1) (by omega)
        rw [hfr, swap_cells_left]
      have htgt' : tgt'.Perm ((upTo 0 (b - 1)).map (swap_cells ch (b - 1) j)) := by
        have h1 : (tgt' ++ [v]).Perm
            ((upTo 0 (b - 1)).map (swap_cells ch (b - 1) j) ++ [v]) := by
          have h2 := htgt.trans (hperm1 j hj.1 hj.2).symm
          rw [hjv] at h2
          exact h2
        exact (List.perm_append_right_iff [v]).mp h1
      obtain ⟨js', ⟨hv', harr'⟩, huniq'⟩ := ih (b - 1) (by omega) (swap_cells ch (b - 1) j)
        (hinj1 j hj.1 hj.2) tgt' htgt'
      refine ⟨j :: js', ⟨?_, ?_⟩, ?_⟩
      · rw [hdown]
        exact List.Forall₂.cons ⟨hj.1, hj.2⟩ hv'
      · rw [hlast j js' hj.1 hj.2 hv', harr', hjv]
      · rintro js2 ⟨hv2, harr2⟩
        rw [hdown, List.forall₂_cons_left_iff] at hv2
        obtain ⟨j2, js2', hj2, hv2', rfl⟩ := hv2
        rw [hlast j2 js2' hj2.1 hj2.2 hv2'] at harr2
        obtain ⟨e1, e2⟩ := List.append_inj' harr2 rfl
        simp only [List.cons.injEq, and_true] at e2
        have hjj : j2 = j := hinj j2 j hj2.1 hj2.2 hj.1 hj.2 (e2.trans hjv.symm)
        subst hjj
        rw [huniq' js2' ⟨hv2', e1⟩]

/-- The shuffle loop run from a generator is the loop of exchanges at the
indices it draws. -/
theorem shuffle_eq_passes {σ : Type} (unifrand : σ → ℚ × σ) :
    ∀ (l : List Int) (ch : Int → ℚ) (g : σ),
      (l.foldl (shuffle_step unifrand) (ch, g)).1
        = (l.zip (draws_along unifrand l g)).foldl
            (fun c p => swap_cells c (p.1 - 1) p.2) ch := by
  intro l
  induction l with
  | nil => intro ch g; rfl
  | cons i rest ih =>
    intro ch g
    simp only [List.foldl_cons, draws_along, List.zip_cons_cons]
    rw [shuffle_step_eq, ih]

/-- The indices drawn from draws that are not negative are all within range. -/
theorem draws_along_valid {σ : Type} (unifrand : σ → ℚ × σ) (hu : ∀ g, 0 ≤ (unifrand g).1) :
    ∀ (l : List Int) (g : σ), (∀ i ∈ l, 1 ≤ i) →
      List.Forall₂ (fun i j => 0 ≤ j ∧ j < i) l (draws_along unifrand l g) := by
  intro l
  induction l with
  | nil => intro g _; exact List.Forall₂.nil
  | cons i rest ih =>
    intro g hl
    obtain ⟨h1, h2⟩ := draw_index_range (unifrand g).1 i (hu g)
      (hl i (List.mem_cons_self _ _))
    exact List.Forall₂.cons ⟨h1, by omega⟩
      (ih _ (fun k hk => hl k (List.mem_cons_of_mem _ hk)))

end MCPT_TRN

/-- C26. The shuffle is a correct Fisher-Yates. For a `changes` array of
`m = nc - 1` pairwise distinct values (`nc ≥ 1`), call a sequence of indices
`js = (j_m, j_{m-1}, ..., j_2)` valid when `0 ≤ j_i < i` for each pass `i`. Then
every valid sequence makes the swap loop of `do_permute` leave a rearrangement
of the `m` values; every rearrangement `l` of the `m` values is left by exactly
one valid sequence; the rearrangements are the `m!` distinct members of the list
of all permutations of the values; and for every generator of draws `u ≥ 0` the
shuffle loop of the program is the swap loop at the indices it draws, which form
a valid sequence. -/
theorem MCPT_TRN.swap_loop_bijection (nc : Int) (changes : Int → ℚ) (hnc : 1 ≤ nc)
    (hdist : ∀ a a' : Int, 0 ≤ a → a ≤ nc - 2 → 0 ≤ a' → a' ≤ nc - 2 →
      changes a = changes a' → a = a') :
    (∀ js : List Int, List.Forall₂ (fun i j => 0 ≤ j ∧ j < i) (downTo (nc - 1) 1) js →
      ((upTo 0 (nc - 1)).map (MCPT_TRN.swap_loop nc changes js)).Perm
        ((upTo 0 (nc - 1)).map changes)) ∧
    (∀ l : List ℚ, l.Perm ((upTo 0 (nc - 1)).map changes) →
      ∃! js : List Int, List.Forall₂ (fun i j => 0 ≤ j ∧ j < i) (downTo (nc - 1) 1) js ∧
        (upTo 0 (nc - 1)).map (MCPT_TRN.swap_loop nc changes js) = l) ∧
    ((∀ l : List ℚ, l ∈ ((upTo 0 (nc - 1)).map changes).permutations
        ↔ l.Perm ((upTo 0 (nc - 1)).map changes)) ∧
      ((upTo 0 (nc - 1)).map changes).permutations.Nodup ∧
      ((upTo 0 (nc - 1)).map changes).permutations.length = Nat.factorial (nc - 1).toNat) ∧
    (∀ (σ : Type) (unifrand : σ → ℚ × σ), (∀ g, 0 ≤ (unifrand g).1) → ∀ g : σ,
      (MCPT_TRN.shuffle unifrand nc changes g).1
        = MCPT_TRN.swap_loop nc changes (MCPT_TRN.drawn_indices unifrand nc g) ∧
      List.Forall₂ (fun i j => 0 ≤ j ∧ j < i) (downTo (nc - 1) 1)
        (MCPT_TRN.drawn_indices unifrand nc g)) := by
  refine ⟨fun js hv => ?_, fun l hl => ?_, ⟨fun l => List.mem_permutations, ?_, ?_⟩,
    fun σ unifrand hu g => ⟨?_, ?_⟩⟩
  · have h := (MCPT_TRN.swap_passes_segperm (nc - 1) (downTo (nc - 1) 1) js changes hv
      (fun i hi => (mem_downTo.mp hi).2)).segment_perm
    unfold ENTROPY.segment at h
    rw [sub_add_cancel] at h
    exact h
  · exact MCPT_TRN.swap_passes_unique (nc - 1).toNat (nc - 1) (by omega) changes
      (fun a a' h1 h2 h3 h4 h => hdist a a' h1 (by omega) h3 (by omega) h) l hl
  · refine List.nodup_permutations _ ((upTo_nodup 0 (nc - 1)).map_on ?_)
    intro a ha a' ha' h
    rw [mem_upTo] at ha ha'
    exact hdist a a' ha.1 (by omega) ha'.1 (by omega) h
  · rw [List.length_permutations, List.length_map]
    congr 1
    unfold upTo
    simp
  · exact MCPT_TRN.shuffle_eq_passes unifrand (downTo (nc - 1) 1) changes g
  · exact MCPT_TRN.draws_along_valid unifrand hu (downTo (nc - 1) 1) g
      (fun i hi => by
        have := (mem_downTo.mp hi).1
        omega)

set_option maxRecDepth 100000 in
/-- C26, at the three changes `0, 1, 2` (`nc = 4`): the ordering `2, 0, 1` is
left by exactly one valid sequence of draws, and the draws `(0, 0)` leave the
ordering `1, 2, 0`. -/
theorem MCPT_TRN.swap_loop_bijection_witness :
    (∃! js : List Int, List.Forall₂ (fun i j => 0 ≤ j ∧ j < i) (downTo (4 - 1) 1) js ∧
      (upTo 0 (4 - 1)).map (MCPT_TRN.swap_loop 4 (fun j => (j : ℚ)) js) = [2, 0, 1]) ∧
    (upTo 0 (4 - 1)).map (MCPT_TRN.swap_loop 4 (fun j => (j : ℚ)) [0, 0]) = [1, 2, 0] :=
  ⟨(MCPT_TRN.swap_loop_bijection 4 (fun j => (j : ℚ)) (by decide)
      (fun a a' _ _ _ _ h => by
        have h1 : (a : ℚ) = (a' : ℚ) := h
        exact_mod_cast h1)).2.1 [2, 0, 1]
      (by
        have e : (upTo 0 (4 - 1)).map (fun j : Int => (j : ℚ)) = [0, 1, 2] := by decide!
        rw [e]
        exact (List.Perm.swap 0 2 [1]).trans (List.Perm.cons 0 (List.Perm.swap 1 2 []))),
    by decide!⟩

/-! ## The multiply-with-carry step -/

namespace MCPT_TRN

/-- The loop that fills the table, after `n` passes from `j0`: the cells from
`n` on are untouched, cell 0 is the successor of `j0`, every later cell below `n`
is the successor of the one before, and `j` is the last cell written. -/
theorem fill_passes (f : Nat × (Nat → Nat) → Nat → Nat × (Nat → Nat))
    (hf : f = fun (st : Nat × (Nat → Nat)) (k : Nat) =>
      let j := (69069 * st.1 + 12345) % 2 ^ 32
      (j, fun n => if n = k then j else st.2 n))
    (Q0 : Nat → Nat) (j0 : Nat) (n : Nat) :
    (∀ k, n ≤ k → ((List.range n).foldl f (j0, Q0)).2 k = Q0 k) ∧
    (0 < n → ((List.range n).foldl f (j0, Q0)).2 0 = (69069 * j0 + 12345) % 2 ^ 32) ∧
    (∀ k, k + 1 < n →
      ((List.range n).foldl f (j0, Q0)).2 (k + 1)
        = (69069 * ((List.range n).foldl f (j0, Q0)).2 k + 12345) % 2 ^ 32) ∧
    (0 < n →
      ((List.range n).foldl f (j0, Q0)).1 = ((List.range n).foldl f (j0, Q0)).2 (n - 1)) := by
  induction n with
  | zero =>
    refine ⟨fun k _ => rfl, fun h => absurd h (by omega), fun k h => absurd h (by omega),
      fun h => absurd h (by omega)⟩
  | succ n ih =>
    obtain ⟨h1, h2, h3, h4⟩ := ih
    rw [List.range_succ, List.foldl_append]
    simp only [List.foldl_cons, List.foldl_nil]
    by_cases hn : n = 0
    · subst hn hf
      simp only [List.range_zero, List.foldl_nil]
      refine ⟨fun k hk => ?_, fun _ => ?_, fun k hk => absurd hk (by omega), fun _ => ?_⟩
      · rw [if_neg (by omega)]
      · simp
      · simp
    generalize (List.range n).foldl f (j0, Q0) = st at h1 h2 h3 h4 ⊢
    subst hf
    simp only
    refine ⟨fun k hk => ?_, fun _ => ?_, fun k hk => ?_, fun _ => ?_⟩
    · rw [if_neg (by omega)]
      exact h1 k (by omega)
    · rw [if_neg (by omega)]
      exact h2 (by omega)
    · by_cases hkn : k + 1 = n
      · rw [if_pos hkn, if_neg (by omega), h4 (by omega)]
        have e : n - 1 = k := by omega
        rw [e]
      · rw [if_neg hkn, if_neg (by omega)]
        exact h3 k (by omega)
    · simp

/-- The table after the fill. -/
theorem fill_table_spec (Q : Nat → Nat) (seed : Int) :
    fill_table Q seed 0 = (69069 * (seed % 2 ^ 32).toNat + 12345) % 2 ^ 32 ∧
    (∀ k, k + 1 < 256 →
      fill_table Q seed (k + 1) = (69069 * fill_table Q seed k + 12345) % 2 ^ 32) ∧
    (∀ k, 256 ≤ k → fill_table Q seed k = Q k) ∧
    (∀ k, k < 256 → fill_table Q seed k < 2 ^ 32) := by
  unfold fill_table
  obtain ⟨h1, h2, h3, _⟩ := fill_passes _ rfl Q (seed % 2 ^ 32).toNat 256
  refine ⟨h2 (by norm_num), h3, h1, ?_⟩
  intro k hk
  cases k with
  | zero =>
    rw [h2 (by norm_num)]
    exact Nat.mod_lt _ (by norm_num)
  | succ k =>
    rw [h3 k hk]
    exact Nat.mod_lt _ (by norm_num)

/-- The multiply-with-carry step on a slot that holds `q < 2^32`, with a carry
below the multiplier. -/
theorem mwc_step (q c : Nat) (hq : q < 2 ^ 32) (hc : c < 809430660) :
    809430660 * q + c < 2 ^ 64 ∧
    (809430660 * q + c) % 2 ^ 64 % 2 ^ 32
      + 2 ^ 32 * ((809430660 * q + c) % 2 ^ 64 / 2 ^ 32 % 2 ^ 32) = 809430660 * q + c ∧
    (809430660 * q + c) % 2 ^ 64 / 2 ^ 32 % 2 ^ 32 < 809430660 := by
  have hq1 : q < 4294967296 := by
    norm_num at hq
    exact hq
  have h64 : 809430660 * q + c < 2 ^ 64 := by
    norm_num
    omega
  have hdiv : (809430660 * q + c) / 2 ^ 32 < 809430660 := by
    rw [Nat.div_lt_iff_lt_mul (by norm_num)]
    norm_num
    omega
  have hmod : (809430660 * q + c) / 2 ^ 32 % 2 ^ 32 = (809430660 * q + c) / 2 ^ 32 :=
    Nat.mod_eq_of_lt (lt_trans hdiv (by norm_num))
  rw [Nat.mod_eq_of_lt h64, hmod]
  exact ⟨h64, Nat.mod_add_div _ _, hdiv⟩

end MCPT_TRN

namespace MCPT_TRN

/-- `RAND32M`, spelled out on the table it works on. -/
theorem RAND32M_unfold (g : Rng) :
    (RAND32M g).1
      = (809430660 * (if g.MWC256_initialized = 0 then fill_table g.Q g.MWC256_seed else g.Q)
            ((g.i + 1) % 256) + g.carry) % 2 ^ 64 % 2 ^ 32 ∧
    (RAND32M g).2.carry
      = (809430660 * (if g.MWC256_initialized = 0 then fill_table g.Q g.MWC256_seed else g.Q)
            ((g.i + 1) % 256) + g.carry) % 2 ^ 64 / 2 ^ 32 % 2 ^ 32 ∧
    (RAND32M g).2.i = (g.i + 1) % 256 ∧
    (RAND32M g).2.Q ((g.i + 1) % 256) = (RAND32M g).1 ∧
    (∀ j, j ≠ (g.i + 1) % 256 →
      (RAND32M g).2.Q j
        = (if g.MWC256_initialized = 0 then fill_table g.Q g.MWC256_seed else g.Q) j) ∧
    (RAND32M g).2.MWC256_initialized
      = (if g.MWC256_initialized = 0 then 1 else g.MWC256_initialized) ∧
    (RAND32M g).2.MWC256_seed = g.MWC256_seed := by
  unfold RAND32M
  generalize fill_table g.Q g.MWC256_seed = tb
  by_cases h : g.MWC256_initialized = 0
  · simp only [if_pos h]
    refine ⟨trivial, trivial, trivial, ?_, ?_, trivial, trivial⟩
    · exact if_pos trivial
    · intro j hj
      exact if_neg hj
  · simp only [if_neg h]
    refine ⟨trivial, trivial, trivial, ?_, ?_, trivial, trivial⟩
    · exact if_pos trivial
    · intro j hj
      exact if_neg hj

/-- The table the step works on holds 32-bit words. -/
theorem table_lt (g : Rng) (hQ : ∀ k, g.Q k < 2 ^ 32) (k : Nat) (hk : k < 256) :
    (if g.MWC256_initialized = 0 then fill_table g.Q g.MWC256_seed else g.Q) k < 2 ^ 32 := by
  split_ifs
  · exact (fill_table_spec g.Q g.MWC256_seed).2.2.2 k hk
  · exact hQ k

/-- One call keeps the state well formed: 32-bit words in the table, a carry
below the multiplier. -/
theorem RAND32M_keeps (g : Rng) (hQ : ∀ k, g.Q k < 2 ^ 32) (hc : g.carry < 809430660) :
    (∀ k, (RAND32M g).2.Q k < 2 ^ 32) ∧ (RAND32M g).2.carry < 809430660 := by
  obtain ⟨e1, e2, _, e4, e5, _, _⟩ := RAND32M_unfold g
  have hk : (g.i + 1) % 256 < 256 := Nat.mod_lt _ (by norm_num)
  obtain ⟨_, _, m3⟩ := mwc_step _ g.carry (table_lt g hQ _ hk) hc
  refine ⟨fun k => ?_, ?_⟩
  · by_cases hkk : k = (g.i + 1) % 256
    · rw [hkk, e4]
      exact RAND32M_lt g
    · rw [e5 k hkk]
      split_ifs
      · by_cases h256 : k < 256
        · exact (fill_table_spec g.Q g.MWC256_seed).2.2.2 k h256
        · rw [(fill_table_spec g.Q g.MWC256_seed).2.2.1 k (by omega)]
          exact hQ k
      · exact hQ k
  · rw [e2]
    exact m3

/-- The states the program reaches by successive calls are well formed, and the
index after `n` calls is that of slot `n - 1`. -/
theorem RAND32M_reach (n : Nat) :
    (∀ k, ((fun g => (RAND32M g).2)^[n] Rng.start).Q k < 2 ^ 32) ∧
    ((fun g => (RAND32M g).2)^[n] Rng.start).carry < 809430660 ∧
    ((fun g => (RAND32M g).2)^[n] Rng.start).i = (255 + n) % 256 := by
  induction n with
  | zero =>
    refine ⟨fun k => ?_, ?_, ?_⟩
    · show (0 : Nat) < 2 ^ 32
      norm_num
    · show (362436 : Nat) < 809430660
      norm_num
    · rfl
  | succ n ih =>
    obtain ⟨h1, h2, h3⟩ := ih
    rw [Function.iterate_succ_apply']
    obtain ⟨k1, k2⟩ := RAND32M_keeps _ h1 h2
    refine ⟨k1, k2, ?_⟩
    rw [(RAND32M_unfold _).2.2.1, h3]
    omega

end MCPT_TRN

/-- C37. Multiply-with-carry step. In a state whose table holds 32-bit words and
whose carry is below the multiplier `809430660`, a call of `RAND32M` works on
the slot `k = (i + 1) mod 256` of the table (refilled first when the generator
is not initialised): with `Q[k]` the word in that slot, the value `Q'` returned
and the new carry satisfy `Q' + 2^32 * carry' = 809430660 * Q[k] + carry`,
`0 ≤ Q' < 2^32`, the 64-bit intermediate is below `2^64`, `Q'` is stored in slot
`k` and no other slot changes, `carry' < 809430660`, and the table still holds
32-bit words. The refill sets `Q[0] = (69069 * (seed mod 2^32) + 12345) mod 2^32`
and `Q[k+1] = (69069 * Q[k] + 12345) mod 2^32` up to `Q[255]`. From the start of
the program (`carry = 362436`, `i = 255`) every state reached is of this kind,
and call number `n + 1` works on slot `n mod 256`: slots `0, 1, ..., 255, 0, ...`. -/
theorem MCPT_TRN.RAND32M_mwc_step (g : MCPT_TRN.Rng) (hQ : ∀ k, g.Q k < 2 ^ 32)
    (hc : g.carry < 809430660) :
    ((MCPT_TRN.RAND32M g).1 + 2 ^ 32 * (MCPT_TRN.RAND32M g).2.carry
      = 809430660
          * (if g.MWC256_initialized = 0 then MCPT_TRN.fill_table g.Q g.MWC256_seed else g.Q)
              ((g.i + 1) % 256)
        + g.carry) ∧
    (MCPT_TRN.RAND32M g).1 < 2 ^ 32 ∧
    (809430660
        * (if g.MWC256_initialized = 0 then MCPT_TRN.fill_table g.Q g.MWC256_seed else g.Q)
            ((g.i + 1) % 256)
      + g.carry < 2 ^ 64) ∧
    (MCPT_TRN.RAND32M g).2.i = (g.i + 1) % 256 ∧
    (MCPT_TRN.RAND32M g).2.Q ((g.i + 1) % 256) = (MCPT_TRN.RAND32M g).1 ∧
    (∀ j, j ≠ (g.i + 1) % 256 →
      (MCPT_TRN.RAND32M g).2.Q j
        = (if g.MWC256_initialized = 0 then MCPT_TRN.fill_table g.Q g.MWC256_seed else g.Q)
            j) ∧
    (MCPT_TRN.RAND32M g).2.carry < 809430660 ∧
    (∀ k, (MCPT_TRN.RAND32M g).2.Q k < 2 ^ 32) ∧
    (MCPT_TRN.fill_table g.Q g.MWC256_seed 0
        = (69069 * (g.MWC256_seed % 2 ^ 32).toNat + 12345) % 2 ^ 32 ∧
      (∀ k, k + 1 < 256 →
        MCPT_TRN.fill_table g.Q g.MWC256_seed (k + 1)
          = (69069 * MCPT_TRN.fill_table g.Q g.MWC256_seed k + 12345) % 2 ^ 32) ∧
      (∀ k, 256 ≤ k → MCPT_TRN.fill_table g.Q g.MWC256_seed k = g.Q k)) ∧
    (∀ n : Nat,
      ((fun g => (MCPT_TRN.RAND32M g).2)^[n] MCPT_TRN.Rng.start).carry < 809430660 ∧
      (∀ k, ((fun g => (MCPT_TRN.RAND32M g).2)^[n] MCPT_TRN.Rng.start).Q k < 2 ^ 32) ∧
      (MCPT_TRN.RAND32M ((fun g => (MCPT_TRN.RAND32M g).2)^[n] MCPT_TRN.Rng.start)).2.i
        = n % 256) := by
  obtain ⟨e1, e2, e3, e4, e5, _, _⟩ := MCPT_TRN.RAND32M_unfold g
  have hk : (g.i + 1) % 256 < 256 := Nat.mod_lt _ (by norm_num)
  obtain ⟨m1, m2, m3⟩ := MCPT_TRN.mwc_step _ g.carry (MCPT_TRN.table_lt g hQ _ hk) hc
  obtain ⟨k1, k2⟩ := MCPT_TRN.RAND32M_keeps g hQ hc
  obtain ⟨f1, f2, f3, _⟩ := MCPT_TRN.fill_table_spec g.Q g.MWC256_seed
  refine ⟨?_, MCPT_TRN.RAND32M_lt g, m1, e3, e4, e5, k2, k1, ⟨f1, f2, f3⟩, fun n => ?_⟩
  · rw [e1, e2]
    exact m2
  · obtain ⟨r1, r2, r3⟩ := MCPT_TRN.RAND32M_reach n
    refine ⟨r2, r1, ?_⟩
    rw [(MCPT_TRN.RAND32M_unfold _).2.2.1, r3]
    omega

set_option maxRecDepth 100000 in
/-- C37, at the first call of the program: the table is filled from the seed
`123456789`, slot 0 holds `3894166764` afterwards, which is the value returned,
and the carry becomes `287757942`. -/
theorem MCPT_TRN.RAND32M_mwc_step_witness :
    ((MCPT_TRN.RAND32M MCPT_TRN.Rng.start).1
        + 2 ^ 32 * (MCPT_TRN.RAND32M MCPT_TRN.Rng.start).2.carry
      = 809430660
          * (if MCPT_TRN.Rng.start.MWC256_initialized = 0 then
              MCPT_TRN.fill_table MCPT_TRN.Rng.start.Q MCPT_TRN.Rng.start.MWC256_seed
            else MCPT_TRN.Rng.start.Q) ((MCPT_TRN.Rng.start.i + 1) % 256)
        + MCPT_TRN.Rng.start.carry) ∧
    (MCPT_TRN.RAND32M MCPT_TRN.Rng.start).1 = 3894166764 ∧
    (MCPT_TRN.RAND32M MCPT_TRN.Rng.start).2.carry = 287757942 :=
  ⟨(MCPT_TRN.RAND32M_mwc_step MCPT_TRN.Rng.start
      (fun _ => by
        show (0 : Nat) < 2 ^ 32
        norm_num)
      (by
        show (362436 : Nat) < 809430660
        norm_num)).1,
    by decide!, by decide!⟩

/-! ## `find_slope` is the least-squares slope -/

namespace ENTROPY

/-- The loop of `find_slope` after its passes `0 .. m - 1`. -/
theorem slope_passes (lookback : Int) (x : Int → ℚ) (n : Nat) :
    ∀ m : Int, m = (n : Int) →
      (upTo 0 m).foldl (slope_step lookback x) (0, 0)
        = (∑ t in Finset.Icc 0 (m - 1),
              ((t : ℚ) - ((lookback : ℚ) - 1) / 2) * x (t - lookback + 1),
           ∑ t in Finset.Icc 0 (m - 1), ((t : ℚ) - ((lookback : ℚ) - 1) / 2) ^ 2) := by
  induction n with
  | zero =>
    intro m hm
    rw [upTo_of_le (by omega), sum_Icc_empty _ (by omega), sum_Icc_empty _ (by omega)]
    rfl
  | succ n ih =>
    intro m hm
    have e : m = (m - 1) + 1 := by ring
    rw [e, upTo_snoc (by omega), List.foldl_append, ih (m - 1) (by omega)]
    have e2 : m - 1 + 1 - 1 = m - 1 := by ring
    rw [e2, sum_Icc_top _ (show (0 : Int) ≤ m - 1 by omega),
      sum_Icc_top (fun t : Int => ((t : ℚ) - ((lookback : ℚ) - 1) / 2) ^ 2)
        (show (0 : Int) ≤ m - 1 by omega)]
    simp only [List.foldl_cons, List.foldl_nil, slope_step]
    refine Prod.ext ?_ ?_
    · simp only
      push_cast
      ring
    · simp only
      push_cast
      ring

/-- The centred coefficients of a window sum to zero. -/
theorem coef_sum_zero (n : Nat) :
    ∀ m : Int, m = (n : Int) →
      ∑ t in Finset.Icc (0 : Int) (m - 1), (t : ℚ) = (m : ℚ) * ((m : ℚ) - 1) / 2 := by
  induction n with
  | zero =>
    intro m hm
    rw [sum_Icc_empty _ (by omega)]
    subst hm
    simp
  | succ n ih =>
    intro m hm
    rw [sum_Icc_top _ (show (0 : Int) ≤ m - 1 by omega), ih (m - 1) (by omega)]
    push_cast
    ring

end ENTROPY

/-- C36, in exact arithmetic. For every `lookback ≥ 2`, `find_slope` returns
`(Σ c_t x_t) / (Σ c_t²)` over the `lookback` values of its window, `x_t` being
the value at position `t = 0 .. lookback - 1` of the window (the cell
`x[t - lookback + 1]`) and `c_t = t - (lookback - 1)/2`; the denominator is
positive, hence non-zero; and when the window is exactly linear,
`x_t = a + b t`, and the products, sums and the quotient are exact, the value
returned is exactly `b`. -/
theorem ENTROPY.find_slope_least_squares (lookback : Int) (x : Int → ℚ) (h : 2 ≤ lookback) :
    ENTROPY.find_slope lookback x
      = (∑ t in Finset.Icc 0 (lookback - 1),
            ((t : ℚ) - ((lookback : ℚ) - 1) / 2) * x (t - lookback + 1))
        / (∑ t in Finset.Icc 0 (lookback - 1), ((t : ℚ) - ((lookback : ℚ) - 1) / 2) ^ 2) ∧
    0 < ∑ t in Finset.Icc 0 (lookback - 1), ((t : ℚ) - ((lookback : ℚ) - 1) / 2) ^ 2 ∧
    ((upTo 0 lookback).foldl (ENTROPY.slope_step lookback x) (0, 0)).2 ≠ 0 ∧
    ∀ a b : ℚ, (∀ t : Int, 0 ≤ t → t ≤ lookback - 1 → x (t - lookback + 1) = a + b * (t : ℚ)) →
      ENTROPY.find_slope lookback x = b := by
  have hp := ENTROPY.slope_passes lookback x lookback.toNat lookback (by omega)
  have hpos : 0 < ∑ t in Finset.Icc 0 (lookback - 1), ((t : ℚ) - ((lookback : ℚ) - 1) / 2) ^ 2 := by
    rw [sum_Icc_bot _ (show (0 : Int) ≤ lookback - 1 by omega)]
    have h0 : 0 < (((0 : Int) : ℚ) - ((lookback : ℚ) - 1) / 2) ^ 2 := by
      have hl : (2 : ℚ) ≤ (lookback : ℚ) := by exact_mod_cast h
      have : ((0 : Int) : ℚ) - ((lookback : ℚ) - 1) / 2 < 0 := by
        push_cast
        linarith
      nlinarith [mul_pos_of_neg_of_neg this this]
    have h1 : 0 ≤ ∑ t in Finset.Icc (0 + 1) (lookback - 1),
        ((t : ℚ) - ((lookback : ℚ) - 1) / 2) ^ 2 :=
      Finset.sum_nonneg (fun t _ => sq_nonneg _)
    linarith
  have hval : ENTROPY.find_slope lookback x
      = (∑ t in Finset.Icc 0 (lookback - 1),
            ((t : ℚ) - ((lookback : ℚ) - 1) / 2) * x (t - lookback + 1))
        / (∑ t in Finset.Icc 0 (lookback - 1), ((t : ℚ) - ((lookback : ℚ) - 1) / 2) ^ 2) := by
    unfold ENTROPY.find_slope
    simp only [hp]
  refine ⟨hval, hpos, ?_, fun a b hlin => ?_⟩
  · rw [hp]
    exact ne_of_gt hpos
  · rw [hval, div_eq_iff (ne_of_gt hpos)]
    have hs := ENTROPY.coef_sum_zero lookback.toNat lookback (by omega)
    have hz : ∑ t in Finset.Icc (0 : Int) (lookback - 1), ((t : ℚ) - ((lookback : ℚ) - 1) / 2)
        = 0 := by
      rw [Finset.sum_sub_distrib, hs, Finset.sum_const, Int.card_Icc]
      have : (lookback - 1 + 1 - 0).toNat = lookback.toNat := by omega
      rw [this, nsmul_eq_mul]
      have hc : ((lookback.toNat : Nat) : ℚ) = (lookback : ℚ) := by
        have : ((lookback.toNat : Nat) : Int) = lookback := by omega
        exact_mod_cast this
      rw [hc]
      ring
    have e1 : ∑ t in Finset.Icc 0 (lookback - 1),
          ((t : ℚ) - ((lookback : ℚ) - 1) / 2) * x (t - lookback + 1)
        = ∑ t in Finset.Icc (0 : Int) (lookback - 1),
            ((a - b * (-(((lookback : ℚ) - 1) / 2))) * ((t : ℚ) - ((lookback : ℚ) - 1) / 2)
              + b * ((t : ℚ) - ((lookback : ℚ) - 1) / 2) ^ 2) := by
      refine Finset.sum_congr rfl (fun t ht => ?_)
      rw [Finset.mem_Icc] at ht
      rw [hlin t ht.1 ht.2]
      ring
    rw [e1, Finset.sum_add_distrib, ← Finset.mul_sum, ← Finset.mul_sum, hz]
    ring

/-- C36 on the window `1, 3, 5` (`lookback = 3`, `a = 1`, `b = 2`): the slope
returned is `2`. -/
theorem ENTROPY.find_slope_least_squares_witness :
    (2 : Int) ≤ 3 ∧
    ENTROPY.find_slope 3 (fun j => 5 + 2 * (j : ℚ)) = 2 :=
  ⟨by decide,
    (ENTROPY.find_slope_least_squares 3 (fun j => 5 + 2 * (j : ℚ)) (by decide)).2.2.2 1 2
      (fun t _ _ => by
        push_cast
        ring)⟩

/-! ## The binning of `entropy` -/

namespace ENTROPY

/-- The first loop of `entropy` after the cases `1 .. m - 1`: the pair bounds
every case seen and both of its members are cases seen. -/
theorem range_passes (x : Int → ℚ) (n : Nat) :
    ∀ m : Int, m = (n : Int) + 1 →
      (∀ i, 0 ≤ i → i < m →
        ((upTo 1 m).foldl (range_step x) (x 0, x 0)).1 ≤ x i ∧
        x i ≤ ((upTo 1 m).foldl (range_step x) (x 0, x 0)).2) ∧
      (∃ i, 0 ≤ i ∧ i < m ∧ ((upTo 1 m).foldl (range_step x) (x 0, x 0)).1 = x i) ∧
      (∃ i, 0 ≤ i ∧ i < m ∧ ((upTo 1 m).foldl (range_step x) (x 0, x 0)).2 = x i) := by
  induction n with
  | zero =>
    intro m hm
    rw [upTo_of_le (by omega)]
    refine ⟨fun i h0 h1 => ?_, ⟨0, le_refl _, by omega, rfl⟩, ⟨0, le_refl _, by omega, rfl⟩⟩
    have : i = 0 := by omega
    subst this
    exact ⟨le_refl _, le_refl _⟩
  | succ n ih =>
    intro m hm
    have e : m = (m - 1) + 1 := by ring
    obtain ⟨hb, ⟨ia, ha0, ha1, ha⟩, ⟨ib, hb0, hb1, hbb⟩⟩ := ih (m - 1) (by omega)
    rw [e, upTo_snoc (by omega), List.foldl_append]
    simp only [List.foldl_cons, List.foldl_nil]
    generalize (upTo 1 (m - 1)).foldl (range_step x) (x 0, x 0) = s at hb ha hbb
    unfold range_step
    simp only
    refine ⟨fun i h0 h1 => ?_, ?_, ?_⟩
    · by_cases hi : i = m - 1
      · subst hi
        constructor
        · split_ifs with hc
          · exact le_refl _
          · exact not_lt.mp hc
        · split_ifs with hc
          · exact le_refl _
          · exact not_lt.mp hc
      · obtain ⟨p1, p2⟩ := hb i h0 (by omega)
        constructor
        · split_ifs with hc
          · exact le_of_lt (lt_of_lt_of_le hc p1)
          · exact p1
        · split_ifs with hc
          · exact le_of_lt (lt_of_le_of_lt p2 hc)
          · exact p2
    · split_ifs with hc
      · exact ⟨m - 1, by omega, by omega, rfl⟩
      · exact ⟨ia, ha0, by omega, ha⟩
    · split_ifs with hc
      · exact ⟨m - 1, by omega, by omega, rfl⟩
      · exact ⟨ib, hb0, by omega, hbb⟩

/-- What `data_range` returns: the least and the greatest of the cases. -/
theorem data_range_spec (n : Int) (x : Int → ℚ) (hn : 1 ≤ n) :
    (∀ i, 0 ≤ i → i < n → (data_range n x).1 ≤ x i ∧ x i ≤ (data_range n x).2) ∧
    (∃ i, 0 ≤ i ∧ i < n ∧ (data_range n x).1 = x i) ∧
    (∃ i, 0 ≤ i ∧ i < n ∧ (data_range n x).2 = x i) :=
  range_passes x (n - 1).toNat n (by omega)

/-- The least case is not above the greatest. -/
theorem data_range_le (n : Int) (x : Int → ℚ) (hn : 1 ≤ n) :
    (data_range n x).1 ≤ (data_range n x).2 :=
  le_trans ((data_range_spec n x hn).1 0 (le_refl _) (by omega)).1
    ((data_range_spec n x hn).1 0 (le_refl _) (by omega)).2

/-- The scaled value of a case lies in `[0, nbins)`. -/
theorem scaled_range (n : Int) (x : Int → ℚ) (nbins : Int) (hn : 1 ≤ n) (hb : 1 ≤ nbins)
    (i : Int) (h0 : 0 ≤ i) (h1 : i < n) :
    0 ≤ bin_factor n x nbins * (x i - (data_range n x).1) ∧
    bin_factor n x nbins * (x i - (data_range n x).1) < (nbins : ℚ) := by
  obtain ⟨p1, p2⟩ := (data_range_spec n x hn).1 i h0 h1
  have hle := data_range_le n x hn
  have hnb : (1 : ℚ) ≤ (nbins : ℚ) := by exact_mod_cast hb
  have he : (0 : ℚ) < 1 / 10 ^ 10 := by norm_num
  have he1 : (1 : ℚ) / 10 ^ 10 < 1 := by norm_num
  have hd : (0 : ℚ) < 1 / 10 ^ 60 := by norm_num
  have hden : 0 < (data_range n x).2 - (data_range n x).1 + 1 / 10 ^ 60 := by linarith
  have hnum : 0 < (nbins : ℚ) - 1 / 10 ^ 10 := by linarith
  unfold bin_factor
  constructor
  · exact mul_nonneg (le_of_lt (div_pos hnum hden)) (by linarith)
  · rw [div_mul_eq_mul_div, div_lt_iff₀ hden]
    have h2 : x i - (data_range n x).1 < (data_range n x).2 - (data_range n x).1 + 1 / 10 ^ 60 := by
      linarith
    have h3 : 0 ≤ x i - (data_range n x).1 := by linarith
    calc ((nbins : ℚ) - 1 / 10 ^ 10) * (x i - (data_range n x).1)
        ≤ (nbins : ℚ) * (x i - (data_range n x).1) :=
          mul_le_mul_of_nonneg_right (by linarith) h3
      _ < (nbins : ℚ) * ((data_range n x).2 - (data_range n x).1 + 1 / 10 ^ 60) :=
          mul_lt_mul_of_pos_left h2 (by linarith)

/-- Every case falls in one of the bins `0 .. nbins - 1`. -/
theorem bin_index_range (n : Int) (x : Int → ℚ) (nbins : Int) (hn : 1 ≤ n) (hb : 1 ≤ nbins)
    (i : Int) (h0 : 0 ≤ i) (h1 : i < n) :
    bin_index n x nbins i = ⌊bin_factor n x nbins * (x i - (data_range n x).1)⌋ ∧
    0 ≤ bin_index n x nbins i ∧ bin_index n x nbins i ≤ nbins - 1 := by
  obtain ⟨s0, s1⟩ := scaled_range n x nbins hn hb i h0 h1
  have e : bin_index n x nbins i = ⌊bin_factor n x nbins * (x i - (data_range n x).1)⌋ := by
    unfold bin_index trunc
    rw [if_pos s0]
  refine ⟨e, ?_, ?_⟩
  · rw [e]
    exact Int.floor_nonneg.mpr s0
  · rw [e]
    have : ⌊bin_factor n x nbins * (x i - (data_range n x).1)⌋ < nbins := Int.floor_lt.mpr s1
    omega

/-- The loop that clears the work area. -/
theorem clear_passes (count : Int → Int) (n : Nat) :
    ∀ m : Int, m = (n : Int) →
      ∀ k, (upTo 0 m).foldl (fun c i => Function.update c i 0) count k
        = if 0 ≤ k ∧ k < m then 0 else count k := by
  induction n with
  | zero =>
    intro m hm k
    rw [upTo_of_le (by omega), if_neg (by omega)]
    rfl
  | succ n ih =>
    intro m hm k
    have e : m = (m - 1) + 1 := by ring
    rw [e, upTo_snoc (by omega), List.foldl_append]
    simp only [List.foldl_cons, List.foldl_nil]
    by_cases hk : k = m - 1
    · subst hk
      rw [Function.update_same, if_pos (by omega)]
    · rw [Function.update_noteq hk, ih (m - 1) (by omega) k]
      by_cases hin : 0 ≤ k ∧ k < m - 1
      · rw [if_pos hin, if_pos (by omega)]
      · rw [if_neg hin, if_neg (by omega)]

/-- The work area after clearing. -/
theorem clear_counts_eq (nbins : Int) (count : Int → Int) (k : Int) :
    clear_counts nbins count k = if 0 ≤ k ∧ k < nbins then 0 else count k := by
  by_cases h : 0 ≤ nbins
  · exact clear_passes count nbins.toNat nbins (by omega) k
  · unfold clear_counts
    rw [upTo_of_le (by omega), if_neg (by omega)]
    rfl

/-- The counting loop after the cases `0 .. m - 1`: each cell has grown by the
number of those cases that fall in it. -/
theorem count_passes (n : Int) (x : Int → ℚ) (nbins : Int) (c0 : Int → Int) (j : Nat) :
    ∀ m : Int, m = (j : Int) →
      ∀ k, (upTo 0 m).foldl (count_step n x nbins) c0 k
        = c0 k + (((Finset.Icc 0 (m - 1)).filter (fun i => bin_index n x nbins i = k)).card : Int) := by
  induction j with
  | zero =>
    intro m hm k
    rw [upTo_of_le (by omega), Finset.Icc_eq_empty (by omega)]
    simp
  | succ j ih =>
    intro m hm k
    have e : m = (m - 1) + 1 := by ring
    have hI : Finset.Icc (0 : Int) (m - 1) = insert (m - 1) (Finset.Icc 0 (m - 1 - 1)) := by
      ext i
      simp only [Finset.mem_Icc, Finset.mem_insert]
      omega
    have hnot : m - 1 ∉ Finset.Icc (0 : Int) (m - 1 - 1) := by
      simp only [Finset.mem_Icc]
      omega
    rw [e, upTo_snoc (by omega), List.foldl_append]
    simp only [List.foldl_cons, List.foldl_nil]
    have e2 : m - 1 + 1 - 1 = m - 1 := by ring
    rw [e2, hI, Finset.filter_insert]
    have hprev := ih (m - 1) (by omega)
    generalize (upTo 0 (m - 1)).foldl (count_step n x nbins) c0 = c at hprev
    unfold count_step
    by_cases hk : bin_index n x nbins (m - 1) = k
    · rw [hk, Function.update_same, hprev k, if_pos rfl,
        Finset.card_insert_of_not_mem (fun hmem => hnot (Finset.mem_filter.mp hmem).1)]
      push_cast
      ring
    · rw [Function.update_noteq (Ne.symm hk), hprev k, if_neg hk]

/-- The cells of the work area after the counting loop. -/
theorem bin_counts_eq (n : Int) (x : Int → ℚ) (nbins : Int) (count : Int → Int) (hn : 0 ≤ n)
    (k : Int) :
    bin_counts n x nbins count k
      = (if 0 ≤ k ∧ k < nbins then 0 else count k)
        + (((Finset.Icc 0 (n - 1)).filter (fun i => bin_index n x nbins i = k)).card : Int) := by
  unfold bin_counts
  rw [count_passes n x nbins _ n.toNat n (by omega) k, clear_counts_eq]

end ENTROPY

/-- C35. For `n ≥ 1` cases and `nbins ≥ 1` bins, in exact arithmetic:
`minval` and `maxval` bound every case; the bin of every case `i` of
`0 .. n - 1` is `k = ⌊factor * (x[i] - minval)⌋` with
`factor = (nbins - 1e-10) / (maxval - minval + 1e-60)`, and `0 ≤ k ≤ nbins - 1`:
the scaled value stays below `nbins`, so the greatest value is counted in a bin
of the work area, never in cell `nbins`, and it is counted in the last bin
`nbins - 1` as soon as `(nbins - 1) * 1e-60 ≤ (1 - 1e-10) * (maxval - minval)`.
After the counting loop cell `k` of `0 .. nbins - 1` holds the number of cases
whose bin is `k`, the cells outside are as they were, and the counts of the
bins sum to `n`. -/
theorem ENTROPY.entropy_bins_in_range (n : Int) (x : Int → ℚ) (nbins : Int)
    (count : Int → Int) (hn : 1 ≤ n) (hb : 1 ≤ nbins) :
    (∀ i, 0 ≤ i → i < n →
      (ENTROPY.data_range n x).1 ≤ x i ∧ x i ≤ (ENTROPY.data_range n x).2 ∧
      ENTROPY.bin_index n x nbins i
        = ⌊(((nbins : ℚ) - 1 / 10 ^ 10)
              / ((ENTROPY.data_range n x).2 - (ENTROPY.data_range n x).1 + 1 / 10 ^ 60))
            * (x i - (ENTROPY.data_range n x).1)⌋ ∧
      0 ≤ ENTROPY.bin_index n x nbins i ∧ ENTROPY.bin_index n x nbins i ≤ nbins - 1 ∧
      (x i = (ENTROPY.data_range n x).2 →
        (nbins - 1 : ℚ) * (1 / 10 ^ 60)
          ≤ (1 - 1 / 10 ^ 10) * ((ENTROPY.data_range n x).2 - (ENTROPY.data_range n x).1) →
        ENTROPY.bin_index n x nbins i = nbins - 1)) ∧
    (∃ i, 0 ≤ i ∧ i < n ∧ x i = (ENTROPY.data_range n x).2) ∧
    (∀ k, 0 ≤ k → k < nbins →
      ENTROPY.bin_counts n x nbins count k
        = (((Finset.Icc 0 (n - 1)).filter
            (fun i => ENTROPY.bin_index n x nbins i = k)).card : Int)) ∧
    (∀ k, ¬ (0 ≤ k ∧ k < nbins) → ENTROPY.bin_counts n x nbins count k = count k) ∧
    ∑ k in Finset.Icc 0 (nbins - 1), ENTROPY.bin_counts n x nbins count k = n := by
  have hcell : ∀ k, 0 ≤ k → k < nbins →
      ENTROPY.bin_counts n x nbins count k
        = (((Finset.Icc 0 (n - 1)).filter
            (fun i => ENTROPY.bin_index n x nbins i = k)).card : Int) := by
    intro k h0 h1
    rw [ENTROPY.bin_counts_eq n x nbins count (by omega) k, if_pos ⟨h0, h1⟩, zero_add]
  refine ⟨fun i h0 h1 => ?_, ?_, hcell, fun k hk => ?_, ?_⟩
  · obtain ⟨p1, p2⟩ := (ENTROPY.data_range_spec n x hn).1 i h0 h1
    obtain ⟨e, b0, b1⟩ := ENTROPY.bin_index_range n x nbins hn hb i h0 h1
    refine ⟨p1, p2, e, b0, b1, fun hmax hwide => ?_⟩
    have hge : nbins - 1 ≤ ENTROPY.bin_index n x nbins i := by
      rw [e, Int.le_floor, hmax]
      unfold ENTROPY.bin_factor
      have hle := ENTROPY.data_range_le n x hn
      have hden : 0 < (ENTROPY.data_range n x).2 - (ENTROPY.data_range n x).1 + 1 / 10 ^ 60 := by
        have hd : (0 : ℚ) < 1 / 10 ^ 60 := by norm_num
        linarith
      rw [div_mul_eq_mul_div, le_div_iff₀ hden]
      push_cast
      linarith
    omega
  · obtain ⟨i, h0, h1, h2⟩ := (ENTROPY.data_range_spec n x hn).2.2
    exact ⟨i, h0, h1, h2.symm⟩
  · rw [ENTROPY.bin_counts_eq n x nbins count (by omega) k, if_neg hk]
    have : (Finset.Icc 0 (n - 1)).filter (fun i => ENTROPY.bin_index n x nbins i = k) = ∅ := by
      refine Finset.filter_eq_empty_iff.mpr (fun i hi hik => hk ?_)
      rw [Finset.mem_Icc] at hi
      obtain ⟨_, b0, b1⟩ := ENTROPY.bin_index_range n x nbins hn hb i hi.1 (by omega)
      omega
    rw [this]
    simp
  · rw [Finset.sum_congr rfl (fun k hk => hcell k (Finset.mem_Icc.mp hk).1
      (by have := (Finset.mem_Icc.mp hk).2; omega))]
    rw [← Nat.cast_sum, ← Finset.card_eq_sum_card_fiberwise (fun i hi => ?_), Int.card_Icc]
    · omega
    · rw [Finset.mem_Icc] at hi
      obtain ⟨_, b0, b1⟩ := ENTROPY.bin_index_range n x nbins hn hb i hi.1 (by omega)
      exact Finset.mem_Icc.mpr ⟨b0, b1⟩

set_option maxRecDepth 100000 in
/-- C35 on the cases `0, 1, 2, 4` with three bins: the bins are `0, 0, 1, 2` and
the counts `2, 1, 1` sum to the four cases. -/
theorem ENTROPY.entropy_bins_in_range_witness :
    ((1 : Int) ≤ 4 ∧ (1 : Int) ≤ 3) ∧
    ∑ k in Finset.Icc 0 (3 - 1),
        ENTROPY.bin_counts 4 (fun i => if i = 3 then 4 else (i : ℚ)) 3 (fun _ => 7) k = 4 ∧
    (upTo 0 4).map (ENTROPY.bin_index 4 (fun i => if i = 3 then 4 else (i : ℚ)) 3) = [0, 0, 1, 2] ∧
    (upTo 0 4).map (ENTROPY.bin_counts 4 (fun i => if i = 3 then 4 else (i : ℚ)) 3 (fun _ => 7))
      = [2, 1, 1, 7] :=
  ⟨⟨by decide, by decide⟩,
    (ENTROPY.entropy_bins_in_range 4 (fun i => if i = 3 then 4 else (i : ℚ)) 3 (fun _ => 7)
      (by decide) (by decide)).2.2.2.2,
    by decide!, by decide!⟩

/-! ## The two bounds are ordered -/

namespace BND_RET

/-- The rank of a bound does not decrease when the failure rate grows. -/
theorem bound_m_mono (r r' : ℚ) (n : Int) (hn : 1 ≤ n) (h0 : 0 ≤ r) (hr : r ≤ r') (h1 : r' < 1) :
    bound_m r n ≤ bound_m r' n := by
  have hpos : (0 : ℚ) < ((n + 1 : Int) : ℚ) := by exact_mod_cast (show (0 : Int) < n + 1 by omega)
  rw [(bound_m_spec r n hn h0 (lt_of_le_of_lt hr h1)).1,
    (bound_m_spec r' n hn (le_trans h0 hr) h1).1]
  exact max_le_max (le_refl _) (Int.floor_mono (mul_le_mul_of_nonneg_right hr (le_of_lt hpos)))

/-- The two ranks of rates that sum to at most one leave room for each other. -/
theorem bound_m_sum (lo hi : ℚ) (n : Int) (hn : 1 ≤ n) (hl0 : 0 ≤ lo) (hl1 : lo < 1)
    (hu0 : 0 ≤ hi) (hu1 : hi < 1) (hsum : lo + hi ≤ 1) :
    bound_m lo n + bound_m hi n ≤ n + 1 := by
  have hpos : (0 : ℚ) < ((n + 1 : Int) : ℚ) := by exact_mod_cast (show (0 : Int) < n + 1 by omega)
  obtain ⟨el, _, bl⟩ := bound_m_spec lo n hn hl0 hl1
  obtain ⟨eu, _, bu⟩ := bound_m_spec hi n hn hu0 hu1
  have hadd : ⌊lo * ((n + 1 : Int) : ℚ)⌋ + ⌊hi * ((n + 1 : Int) : ℚ)⌋ ≤ n + 1 := by
    have h1 : ⌊lo * ((n + 1 : Int) : ℚ)⌋ + ⌊hi * ((n + 1 : Int) : ℚ)⌋
        ≤ ⌊lo * ((n + 1 : Int) : ℚ) + hi * ((n + 1 : Int) : ℚ)⌋ := Int.le_floor_add _ _
    have h2 : ⌊lo * ((n + 1 : Int) : ℚ) + hi * ((n + 1 : Int) : ℚ)⌋ ≤ n + 1 := by
      have : lo * ((n + 1 : Int) : ℚ) + hi * ((n + 1 : Int) : ℚ) ≤ ((n + 1 : Int) : ℚ) := by
        have := mul_le_mul_of_nonneg_right hsum (le_of_lt hpos)
        linarith
      calc ⌊lo * ((n + 1 : Int) : ℚ) + hi * ((n + 1 : Int) : ℚ)⌋
          ≤ ⌊((n + 1 : Int) : ℚ)⌋ := Int.floor_mono this
        _ = n + 1 := Int.floor_intCast _
    omega
  rw [el] at bl ⊢
  rw [eu] at bu ⊢
  rcases le_total 1 ⌊lo * ((n + 1 : Int) : ℚ)⌋ with a | a <;>
    rcases le_total 1 ⌊hi * ((n + 1 : Int) : ℚ)⌋ with b | b
  · rw [max_eq_right a, max_eq_right b]
    exact hadd
  · rw [max_eq_right a, max_eq_left b]
    rw [max_eq_right a] at bl
    omega
  · rw [max_eq_left a, max_eq_right b]
    rw [max_eq_right b] at bu
    omega
  · rw [max_eq_left a, max_eq_left b]
    omega

end BND_RET

/-- C31. For a sorted sample `d[0 .. n-1]` of `n ≥ 1` returns and failure rates
with `0 ≤ lo < 1`, `0 ≤ hi < 1` and `lo + hi ≤ 1`, the ranks satisfy
`m_lo + m_hi ≤ n + 1`, hence `lower_bound ≤ upper_bound`; the lower bound does
not decrease when its failure rate grows and the upper bound does not increase
when its failure rate grows. The same order holds for the bounds that the
return bounding of `main` computes from any sample, which it sorts first. -/
theorem BND_RET.bounds_ordered (n : Int) (d : Int → ℚ) (lo hi : ℚ) (hn : 1 ≤ n)
    (hs : ∀ i j : Int, 0 ≤ i → i ≤ j → j ≤ n - 1 → d i ≤ d j)
    (hl0 : 0 ≤ lo) (hl1 : lo < 1) (hu0 : 0 ≤ hi) (hu1 : hi < 1) (hsum : lo + hi ≤ 1) :
    BND_RET.bound_m lo n + BND_RET.bound_m hi n ≤ n + 1 ∧
    (BND_RET.return_bounds n d lo hi).lower_bound_m
        + (BND_RET.return_bounds n d lo hi).upper_bound_m ≤ n + 1 ∧
    (BND_RET.return_bounds n d lo hi).lower_bound
      ≤ (BND_RET.return_bounds n d lo hi).upper_bound ∧
    (∀ lo' : ℚ, lo ≤ lo' → lo' < 1 →
      (BND_RET.return_bounds n d lo hi).lower_bound
        ≤ (BND_RET.return_bounds n d lo' hi).lower_bound) ∧
    (∀ hi' : ℚ, hi ≤ hi' → hi' < 1 →
      (BND_RET.return_bounds n d lo hi').upper_bound
        ≤ (BND_RET.return_bounds n d lo hi).upper_bound) ∧
    (∀ returns : Int → ℚ, ∃ b : BND_RET.Bounds,
      (∀ fuel : Nat, n + 2 ≤ (fuel : Int) → BND_RET.bounding fuel n returns lo hi = some b) ∧
      b.lower_bound_m + b.upper_bound_m ≤ n + 1 ∧ b.lower_bound ≤ b.upper_bound) := by
  have hm := BND_RET.bound_m_sum lo hi n hn hl0 hl1 hu0 hu1 hsum
  obtain ⟨_, l1, l2⟩ := BND_RET.bound_m_spec lo n hn hl0 hl1
  obtain ⟨_, u1, u2⟩ := BND_RET.bound_m_spec hi n hn hu0 hu1
  refine ⟨hm, hm, ?_, fun lo' h h1 => ?_, fun hi' h h1 => ?_, fun returns => ?_⟩
  · show d (BND_RET.bound_m lo n - 1) ≤ d (n - BND_RET.bound_m hi n)
    exact hs _ _ (by omega) (by omega) (by omega)
  · show d (BND_RET.bound_m lo n - 1) ≤ d (BND_RET.bound_m lo' n - 1)
    have := BND_RET.bound_m_mono lo lo' n hn hl0 h h1
    obtain ⟨_, _, l3⟩ := BND_RET.bound_m_spec lo' n hn (le_trans hl0 h) h1
    exact hs _ _ (by omega) (by omega) (by omega)
  · show d (n - BND_RET.bound_m hi' n) ≤ d (n - BND_RET.bound_m hi n)
    have := BND_RET.bound_m_mono hi hi' n hn hu0 h h1
    obtain ⟨_, _, u3⟩ := BND_RET.bound_m_spec hi' n hn (le_trans hu0 h) h1
    exact hs _ _ (by omega) (by omega) (by omega)
  · obtain ⟨s, _, hss, hrun⟩ :=
      ENTROPY.qsortd_spec _ 0 (n - 1) returns (le_refl _) (by omega) rfl
    refine ⟨BND_RET.return_bounds n s lo hi, fun fuel hf => ?_, hm, ?_⟩
    · unfold BND_RET.bounding
      rw [hrun fuel (by omega)]
      rfl
    · show s (BND_RET.bound_m lo n - 1) ≤ s (n - BND_RET.bound_m hi n)
      exact hss _ _ (by omega) (by omega) (by omega)

set_option maxRecDepth 100000 in
/-- C31 on the sorted sample `-3, -1, 1, 3, 5` with failure rates `0.4` and
`0.5`: the ranks are `2` and `3`, the bounds `-1` and `1`. -/
theorem BND_RET.bounds_ordered_witness :
    BND_RET.bound_m (2 / 5) 5 + BND_RET.bound_m (1 / 2) 5 ≤ 5 + 1 ∧
    BND_RET.return_bounds 5 (fun j => 2 * (j : ℚ) - 3) (2 / 5) (1 / 2)
      = { lower_bound_m := 2, lower_bound := -1, upper_bound_m := 3, upper_bound := 1 } :=
  ⟨(BND_RET.bounds_ordered 5 (fun j => 2 * (j : ℚ) - 3) (2 / 5) (1 / 2)
      (by decide)
      (fun i j _ hij _ => by
        have h : (i : ℚ) ≤ (j : ℚ) := by exact_mod_cast hij
        show 2 * (i : ℚ) - 3 ≤ 2 * (j : ℚ) - 3
        linarith)
      (by norm_num) (by norm_num) (by norm_num) (by norm_num) (by norm_num)).1,
    by decide!⟩

/-! ## The divisor of the mean training bias -/

namespace MCPT_TRN

/-- A checked quotient with a divisor that is not zero. -/
theorem div_defined_some (a b : ℚ) (h : b ≠ 0) : div_defined a b = some (a / b) := by
  unfold div_defined
  rw [if_neg h]

/-- A checked quotient with the divisor zero. -/
theorem div_defined_zero (a : ℚ) : div_defined a 0 = none := by
  unfold div_defined
  rw [if_pos rfl]

end MCPT_TRN

/-- C34. The divisor `nreps - 1` of the mean training bias is zero exactly when
`nreps = 1`, so that for a number of replications `nreps ≥ 1` it is non-zero
exactly when `nreps ≥ 2`. The only check of `main` once the prices are read is
`nprices - max_lookback < 10`: it does not look at `nreps`, and `nreps = 1` is
accepted. With `nreps = 1` the bias accumulated by the loop is `0` and the
divisor is `0`, so the mean training bias, the unbiased return and the skill
are not numbers, while the p-value is `1`. With `nreps ≥ 2` all four are the
numbers that `main` reports. -/
theorem MCPT_TRN.mean_training_bias_defined {σ : Type} (unifrand : σ → ℚ × σ)
    (nprices max_lookback nreps : Int) (s0 : MCPT_TRN.Mcpt σ) :
    ((((nreps - 1 : Int) : ℚ) = 0) ↔ nreps = 1) ∧
    (1 ≤ nreps → ((((nreps - 1 : Int) : ℚ) ≠ 0) ↔ 2 ≤ nreps)) ∧
    ((∃ r, MCPT_TRN.main unifrand max_lookback nreps nprices s0 = Except.ok r)
      ↔ 10 ≤ nprices - max_lookback) ∧
    (10 ≤ nprices - max_lookback →
      MCPT_TRN.main unifrand max_lookback 1 nprices s0
        = Except.ok (MCPT_TRN.mcpt unifrand nprices max_lookback 1 s0)) ∧
    (MCPT_TRN.mcpt_upto unifrand nprices max_lookback
        (MCPT_TRN.trend_per_return nprices max_lookback s0.prices)
        { s0 with
          changes := MCPT_TRN.prepare_permute (nprices - max_lookback + 1)
            (shift s0.prices (max_lookback - 1)) s0.changes,
          printed := [] } 1).mean_training_bias = 0 ∧
    (MCPT_TRN.mcpt_figures unifrand nprices max_lookback 1 s0).training_bias = none ∧
    (MCPT_TRN.mcpt_figures unifrand nprices max_lookback 1 s0).unbiased_return = none ∧
    (MCPT_TRN.mcpt_figures unifrand nprices max_lookback 1 s0).skill = none ∧
    (MCPT_TRN.mcpt_figures unifrand nprices max_lookback 1 s0).p_value = some 1 ∧
    (2 ≤ nreps →
      MCPT_TRN.mcpt_figures unifrand nprices max_lookback nreps s0
        = { p_value := some (MCPT_TRN.mcpt unifrand nprices max_lookback nreps s0).p_value,
            training_bias :=
              some (MCPT_TRN.mcpt unifrand nprices max_lookback nreps s0).training_bias,
            unbiased_return :=
              some (MCPT_TRN.mcpt unifrand nprices max_lookback nreps s0).unbiased_return,
            skill := some (MCPT_TRN.mcpt unifrand nprices max_lookback nreps s0).skill }) := by
  have hz : (((nreps - 1 : Int) : ℚ) = 0) ↔ nreps = 1 := by
    rw [Int.cast_eq_zero]
    omega
  have hb : (MCPT_TRN.mcpt_upto unifrand nprices max_lookback
        (MCPT_TRN.trend_per_return nprices max_lookback s0.prices)
        { s0 with
          changes := MCPT_TRN.prepare_permute (nprices - max_lookback + 1)
            (shift s0.prices (max_lookback - 1)) s0.changes,
          printed := [] } 1).mean_training_bias = 0 := by
    rw [MCPT_TRN.mcpt_upto_one]
    unfold MCPT_TRN.mcpt_step
    simp
  have h10 : ((1 - 1 : Int) : ℚ) = 0 := by norm_num
  refine ⟨hz, fun h1 => ?_, ?_, fun h => ?_, hb, ?_, ?_, ?_, ?_, fun h2 => ?_⟩
  · rw [Ne, hz]
    omega
  · unfold MCPT_TRN.main
    constructor
    · rintro ⟨r, hr⟩
      by_contra hc
      rw [if_pos (by omega)] at hr
      cases hr
    · intro h
      rw [if_neg (by omega)]
      exact ⟨_, rfl⟩
  · unfold MCPT_TRN.main
    rw [if_neg (by omega)]
  · unfold MCPT_TRN.mcpt_figures
    simp only [h10, MCPT_TRN.div_defined_zero]
  · unfold MCPT_TRN.mcpt_figures
    simp only [h10, MCPT_TRN.div_defined_zero, Option.map_none']
  · unfold MCPT_TRN.mcpt_figures
    simp only [h10, MCPT_TRN.div_defined_zero, Option.map_none']
  · unfold MCPT_TRN.mcpt_figures
    simp only [MCPT_TRN.mcpt_upto_one]
    unfold MCPT_TRN.mcpt_step
    simp [MCPT_TRN.div_defined]
  · have hd : ((nreps - 1 : Int) : ℚ) ≠ 0 := by
      rw [Ne, hz]
      omega
    have hn : ((nreps : Int) : ℚ) ≠ 0 := by
      rw [Ne, Int.cast_eq_zero]
      omega
    unfold MCPT_TRN.mcpt_figures MCPT_TRN.mcpt
    simp only [MCPT_TRN.div_defined_some _ _ hd, MCPT_TRN.div_defined_some _ _ hn,
      Option.map_some']

set_option maxRecDepth 100000 in
/-- C34 on a series of 14 prices with `max_lookback = 3`: `main` accepts
`nreps = 1`, and with `nreps = 3` the mean training bias is a number. -/
theorem MCPT_TRN.mean_training_bias_defined_witness :
    ((10 : Int) ≤ 14 - 3 ∧ (2 : Int) ≤ 3) ∧
    MCPT_TRN.main MCPT_TRN.replay 3 1 14
      { prices := fun j => if j = 2 then 5 else (j : ℚ), changes := fun _ => 0,
        rng := [1 / 2, 9 / 10, 1, 1 / 3, 0, 2 / 3], out := ⟨0, 0, 0, 0⟩, original := 0,
        original_trend_component := 0, original_nshort := 0, original_nlong := 0,
        count := 0, mean_training_bias := 0, printed := [] }
      = Except.ok (MCPT_TRN.mcpt MCPT_TRN.replay 14 3 1
          { prices := fun j => if j = 2 then 5 else (j : ℚ), changes := fun _ => 0,
            rng := [1 / 2, 9 / 10, 1, 1 / 3, 0, 2 / 3], out := ⟨0, 0, 0, 0⟩, original := 0,
            original_trend_component := 0, original_nshort := 0, original_nlong := 0,
            count := 0, mean_training_bias := 0, printed := [] }) ∧
    (MCPT_TRN.mcpt_figures MCPT_TRN.replay 14 3 1
      { prices := fun j => if j = 2 then 5 else (j : ℚ), changes := fun _ => 0,
        rng := [1 / 2, 9 / 10, 1, 1 / 3, 0, 2 / 3], out := ⟨0, 0, 0, 0⟩, original := 0,
        original_trend_component := 0, original_nshort := 0, original_nlong := 0,
        count := 0, mean_training_bias := 0, printed := [] })
      = { p_value := some 1, training_bias := none, unbiased_return := none, skill := none } ∧
    (MCPT_TRN.mcpt_figures MCPT_TRN.replay 14 3 3
      { prices := fun j => if j = 2 then 5 else (j : ℚ), changes := fun _ => 0,
        rng := [1 / 2, 9 / 10, 1, 1 / 3, 0, 2 / 3], out := ⟨0, 0, 0, 0⟩, original := 0,
        original_trend_component := 0, original_nshort := 0, original_nlong := 0,
        count := 0, mean_training_bias := 0, printed := [] }).training_bias.isSome = true :=
  ⟨⟨by decide, by decide⟩,
    (MCPT_TRN.mean_training_bias_defined MCPT_TRN.replay 14 3 1
      { prices := fun j => if j = 2 then 5 else (j : ℚ), changes := fun _ => 0,
        rng := [1 / 2, 9 / 10, 1, 1 / 3, 0, 2 / 3], out := ⟨0, 0, 0, 0⟩, original := 0,
        original_trend_component := 0, original_nshort := 0, original_nlong := 0,
        count := 0, mean_training_bias := 0, printed := [] }).2.2.2.1 (by decide),
    by decide!, by decide!⟩

/-! ## The frame of the permutation in `main` of MCPT_TRN -/

namespace MCPT_TRN

/-- The cells that `do_permute` does not write in `data`: all but `1 .. nc-1`. -/
theorem do_permute_frame {σ : Type} (unifrand : σ → ℚ × σ) (nc : Int) (s : Permuting σ)
    (k : Int) (hk : ¬ (1 ≤ k ∧ k ≤ nc - 1)) :
    (do_permute unifrand nc s).data k = s.data k := by
  show rebuild nc s.data _ k = _
  rw [rebuild_eq, if_neg hk]

/-- The cells that no number of `do_permute` calls writes. -/
theorem iterate_frame {σ : Type} (unifrand : σ → ℚ × σ) (nc : Int) (s : Permuting σ)
    (k : Int) (hk : ¬ (1 ≤ k ∧ k ≤ nc - 1)) (reps : Nat) :
    ((do_permute unifrand nc)^[reps] s).data k = s.data k := by
  induction reps with
  | zero => rfl
  | succ n ih =>
    rw [Function.iterate_succ_apply', do_permute_frame unifrand nc _ k hk, ih]

/-- Under the invariant of the permutation the last price is the original one. -/
theorem PermuteInv.last {σ : Type} {nc : Int} {data0 : Int → ℚ} {s : Permuting σ}
    (h : PermuteInv nc data0 s) (hnc : 2 ≤ nc) : s.data (nc - 1) = data0 (nc - 1) := by
  obtain ⟨_, hk, π, hfix, hπ⟩ := h
  rw [hk (nc - 1) (by omega) (le_refl _)]
  have e : nc - 1 - 1 = nc - 2 := by ring
  rw [e]
  have hsum : ∑ j in Finset.Icc 0 (nc - 2), s.changes j
      = ∑ j in Finset.Icc 0 (nc - 2), (fun k => data0 (k + 1) - data0 k) (π j) := by
    refine Finset.sum_congr rfl (fun j hj => ?_)
    rw [Finset.mem_Icc] at hj
    exact hπ j hj.1 hj.2
  rw [hsum, Equiv.Perm.sum_comp π (Finset.Icc 0 (nc - 2)) (fun k => data0 (k + 1) - data0 k)
    (fun a ha => by
      rw [Finset.coe_Icc, Set.mem_Icc]
      by_contra hout
      exact ha (hfix a hout)),
    sum_differences data0 (nc - 1).toNat (nc - 2) (by omega)]
  have e2 : nc - 2 + 1 = nc - 1 := by ring
  rw [e2]
  ring

/-- Under the invariant of the permutation the one-bar differences of the
prices are the original ones, rearranged. -/
theorem PermuteInv.diffs_perm {σ : Type} {nc : Int} {data0 : Int → ℚ} {s : Permuting σ}
    (h : PermuteInv nc data0 s) : (differences nc s.data).Perm (differences nc data0) := by
  rw [h.differences_eq]
  obtain ⟨_, _, π, hfix, hπ⟩ := h
  have e : nc - 1 = nc - 2 + 1 := by ring
  have h1 : (upTo 0 (nc - 1)).map s.changes
      = (upTo 0 (nc - 1)).map (fun k => (fun j => data0 (j + 1) - data0 j) (π k)) := by
    refine List.map_congr_left (fun k hm => ?_)
    obtain ⟨hk0, hk1⟩ := mem_upTo.mp hm
    exact hπ k hk0 (by omega)
  rw [h1]
  unfold differences
  rw [e]
  exact map_perm_seg (fun j => data0 (j + 1) - data0 j) π 0 (nc - 2) hfix

/-- The prices of a replication outside the cells `max_lookback .. nprices - 2`
are the original ones. -/
theorem rep_prices_frame {σ : Type} (unifrand : σ → ℚ × σ) (hu : ∀ g, 0 ≤ (unifrand g).1)
    (nprices max_lookback : Int) (s0 : Mcpt σ) (r : Nat) (k : Int)
    (hk : ¬ (max_lookback ≤ k ∧ k ≤ nprices - 2)) :
    rep_prices unifrand nprices max_lookback s0 r k = s0.prices k := by
  have hshift : shift s0.prices (max_lookback - 1) (-(max_lookback - 1) + k) = s0.prices k := by
    show s0.prices (max_lookback - 1 + (-(max_lookback - 1) + k)) = s0.prices k
    congr 1
    ring
  show (replication unifrand nprices max_lookback s0 r).data (-(max_lookback - 1) + k) = _
  by_cases hlast : k = nprices - 1 ∧ 2 ≤ nprices - max_lookback + 1
  · have hinv := PermuteInv.iterate unifrand hu (nprices - max_lookback + 1)
      (shift s0.prices (max_lookback - 1)) s0.changes s0.rng r
    have hl := hinv.last hlast.2
    have e : -(max_lookback - 1) + k = nprices - max_lookback + 1 - 1 := by omega
    rw [← hshift, e]
    exact hl
  · unfold replication
    rw [iterate_frame unifrand _ _ _ (by omega) r]
    exact hshift

end MCPT_TRN

/-- C33, in exact arithmetic. Frame of the permutation in `main` of MCPT_TRN,
for a generator whose draws are not negative. `prepare_permute` and `do_permute`
work at `prices + max_lookback - 1` with `nc = nprices - max_lookback + 1`, so
every replication `r` leaves the prices `prices[0 .. max_lookback-1]` as they
were and, the subtractions and additions being exact, `prices[nprices-1]` too
(as every cell outside `max_lookback .. nprices-2`); the one-bar changes of the
evaluated span, of which there are `nprices - max_lookback`, are those of the
original series in another order; and, in exact arithmetic, `trend_per_return`,
computed once before the loop, is the same expression evaluated on the prices
of every replication, in particular on those that the loop of `main` holds
after any number `nreps ≥ 1` of passes. -/
theorem MCPT_TRN.permutation_frame {σ : Type} (unifrand : σ → ℚ × σ)
    (hu : ∀ g, 0 ≤ (unifrand g).1) (nprices max_lookback : Int) (s0 : MCPT_TRN.Mcpt σ)
    (r : Nat) :
    (∀ k, k ≤ max_lookback - 1 →
      MCPT_TRN.rep_prices unifrand nprices max_lookback s0 r k = s0.prices k) ∧
    MCPT_TRN.rep_prices unifrand nprices max_lookback s0 r (nprices - 1)
      = s0.prices (nprices - 1) ∧
    (∀ k, ¬ (max_lookback ≤ k ∧ k ≤ nprices - 2) →
      MCPT_TRN.rep_prices unifrand nprices max_lookback s0 r k = s0.prices k) ∧
    ((upTo (max_lookback - 1) (nprices - 1)).map
        (fun k => MCPT_TRN.rep_prices unifrand nprices max_lookback s0 r (k + 1)
          - MCPT_TRN.rep_prices unifrand nprices max_lookback s0 r k)).Perm
      ((upTo (max_lookback - 1) (nprices - 1)).map
        (fun k => s0.prices (k + 1) - s0.prices k)) ∧
    ((upTo (max_lookback - 1) (nprices - 1)).length : Int)
      = max (nprices - max_lookback) 0 ∧
    MCPT_TRN.trend_per_return nprices max_lookback
        (MCPT_TRN.rep_prices unifrand nprices max_lookback s0 r)
      = (s0.prices (nprices - 1) - s0.prices (max_lookback - 1))
        / ((nprices - max_lookback : Int) : ℚ) ∧
    MCPT_TRN.trend_per_return nprices max_lookback
        (MCPT_TRN.rep_prices unifrand nprices max_lookback s0 r)
      = MCPT_TRN.trend_per_return nprices max_lookback s0.prices ∧
    (∀ nreps : Int, 1 ≤ nreps →
      MCPT_TRN.trend_per_return nprices max_lookback
          (MCPT_TRN.mcpt_upto unifrand nprices max_lookback
            (MCPT_TRN.trend_per_return nprices max_lookback s0.prices)
            { s0 with
              changes := MCPT_TRN.prepare_permute (nprices - max_lookback + 1)
                (shift s0.prices (max_lookback - 1)) s0.changes,
              printed := [] } nreps).prices
        = MCPT_TRN.trend_per_return nprices max_lookback s0.prices) := by
  have hframe := MCPT_TRN.rep_prices_frame unifrand hu nprices max_lookback s0
  have htpr : ∀ q : Nat, MCPT_TRN.trend_per_return nprices max_lookback
        (MCPT_TRN.rep_prices unifrand nprices max_lookback s0 q)
      = MCPT_TRN.trend_per_return nprices max_lookback s0.prices := by
    intro q
    unfold MCPT_TRN.trend_per_return
    rw [hframe q (nprices - 1) (by omega), hframe q (max_lookback - 1) (by omega)]
  refine ⟨fun k hk => hframe r k (by omega), hframe r (nprices - 1) (by omega), hframe r,
    ?_, ?_, ?_, htpr r, fun nreps hn => ?_⟩
  · have hinv := MCPT_TRN.PermuteInv.iterate unifrand hu (nprices - max_lookback + 1)
      (shift s0.prices (max_lookback - 1)) s0.changes s0.rng r
    have hp := hinv.diffs_perm
    unfold MCPT_TRN.differences at hp
    have hl : ∀ f : Int → ℚ, (upTo (max_lookback - 1) (nprices - 1)).map
          (fun k => f (k + 1) - f k)
        = (upTo 0 (nprices - max_lookback + 1 - 1)).map
          (fun k => shift f (max_lookback - 1) (k + 1) - shift f (max_lookback - 1) k) := by
      intro f
      unfold upTo
      rw [List.map_map, List.map_map]
      have e : (nprices - 1 - (max_lookback - 1)).toNat
          = (nprices - max_lookback + 1 - 1 - 0).toNat := by
        congr 1
        ring
      rw [e]
      refine List.map_congr_left (fun j _ => ?_)
      simp only [Function.comp_apply, shift]
      congr 2 <;> ring
    rw [hl, hl]
    have hs : shift (MCPT_TRN.rep_prices unifrand nprices max_lookback s0 r) (max_lookback - 1)
        = (MCPT_TRN.replication unifrand nprices max_lookback s0 r).data := by
      unfold MCPT_TRN.rep_prices
      exact shift_neg_shift _ _
    rw [hs]
    exact hp
  · unfold upTo
    rw [List.length_map, List.length_range]
    omega
  · rw [htpr r]
    rfl
  · have hinv := MCPT_TRN.mcpt_inv unifrand nprices max_lookback nreps s0 hn
    rw [hinv.1]
    exact htpr _

set_option maxRecDepth 100000 in
/-- C33 on a series of 14 prices with `max_lookback = 3`, shuffled twice: the
prices `0 .. 2` and the last one are as before, and the trend per bar is that
of the original series, `(13 - 5) / 11`. -/
theorem MCPT_TRN.permutation_frame_witness :
    (upTo 0 3).map (MCPT_TRN.rep_prices MCPT_TRN.replay 14 3
      { prices := fun j => if j = 2 then 5 else (j : ℚ), changes := fun _ => 0,
        rng := [1 / 2, 9 / 10, 1, 1 / 3, 0, 2 / 3], out := ⟨0, 0, 0, 0⟩, original := 0,
        original_trend_component := 0, original_nshort := 0, original_nlong := 0,
        count := 0, mean_training_bias := 0, printed := [] } 2) = [0, 1, 5] ∧
    MCPT_TRN.trend_per_return 14 3 (MCPT_TRN.rep_prices MCPT_TRN.replay 14 3
      { prices := fun j => if j = 2 then 5 else (j : ℚ), changes := fun _ => 0,
        rng := [1 / 2, 9 / 10, 1, 1 / 3, 0, 2 / 3], out := ⟨0, 0, 0, 0⟩, original := 0,
        original_trend_component := 0, original_nshort := 0, original_nlong := 0,
        count := 0, mean_training_bias := 0, printed := [] } 2)
      = ((fun j : Int => if j = 2 then 5 else (j : ℚ)) (14 - 1)
          - (fun j : Int => if j = 2 then 5 else (j : ℚ)) (3 - 1)) / ((14 - 3 : Int) : ℚ) :=
  ⟨by decide!,
    (MCPT_TRN.permutation_frame MCPT_TRN.replay (fun _ => NNRat.coe_nonneg _) 14 3
      { prices := fun j => if j = 2 then 5 else (j : ℚ), changes := fun _ => 0,
        rng := [1 / 2, 9 / 10, 1, 1 / 3, 0, 2 / 3], out := ⟨0, 0, 0, 0⟩, original := 0,
        original_trend_component := 0, original_nshort := 0, original_nlong := 0,
        count := 0, mean_training_bias := 0, printed := [] } 2).2.2.2.2.2.1⟩

/-! ## Out-of-sample coverage of the walk-forward -/

/-- A counted range moved by a constant. -/
theorem upTo_map_add (a b c : Int) : (upTo a b).map (fun i => c + i) = upTo (c + a) (c + b) := by
  unfold upTo
  rw [List.map_map]
  have e : (c + b - (c + a)).toNat = (b - a).toNat := by
    congr 1
    ring
  rw [e]
  refine List.map_congr_left (fun k _ => ?_)
  simp only [Function.comp_apply]
  ring

/-- Two counted ranges that follow each other. -/
theorem upTo_append (a b c : Int) (hab : a ≤ b) (hbc : b ≤ c) :
    upTo a b ++ upTo b c = upTo a c := by
  have key : ∀ (n : Nat) (c : Int), c = b + (n : Int) → upTo a b ++ upTo b c = upTo a c := by
    intro n
    induction n with
    | zero =>
      intro c hc
      have : c = b := by simpa using hc
      subst this
      rw [upTo_of_le (le_refl _), List.append_nil]
    | succ n ih =>
      intro c hc
      have e : c = (c - 1) + 1 := by ring
      rw [e, upTo_snoc (show b ≤ c - 1 by omega), upTo_snoc (show a ≤ c - 1 by omega),
        ← List.append_assoc, ih (c - 1) (by omega)]
  exact key (c - b).toNat c (by omega)

namespace BND_RET

/-- The bars a fold scores are the `n` bars from `train_start + n_train - 1` on,
whatever its lookbacks. -/
theorem scored_bars_eq (n_train : Int) (f : Fold) :
    scored_bars n_train f
      = upTo (f.train_start + n_train - 1) (f.train_start + n_train - 1 + f.n) := by
  unfold scored_bars
  rw [upTo_map_add]
  congr 1 <;> ring

/-- The folds `0 .. j - 1` of the walk-forward, each starting before the end of
the history, test `min (j * n_test) D` cases in all, `D` being the number of
bars after the first training set, and the bars they score follow each other
from bar `c` on. -/
theorem folds_cover (n_test D c : Int) (h1 : 1 ≤ n_test) (hD : 0 ≤ D) (j : Nat) :
    (∀ k : Nat, k < j → (k : Int) * n_test < D) →
      (((List.range j).map
          (fun (k : Nat) => ((k : Int) * n_test, min n_test (D - (k : Int) * n_test)))).map
        Prod.snd).sum = min ((j : Int) * n_test) D ∧
      ((List.range j).map
          (fun (k : Nat) => ((k : Int) * n_test, min n_test (D - (k : Int) * n_test)))).flatMap
        (fun p => upTo (p.1 + c) (p.1 + c + p.2))
        = upTo c (c + min ((j : Int) * n_test) D) := by
  induction j with
  | zero =>
    intro _
    have e : min (((0 : Nat) : Int) * n_test) D = 0 := by
      rw [Nat.cast_zero, zero_mul]
      exact min_eq_left hD
    rw [e, List.range_zero, List.map_nil, List.map_nil, List.sum_nil, List.flatMap_nil,
      upTo_of_le (by omega)]
    exact ⟨rfl, rfl⟩
  | succ j ih =>
    intro hlt
    obtain ⟨ih1, ih2⟩ := ih (fun k hk => hlt k (by omega))
    have hj := hlt j (by omega)
    have ep : ((j + 1 : Nat) : Int) * n_test = (j : Int) * n_test + n_test := by
      push_cast
      ring
    have hp0 : 0 ≤ (j : Int) * n_test := mul_nonneg (by omega) (by omega)
    generalize hp : (j : Int) * n_test = p at ih1 ih2 hj ep hp0
    have em : min p D = p := min_eq_left (by omega)
    have en : min (p + n_test) D = p + min n_test (D - p) := by
      rw [min_def, min_def]
      split_ifs <;> omega
    rw [em] at ih1 ih2
    rw [List.range_succ, List.map_append, List.map_append, List.sum_append, List.flatMap_append,
      ih1, ih2, ep, en]
    constructor
    · simp only [List.map_cons, List.map_nil, List.sum_cons, List.sum_nil, add_zero]
      rw [hp]
    · simp only [List.map_cons, List.map_nil, List.flatMap_cons, List.flatMap_nil,
        List.append_nil]
      rw [hp]
      have hmin : 0 ≤ min n_test (D - p) := le_min (by omega) (by omega)
      have e1 : p + c = c + p := by ring
      have e2 : c + p + min n_test (D - p) = c + (p + min n_test (D - p)) := by ring
      rw [e1, e2]
      exact upTo_append c (c + p) _ (by omega) (by omega)

/-- A pass of the loop of `test_system` called at `prices + off` adds the change
of bar `off + i` of `prices` to the sum, subtracts it, or leaves the sum. -/
theorem test_step_scores (prices : Int → ℚ) (off S L : Int) (sum : ℚ) (i : Int) :
    ∃ c : ℚ, (c = 1 ∨ c = -1 ∨ c = 0) ∧
      test_step (shift prices off) S L sum i
        = sum + c * (prices (off + i + 1) - prices (off + i)) := by
  have e1 : shift prices off (i + 1) = prices (off + i + 1) := by
    show prices (off + (i + 1)) = _
    congr 1
    ring
  have e2 : shift prices off i = prices (off + i) := rfl
  unfold test_step
  simp only
  rw [e1, e2]
  split_ifs
  · exact ⟨1, Or.inl rfl, by ring⟩
  · exact ⟨-1, Or.inr (Or.inl rfl), by ring⟩
  · exact ⟨0, Or.inr (Or.inr rfl), by ring⟩

end BND_RET

/-- C32. Out-of-sample coverage of the walk-forward: for `n_test ≥ 1` and
`n_train + n_test ≤ nprices` the loop ends, the numbers of test cases of its
folds sum to exactly `nprices - n_train`, fold `k` starts at
`train_start = k * n_test`, and the bars whose one-bar change
`prices[t+1] - prices[t]` the tests score, fold after fold, are
`t = n_train - 1, ..., nprices - 2` in that order: each of them is scored once,
none is skipped and no other bar is scored. The out-of-sample score of a fold is
the sum that the passes of `test_system` make over its bars, each pass adding
the change of its bar, subtracting it or leaving it out, divided by the number
of cases. -/
theorem BND_RET.walkforward_coverage (nprices max_lookback n_train n_test : Int)
    (prices returns : Int → ℚ) (junk : Int × Int) (h1 : 1 ≤ n_test)
    (h2 : n_train + n_test ≤ nprices) :
    ∃ s : BND_RET.Walk,
      (∀ fuel : Nat, nprices - n_train ≤ (fuel : Int) →
        BND_RET.walkforward nprices max_lookback n_train n_test prices returns junk fuel
          = some s) ∧
      (s.folds.map BND_RET.Fold.n).sum = nprices - n_train ∧
      s.folds.map BND_RET.Fold.train_start
        = (List.range s.folds.length).map (fun (k : Nat) => (k : Int) * n_test) ∧
      s.folds.flatMap (BND_RET.scored_bars n_train) = upTo (n_train - 1) (nprices - 1) ∧
      (∀ t : Int, n_train - 1 ≤ t → t ≤ nprices - 2 →
        (s.folds.flatMap (BND_RET.scored_bars n_train)).count t = 1) ∧
      (∀ t : Int, t ∈ s.folds.flatMap (BND_RET.scored_bars n_train) →
        n_train - 1 ≤ t ∧ t ≤ nprices - 2) ∧
      (∀ f ∈ s.folds,
        f.OOS
          = (upTo (f.long_lookback - 1) (f.long_lookback - 1 + f.n)).foldl
              (BND_RET.test_step (shift prices (f.train_start + n_train - f.long_lookback))
                f.short_lookback f.long_lookback) 0 / (f.n : ℚ) * 25200 ∧
        ∀ (sum : ℚ) (i : Int), ∃ c : ℚ, (c = 1 ∨ c = -1 ∨ c = 0) ∧
          BND_RET.test_step (shift prices (f.train_start + n_train - f.long_lookback))
              f.short_lookback f.long_lookback sum i
            = sum + c * (prices (f.train_start + n_train - f.long_lookback + i + 1)
                - prices (f.train_start + n_train - f.long_lookback + i))) := by
  obtain ⟨s, hs, ⟨h0, hfolds, hret, hok⟩, hlo, hhi⟩ := BND_RET.walkforward_spec nprices
    max_lookback n_train n_test prices returns junk h1 h2 (nprices - n_train).toNat (by omega)
  have hlen : s.folds.length = s.n_returns.toNat := by
    have := congrArg List.length hfolds
    simpa only [List.length_map, List.length_range] using this
  have hlt : ∀ k : Nat, k < s.n_returns.toNat → (k : Int) * n_test < nprices - n_train := by
    intro k hk
    have hk1 : (k : Int) ≤ s.n_returns - 1 := by omega
    have := mul_le_mul_of_nonneg_right hk1 (show (0 : Int) ≤ n_test by omega)
    omega
  obtain ⟨c1, c2⟩ := BND_RET.folds_cover n_test (nprices - n_train) (n_train - 1) h1
    (by omega) s.n_returns.toNat hlt
  have hK : ((s.n_returns.toNat : Nat) : Int) = s.n_returns := by omega
  have hmin : min (((s.n_returns.toNat : Nat) : Int) * n_test) (nprices - n_train)
      = nprices - n_train := by
    rw [hK]
    exact min_eq_right hhi
  rw [hmin] at c1 c2
  have hbars : s.folds.flatMap (BND_RET.scored_bars n_train)
      = upTo (n_train - 1) (nprices - 1) := by
    have e : s.folds.flatMap (BND_RET.scored_bars n_train)
        = (s.folds.map (fun f => (f.train_start, f.n))).flatMap
            (fun p => upTo (p.1 + (n_train - 1)) (p.1 + (n_train - 1) + p.2)) := by
      rw [List.flatMap_map]
      congr 1
      funext f
      rw [BND_RET.scored_bars_eq]
      congr 1 <;> ring
    rw [e, hfolds, c2]
    congr 1
    ring
  refine ⟨s, ?_, ?_, ?_, hbars, ?_, ?_, ?_⟩
  · intro fuel hfuel
    exact BND_RET.walk_mono nprices max_lookback n_train n_test prices junk _ _ s hs fuel
      (by omega)
  · have e : s.folds.map BND_RET.Fold.n
        = (s.folds.map (fun f => (f.train_start, f.n))).map Prod.snd := by
      rw [List.map_map]
      rfl
    rw [e, hfolds, c1]
  · have e : s.folds.map BND_RET.Fold.train_start
        = (s.folds.map (fun f => (f.train_start, f.n))).map Prod.fst := by
      rw [List.map_map]
      rfl
    rw [e, hfolds, hlen, List.map_map]
    rfl
  · intro t ht1 ht2
    rw [hbars]
    exact List.count_eq_one_of_mem (upTo_nodup _ _) (mem_upTo.mpr ⟨ht1, by omega⟩)
  · intro t ht
    rw [hbars] at ht
    obtain ⟨a, b⟩ := mem_upTo.mp ht
    exact ⟨a, by omega⟩
  · intro f hf
    obtain ⟨_, _, _, _, _, _, _, _, hoos⟩ := hok f hf
    refine ⟨?_, fun sum i => BND_RET.test_step_scores prices _ _ _ sum i⟩
    rw [hoos]
    rfl

set_option maxRecDepth 100000 in
/-- C32, at 30 prices with a training set of 13 and test sets of 5: the four
folds test 5, 5, 5 and 2 cases, 17 in all, and score the bars 12 to 28. -/
theorem BND_RET.walkforward_coverage_witness :
    ((1 : Int) ≤ 5 ∧ (13 : Int) + 5 ≤ 30) ∧
    (∃ s : BND_RET.Walk,
      (∀ fuel : Nat, (30 : Int) - 13 ≤ (fuel : Int) →
        BND_RET.walkforward 30 3 13 5 (fun j => if j = 2 then 5 else (j : ℚ)) (fun _ => 0)
          (0, 0) fuel = some s) ∧
      (s.folds.map BND_RET.Fold.n).sum = 30 - 13 ∧
      s.folds.flatMap (BND_RET.scored_bars 13) = upTo (13 - 1) (30 - 1)) ∧
    (BND_RET.walkforward 30 3 13 5 (fun j => if j = 2 then 5 else (j : ℚ)) (fun _ => 0)
        (0, 0) 17).map (fun s => s.folds.map (fun f => (f.train_start, f.n)))
      = some [(0, 5), (5, 5), (10, 5), (15, 2)] := by
  refine ⟨⟨by decide, by decide⟩, ?_, by decide!⟩
  obtain ⟨s, a, b, _, c, _⟩ := BND_RET.walkforward_coverage 30 3 13 5
    (fun j => if j = 2 then 5 else (j : ℚ)) (fun _ => 0) (0, 0) (by decide) (by decide)
  exact ⟨s, a, b, c⟩

/-! ## What rounding does to the exact identities -/

set_option maxRecDepth 100000 in
/-- C27, in `double` arithmetic the round trip is not exact. With the two
prices `log 0.5 = -0.6931471805599453` and `log 3 = 1.0986122886681098` as
`double`s, `prepare_permute` stores the rounded difference `1.791759469228055`
and the rebuilding loop (no swap occurs with `nc = 2`) stores the rounded sum
`1.0986122886681096` in `data[1]`, which is not the price that was there. -/
theorem MCPT_TRN.prepare_rebuild_round_trip_counterexample :
    (fl (-(6243314768165359 / 9007199254740992)) = -(6243314768165359 / 9007199254740992) ∧
      fl (4947709893870347 / 4503599627370496) = 4947709893870347 / 4503599627370496) ∧
    MCPT_TRN.prepare_permute_fl 2
        (fun j => if j = 0 then -(6243314768165359 / 9007199254740992)
          else 4947709893870347 / 4503599627370496) (fun _ => 0) 0
      = 4034683638976513 / 2251799813685248 ∧
    MCPT_TRN.rebuild_fl 2
        (fun j => if j = 0 then -(6243314768165359 / 9007199254740992)
          else 4947709893870347 / 4503599627370496)
        (MCPT_TRN.prepare_permute_fl 2
          (fun j => if j = 0 then -(6243314768165359 / 9007199254740992)
            else 4947709893870347 / 4503599627370496) (fun _ => 0)) 1
      = 2473854946935173 / 2251799813685248 ∧
    (MCPT_TRN.do_permute_fl MCPT_TRN.unifrand_fl 2
        { data := fun j => if j = 0 then -(6243314768165359 / 9007199254740992)
            else 4947709893870347 / 4503599627370496,
          changes := MCPT_TRN.prepare_permute_fl 2
            (fun j => if j = 0 then -(6243314768165359 / 9007199254740992)
              else 4947709893870347 / 4503599627370496) (fun _ => 0),
          rng := MCPT_TRN.Rng.start }).data 1
      ≠ (fun j : Int => if j = 0 then -(6243314768165359 / 9007199254740992 : ℚ)
          else 4947709893870347 / 4503599627370496) 1 := by
  refine ⟨⟨?_, ?_⟩, ?_, ?_, ?_⟩ <;> decide!

set_option maxRecDepth 100000 in
/-- C4, in `double` arithmetic the differences of the rebuilt series are not
those of the original series. The four prices are the `double`s `log 1`,
`log 2`, `log 6`, `log 1`; `prepare_permute` stores `0.6931471805599453`,
`1.0986122886681096`, `-1.791759469228055`; the first call of `do_permute`, with
the generator as the program starts it, swaps the first two changes and
rebuilds the prices `0`, `1.0986122886681096`, `1.791759469228055`, `0`. The
difference of the second and third rebuilt prices, exact or rounded
(`0.6931471805599454`), is none of the original differences and none of the
stored changes. -/
theorem MCPT_TRN.do_permute_differences_perm_counterexample :
    (upTo 0 3).map (MCPT_TRN.prepare_permute_fl 4
        (fun j => [0, 6243314768165359 / 9007199254740992,
          4034683638976513 / 2251799813685248, 0].getD j.toNat 0) (fun _ => 0))
      = [6243314768165359 / 9007199254740992, 2473854946935173 / 2251799813685248,
          -(4034683638976513 / 2251799813685248)] ∧
    (upTo 0 4).map (MCPT_TRN.do_permute_fl MCPT_TRN.unifrand_fl 4
        { data := fun j => [0, 6243314768165359 / 9007199254740992,
            4034683638976513 / 2251799813685248, 0].getD j.toNat 0,
          changes := MCPT_TRN.prepare_permute_fl 4
            (fun j => [0, 6243314768165359 / 9007199254740992,
              4034683638976513 / 2251799813685248, 0].getD j.toNat 0) (fun _ => 0),
          rng := MCPT_TRN.Rng.start }).data
      = [0, 2473854946935173 / 2251799813685248, 4034683638976513 / 2251799813685248, 0] ∧
    ¬ (MCPT_TRN.differences 4 (MCPT_TRN.do_permute_fl MCPT_TRN.unifrand_fl 4
        { data := fun j => [0, 6243314768165359 / 9007199254740992,
            4034683638976513 / 2251799813685248, 0].getD j.toNat 0,
          changes := MCPT_TRN.prepare_permute_fl 4
            (fun j => [0, 6243314768165359 / 9007199254740992,
              4034683638976513 / 2251799813685248, 0].getD j.toNat 0) (fun _ => 0),
          rng := MCPT_TRN.Rng.start }).data).Perm
      (MCPT_TRN.differences 4 (fun j => [0, 6243314768165359 / 9007199254740992,
        4034683638976513 / 2251799813685248, 0].getD j.toNat 0)) ∧
    ¬ (MCPT_TRN.differences 4 (MCPT_TRN.do_permute_fl MCPT_TRN.unifrand_fl 4
        { data := fun j => [0, 6243314768165359 / 9007199254740992,
            4034683638976513 / 2251799813685248, 0].getD j.toNat 0,
          changes := MCPT_TRN.prepare_permute_fl 4
            (fun j => [0, 6243314768165359 / 9007199254740992,
              4034683638976513 / 2251799813685248, 0].getD j.toNat 0) (fun _ => 0),
          rng := MCPT_TRN.Rng.start }).data).Perm
      ((upTo 0 3).map (MCPT_TRN.prepare_permute_fl 4
        (fun j => [0, 6243314768165359 / 9007199254740992,
          4034683638976513 / 2251799813685248, 0].getD j.toNat 0) (fun _ => 0))) ∧
    ¬ ((upTo 0 3).map (MCPT_TRN.prepare_permute_fl 4
        (MCPT_TRN.do_permute_fl MCPT_TRN.unifrand_fl 4
          { data := fun j => [0, 6243314768165359 / 9007199254740992,
              4034683638976513 / 2251799813685248, 0].getD j.toNat 0,
            changes := MCPT_TRN.prepare_permute_fl 4
              (fun j => [0, 6243314768165359 / 9007199254740992,
                4034683638976513 / 2251799813685248, 0].getD j.toNat 0) (fun _ => 0),
            rng := MCPT_TRN.Rng.start }).data (fun _ => 0))).Perm
      ((upTo 0 3).map (MCPT_TRN.prepare_permute_fl 4
        (fun j => [0, 6243314768165359 / 9007199254740992,
          4034683638976513 / 2251799813685248, 0].getD j.toNat 0) (fun _ => 0))) := by
  refine ⟨?_, ?_, ?_, ?_, ?_⟩ <;> decide!

set_option maxRecDepth 100000 in
/-- C36, in `double` arithmetic `find_slope` does not return `b` on every
linear window. With `lookback = 6` and the window `x_t = 4.5 + t * 3 * 2^-50`
(`t = 0 .. 5`), whose six values are `double`s, the routine returns
`2.6391587328232294e-15`, not `b = 3 * 2^-50 = 2.6645352591003757e-15`. -/
theorem ENTROPY.find_slope_least_squares_counterexample :
    (∀ t ∈ upTo 0 6,
      fl ((fun j : Int => 9 / 2 + 3 / 1125899906842624 * ((j : ℚ) + 5)) (t - 6 + 1))
        = 9 / 2 + 3 / 1125899906842624 * (t : ℚ)) ∧
    ENTROPY.find_slope_fl 6 (fun j => 9 / 2 + 3 / 1125899906842624 * ((j : ℚ) + 5))
      = 836382787940235 / 316912650057057350374175801344 ∧
    ENTROPY.find_slope_fl 6 (fun j => 9 / 2 + 3 / 1125899906842624 * ((j : ℚ) + 5))
      ≠ 3 / 1125899906842624 := by
  refine ⟨?_, ?_, ?_⟩ <;> decide!

set_option maxRecDepth 100000 in
/-- C33, in `double` arithmetic a replication changes the last price and the
trend per bar. The 14 prices are the `double`s `log 2`, `log 4`, `log 6`,
`log 5`, `log 4`, `log 4`, `log 5`, `log 5`, `log 7`, `log 9`, `log 8`, `log 9`,
`log 10`, `log 11`, with `max_lookback = 3`, and the generator is as the
program starts it. After the first `do_permute` the prices `0 .. 2` are as they
were, the last price is `2.3978952727983702` where `log 11` is
`2.3978952727983707`, and `trend_per_return` evaluated on the permuted series
is `0.05510325487002866` where `main` computed `0.0551032548700287`. -/
theorem MCPT_TRN.permutation_frame_counterexample :
    (upTo 0 3).map (shift (MCPT_TRN.do_permute_fl MCPT_TRN.unifrand_fl (14 - 3 + 1)
        { data := shift (fun j => [6243314768165359 / 9007199254740992,
              6243314768165359 / 4503599627370496, 4034683638976513 / 2251799813685248,
              7248263982714163 / 4503599627370496, 6243314768165359 / 4503599627370496,
              6243314768165359 / 4503599627370496, 7248263982714163 / 4503599627370496,
              7248263982714163 / 4503599627370496, 8763600222181975 / 4503599627370496,
              4947709893870347 / 2251799813685248, 4682486076124019 / 2251799813685248,
              4947709893870347 / 2251799813685248, 2592480341699211 / 1125899906842624,
              1349895032131027 / 562949953421312].getD j.toNat 0) (3 - 1),
          changes := MCPT_TRN.prepare_permute_fl (14 - 3 + 1)
            (shift (fun j => [6243314768165359 / 9007199254740992,
              6243314768165359 / 4503599627370496, 4034683638976513 / 2251799813685248,
              7248263982714163 / 4503599627370496, 6243314768165359 / 4503599627370496,
              6243314768165359 / 4503599627370496, 7248263982714163 / 4503599627370496,
              7248263982714163 / 4503599627370496, 8763600222181975 / 4503599627370496,
              4947709893870347 / 2251799813685248, 4682486076124019 / 2251799813685248,
              4947709893870347 / 2251799813685248, 2592480341699211 / 1125899906842624,
              1349895032131027 / 562949953421312].getD j.toNat 0) (3 - 1)) (fun _ => 0),
          rng := MCPT_TRN.Rng.start }).data (-(3 - 1)))
      = [6243314768165359 / 9007199254740992, 6243314768165359 / 4503599627370496,
          4034683638976513 / 2251799813685248] ∧
    shift (MCPT_TRN.do_permute_fl MCPT_TRN.unifrand_fl (14 - 3 + 1)
        { data := shift (fun j => [6243314768165359 / 9007199254740992,
              6243314768165359 / 4503599627370496, 4034683638976513 / 2251799813685248,
              7248263982714163 / 4503599627370496, 6243314768165359 / 4503599627370496,
              6243314768165359 / 4503599627370496, 7248263982714163 / 4503599627370496,
              7248263982714163 / 4503599627370496, 8763600222181975 / 4503599627370496,
              4947709893870347 / 2251799813685248, 4682486076124019 / 2251799813685248,
              4947709893870347 / 2251799813685248, 2592480341699211 / 1125899906842624,
              1349895032131027 / 562949953421312].getD j.toNat 0) (3 - 1),
          changes := MCPT_TRN.prepare_permute_fl (14 - 3 + 1)
            (shift (fun j => [6243314768165359 / 9007199254740992,
              6243314768165359 / 4503599627370496, 4034683638976513 / 2251799813685248,
              7248263982714163 / 4503599627370496, 6243314768165359 / 4503599627370496,
              6243314768165359 / 4503599627370496, 7248263982714163 / 4503599627370496,
              7248263982714163 / 4503599627370496, 8763600222181975 / 4503599627370496,
              4947709893870347 / 2251799813685248, 4682486076124019 / 2251799813685248,
              4947709893870347 / 2251799813685248, 2592480341699211 / 1125899906842624,
              1349895032131027 / 562949953421312].getD j.toNat 0) (3 - 1)) (fun _ => 0),
          rng := MCPT_TRN.Rng.start }).data (-(3 - 1)) (14 - 1)
      = 5399580128524107 / 2251799813685248 ∧
    (5399580128524107 / 2251799813685248 : ℚ) ≠ 1349895032131027 / 562949953421312 ∧
    MCPT_TRN.trend_per_return_fl 14 3
        (shift (MCPT_TRN.do_permute_fl MCPT_TRN.unifrand_fl (14 - 3 + 1)
          { data := shift (fun j => [6243314768165359 / 9007199254740992,
                6243314768165359 / 4503599627370496, 4034683638976513 / 2251799813685248,
                7248263982714163 / 4503599627370496, 6243314768165359 / 4503599627370496,
                6243314768165359 / 4503599627370496, 7248263982714163 / 4503599627370496,
                7248263982714163 / 4503599627370496, 8763600222181975 / 4503599627370496,
                4947709893870347 / 2251799813685248, 4682486076124019 / 2251799813685248,
                4947709893870347 / 2251799813685248, 2592480341699211 / 1125899906842624,
                1349895032131027 / 562949953421312].getD j.toNat 0) (3 - 1),
            changes := MCPT_TRN.prepare_permute_fl (14 - 3 + 1)
              (shift (fun j => [6243314768165359 / 9007199254740992,
                6243314768165359 / 4503599627370496, 4034683638976513 / 2251799813685248,
                7248263982714163 / 4503599627370496, 6243314768165359 / 4503599627370496,
                6243314768165359 / 4503599627370496, 7248263982714163 / 4503599627370496,
                7248263982714163 / 4503599627370496, 8763600222181975 / 4503599627370496,
                4947709893870347 / 2251799813685248, 4682486076124019 / 2251799813685248,
                4947709893870347 / 2251799813685248, 2592480341699211 / 1125899906842624,
                1349895032131027 / 562949953421312].getD j.toNat 0) (3 - 1)) (fun _ => 0),
            rng := MCPT_TRN.Rng.start }).data (-(3 - 1)))
      = 7941215939186001 / 144115188075855872 ∧
    MCPT_TRN.trend_per_return_fl 14 3
        (fun j => [6243314768165359 / 9007199254740992,
          6243314768165359 / 4503599627370496, 4034683638976513 / 2251799813685248,
          7248263982714163 / 4503599627370496, 6243314768165359 / 4503599627370496,
          6243314768165359 / 4503599627370496, 7248263982714163 / 4503599627370496,
          7248263982714163 / 4503599627370496, 8763600222181975 / 4503599627370496,
          4947709893870347 / 2251799813685248, 4682486076124019 / 2251799813685248,
          4947709893870347 / 2251799813685248, 2592480341699211 / 1125899906842624,
          1349895032131027 / 562949953421312].getD j.toNat 0)
      = 7941215939186007 / 144115188075855872 := by
  refine ⟨?_, ?_, ?_, ?_, ?_⟩ <;> decide!

set_option maxRecDepth 100000 in
/-- C6, in `double` arithmetic the three reported terms do not add up to the
original score. On the 14 prices `log 2`, `log 4`, `log 6`, `log 5`, `log 4`,
`log 4`, `log 5`, `log 5`, `log 7`, `log 9`, `log 8`, `log 9`, `log 10`,
`log 11` (as `double`s) with `max_lookback = 3` and `nreps = 2`, the generator
as the program starts it, `main` reports the original score
`0.8168568348859675`, the trend component `0.2755162743501435`, the mean
training bias `-0.3263886047239003` and the skill `0.8677291652597244`: their
sum exceeds the original score by `2^-53`, and added as `double`s in any order
it is `0.8168568348859676`. -/
theorem MCPT_TRN.mcpt_bias_decomposition_counterexample :
    (fun r : MCPT_TRN.Report => (r.original, r.trend_component, r.training_bias, r.skill))
        (MCPT_TRN.mcpt_fl MCPT_TRN.unifrand_fl 14 3 2
          { prices := fun j => [6243314768165359 / 9007199254740992,
              6243314768165359 / 4503599627370496, 4034683638976513 / 2251799813685248,
              7248263982714163 / 4503599627370496, 6243314768165359 / 4503599627370496,
              6243314768165359 / 4503599627370496, 7248263982714163 / 4503599627370496,
              7248263982714163 / 4503599627370496, 8763600222181975 / 4503599627370496,
              4947709893870347 / 2251799813685248, 4682486076124019 / 2251799813685248,
              4947709893870347 / 2251799813685248, 2592480341699211 / 1125899906842624,
              1349895032131027 / 562949953421312].getD j.toNat 0,
            changes := fun _ => 0, rng := MCPT_TRN.Rng.start, out := ⟨0, 0, 0, 0⟩,
            original := 0, original_trend_component := 0, original_nshort := 0,
            original_nlong := 0, count := 0, mean_training_bias := 0, printed := [] })
      = (1839398068603743 / 2251799813685248, 2481629980995627 / 9007199254740992,
          -(2939847197225067 / 9007199254740992), 7815809490644413 / 9007199254740992) ∧
    (2481629980995627 / 9007199254740992 + -(2939847197225067 / 9007199254740992)
        + 7815809490644413 / 9007199254740992 : ℚ)
      = 1839398068603743 / 2251799813685248 + 1 / 9007199254740992 ∧
    fl (fl (2481629980995627 / 9007199254740992 + -(2939847197225067 / 9007199254740992))
        + 7815809490644413 / 9007199254740992)
      ≠ 1839398068603743 / 2251799813685248 ∧
    fl (2481629980995627 / 9007199254740992
        + fl (-(2939847197225067 / 9007199254740992) + 7815809490644413 / 9007199254740992))
      ≠ 1839398068603743 / 2251799813685248 ∧
    fl (fl (2481629980995627 / 9007199254740992 + 7815809490644413 / 9007199254740992)
        + -(2939847197225067 / 9007199254740992))
      ≠ 1839398068603743 / 2251799813685248 := by
  refine ⟨?_, ?_, ?_, ?_, ?_⟩ <;> decide!

/-! ## The bias decomposition, replication by replication -/

namespace MCPT_TRN

/-- The counts and the score after replication 0. -/
theorem BiasInv.bias_first {σ : Type} (unifrand : σ → ℚ × σ) (nprices max_lookback : Int)
    (s0 : Mcpt σ) (tpr : ℚ) (s1 : Mcpt σ) (hp : s1.prices = s0.prices)
    (ho : s1.out = s0.out) (hl : s1.printed = []) :
    BiasInv unifrand nprices max_lookback s0 tpr 0
      (mcpt_step unifrand nprices max_lookback tpr s1 0) := by
  have hr : rep_outs unifrand nprices max_lookback s0 0
      = (opt_params nprices max_lookback s1.prices s1.out).2 := by
    show (opt_params nprices max_lookback
      (rep_prices unifrand nprices max_lookback s0 0) s0.out).2 = _
    rw [rep_prices_zero, hp, ho]
  have hs : score unifrand nprices max_lookback s0 0
      = (opt_params nprices max_lookback s1.prices s1.out).1 := by
    show (opt_params nprices max_lookback
      (rep_prices unifrand nprices max_lookback s0 0) s0.out).1 = _
    rw [rep_prices_zero, hp, ho]
  unfold mcpt_step
  simp only [ne_eq, not_true_eq_false, if_false, if_true, hl, List.nil_append]
  refine ⟨hr.symm, ?_, hs.symm, ?_, ?_⟩
  · have : List.range (0 + 1) = [0] := rfl
    rw [this]
    simp only [List.map_cons, List.map_nil, hr, hs]
    rfl
  · rw [hr]
  · simp

/-- The counts and the score after one more replication. -/
theorem BiasInv.bias_next {σ : Type} (unifrand : σ → ℚ × σ) (nprices max_lookback : Int)
    (s0 : Mcpt σ) (tpr : ℚ) (b : Nat) (s : Mcpt σ)
    (h : McptInv unifrand nprices max_lookback s0 tpr b s)
    (hb : BiasInv unifrand nprices max_lookback s0 tpr b s) :
    BiasInv unifrand nprices max_lookback s0 tpr (b + 1)
      (mcpt_step unifrand nprices max_lookback tpr s ((b : Int) + 1)) := by
  obtain ⟨hp, hc, hr, _⟩ := h
  obtain ⟨bo, bl, borig, botc, bm⟩ := hb
  have hne : ((b : Int) + 1) ≠ 0 := by omega
  have hq : do_permute unifrand (nprices - max_lookback + 1)
      { data := shift s.prices (max_lookback - 1), changes := s.changes, rng := s.rng }
      = replication unifrand nprices max_lookback s0 (b + 1) := by
    have : ({ data := shift s.prices (max_lookback - 1), changes := s.changes, rng := s.rng }
        : Permuting σ) = replication unifrand nprices max_lookback s0 b := by
      rw [hp, hc, hr, rep_prices, shift_neg_shift]
    rw [this]
    unfold replication
    rw [Function.iterate_succ_apply']
  have hro : rep_outs unifrand nprices max_lookback s0 (b + 1)
      = (opt_params nprices max_lookback
          (shift (replication unifrand nprices max_lookback s0 (b + 1)).data
            (-(max_lookback - 1))) s.out).2 := by
    rw [bo]
    rfl
  have hsc : score unifrand nprices max_lookback s0 (b + 1)
      = (opt_params nprices max_lookback
          (shift (replication unifrand nprices max_lookback s0 (b + 1)).data
            (-(max_lookback - 1))) s.out).1 :=
    opt_params_fst_indep _ _ _ _ _
  unfold mcpt_step
  simp only [ne_eq, hne, not_false_eq_true, if_true, if_false, hq]
  refine ⟨hro.symm, ?_, borig, botc, ?_⟩
  · rw [List.map_append, bl, List.range_succ (n := b + 1), List.map_append]
    congr 1
    simp only [List.map_cons, List.map_nil, hro, hsc]
    push_cast
    rfl
  · rw [List.range_succ, List.map_append, List.sum_append, bm]
    simp only [List.map_cons, List.map_nil, List.sum_cons, List.sum_nil, add_zero, hro, hsc]

/-- The counts and the scores after the replications `0 .. b`. -/
theorem BiasInv.bias_upto {σ : Type} (unifrand : σ → ℚ × σ) (nprices max_lookback : Int)
    (s0 : Mcpt σ) (tpr : ℚ) (s1 : Mcpt σ) (hp : s1.prices = s0.prices)
    (hc : s1.changes = prepare_permute (nprices - max_lookback + 1)
      (shift s0.prices (max_lookback - 1)) s0.changes)
    (hr : s1.rng = s0.rng) (ho : s1.out = s0.out) (hl : s1.printed = []) (b : Nat) :
    BiasInv unifrand nprices max_lookback s0 tpr b
      (mcpt_upto unifrand nprices max_lookback tpr s1 ((b : Int) + 1)) := by
  induction b with
  | zero =>
    have : mcpt_upto unifrand nprices max_lookback tpr s1 0 = s1 := by
      unfold mcpt_upto
      rw [upTo_of_le (le_refl _)]
      rfl
    rw [Nat.cast_zero, mcpt_upto_succ _ _ _ _ _ (le_refl _), this]
    exact BiasInv.bias_first unifrand nprices max_lookback s0 tpr s1 hp ho hl
  | succ n ih =>
    rw [mcpt_upto_succ _ _ _ _ _ (by omega)]
    push_cast
    exact BiasInv.bias_next unifrand nprices max_lookback s0 tpr n _
      (McptInv.upto unifrand nprices max_lookback s0 tpr s1 hp hc hr hl n) ih

end MCPT_TRN

/-- C6, in exact arithmetic. Bias decomposition of `main`, for `nreps ≥ 2`, with
`t` the trend per bar
`(prices[nprices-1] - prices[max_lookback-1]) / (nprices - max_lookback)`: the
line printed for replication `r` shows the score of `opt_params` on the prices
of replication `r` and the counts `nshort`, `nlong` that this call returned;
the mean training bias is the arithmetic mean over the replications
`r = 1 .. nreps-1` of `score_r - (nlong_r - nshort_r) * t`, the unbiased return
is the original score less that mean, the skill is the unbiased return less
`(nlong_0 - nshort_0) * t`, the trend component of replication 0; hence, the
operations being exact, the original score is the sum of its trend component,
the mean training bias and the skill. -/
theorem MCPT_TRN.mcpt_bias_decomposition {σ : Type} (unifrand : σ → ℚ × σ)
    (nprices max_lookback nreps : Int) (s0 : MCPT_TRN.Mcpt σ) (h : 2 ≤ nreps) :
    (MCPT_TRN.mcpt unifrand nprices max_lookback nreps s0).printed.map
        (fun l => (l.irep, l.opt_return, l.nshort, l.nlong))
      = (List.range nreps.toNat).map
          (fun (r : Nat) => ((r : Int), MCPT_TRN.score unifrand nprices max_lookback s0 r,
            (MCPT_TRN.rep_outs unifrand nprices max_lookback s0 r).nshort,
            (MCPT_TRN.rep_outs unifrand nprices max_lookback s0 r).nlong)) ∧
    (MCPT_TRN.rep_outs unifrand nprices max_lookback s0 0
        = (MCPT_TRN.opt_params nprices max_lookback s0.prices s0.out).2 ∧
      (∀ r : Nat, MCPT_TRN.rep_outs unifrand nprices max_lookback s0 (r + 1)
        = (MCPT_TRN.opt_params nprices max_lookback
            (MCPT_TRN.rep_prices unifrand nprices max_lookback s0 (r + 1))
            (MCPT_TRN.rep_outs unifrand nprices max_lookback s0 r)).2) ∧
      (∀ (r : Nat) (o : MCPT_TRN.Outs), MCPT_TRN.score unifrand nprices max_lookback s0 r
        = (MCPT_TRN.opt_params nprices max_lookback
            (MCPT_TRN.rep_prices unifrand nprices max_lookback s0 r) o).1)) ∧
    (MCPT_TRN.mcpt unifrand nprices max_lookback nreps s0).original
      = MCPT_TRN.score unifrand nprices max_lookback s0 0 ∧
    (MCPT_TRN.mcpt unifrand nprices max_lookback nreps s0).trend_component
      = (((MCPT_TRN.rep_outs unifrand nprices max_lookback s0 0).nlong
          - (MCPT_TRN.rep_outs unifrand nprices max_lookback s0 0).nshort : Int) : ℚ)
        * ((s0.prices (nprices - 1) - s0.prices (max_lookback - 1))
            / ((nprices - max_lookback : Int) : ℚ)) ∧
    (MCPT_TRN.mcpt unifrand nprices max_lookback nreps s0).training_bias
      = ((List.range (nreps - 1).toNat).map
          (fun (k : Nat) => MCPT_TRN.score unifrand nprices max_lookback s0 (k + 1)
            - (((MCPT_TRN.rep_outs unifrand nprices max_lookback s0 (k + 1)).nlong
                - (MCPT_TRN.rep_outs unifrand nprices max_lookback s0 (k + 1)).nshort : Int)
                : ℚ)
              * ((s0.prices (nprices - 1) - s0.prices (max_lookback - 1))
                  / ((nprices - max_lookback : Int) : ℚ)))).sum
        / ((nreps - 1 : Int) : ℚ) ∧
    (MCPT_TRN.mcpt unifrand nprices max_lookback nreps s0).unbiased_return
      = (MCPT_TRN.mcpt unifrand nprices max_lookback nreps s0).original
        - (MCPT_TRN.mcpt unifrand nprices max_lookback nreps s0).training_bias ∧
    (MCPT_TRN.mcpt unifrand nprices max_lookback nreps s0).skill
      = (MCPT_TRN.mcpt unifrand nprices max_lookback nreps s0).unbiased_return
        - (((MCPT_TRN.rep_outs unifrand nprices max_lookback s0 0).nlong
            - (MCPT_TRN.rep_outs unifrand nprices max_lookback s0 0).nshort : Int) : ℚ)
          * ((s0.prices (nprices - 1) - s0.prices (max_lookback - 1))
              / ((nprices - max_lookback : Int) : ℚ)) ∧
    (MCPT_TRN.mcpt unifrand nprices max_lookback nreps s0).original
      = (MCPT_TRN.mcpt unifrand nprices max_lookback nreps s0).trend_component
        + (MCPT_TRN.mcpt unifrand nprices max_lookback nreps s0).training_bias
        + (MCPT_TRN.mcpt unifrand nprices max_lookback nreps s0).skill := by
  have hinv := MCPT_TRN.BiasInv.bias_upto unifrand nprices max_lookback s0
    (MCPT_TRN.trend_per_return nprices max_lookback s0.prices)
    { s0 with
      changes := MCPT_TRN.prepare_permute (nprices - max_lookback + 1)
        (shift s0.prices (max_lookback - 1)) s0.changes,
      printed := [] } rfl rfl rfl rfl rfl (nreps - 1).toNat
  have e : (((nreps - 1).toNat : Nat) : Int) + 1 = nreps := by omega
  rw [e] at hinv
  obtain ⟨_, bl, borig, botc, bm⟩ := hinv
  have e2 : (nreps - 1).toNat + 1 = nreps.toNat := by omega
  rw [e2] at bl
  have hr0 : MCPT_TRN.rep_outs unifrand nprices max_lookback s0 0
      = (MCPT_TRN.opt_params nprices max_lookback s0.prices s0.out).2 := by
    show (MCPT_TRN.opt_params nprices max_lookback
      (MCPT_TRN.rep_prices unifrand nprices max_lookback s0 0) s0.out).2 = _
    rw [MCPT_TRN.rep_prices_zero]
  refine ⟨bl, ⟨hr0, fun r => rfl, fun r o => MCPT_TRN.opt_params_fst_indep _ _ _ _ _⟩, borig,
    botc, ?_, rfl, ?_, ?_⟩
  · show _ / _ = _
    rw [bm]
    rfl
  · show _ - _ = _ - _
    rw [botc]
    rfl
  · have hu : (MCPT_TRN.mcpt unifrand nprices max_lookback nreps s0).unbiased_return
        = (MCPT_TRN.mcpt unifrand nprices max_lookback nreps s0).original
          - (MCPT_TRN.mcpt unifrand nprices max_lookback nreps s0).training_bias := rfl
    have hs : (MCPT_TRN.mcpt unifrand nprices max_lookback nreps s0).skill
        = (MCPT_TRN.mcpt unifrand nprices max_lookback nreps s0).unbiased_return
          - (MCPT_TRN.mcpt unifrand nprices max_lookback nreps s0).trend_component := rfl
    rw [hs, hu]
    ring

set_option maxRecDepth 100000 in
/-- C6, at three replications of the 14 prices `0, 1, 5, 3, 4, 2, 6, 4, 7, 5, 8,
9, 7, 10` with `max_lookback = 3`: the scores are `6`, `9`, `-5` with the
counts `(3, 5)`, `(3, 5)`, `(5, 6)` of short and long bars; the original score
`6` is the sum of the trend component `10/11`, the mean training bias `29/22`
and the skill `83/22`. -/
theorem MCPT_TRN.mcpt_bias_decomposition_witness :
    (2 : Int) ≤ 3 ∧
    (MCPT_TRN.mcpt MCPT_TRN.replay 14 3 3
      { prices := fun j => [0, 1, 5, 3, 4, 2, 6, 4, 7, 5, 8, 9, 7, 10].getD j.toNat 0,
        changes := fun _ => 0,
        rng := [1 / 2, 9 / 10, 1, 1 / 3, 0, 2 / 3, 1 / 4, 3 / 4, 1 / 5, 1 / 2, 1 / 3, 0, 2 / 3,
          1 / 2, 9 / 10, 1 / 4, 1 / 5, 1, 3 / 4, 1 / 2],
        out := ⟨0, 0, 0, 0⟩, original := 0, original_trend_component := 0,
        original_nshort := 0, original_nlong := 0, count := 0, mean_training_bias := 0,
        printed := [] }).original
      = (MCPT_TRN.mcpt MCPT_TRN.replay 14 3 3
      { prices := fun j => [0, 1, 5, 3, 4, 2, 6, 4, 7, 5, 8, 9, 7, 10].getD j.toNat 0,
        changes := fun _ => 0,
        rng := [1 / 2, 9 / 10, 1, 1 / 3, 0, 2 / 3, 1 / 4, 3 / 4, 1 / 5, 1 / 2, 1 / 3, 0, 2 / 3,
          1 / 2, 9 / 10, 1 / 4, 1 / 5, 1, 3 / 4, 1 / 2],
        out := ⟨0, 0, 0, 0⟩, original := 0, original_trend_component := 0,
        original_nshort := 0, original_nlong := 0, count := 0, mean_training_bias := 0,
        printed := [] }).trend_component
        + (MCPT_TRN.mcpt MCPT_TRN.replay 14 3 3
      { prices := fun j => [0, 1, 5, 3, 4, 2, 6, 4, 7, 5, 8, 9, 7, 10].getD j.toNat 0,
        changes := fun _ => 0,
        rng := [1 / 2, 9 / 10, 1, 1 / 3, 0, 2 / 3, 1 / 4, 3 / 4, 1 / 5, 1 / 2, 1 / 3, 0, 2 / 3,
          1 / 2, 9 / 10, 1 / 4, 1 / 5, 1, 3 / 4, 1 / 2],
        out := ⟨0, 0, 0, 0⟩, original := 0, original_trend_component := 0,
        original_nshort := 0, original_nlong := 0, count := 0, mean_training_bias := 0,
        printed := [] }).training_bias
        + (MCPT_TRN.mcpt MCPT_TRN.replay 14 3 3
      { prices := fun j => [0, 1, 5, 3, 4, 2, 6, 4, 7, 5, 8, 9, 7, 10].getD j.toNat 0,
        changes := fun _ => 0,
        rng := [1 / 2, 9 / 10, 1, 1 / 3, 0, 2 / 3, 1 / 4, 3 / 4, 1 / 5, 1 / 2, 1 / 3, 0, 2 / 3,
          1 / 2, 9 / 10, 1 / 4, 1 / 5, 1, 3 / 4, 1 / 2],
        out := ⟨0, 0, 0, 0⟩, original := 0, original_trend_component := 0,
        original_nshort := 0, original_nlong := 0, count := 0, mean_training_bias := 0,
        printed := [] }).skill ∧
    (MCPT_TRN.mcpt MCPT_TRN.replay 14 3 3
      { prices := fun j => [0, 1, 5, 3, 4, 2, 6, 4, 7, 5, 8, 9, 7, 10].getD j.toNat 0,
        changes := fun _ => 0,
        rng := [1 / 2, 9 / 10, 1, 1 / 3, 0, 2 / 3, 1 / 4, 3 / 4, 1 / 5, 1 / 2, 1 / 3, 0, 2 / 3,
          1 / 2, 9 / 10, 1 / 4, 1 / 5, 1, 3 / 4, 1 / 2],
        out := ⟨0, 0, 0, 0⟩, original := 0, original_trend_component := 0,
        original_nshort := 0, original_nlong := 0, count := 0, mean_training_bias := 0,
        printed := [] }).printed.map
        (fun l => (l.irep, l.opt_return, l.nshort, l.nlong))
      = [(0, 6, 3, 5), (1, 9, 3, 5), (2, -5, 5, 6)] ∧
    (fun r : MCPT_TRN.Report => (r.original, r.trend_component, r.training_bias, r.skill))
      (MCPT_TRN.mcpt MCPT_TRN.replay 14 3 3
      { prices := fun j => [0, 1, 5, 3, 4, 2, 6, 4, 7, 5, 8, 9, 7, 10].getD j.toNat 0,
        changes := fun _ => 0,
        rng := [1 / 2, 9 / 10, 1, 1 / 3, 0, 2 / 3, 1 / 4, 3 / 4, 1 / 5, 1 / 2, 1 / 3, 0, 2 / 3,
          1 / 2, 9 / 10, 1 / 4, 1 / 5, 1, 3 / 4, 1 / 2],
        out := ⟨0, 0, 0, 0⟩, original := 0, original_trend_component := 0,
        original_nshort := 0, original_nlong := 0, count := 0, mean_training_bias := 0,
        printed := [] })
      = (6, 10 / 11, 29 / 22, 83 / 22) :=
  ⟨by decide,
    (MCPT_TRN.mcpt_bias_decomposition MCPT_TRN.replay 14 3 3
      { prices := fun j => [0, 1, 5, 3, 4, 2, 6, 4, 7, 5, 8, 9, 7, 10].getD j.toNat 0,
        changes := fun _ => 0,
        rng := [1 / 2, 9 / 10, 1, 1 / 3, 0, 2 / 3, 1 / 4, 3 / 4, 1 / 5, 1 / 2, 1 / 3, 0, 2 / 3,
          1 / 2, 9 / 10, 1 / 4, 1 / 5, 1, 3 / 4, 1 / 2],
        out := ⟨0, 0, 0, 0⟩, original := 0, original_trend_component := 0,
        original_nshort := 0, original_nlong := 0, count := 0, mean_training_bias := 0,
        printed := [] } (by decide)).2.2.2.2.2.2.2,
    by decide!, by decide!⟩
